import Mathlib

/-!
# Verification development for the BYOW dungeon generator (`byow.c`, `byow.h`)

Shallow embedding of the C sources.

Modelling conventions.
* C `int`/`long` values are mathematical integers (`Int`).  `lcgNext` wraps on
  purpose: its `& 0x7fffffff` keeps the low 31 bits; on a two's-complement machine of
  any word size this is the residue modulo `2^31` of the exact product, which is what
  the model computes.  `roomDistance` squares differences of coordinates, which leaves
  the 32 bits of an `int` already for rooms 46341 cells apart: its arithmetic is
  modelled with the wrap-around (`wrapInt`), and a negative argument of `sqrt` gives
  `INT_MIN`, the result of converting NaN to `int`.
* A C array is a total map from its index to its element (`Int → α`); an element
  store `a[i] = v` is `Function.update a i v`.  Slots outside the declared bounds are
  never read by the code under the hypotheses of the theorems below.
* A `malloc`ed block has indeterminate contents: `createWorld` takes the prior
  contents of the block as the argument `mem`.  Allocation is assumed to succeed.
* The file-level variable `currentSeed` is threaded explicitly: a function that
  reads or writes it takes it as an argument and returns its new value.
* A singly linked list (`RoomConnection`, `QueueNode`) is a `List Int`.
* Recursion or iteration whose termination depends on the data (`findSet`, the
  breadth-first search) carries a fuel argument and returns `none` when the fuel is
  exhausted; theorems about results state that the result is `some _`.
* A character buffer of the JSON encoders is the list of the characters it holds before
  its terminator.  `vsnprintf` is modelled on the expanded text of its format: `%d` and
  `%ld` print the decimal digits of the value (`fmtInt`), the call writes the text up
  to the room left and returns the length of the whole text.
-/

namespace Byow

/-! ## Constants (`byow.h`) -/

def MAX_WORLD_WIDTH : Int := 100

def MAX_WORLD_HEIGHT : Int := 100

def MAX_ROOMS : Int := 50

def MAX_CORRIDORS : Int := 100

def TILE_FLOOR : Int := 0

def TILE_WALL : Int := 1

def TILE_ROOM : Int := 2

def TILE_CORRIDOR : Int := 3

/-! ## Data structures (`byow.h`) -/

structure Point where
  x : Int
  y : Int
deriving DecidableEq

structure Room where
  id : Int
  x : Int
  y : Int
  width : Int
  height : Int
  exists_ : Bool
deriving DecidableEq

structure Corridor where
  id : Int
  start : Point
  end_ : Point
  isTurning : Bool
deriving DecidableEq

structure DisjointSet where
  parent : Int → Int
  rank : Int → Int
  count : Int

structure World where
  tiles : Int → Int → Int
  rooms : Int → Room
  corridors : Int → Corridor
  roomCount : Int
  corridorCount : Int
  connections : Int → List Int
  disjointSet : DisjointSet
  width : Int
  height : Int
  seed : Int
  initialized : Bool

/-- The integers `lo, lo+1, …, hi-1`: the index values of `for (i = lo; i < hi; i++)`. -/
def intRange (lo hi : Int) : List Int :=
  (List.range (hi - lo).toNat).map (fun (k : Nat) => lo + (k : Int))

/-! ## Random numbers -/

/-- Linear congruential step; the result is both the new `currentSeed` and the value
returned. -/
def lcgNext (currentSeed : Int) : Int :=
  (currentSeed * 1103515245 + 12345) % 2147483648

def setSeed (seed : Int) : Int := seed

/-- Returns the drawn value and the new `currentSeed`. -/
def getRandom (currentSeed : Int) (min max : Int) : Int × Int :=
  if min ≥ max then (min, currentSeed)
  else
    let r := lcgNext currentSeed
    (min + Int.tmod r (max - min + 1), r)

/-! ## Disjoint set -/

def initDisjointSet (ds : DisjointSet) (count : Int) : DisjointSet :=
  let count := if count < 0 then 0 else count
  let count := if count > MAX_ROOMS then MAX_ROOMS else count
  let ds := (intRange 0 MAX_ROOMS).foldl
    (fun d i => { d with parent := Function.update d.parent i i,
                         rank := Function.update d.rank i 0 }) ds
  { ds with count := count }

/-- Recursive `findSet` with path compression.  `none`: the recursion is deeper than
the fuel. -/
def findSetFuel : Nat → DisjointSet → Int → Option (DisjointSet × Int)
  | 0, _, _ => none
  | n + 1, ds, x =>
    if x < 0 ∨ x ≥ MAX_ROOMS then some (ds, -1)
    else if ds.parent x ≠ x then
      match findSetFuel n ds (ds.parent x) with
      | none => none
      | some (ds1, r) =>
        let ds2 := { ds1 with parent := Function.update ds1.parent x r }
        some (ds2, ds2.parent x)
    else some (ds, ds.parent x)

/-- A parent chain that stays inside the `MAX_ROOMS` slots and is longer than
`MAX_ROOMS` repeats a slot, so it never ends: `MAX_ROOMS + 1` nested calls are enough
exactly when the C recursion returns. -/
def findSet (ds : DisjointSet) (x : Int) : Option (DisjointSet × Int) :=
  findSetFuel (MAX_ROOMS + 1).toNat ds x

def unionSets (ds : DisjointSet) (x y : Int) : Option DisjointSet :=
  match findSet ds x with
  | none => none
  | some (ds1, rootX) =>
    match findSet ds1 y with
    | none => none
    | some (ds2, rootY) =>
      if rootX < 0 ∨ rootY < 0 then some ds2
      else if rootX = rootY then some ds2
      else
        let ds3 :=
          if ds2.rank rootX < ds2.rank rootY then
            { ds2 with parent := Function.update ds2.parent rootX rootY }
          else if ds2.rank rootX > ds2.rank rootY then
            { ds2 with parent := Function.update ds2.parent rootY rootX }
          else
            { ds2 with parent := Function.update ds2.parent rootY rootX,
                       rank := Function.update ds2.rank rootX (ds2.rank rootX + 1) }
        some { ds3 with count := ds3.count - 1 }

def isConnected (ds : DisjointSet) (x y : Int) : Option (DisjointSet × Bool) :=
  match findSet ds x with
  | none => none
  | some (ds1, rx) =>
    match findSet ds1 y with
    | none => none
    | some (ds2, ry) =>
      if rx < 0 ∨ ry < 0 then some (ds2, false)
      else some (ds2, decide (rx = ry))

/-! ## Utilities -/

def roomsOverlap (room1 room2 : Room) : Bool :=
  !(decide (room1.x + room1.width < room2.x) ||
    decide (room2.x + room2.width < room1.x) ||
    decide (room1.y + room1.height < room2.y) ||
    decide (room2.y + room2.height < room1.y))

/-- The smallest value of a C `int` (`INT_MIN` of `limits.h`). -/
def INT_MIN : Int := -2147483648

/-- The value that 32-bit `int` arithmetic gives an expression whose exact value is
`v`: the representative of `v` modulo `2^32` in `[-2^31, 2^31)`. -/
def wrapInt (v : Int) : Int := (v + 2147483648) % 4294967296 - 2147483648

/-- The C code computes the centres, their differences and `dx * dx + dy * dy` in `int`,
where a result outside the 32 bits wraps around, and returns `(int)sqrt(...)`, the
square root being taken in double precision.  For a sum that is not negative that is
the integer square root.  For a sum that has wrapped to a negative value `sqrt` gives
NaN, which the conversion to `int` turns into `INT_MIN`. -/
def roomDistance (room1 room2 : Room) : Int :=
  let centerX1 := wrapInt (room1.x + Int.tdiv room1.width 2)
  let centerY1 := wrapInt (room1.y + Int.tdiv room1.height 2)
  let centerX2 := wrapInt (room2.x + Int.tdiv room2.width 2)
  let centerY2 := wrapInt (room2.y + Int.tdiv room2.height 2)
  let dx := wrapInt (centerX1 - centerX2)
  let dy := wrapInt (centerY1 - centerY2)
  let sum := wrapInt (wrapInt (dx * dx) + wrapInt (dy * dy))
  if sum < 0 then INT_MIN else Int.sqrt sum

def isValidPosition (world : World) (x y : Int) : Bool :=
  decide (x ≥ 0) && decide (x < world.width) && decide (y ≥ 0) && decide (y < world.height)

/-- The store `world->tiles[y][x] = v`. -/
def storeTile (world : World) (x y v : Int) : World :=
  { world with tiles := Function.update world.tiles y (Function.update (world.tiles y) x v) }

/-- The two nested loops that rasterise a room: every valid cell of
`[x, x+w) × [y, y+h)` becomes `TILE_ROOM`. -/
def paintRoom (world : World) (x y w h : Int) : World :=
  (intRange y (y + h)).foldl
    (fun wd ry =>
      (intRange x (x + w)).foldl
        (fun wd2 rx => if isValidPosition wd2 rx ry then storeTile wd2 rx ry TILE_ROOM else wd2)
        wd)
    world

/-! ## World creation -/

def ensureAtLeastOneRoom (world : World) : World :=
  if world.roomCount > 0 then world
  else
    let w : Int := 3
    let h : Int := 3
    if world.width < w + 2 ∨ world.height < h + 2 then world
    else
      let x := Int.tdiv (world.width - w) 2
      let y := Int.tdiv (world.height - h) 2
      let x := if x < 1 then 1 else x
      let y := if y < 1 then 1 else y
      let x := if x + w ≥ world.width - 1 then world.width - w - 2 else x
      let y := if y + h ≥ world.height - 1 then world.height - h - 2 else y
      let r : Room := { id := 0, x := x, y := y, width := w, height := h, exists_ := true }
      let world := { world with rooms := Function.update world.rooms 0 r, roomCount := 1 }
      paintRoom world x y w h

/-- The loop of `createWorld` that sets every cell of the `width × height` grid to
`TILE_WALL`. -/
def initTiles (world : World) (width height : Int) : World :=
  (intRange 0 height).foldl
    (fun wd y => (intRange 0 width).foldl (fun wd2 x => storeTile wd2 x y TILE_WALL) wd)
    world

/-- The loop of `createWorld` that marks every room slot absent and empties every
adjacency list. -/
def initRoomSlots (world : World) : World :=
  (intRange 0 MAX_ROOMS).foldl
    (fun wd i =>
      { wd with rooms := Function.update wd.rooms i { wd.rooms i with exists_ := false },
                connections := Function.update wd.connections i [] })
    world

/-- Returns the new world (`none` is the `NULL` result) and the new `currentSeed`. -/
def createWorld (currentSeed : Int) (mem : World) (seed width height : Int) :
    Option World × Int :=
  if width < 5 ∨ height < 5 then (none, currentSeed)
  else
    let width := if width > MAX_WORLD_WIDTH then MAX_WORLD_WIDTH else width
    let height := if height > MAX_WORLD_HEIGHT then MAX_WORLD_HEIGHT else height
    let currentSeed := setSeed seed
    let world : World :=
      { mem with seed := seed, width := width, height := height, roomCount := 0,
                 corridorCount := 0, initialized := false }
    let world := initTiles world width height
    let world := initRoomSlots world
    let world := { world with disjointSet := initDisjointSet world.disjointSet MAX_ROOMS }
    (some world, currentSeed)

/-! ## Room generation -/

/-- One iteration of the `while` loop of `generateRooms`. -/
def generateRoomsAttempt (minSize maxSize : Int) (st : World × Int) : World × Int :=
  let world := st.1
  let (w, s1) := getRandom st.2 minSize maxSize
  let (h, s2) := getRandom s1 minSize maxSize
  let (x, s3) := getRandom s2 1 (world.width - w - 1)
  let (y, s4) := getRandom s3 1 (world.height - h - 1)
  let newRoom : Room :=
    { id := world.roomCount, x := x, y := y, width := w, height := h, exists_ := true }
  let overlap := (intRange 0 world.roomCount).any
    (fun i => (world.rooms i).exists_ && roomsOverlap newRoom (world.rooms i))
  if !overlap then
    let world := { world with rooms := Function.update world.rooms world.roomCount newRoom }
    let world := paintRoom world x y w h
    ({ world with roomCount := world.roomCount + 1 }, s4)
  else (world, s4)

/-- The `while (roomCount < maxRooms && attempts < maxAttempts)` loop; the first
argument is `maxAttempts - attempts`. -/
def generateRoomsLoop (minSize maxSize maxRooms : Int) : Nat → World × Int → World × Int
  | 0, st => st
  | n + 1, st =>
    if st.1.roomCount < maxRooms then
      generateRoomsLoop minSize maxSize maxRooms n (generateRoomsAttempt minSize maxSize st)
    else st

/-- Returns the world and the new `currentSeed` (the C function always returns 0). -/
def generateRooms (currentSeed : Int) (world : World) (minSize maxSize maxRooms : Int) :
    World × Int :=
  generateRoomsLoop minSize maxSize maxRooms (maxRooms * 5).toNat (world, currentSeed)

/-! ## Corridors -/

/-- The body shared by the three places of `drawCorridor` that write a cell: a valid
cell holding `TILE_WALL` becomes `TILE_CORRIDOR`. -/
def carveCell (world : World) (x y : Int) : World :=
  if isValidPosition world x y then
    if world.tiles y x = TILE_WALL then storeTile world x y TILE_CORRIDOR else world
  else world

/-- The loop `while (current.x != end.x)`; the fuel is the distance left. -/
def drawCorridorX (stepX endX : Int) : Nat → World → Point → World × Point
  | 0, world, current => (world, current)
  | n + 1, world, current =>
    if current.x ≠ endX then
      drawCorridorX stepX endX n (carveCell world current.x current.y)
        { current with x := current.x + stepX }
    else (world, current)

/-- The loop `while (current.y != end.y)`; the fuel is the distance left. -/
def drawCorridorY (stepY endY : Int) : Nat → World → Point → World × Point
  | 0, world, current => (world, current)
  | n + 1, world, current =>
    if current.y ≠ endY then
      drawCorridorY stepY endY n (carveCell world current.x current.y)
        { current with y := current.y + stepY }
    else (world, current)

def drawCorridor (world : World) (start end_ : Point) : World :=
  let current := start
  let stepX : Int := if end_.x > current.x then 1 else -1
  let (world, current) := drawCorridorX stepX end_.x (end_.x - current.x).natAbs world current
  let stepY : Int := if end_.y > current.y then 1 else -1
  let (world, _) := drawCorridorY stepY end_.y (end_.y - current.y).natAbs world current
  carveCell world end_.x end_.y

/-! ## Minimum spanning tree connection -/

def clearAllConnections (world : World) : World :=
  (intRange 0 MAX_ROOMS).foldl
    (fun wd i => { wd with connections := Function.update wd.connections i [] }) world

structure Edge where
  room1 : Int
  room2 : Int
  distance : Int
deriving DecidableEq

/-- The two nested loops filling `edges[0 .. edgeCount)`. -/
def buildEdges (world : World) : List Edge :=
  (intRange 0 world.roomCount).foldl
    (fun acc i =>
      (intRange (i + 1) world.roomCount).foldl
        (fun acc2 j =>
          if (world.rooms i).exists_ && (world.rooms j).exists_ then
            acc2 ++ [{ room1 := i, room2 := j,
                       distance := roomDistance (world.rooms i) (world.rooms j) }]
          else acc2)
        acc)
    []

/-- One inner loop of the bubble sort: `k` adjacent comparisons from the front. -/
def bubblePass : Nat → List Edge → List Edge
  | 0, l => l
  | _ + 1, [] => []
  | _ + 1, [a] => [a]
  | k + 1, a :: b :: t =>
    if a.distance > b.distance then b :: bubblePass k (a :: t)
    else a :: bubblePass k (b :: t)

def bubbleSort (edges : List Edge) : List Edge :=
  (List.range (edges.length - 1)).foldl
    (fun acc i => bubblePass (edges.length - i - 1) acc) edges

/-- The body of the Kruskal loop for one edge; the state is the world and
`corridorIndex`. -/
def kruskalStep (st : World × Int) (e : Edge) : Option (World × Int) :=
  let world := st.1
  let corridorIndex := st.2
  let room1 := e.room1
  let room2 := e.room2
  match isConnected world.disjointSet room1 room2 with
  | none => none
  | some (ds1, connected) =>
    let world := { world with disjointSet := ds1 }
    if !connected then
      let r1 := world.rooms room1
      let r2 := world.rooms room2
      let centerX1 := r1.x + Int.tdiv r1.width 2
      let centerY1 := r1.y + Int.tdiv r1.height 2
      let centerX2 := r2.x + Int.tdiv r2.width 2
      let centerY2 := r2.y + Int.tdiv r2.height 2
      let start : Point := { x := centerX1, y := centerY1 }
      let end_ : Point := { x := centerX2, y := centerY2 }
      if corridorIndex < MAX_CORRIDORS then
        let corridor : Corridor :=
          { id := corridorIndex, start := start, end_ := end_,
            isTurning := decide (start.x ≠ end_.x) && decide (start.y ≠ end_.y) }
        let world :=
          { world with corridors := Function.update world.corridors corridorIndex corridor }
        let corridorIndex := corridorIndex + 1
        let world := drawCorridor world start end_
        let world :=
          { world with connections :=
              Function.update world.connections room1 (room2 :: world.connections room1) }
        let world :=
          { world with connections :=
              Function.update world.connections room2 (room1 :: world.connections room2) }
        match unionSets world.disjointSet room1 room2 with
        | none => none
        | some ds2 => some ({ world with disjointSet := ds2 }, corridorIndex)
      else some (world, corridorIndex)
    else some (world, corridorIndex)

def kruskalLoop : List Edge → World × Int → Option (World × Int)
  | [], st => some st
  | e :: es, st =>
    match kruskalStep st e with
    | none => none
    | some st1 => kruskalLoop es st1

/-- Returns the world and the status code. -/
def connectRoomsWithMST (world : World) : Option (World × Int) :=
  if world.roomCount < 2 then some (world, -1)
  else
    let world := clearAllConnections world
    let world := { world with disjointSet := initDisjointSet world.disjointSet world.roomCount }
    let edges := bubbleSort (buildEdges world)
    match kruskalLoop edges (world, 0) with
    | none => none
    | some (world, corridorIndex) => some ({ world with corridorCount := corridorIndex }, 0)

/-! ## World generation -/

/-- Returns the world (`none` inside is the `NULL` result) and the new `currentSeed`;
the outer `none` is a call that does not return. -/
def generateWorldFromSeed (currentSeed : Int) (mem : World) (seed width height : Int) :
    Option (Option World × Int) :=
  match createWorld currentSeed mem seed width height with
  | (none, s) => some (none, s)
  | (some world, s) =>
    let (world, s) := generateRooms s world 3 6 25
    let world := ensureAtLeastOneRoom world
    match connectRoomsWithMST world with
    | none => none
    | some (world, _) => some (some { world with initialized := true }, s)

/-! ## Connectivity check -/

/-- The `for` loop of `isWorldConnected` over the remaining indices. -/
def isWorldConnectedLoop (root : Int) : List Int → World → Option (World × Bool)
  | [], world => some (world, true)
  | i :: is, world =>
    if (world.rooms i).exists_ then
      match findSet world.disjointSet i with
      | none => none
      | some (ds1, r) =>
        let world := { world with disjointSet := ds1 }
        if r ≠ root then some (world, false) else isWorldConnectedLoop root is world
    else isWorldConnectedLoop root is world

def isWorldConnected (world : World) : Option (World × Bool) :=
  if world.roomCount = 0 then some (world, true)
  else if world.roomCount = 1 then some (world, true)
  else
    match findSet world.disjointSet 0 with
    | none => none
    | some (ds1, root) =>
      isWorldConnectedLoop root (intRange 1 world.roomCount) { world with disjointSet := ds1 }

/-! ## Tiles -/

def getTile (world : World) (x y : Int) : Int :=
  if !isValidPosition world x y then TILE_WALL else world.tiles y x

def setTile (world : World) (x y tileType : Int) : World :=
  if isValidPosition world x y then storeTile world x y tileType else world

/-! ## Path finding -/

/-- The local state of the breadth-first search in `findShortestPath`. -/
structure Bfs where
  queue : List Int
  visited : Int → Bool
  parent : Int → Int

/-- The inner `while (conn)` loop over the adjacency list of the dequeued room.  The
flag is true when `endRoomId` has just been reached (the C code returns there). -/
def bfsScan (endRoomId current : Int) : List Int → Bfs → Bfs × Bool
  | [], st => (st, false)
  | nextRoom :: rest, st =>
    if !st.visited nextRoom then
      let st1 : Bfs :=
        { queue := st.queue ++ [nextRoom],
          visited := Function.update st.visited nextRoom true,
          parent := Function.update st.parent nextRoom current }
      if nextRoom = endRoomId then (st1, true) else bfsScan endRoomId current rest st1
    else bfsScan endRoomId current rest st

/-- The outer `while (!isEmptyQueue(queue))` loop.  `some (some parent)`: the end room
was reached, with the parent array at that moment; `some none`: the queue ran empty;
`none`: more iterations than the fuel. -/
def bfsLoop (world : World) (endRoomId : Int) : Nat → Bfs → Option (Option (Int → Int))
  | 0, _ => none
  | n + 1, st =>
    match st.queue with
    | [] => some none
    | current :: q =>
      let (st1, found) :=
        bfsScan endRoomId current (world.connections current) { st with queue := q }
      if found then some (some st1.parent) else bfsLoop world endRoomId n st1

/-- The back-tracking loop `while (node != -1 && pathLength < maxPathLength)`: the
entries `tempPath[0 .. pathLength)`; the fuel is `maxPathLength - pathLength`. -/
def backtrack (parent : Int → Int) : Nat → Int → List Int
  | 0, _ => []
  | n + 1, node => if node ≠ -1 then node :: backtrack parent n (parent node) else []

/-- Returns the status (length or -1) and the contents of the caller's `path` buffer.
Every room is enqueued at most once, so the outer loop runs at most `MAX_ROOMS` times
before the queue is empty. -/
def findShortestPath (world : World) (startRoomId endRoomId : Int) (path : Int → Int)
    (maxPathLength : Int) : Option (Int × (Int → Int)) :=
  if maxPathLength ≤ 0 then some (-1, path)
  else if startRoomId < 0 ∨ endRoomId < 0 then some (-1, path)
  else if startRoomId ≥ MAX_ROOMS ∨ endRoomId ≥ MAX_ROOMS then some (-1, path)
  else if !(world.rooms startRoomId).exists_ ∨ !(world.rooms endRoomId).exists_ then
    some (-1, path)
  else if startRoomId = endRoomId then some (1, Function.update path 0 startRoomId)
  else
    let st : Bfs :=
      { queue := [startRoomId],
        visited := Function.update (fun _ => false) startRoomId true,
        parent := fun _ => -1 }
    match bfsLoop world endRoomId (MAX_ROOMS + 1).toNat st with
    | none => none
    | some none => some (-1, path)
    | some (some parent) =>
      let tempPath := backtrack parent maxPathLength.toNat endRoomId
      let pathLength : Int := tempPath.length
      let path := (intRange 0 pathLength).foldl
        (fun p i => Function.update p i (tempPath.getD (pathLength - 1 - i).toNat 0)) path
      some (pathLength, path)

/-! ## JSON output -/

/-- The text `vsnprintf` produces for a `%d` or `%ld` argument: the decimal digits of
the value, after a minus sign when it is negative. -/
def fmtInt (i : Int) : List Char := (toString i).toList

/-- The text for the `%s` argument `isTurning ? "true" : "false"`. -/
def fmtBool (b : Bool) : List Char := if b then "true".toList else "false".toList

/-- `bufAppend` with the format already expanded to `text`.  A buffer is the list of the
characters it holds before its terminator, paired with the write position `*pos`.
`vsnprintf(buffer + pos, size - pos, …)` keeps the characters before `pos`, writes at
most `size - pos - 1` characters of the text and terminates them; its result `n` is the
length of the whole text.  `ok` is the return value 0 with the new buffer and
position, `error` the return value -1 with the buffer as the call leaves it. -/
def bufAppend (bufferSize : Int) (st : List Char × Int) (text : List Char) :
    Except (List Char) (List Char × Int) :=
  if bufferSize = 0 ∨ st.2 < 0 then .error st.1
  else if st.2 ≥ bufferSize then .error st.1
  else
    let n : Int := text.length
    let buffer := st.1.take st.2.toNat ++ text.take (bufferSize - st.2 - 1).toNat
    if n ≥ bufferSize - st.2 then .error buffer
    else .ok (buffer, st.2 + n)

/-- The expansion of the format of one room record. -/
def fmtRoom (r : Room) : List Char :=
  "\x7b\"id\":".toList ++ fmtInt r.id ++ ",\"x\":".toList ++ fmtInt r.x ++
    ",\"y\":".toList ++ fmtInt r.y ++ ",\"width\":".toList ++ fmtInt r.width ++
    ",\"height\":".toList ++ fmtInt r.height ++ "\x7d".toList

/-- The expansion of the format of one corridor record. -/
def fmtCorridor (c : Corridor) : List Char :=
  "\x7b\"id\":".toList ++ fmtInt c.id ++ ",\"start\":\x7b\"x\":".toList ++ fmtInt c.start.x ++
    ",\"y\":".toList ++ fmtInt c.start.y ++ "\x7d,\"end\":\x7b\"x\":".toList ++
    fmtInt c.end_.x ++ ",\"y\":".toList ++ fmtInt c.end_.y ++
    "\x7d,\"isTurning\":".toList ++ fmtBool c.isTurning ++ "\x7d".toList

/-- The expansion of the first format of `getWorldJSON`. -/
def fmtHeader (world : World) : List Char :=
  "\x7b\"seed\":".toList ++ fmtInt world.seed ++ ",\"width\":".toList ++ fmtInt world.width ++
    ",\"height\":".toList ++ fmtInt world.height ++ ",\"roomCount\":".toList ++
    fmtInt world.roomCount ++ ",\"corridorCount\":".toList ++ fmtInt world.corridorCount ++
    ",".toList

/-- The `for` loop of `getRoomsJSON`; the flag is the variable `first`. -/
def getRoomsJSONLoop (world : World) (bufferSize : Int) :
    List Int → (List Char × Int) × Bool → Except (List Char) ((List Char × Int) × Bool)
  | [], s => .ok s
  | i :: rest, (st, first) =>
    if (world.rooms i).exists_ = false then getRoomsJSONLoop world bufferSize rest (st, first)
    else
      match (if first = false then bufAppend bufferSize st ",".toList else .ok st) with
      | .error b => .error b
      | .ok st1 =>
        match bufAppend bufferSize st1 (fmtRoom (world.rooms i)) with
        | .error b => .error b
        | .ok st2 => getRoomsJSONLoop world bufferSize rest (st2, false)

/-- Returns the buffer and the return value (0 or -1). -/
def getRoomsJSON (world : World) (buffer : List Char) (bufferSize : Int) : List Char × Int :=
  if bufferSize = 0 then (buffer, -1)
  else
    match bufAppend bufferSize (buffer, 0) "[".toList with
    | .error b => (b, -1)
    | .ok st =>
      match getRoomsJSONLoop world bufferSize (intRange 0 world.roomCount) (st, true) with
      | .error b => (b, -1)
      | .ok (st1, _) =>
        match bufAppend bufferSize st1 "]".toList with
        | .error b => (b, -1)
        | .ok st2 => (st2.1, 0)

/-- The `for` loop of `getCorridorsJSON`. -/
def getCorridorsJSONLoop (world : World) (bufferSize : Int) :
    List Int → List Char × Int → Except (List Char) (List Char × Int)
  | [], st => .ok st
  | i :: rest, st =>
    match (if i > 0 then bufAppend bufferSize st ",".toList else .ok st) with
    | .error b => .error b
    | .ok st1 =>
      match bufAppend bufferSize st1 (fmtCorridor (world.corridors i)) with
      | .error b => .error b
      | .ok st2 => getCorridorsJSONLoop world bufferSize rest st2

/-- Returns the buffer and the return value (0 or -1). -/
def getCorridorsJSON (world : World) (buffer : List Char) (bufferSize : Int) :
    List Char × Int :=
  if bufferSize = 0 then (buffer, -1)
  else
    match bufAppend bufferSize (buffer, 0) "[".toList with
    | .error b => (b, -1)
    | .ok st =>
      match getCorridorsJSONLoop world bufferSize (intRange 0 world.corridorCount) st with
      | .error b => (b, -1)
      | .ok st1 =>
        match bufAppend bufferSize st1 "]".toList with
        | .error b => (b, -1)
        | .ok st2 => (st2.1, 0)

/-- The inner `for` loop of `getWorldMapJSON`: the cells of row `y`. -/
def getWorldMapJSONRow (world : World) (bufferSize : Int) (y : Int) :
    List Int → List Char × Int → Except (List Char) (List Char × Int)
  | [], st => .ok st
  | x :: rest, st =>
    match (if x > 0 then bufAppend bufferSize st ",".toList else .ok st) with
    | .error b => .error b
    | .ok st1 =>
      match bufAppend bufferSize st1 (fmtInt (world.tiles y x)) with
      | .error b => .error b
      | .ok st2 => getWorldMapJSONRow world bufferSize y rest st2

/-- The outer `for` loop of `getWorldMapJSON`: the rows. -/
def getWorldMapJSONLoop (world : World) (bufferSize : Int) :
    List Int → List Char × Int → Except (List Char) (List Char × Int)
  | [], st => .ok st
  | y :: rest, st =>
    match (if y > 0 then bufAppend bufferSize st ",".toList else .ok st) with
    | .error b => .error b
    | .ok st1 =>
      match bufAppend bufferSize st1 "[".toList with
      | .error b => .error b
      | .ok st2 =>
        match getWorldMapJSONRow world bufferSize y (intRange 0 world.width) st2 with
        | .error b => .error b
        | .ok st3 =>
          match bufAppend bufferSize st3 "]".toList with
          | .error b => .error b
          | .ok st4 => getWorldMapJSONLoop world bufferSize rest st4

/-- Returns the buffer and the return value (0 or -1). -/
def getWorldMapJSON (world : World) (buffer : List Char) (bufferSize : Int) :
    List Char × Int :=
  if bufferSize = 0 then (buffer, -1)
  else
    match bufAppend bufferSize (buffer, 0) "[".toList with
    | .error b => (b, -1)
    | .ok st =>
      match getWorldMapJSONLoop world bufferSize (intRange 0 world.height) st with
      | .error b => (b, -1)
      | .ok st1 =>
        match bufAppend bufferSize st1 "]".toList with
        | .error b => (b, -1)
        | .ok st2 => (st2.1, 0)

/-- Returns the buffer and the return value (0 or -1).  The local arrays `roomsBuffer`,
`corridorsBuffer` and `mapBuffer` start with indeterminate contents, which are
arguments here. -/
def getWorldJSON (world : World) (buffer : List Char) (bufferSize : Int)
    (roomsBuffer corridorsBuffer mapBuffer : List Char) : List Char × Int :=
  if bufferSize = 0 then (buffer, -1)
  else
    match bufAppend bufferSize (buffer, 0) (fmtHeader world) with
    | .error b => (b, -1)
    | .ok st1 =>
      match bufAppend bufferSize st1 "\"rooms\":".toList with
      | .error b => (b, -1)
      | .ok st2 =>
        let rooms := getRoomsJSON world roomsBuffer 4096
        if rooms.2 ≠ 0 then (st2.1, -1)
        else
          match bufAppend bufferSize st2 (rooms.1 ++ ",".toList) with
          | .error b => (b, -1)
          | .ok st3 =>
            match bufAppend bufferSize st3 "\"corridors\":".toList with
            | .error b => (b, -1)
            | .ok st4 =>
              let corridors := getCorridorsJSON world corridorsBuffer 16384
              if corridors.2 ≠ 0 then (st4.1, -1)
              else
                match bufAppend bufferSize st4 (corridors.1 ++ ",".toList) with
                | .error b => (b, -1)
                | .ok st5 =>
                  match bufAppend bufferSize st5 "\"map\":".toList with
                  | .error b => (b, -1)
                  | .ok st6 =>
                    let map := getWorldMapJSON world mapBuffer 65536
                    if map.2 ≠ 0 then (st6.1, -1)
                    else
                      match bufAppend bufferSize st6 map.1 with
                      | .error b => (b, -1)
                      | .ok st7 =>
                        match bufAppend bufferSize st7 "\x7d".toList with
                        | .error b => (b, -1)
                        | .ok st8 => (st8.1, 0)

/-! ## Specification: the disjoint-set forest -/

/-- A slot index of the `MAX_ROOMS`-sized arrays. -/
def InRange (x : Int) : Prop := 0 ≤ x ∧ x < MAX_ROOMS

instance instDecidableInRange (x : Int) : Decidable (InRange x) := by
  unfold InRange; infer_instance

/-- Well-formed forest: parents stay in range and ranks grow strictly towards the
root. -/
structure DSInv (ds : DisjointSet) : Prop where
  parent_range : ∀ x, InRange x → InRange (ds.parent x)
  rank_lt : ∀ x, InRange x → ds.parent x ≠ x → ds.rank x < ds.rank (ds.parent x)

/-- The representative of `x`: follow the parent pointers `MAX_ROOMS` times. -/
def rootOf (ds : DisjointSet) (x : Int) : Int := ds.parent^[MAX_ROOMS.toNat] x

/-- Number of slots whose rank is below the rank of `x`. -/
def rankBelow (ds : DisjointSet) (x : Int) : Nat :=
  ((Finset.Ico (0 : Int) MAX_ROOMS).filter (fun y => ds.rank y < ds.rank x)).card

/-! ## Specification: room graph and Kruskal loop -/

/-- Room `b` occurs in the adjacency list of room `a`. -/
def Adj (world : World) (a b : Int) : Prop := b ∈ world.connections a

instance instDecidableAdj (world : World) (a b : Int) : Decidable (Adj world a b) := by
  unfold Adj; infer_instance

/-- Room `b` can be reached from room `a` along adjacency lists. -/
def Reach (world : World) (a b : Int) : Prop := Relation.ReflTransGen (Adj world) a b

/-- The set of slots that are their own representative. -/
def rootSet (ds : DisjointSet) : Finset Int :=
  (Finset.Ico (0 : Int) MAX_ROOMS).filter (fun y => rootOf ds y = y)

/-- Loop invariant of the Kruskal scan over a world with `rc` rooms. -/
structure KInv (rc : Int) (rooms0 : Int → Room) (st : World × Int) : Prop where
  ds_inv : DSInv st.1.disjointSet
  roots : ((rootSet st.1.disjointSet).card : Int) + st.2 = 50
  low : ∀ y, InRange y → y < rc → rootOf st.1.disjointSet y < rc
  high : ∀ y, InRange y → rc ≤ y → rootOf st.1.disjointSet y = y
  rooms_eq : st.1.rooms = rooms0
  roomCount_eq : st.1.roomCount = rc
  reach : ∀ a b, InRange a → InRange b →
    rootOf st.1.disjointSet a = rootOf st.1.disjointSet b → Reach st.1 a b
  conn_range : ∀ i, InRange i → ∀ j ∈ st.1.connections i, 0 ≤ j ∧ j < rc
  idx_nonneg : 0 ≤ st.2

/-- What `connectRoomsWithMST` establishes on a world with at least two rooms. -/
structure MSTPost (world w2 : World) : Prop where
  corridorCount_eq : w2.corridorCount = world.roomCount - 1
  roomCount_eq : w2.roomCount = world.roomCount
  rooms_eq : w2.rooms = world.rooms
  width_eq : w2.width = world.width
  height_eq : w2.height = world.height
  seed_eq : w2.seed = world.seed
  initialized_eq : w2.initialized = world.initialized
  ds_inv : DSInv w2.disjointSet
  same_root : ∀ i j, 0 ≤ i → i < world.roomCount → 0 ≤ j → j < world.roomCount →
    rootOf w2.disjointSet i = rootOf w2.disjointSet j
  reach : ∀ i j, 0 ≤ i → i < world.roomCount → 0 ≤ j → j < world.roomCount → Reach w2 i j
  conn_range : ∀ i, InRange i → ∀ j ∈ w2.connections i, 0 ≤ j ∧ j < world.roomCount

/-! ## Specification: room placement -/

/-- The rooms `0 .. roomCount-1` exist and are pairwise non-overlapping. -/
structure RoomsInv (world : World) : Prop where
  count_nonneg : 0 ≤ world.roomCount
  all_exist : ∀ i, 0 ≤ i → i < world.roomCount → (world.rooms i).exists_ = true
  no_overlap : ∀ i j, 0 ≤ i → i < world.roomCount → 0 ≤ j → j < world.roomCount → i ≠ j →
    roomsOverlap (world.rooms i) (world.rooms j) = false

/-- The candidate room of one placement attempt and the seed after drawing it. -/
def candidateRoom (minSize maxSize : Int) (st : World × Int) : Room × Int :=
  let w := getRandom st.2 minSize maxSize
  let h := getRandom w.2 minSize maxSize
  let x := getRandom h.2 1 (st.1.width - w.1 - 1)
  let y := getRandom x.2 1 (st.1.height - h.1 - 1)
  ({ id := st.1.roomCount, x := x.1, y := y.1, width := w.1, height := h.1, exists_ := true },
    y.2)

/-- The acceptance test of one placement attempt. -/
def candidateOverlaps (world : World) (r : Room) : Bool :=
  (intRange 0 world.roomCount).any
    (fun i => (world.rooms i).exists_ && roomsOverlap r (world.rooms i))

/-- The world after an accepted candidate has been stored and rasterised. -/
def placeRoom (world : World) (r : Room) : World :=
  let w1 := paintRoom { world with rooms := Function.update world.rooms world.roomCount r }
    r.x r.y r.width r.height
  { w1 with roomCount := w1.roomCount + 1 }

/-! ## Specification: world creation and generation -/

/-- The world `createWorld` returns for legal dimensions. -/
structure CreatePost (seed width height : Int) (world : World) : Prop where
  roomCount_eq : world.roomCount = 0
  corridorCount_eq : world.corridorCount = 0
  width_eq : world.width = min width MAX_WORLD_WIDTH
  height_eq : world.height = min height MAX_WORLD_HEIGHT
  seed_eq : world.seed = seed
  initialized_eq : world.initialized = false
  no_room : ∀ i, InRange i → (world.rooms i).exists_ = false
  no_conn : ∀ i, InRange i → world.connections i = []
  ds_inv : DSInv world.disjointSet
  ds_root : ∀ i, InRange i → rootOf world.disjointSet i = i

/-- What `generateRooms(world, 3, 6, 25)` leaves behind on a fresh world. -/
structure PlacePost (world0 world : World) : Prop where
  rooms_inv : RoomsInv world
  count_pos : 1 ≤ world.roomCount
  count_le : world.roomCount ≤ 25
  width_eq : world.width = world0.width
  height_eq : world.height = world0.height
  seed_eq : world.seed = world0.seed
  initialized_eq : world.initialized = world0.initialized
  ds_eq : world.disjointSet = world0.disjointSet
  conn_eq : world.connections = world0.connections
  corridors_eq : world.corridors = world0.corridors
  corridorCount_eq : world.corridorCount = world0.corridorCount

/-- The world returned by `generateWorldFromSeed` for legal dimensions. -/
structure GenPost (seed width height : Int) (world : World) : Prop where
  rooms_inv : RoomsInv world
  count_pos : 1 ≤ world.roomCount
  count_le : world.roomCount ≤ 25
  corridorCount_eq : world.corridorCount = world.roomCount - 1
  width_eq : world.width = min width MAX_WORLD_WIDTH
  height_eq : world.height = min height MAX_WORLD_HEIGHT
  seed_eq : world.seed = seed
  initialized_eq : world.initialized = true
  ds_inv : DSInv world.disjointSet
  same_root : ∀ i j, 0 ≤ i → i < world.roomCount → 0 ≤ j → j < world.roomCount →
    rootOf world.disjointSet i = rootOf world.disjointSet j
  reach : ∀ i j, 0 ≤ i → i < world.roomCount → 0 ≤ j → j < world.roomCount → Reach world i j
  conn_range : ∀ i, InRange i → ∀ j ∈ world.connections i, 0 ≤ j ∧ j < world.roomCount
  first_room : ∀ w0 : World, w0.width = min width MAX_WORLD_WIDTH →
    w0.height = min height MAX_WORLD_HEIGHT → w0.roomCount = 0 →
    world.rooms 0 = (candidateRoom 3 6 (w0, seed)).1

/-! ## Specification: breadth-first search -/

/-- Every adjacency list of a slot holds slot indices only. -/
def AdjOK (world : World) : Prop := ∀ i, InRange i → ∀ j ∈ world.connections i, InRange j

/-- A walk with exactly `n` edges. -/
def WalkN (world : World) : Nat → Int → Int → Prop
  | 0, a, b => a = b
  | n + 1, a, b => ∃ c, Adj world a c ∧ WalkN world n c b

/-- The search tree recorded in `visited` and `parent`, with the depth `d` of every
visited room. -/
structure BfsCore (world : World) (s : Int) (vis : Int → Bool) (par : Int → Int)
    (d : Int → Nat) : Prop where
  start_vis : vis s = true
  start_d : d s = 0
  start_par : par s = -1
  vis_range : ∀ v, vis v = true → InRange v
  par_unvis : ∀ v, vis v = false → par v = -1
  tree : ∀ v, vis v = true → v ≠ s →
    vis (par v) = true ∧ Adj world (par v) v ∧ d v = d (par v) + 1

/-- Invariant of the outer loop of the search. -/
structure LoopInv (world : World) (s e : Int) (st : Bfs) (d : Int → Nat) : Prop where
  core : BfsCore world s st.visited st.parent d
  end_unvis : st.visited e = false
  queue_vis : ∀ q ∈ st.queue, st.visited q = true
  queue_sorted : st.queue.Pairwise (fun a b => d a ≤ d b)
  queue_span : ∀ a ∈ st.queue, ∀ b ∈ st.queue, d b ≤ d a + 1
  done : ∀ u, st.visited u = true → u ∉ st.queue →
    ∀ v, Adj world u v → st.visited v = true ∧ d v ≤ d u + 1
  low : ∀ u, st.visited u = true → ∀ q ∈ st.queue, d u ≤ d q + 1

/-- Invariant of the inner loop while the adjacency list of `cur` is scanned; `rest` is
the part of the list not yet looked at. -/
structure ScanInv (world : World) (s e cur : Int) (rest : List Int) (st : Bfs)
    (d : Int → Nat) : Prop where
  core : BfsCore world s st.visited st.parent d
  end_unvis : st.visited e = false
  cur_vis : st.visited cur = true
  queue_vis : ∀ q ∈ st.queue, st.visited q = true
  queue_sorted : st.queue.Pairwise (fun a b => d a ≤ d b)
  queue_bounds : ∀ q ∈ st.queue, d cur ≤ d q ∧ d q ≤ d cur + 1
  done : ∀ u, st.visited u = true → u ∉ st.queue → u ≠ cur →
    ∀ v, Adj world u v → st.visited v = true ∧ d v ≤ d u + 1
  scanned : ∀ v ∈ world.connections cur, v ∈ rest ∨ (st.visited v = true ∧ d v ≤ d cur + 1)
  rest_sub : ∀ v ∈ rest, v ∈ world.connections cur
  low : ∀ u, st.visited u = true → d u ≤ d cur + 1

/-- What is known when the search has reached the end room: a search tree containing
`e` whose depth is a lower bound for every walk from `s` to `e`. -/
def FoundPost (world : World) (s e : Int) (par : Int → Int) : Prop :=
  ∃ (vis : Int → Bool) (d : Int → Nat), BfsCore world s vis par d ∧ vis e = true ∧
    ∀ n, WalkN world n s e → d e ≤ n

/-- Number of slots not yet visited. -/
def unvisitedCount (vis : Int → Bool) : Nat :=
  ((Finset.Ico (0 : Int) MAX_ROOMS).filter (fun v => vis v = false)).card

/-- A list of rooms read as a walk: consecutive rooms are adjacent, the first is `a`
and the last is `b`. -/
def IsWalk (world : World) (p : List Int) (a b : Int) : Prop :=
  p.head? = some a ∧ p.getLast? = some b ∧ p.Chain' (Adj world)

/-- The contents of the caller's buffer after the reversal loop: the entries
`0 .. pathLength-1` hold the back-tracked list in reverse order. -/
def writtenPath (path : Int → Int) (walk : List Int) : Int → Int :=
  fun j => if 0 ≤ j ∧ j < (walk.length : Int) then walk.getD j.toNat 0 else path j

/-- What the caller gets when the search succeeds; `dist` is the number of corridors
on a shortest walk. -/
structure PathPost (world : World) (s e : Int) (maxLen : Int) (walk : List Int)
    (dist : Nat) : Prop where
  length_eq : walk.length = min maxLen.toNat (dist + 1)
  chain : walk.Chain' (Adj world)
  last_eq : walk.getLast? = some e
  head_eq : dist + 1 ≤ maxLen.toNat → walk.head? = some s
  dist_lt : dist + 1 ≤ 50
  shortest : ∀ p, IsWalk world p s e → dist + 1 ≤ p.length
  suffix_of : ∃ p, IsWalk world p s e ∧ p.length = dist + 1 ∧
    walk = p.drop (p.length - maxLen.toNat)
  reach : Reach world s e

/-! ## Specification: agreement of two runs -/

/-- Two disjoint sets with the same contents in the `MAX_ROOMS` slots. -/
structure DSAgree (d1 d2 : DisjointSet) : Prop where
  parent_eq : ∀ i, InRange i → d1.parent i = d2.parent i
  rank_eq : ∀ i, InRange i → d1.rank i = d2.rank i
  count_eq : d1.count = d2.count

/-- Two worlds that agree on every cell, slot and counter the generator reads; the
corridor slots are compared below `c`. -/
structure SameState (c : Int) (w1 w2 : World) : Prop where
  width_eq : w1.width = w2.width
  height_eq : w1.height = w2.height
  seed_eq : w1.seed = w2.seed
  roomCount_eq : w1.roomCount = w2.roomCount
  corridorCount_eq : w1.corridorCount = w2.corridorCount
  initialized_eq : w1.initialized = w2.initialized
  tiles_eq : ∀ x y, 0 ≤ x → x < w1.width → 0 ≤ y → y < w1.height →
    w1.tiles y x = w2.tiles y x
  rooms_eq : ∀ i, 0 ≤ i → i < w1.roomCount → w1.rooms i = w2.rooms i
  corridors_eq : ∀ k, 0 ≤ k → k < c → w1.corridors k = w2.corridors k
  conn_eq : ∀ i, InRange i → w1.connections i = w2.connections i
  ds_eq : DSAgree w1.disjointSet w2.disjointSet

/-! ## Specification: minimum spanning tree -/

/-- The world at the start of the Kruskal scan: adjacency lists cleared, disjoint set
re-initialised over `roomCount`. -/
def mstStart (world : World) : World :=
  { clearAllConnections world with
    disjointSet := initDisjointSet (clearAllConnections world).disjointSet
      (clearAllConnections world).roomCount }

/-- Rooms joined, directly or through other rooms, by the edges of the list `F`, read
as undirected edges. -/
def Linked (F : List Edge) : Int → Int → Prop :=
  Relation.EqvGen (fun a b => ∃ e ∈ F, e.room1 = a ∧ e.room2 = b)

/-- Sum of the `distance` fields of a list of edges. -/
def totalDistance (F : List Edge) : Int := (F.map (fun e => e.distance)).sum

/-- Sum of the `distance` fields of a list of edges, each counted with `c` more. -/
def shiftedDistance (c : Int) (F : List Edge) : Int := totalDistance F + c * (F.length : Int)

/-- The edge `t` is, up to orientation, an edge of the list `es` that is not longer. -/
def Covered (es : List Edge) (t : Edge) : Prop :=
  ∃ e ∈ es, e.distance ≤ t.distance ∧
    ((e.room1 = t.room1 ∧ e.room2 = t.room2) ∨ (e.room1 = t.room2 ∧ e.room2 = t.room1))

/-- A pair of rooms as an edge of the complete graph on the rooms. -/
def pairEdge (rooms : Int → Room) (p : Int × Int) : Edge :=
  { room1 := p.1, room2 := p.2, distance := roomDistance (rooms p.1) (rooms p.2) }

/-- The selection rule of the Kruskal scan: `Greedy es F F1` says that scanning `es`
with the edges `F` already chosen ends with the chosen edges `F1`, the latest first. -/
inductive Greedy : List Edge → List Edge → List Edge → Prop
  | done (F : List Edge) : Greedy [] F F
  | skip (e : Edge) (es F F1 : List Edge) :
      Linked F e.room1 e.room2 → Greedy es F F1 → Greedy (e :: es) F F1
  | take (e : Edge) (es F F1 : List Edge) :
      ¬ Linked F e.room1 e.room2 → Greedy es (e :: F) F1 → Greedy (e :: es) F F1

/-- A list of edges none of which joins two rooms that the later entries already
join: a forest. -/
def Forest : List Edge → Prop
  | [] => True
  | e :: F => ¬ Linked F e.room1 e.room2 ∧ Forest F

/-- The adjacency list that the chosen edges `F` (latest first) give room `i`. -/
def neighbours (F : List Edge) (i : Int) : List Int :=
  F.filterMap
    (fun e => if e.room1 = i then some e.room2 else if e.room2 = i then some e.room1 else none)

/-- The state of the Kruskal scan described by the list `F` of the edges chosen so far,
the latest first. -/
structure KTrace (rc : Int) (rooms0 : Int → Room) (st : World × Int) (F : List Edge) :
    Prop where
  conn : ∀ i, InRange i → st.1.connections i = neighbours F i
  same_root : ∀ e ∈ F, rootOf st.1.disjointSet e.room1 = rootOf st.1.disjointSet e.room2
  valid : ∀ e ∈ F, 0 ≤ e.room1 ∧ e.room1 < e.room2 ∧ e.room2 < rc ∧
    e.distance = roomDistance (rooms0 e.room1) (rooms0 e.room2)
  index_eq : st.2 = (F.length : Int)

/-- The sum of `roomDistance` over the room pairs `i < j` that the adjacency lists of
the world join. -/
def joinedDistance (world : World) : Int :=
  ((intRange 0 world.roomCount).map
    (fun i =>
      (((world.connections i).filter (fun j => decide (i < j))).map
        (fun j => roomDistance (world.rooms i) (world.rooms j))).sum)).sum

/-! ## Specification: corridor rasterisation -/

/-- The tile grid after the cells marked by `C` have been handed to `carveCell`: a
marked cell inside the grid that holds `TILE_WALL` becomes `TILE_CORRIDOR`. -/
def carve (width height : Int) (C : Int → Int → Bool) (tiles : Int → Int → Int) :
    Int → Int → Int :=
  fun y x =>
    if C x y = true ∧ (0 ≤ x ∧ x < width ∧ 0 ≤ y ∧ y < height) ∧ tiles y x = TILE_WALL then
      TILE_CORRIDOR
    else tiles y x

/-! ## Specification: reachable disjoint-set states -/

/-- The disjoint-set states a caller can reach: `initDisjointSet` on any memory,
followed by any number of returning `findSet`, `unionSets` and `isConnected` calls with
any arguments. -/
inductive DSReachable : DisjointSet → Prop
  | init (mem : DisjointSet) (count : Int) : DSReachable (initDisjointSet mem count)
  | find (ds ds2 : DisjointSet) (x r : Int) :
      DSReachable ds → findSet ds x = some (ds2, r) → DSReachable ds2
  | union (ds ds2 : DisjointSet) (x y : Int) :
      DSReachable ds → unionSets ds x y = some ds2 → DSReachable ds2
  | query (ds ds2 : DisjointSet) (x y : Int) (b : Bool) :
      DSReachable ds → isConnected ds x y = some (ds2, b) → DSReachable ds2

/-- The call `isConnected(ds, a, b)` returns true. -/
def Connected (ds : DisjointSet) (a b : Int) : Prop :=
  ∃ ds2, isConnected ds a b = some (ds2, true)

/-! ## Specification: the shape of a placed room -/

/-- What the draws of one placement attempt on a `width × height` grid guarantee for
the candidate: both sides are in `[3, 6]`, the corner is at least `(1, 1)`, and along
each axis the room either keeps the far margin or sits at coordinate 1. -/
structure RoomShape (width height : Int) (r : Room) : Prop where
  width_ge : 3 ≤ r.width
  width_le : r.width ≤ 6
  height_ge : 3 ≤ r.height
  height_le : r.height ≤ 6
  x_ge : 1 ≤ r.x
  y_ge : 1 ≤ r.y
  x_le : r.x = 1 ∨ r.x + r.width ≤ width - 1
  y_le : r.y = 1 ∨ r.y + r.height ≤ height - 1
  present : r.exists_ = true

/-! ## Specification: the JSON encodings -/

/-- A JSON array: the items between brackets, separated by commas. -/
def jsonArray (items : List (List Char)) : List Char :=
  "[".toList ++ List.intercalate ",".toList items ++ "]".toList

/-- A JSON object: the members between braces, separated by commas. -/
def jsonObject (members : List (List Char)) : List Char :=
  "\x7b".toList ++ List.intercalate ",".toList members ++ "\x7d".toList

/-- A member of a JSON object: the quoted key, a colon and the value. -/
def jsonMember (key : String) (value : List Char) : List Char :=
  "\"".toList ++ key.toList ++ "\":".toList ++ value

/-- The object `{id, x, y, width, height}` of a room. -/
def roomObject (r : Room) : List Char :=
  jsonObject [jsonMember "id" (fmtInt r.id), jsonMember "x" (fmtInt r.x),
    jsonMember "y" (fmtInt r.y), jsonMember "width" (fmtInt r.width),
    jsonMember "height" (fmtInt r.height)]

/-- The object `{x, y}` of a point. -/
def pointObject (p : Point) : List Char :=
  jsonObject [jsonMember "x" (fmtInt p.x), jsonMember "y" (fmtInt p.y)]

/-- The object `{id, start, end, isTurning}` of a corridor. -/
def corridorObject (c : Corridor) : List Char :=
  jsonObject [jsonMember "id" (fmtInt c.id), jsonMember "start" (pointObject c.start),
    jsonMember "end" (pointObject c.end_),
    jsonMember "isTurning" (if c.isTurning then "true".toList else "false".toList)]

/-- The complete encoding of the rooms: the existing rooms among the slots
`0 .. roomCount-1`, in index order. -/
def roomsEncoding (world : World) : List Char :=
  jsonArray
    (((intRange 0 world.roomCount).filter (fun i => (world.rooms i).exists_)).map
      (fun i => roomObject (world.rooms i)))

/-- The complete encoding of the corridors `0 .. corridorCount-1`. -/
def corridorsEncoding (world : World) : List Char :=
  jsonArray ((intRange 0 world.corridorCount).map (fun i => corridorObject (world.corridors i)))

/-- The complete encoding of the tile grid: `height` rows, row `y` being the array of
the `width` decimal tile codes `tiles[y][0 .. width-1]`. -/
def mapEncoding (world : World) : List Char :=
  jsonArray
    ((intRange 0 world.height).map
      (fun y => jsonArray ((intRange 0 world.width).map (fun x => fmtInt (world.tiles y x)))))

/-- The complete encoding of the world. -/
def worldEncoding (world : World) : List Char :=
  jsonObject [jsonMember "seed" (fmtInt world.seed), jsonMember "width" (fmtInt world.width),
    jsonMember "height" (fmtInt world.height),
    jsonMember "roomCount" (fmtInt world.roomCount),
    jsonMember "corridorCount" (fmtInt world.corridorCount),
    jsonMember "rooms" (roomsEncoding world),
    jsonMember "corridors" (corridorsEncoding world),
    jsonMember "map" (mapEncoding world)]

/-- An encoder reports truncation: `result` is the buffer and the return value of a call
with a buffer of `bufferSize` characters, `enc` the complete encoding.  The return value
is 0 exactly when `enc` is strictly shorter than `bufferSize`, and then the buffer holds
`enc`; otherwise the return value is -1 and the buffer holds the first `bufferSize - 1`
characters of `enc`. -/
def ReportsTruncation (result : List Char × Int) (enc : List Char) (bufferSize : Int) :
    Prop :=
  (result.2 = 0 ↔ (enc.length : Int) < bufferSize) ∧
  (result.2 = 0 → result.1 = enc) ∧
  (result.2 ≠ 0 → result.2 = -1 ∧ result.1 = enc.take (bufferSize - 1).toNat)

/-- A run of `bufAppend` calls, each followed by `return -1` on failure. -/
def appendAll (bufferSize : Int) :
    List (List Char) → List Char × Int → Except (List Char) (List Char × Int)
  | [], st => .ok st
  | t :: ts, st =>
    match bufAppend bufferSize st t with
    | .error b => .error b
    | .ok st1 => appendAll bufferSize ts st1

/-- The buffer and the return value of an encoder that ends with the given run. -/
def encoderResult (r : Except (List Char) (List Char × Int)) : List Char × Int :=
  match r with
  | .error b => (b, -1)
  | .ok st => (st.1, 0)

/-- The texts the loop of `getRoomsJSON` appends. -/
def roomPieces (world : World) : List Int → Bool → List (List Char)
  | [], _ => []
  | i :: rest, first =>
    if (world.rooms i).exists_ = false then roomPieces world rest first
    else
      (if first = false then [",".toList] else []) ++
        fmtRoom (world.rooms i) :: roomPieces world rest false

/-- The texts a loop with a separator before every item but item 0 appends. -/
def sepPieces (item : Int → List (List Char)) (l : List Int) : List (List Char) :=
  (l.map (fun i => (if i > 0 then [",".toList] else []) ++ item i)).flatten

/-! ## Specification: corridors and walkable tiles -/

/-- The cells of the L-shaped path from `start` to `end_`: the cells `(x, start.y)` for
`x` between `start.x` and `end_.x`, then the cells `(end_.x, y)` for `y` between
`start.y` and `end_.y`, both ends included. -/
def lPath (start end_ : Point) (x y : Int) : Bool :=
  decide ((y = start.y ∧ min start.x end_.x ≤ x ∧ x ≤ max start.x end_.x) ∨
    (x = end_.x ∧ min start.y end_.y ≤ y ∧ y ≤ max start.y end_.y))

/-- The centre `(x + width/2, y + height/2)` of a room, with the division of C. -/
def roomCentre (r : Room) : Point :=
  { x := r.x + Int.tdiv r.width 2, y := r.y + Int.tdiv r.height 2 }

/-- The corridor record stored for the `k`-th chosen edge. -/
def edgeCorridor (rooms : Int → Room) (k : Int) (e : Edge) : Corridor :=
  { id := k
    start := roomCentre (rooms e.room1)
    end_ := roomCentre (rooms e.room2)
    isTurning :=
      decide ((roomCentre (rooms e.room1)).x ≠ (roomCentre (rooms e.room2)).x) &&
      decide ((roomCentre (rooms e.room1)).y ≠ (roomCentre (rooms e.room2)).y) }

/-- The cell `(p.1, p.2)` lies inside the grid and does not hold `TILE_WALL`. -/
def Walkable (world : World) (p : Int × Int) : Prop :=
  (0 ≤ p.1 ∧ p.1 < world.width ∧ 0 ≤ p.2 ∧ p.2 < world.height) ∧
    world.tiles p.2 p.1 ≠ TILE_WALL

/-- Two cells that share a side. -/
def TileAdj (p q : Int × Int) : Prop :=
  (p.1 = q.1 ∧ (p.2 = q.2 + 1 ∨ q.2 = p.2 + 1)) ∨ (p.2 = q.2 ∧ (p.1 = q.1 + 1 ∨ q.1 = p.1 + 1))

/-- There is a path of 4-adjacent walkable cells from `p` to `q`. -/
def TilePath (world : World) (p q : Int × Int) : Prop :=
  Walkable world p ∧
    Relation.ReflTransGen (fun a b => TileAdj a b ∧ Walkable world a ∧ Walkable world b) p q

/-- The cell `(x, y)` lies inside the rectangle `[r.x, r.x + r.width) × [r.y, r.y + r.height)`
of the room. -/
def InRoom (r : Room) (x y : Int) : Prop :=
  (r.x ≤ x ∧ x < r.x + r.width) ∧ (r.y ≤ y ∧ y < r.y + r.height)

instance instDecidableInRoom (r : Room) (x y : Int) : Decidable (InRoom r x y) := by
  unfold InRoom; infer_instance

/-- The cell `(x, y)` lies inside the rectangle of one of the rooms `0 .. roomCount-1`. -/
def RoomCell (world : World) (x y : Int) : Prop :=
  ∃ i, 0 ≤ i ∧ i < world.roomCount ∧ InRoom (world.rooms i) x y

/-- The corridors and tiles of the Kruskal scan described by the list `F` of the edges
chosen so far, the latest first: every corridor record below the index comes from a
chosen edge, every chosen edge has its record, the grid is the initial grid with some
wall cells carved, and, when all room centres lie inside the grid, the centres of the
two rooms of every chosen edge are joined by a path of walkable cells. -/
structure KCorr (rc : Int) (rooms0 : Int → Room) (tiles0 : Int → Int → Int)
    (st : World × Int) (F : List Edge) : Prop where
  of_edge : ∀ k, 0 ≤ k → k < st.2 → ∃ e ∈ F, st.1.corridors k = edgeCorridor rooms0 k e
  of_corridor : ∀ e ∈ F, ∃ k, 0 ≤ k ∧ k < st.2 ∧ st.1.corridors k = edgeCorridor rooms0 k e
  carved : ∃ C, st.1.tiles = carve st.1.width st.1.height C tiles0
  paths : (∀ i, 0 ≤ i → i < rc →
      0 ≤ (roomCentre (rooms0 i)).x ∧ (roomCentre (rooms0 i)).x < st.1.width ∧
      0 ≤ (roomCentre (rooms0 i)).y ∧ (roomCentre (rooms0 i)).y < st.1.height) →
    ∀ e ∈ F, TilePath st.1
      ((roomCentre (rooms0 e.room1)).x, (roomCentre (rooms0 e.room1)).y)
      ((roomCentre (rooms0 e.room2)).x, (roomCentre (rooms0 e.room2)).y)

/-! ## Concrete inputs -/

/-- A block of memory with arbitrary prior contents, as `malloc` may return it. -/
def staleMemory : World :=
  { tiles := fun _ _ => 7
    rooms := fun _ => { id := 9, x := 9, y := 9, width := 9, height := 9, exists_ := true }
    corridors := fun _ => { id := 4, start := { x := 1, y := 2 }, end_ := { x := 3, y := 4 },
                            isTurning := true }
    roomCount := 77
    corridorCount := 5
    connections := fun _ => [3, 60]
    disjointSet := { parent := fun _ => 0, rank := fun _ => 5, count := 12 }
    width := 3
    height := 2
    seed := 11
    initialized := true }

/-- Three 3x3 rooms in a row on a 20x10 grid, not yet connected. -/
def threeRooms : World :=
  { staleMemory with
    rooms := fun i => { id := i, x := 1 + 6 * i, y := 1, width := 3, height := 3,
                        exists_ := decide (0 ≤ i ∧ i < 3) }
    roomCount := 3
    corridorCount := 0
    width := 20
    height := 10 }

/-- Rooms 0, 1, 2 joined in a chain 0 - 1 - 2. -/
def chainWorld : World :=
  { threeRooms with
    connections := fun i => if i = 0 then [1] else if i = 1 then [2, 0] else if i = 2 then [1]
      else [] }

/-- A forest of two trees: slot 1 hangs below slot 0, slot 2 below slot 3; every other
slot is a root. -/
def twoTrees : DisjointSet :=
  match unionSets (initDisjointSet { parent := fun _ => 0, rank := fun _ => 0, count := 0 } 4)
      0 1 with
  | none => initDisjointSet { parent := fun _ => 0, rank := fun _ => 0, count := 0 } 4
  | some ds =>
    match unionSets ds 3 2 with
    | none => ds
    | some ds2 => ds2

/-- A 3 × 3 room at (1, 1). -/
def roomLeft : Room := { id := 0, x := 1, y := 1, width := 3, height := 3, exists_ := true }

/-- A 3 × 3 room at (4, 2): its left edge `x = 4` is the right edge `1 + 3` of
`roomLeft`. -/
def roomRight : Room := { id := 1, x := 4, y := 2, width := 3, height := 3, exists_ := true }

/-- A 3 × 2 world with two rooms and one corridor. -/
def smallWorld : World :=
  { staleMemory with
    tiles := fun y x => if y = 0 then TILE_ROOM else if x = 1 then TILE_CORRIDOR else TILE_WALL
    rooms := fun i => { id := i, x := 2 * i, y := 0, width := 1, height := 1,
                        exists_ := decide (0 ≤ i ∧ i < 2) }
    corridors := fun i => { id := i, start := { x := 0, y := 0 }, end_ := { x := 2, y := 0 },
                            isTurning := false }
    roomCount := 2
    corridorCount := 1
    width := 3
    height := 2
    seed := -7 }

/-- Three rooms of negative or zero width that do not overlap and have the same centre
`(5, 0)`. -/
def sharedCentre : World :=
  { staleMemory with
    rooms := fun i =>
      if i = 0 then { id := 0, x := 10, y := 0, width := -10, height := 0, exists_ := true }
      else if i = 1 then { id := 1, x := 5, y := 0, width := 0, height := 0, exists_ := true }
      else if i = 2 then
        { id := 2, x := 20, y := 0, width := -30, height := 0, exists_ := true }
      else { id := i, x := 0, y := 0, width := 0, height := 0, exists_ := false }
    roomCount := 3
    corridorCount := 0
    width := 20
    height := 10 }

/-- A 6 x 7 grid without rooms. -/
def roomless : World :=
  { staleMemory with roomCount := 0, corridorCount := 0, width := 6, height := 7 }

/-- A room of size 0 at `(x, 0)`. -/
def pointRoom (x : Int) : Room :=
  { id := 0, x := x, y := 0, width := 0, height := 0, exists_ := true }

/-! # The disjoint-set forest -/

theorem inRange_iff (x : Int) : InRange x ↔ 0 ≤ x ∧ x < 50 := Iff.rfl

theorem rankBelow_lt (ds : DisjointSet) (x : Int) (hx : InRange x) : rankBelow ds x < 50 := by
  unfold rankBelow
  have hsub : (Finset.Ico (0 : Int) MAX_ROOMS).filter (fun y => ds.rank y < ds.rank x)
      ⊆ (Finset.Ico (0 : Int) MAX_ROOMS).erase x := by
    intro y hy
    rw [Finset.mem_filter] at hy
    rw [Finset.mem_erase]
    refine ⟨?_, hy.1⟩
    rintro rfl
    exact lt_irrefl _ hy.2
  have hcard := Finset.card_le_card hsub
  have hmem : x ∈ Finset.Ico (0 : Int) MAX_ROOMS := by
    rw [Finset.mem_Ico]; exact hx
  rw [Finset.card_erase_of_mem hmem] at hcard
  have : (Finset.Ico (0 : Int) MAX_ROOMS).card = 50 := by
    simp [MAX_ROOMS]
  omega

theorem rankBelow_step (ds : DisjointSet) (x y : Int) (hx : InRange x)
    (h : ds.rank x < ds.rank y) : rankBelow ds x < rankBelow ds y := by
  unfold rankBelow
  apply Finset.card_lt_card
  rw [Finset.ssubset_iff_of_subset]
  · refine ⟨x, ?_, ?_⟩
    · rw [Finset.mem_filter, Finset.mem_Ico]; exact ⟨hx, h⟩
    · rw [Finset.mem_filter]; intro hh; exact lt_irrefl _ hh.2
  · intro z hz
    rw [Finset.mem_filter] at hz ⊢
    exact ⟨hz.1, lt_trans hz.2 h⟩

theorem DSInv.iterate_range {ds : DisjointSet} (h : DSInv ds) (n : Nat) (x : Int)
    (hx : InRange x) : InRange (ds.parent^[n] x) := by
  induction n generalizing x with
  | zero => simpa using hx
  | succ n ih => rw [Function.iterate_succ_apply]; exact ih _ (h.parent_range x hx)

theorem DSInv.climb {ds : DisjointSet} (h : DSInv ds) (n : Nat) (x : Int) (hx : InRange x) :
    ds.parent (ds.parent^[n] x) = ds.parent^[n] x ∨
      n + rankBelow ds x ≤ rankBelow ds (ds.parent^[n] x) := by
  induction n generalizing x with
  | zero => right; simp
  | succ n ih =>
    rw [Function.iterate_succ_apply]
    by_cases hp : ds.parent x = x
    · left; rw [hp, Function.iterate_fixed hp, hp]
    · rcases ih (ds.parent x) (h.parent_range x hx) with h1 | h1
      · left; exact h1
      · right
        have := rankBelow_step ds x (ds.parent x) hx (h.rank_lt x hx hp)
        omega

/-- After 49 parent steps every chain of a well-formed forest has reached its root. -/
theorem DSInv.root_at {ds : DisjointSet} (h : DSInv ds) (x : Int) (hx : InRange x) :
    ds.parent (ds.parent^[49] x) = ds.parent^[49] x := by
  by_contra hne
  have h50 := h.climb 50 x hx
  have hfix : ¬ ds.parent (ds.parent^[50] x) = ds.parent^[50] x → False := by
    intro hn
    rcases h50 with h1 | h1
    · exact hn h1
    · have := rankBelow_lt ds _ (h.iterate_range 50 x hx)
      omega
  -- the 50th iterate is the parent of the 49th, whose rank position is at least 49
  rcases h.climb 49 x hx with h1 | h1
  · exact hne h1
  · have hr := h.iterate_range 49 x hx
    have hstep := rankBelow_step ds _ _ hr (h.rank_lt _ hr hne)
    have hb := rankBelow_lt ds _ (h.parent_range _ hr)
    omega

theorem iterate_of_fixed_le {p : Int → Int} {x : Int} {n m : Nat}
    (hfix : p (p^[n] x) = p^[n] x) (hnm : n ≤ m) : p^[m] x = p^[n] x := by
  obtain ⟨k, rfl⟩ := Nat.exists_eq_add_of_le hnm
  rw [Nat.add_comm, Function.iterate_add_apply, Function.iterate_fixed hfix]

theorem DSInv.rootOf_eq49 {ds : DisjointSet} (h : DSInv ds) (x : Int) (hx : InRange x) :
    rootOf ds x = ds.parent^[49] x := by
  unfold rootOf
  exact iterate_of_fixed_le (h.root_at x hx) (by decide)

theorem DSInv.rootOf_fixed {ds : DisjointSet} (h : DSInv ds) (x : Int) (hx : InRange x) :
    ds.parent (rootOf ds x) = rootOf ds x := by
  rw [h.rootOf_eq49 x hx]; exact h.root_at x hx

theorem DSInv.rootOf_range {ds : DisjointSet} (h : DSInv ds) (x : Int) (hx : InRange x) :
    InRange (rootOf ds x) := h.iterate_range _ x hx

/-- Any root met along the parent chain of `x` is the representative of `x`. -/
theorem DSInv.rootOf_unique {ds : DisjointSet} (h : DSInv ds) (x : Int) (hx : InRange x)
    (n : Nat) (hfix : ds.parent (ds.parent^[n] x) = ds.parent^[n] x) :
    rootOf ds x = ds.parent^[n] x := by
  rw [h.rootOf_eq49 x hx]
  rcases Nat.le_total n 49 with hle | hle
  · exact iterate_of_fixed_le hfix hle
  · exact (iterate_of_fixed_le (h.root_at x hx) hle).symm

theorem rootOf_of_fixed {ds : DisjointSet} {x : Int} (hfix : ds.parent x = x) :
    rootOf ds x = x := Function.iterate_fixed hfix _

theorem DSInv.rootOf_parent {ds : DisjointSet} (h : DSInv ds) (x : Int) (hx : InRange x) :
    rootOf ds (ds.parent x) = rootOf ds x := by
  rw [h.rootOf_eq49 _ (h.parent_range x hx), h.rootOf_eq49 x hx,
    ← Function.iterate_succ_apply]
  exact iterate_of_fixed_le (h.root_at x hx) (by decide)

theorem DSInv.rootOf_idem {ds : DisjointSet} (h : DSInv ds) (x : Int) (hx : InRange x) :
    rootOf ds (rootOf ds x) = rootOf ds x := rootOf_of_fixed (h.rootOf_fixed x hx)

theorem DSInv.rank_le_iterate {ds : DisjointSet} (h : DSInv ds) (n : Nat) (x : Int)
    (hx : InRange x) : ds.rank x ≤ ds.rank (ds.parent^[n] x) := by
  induction n generalizing x with
  | zero => simp
  | succ n ih =>
    rw [Function.iterate_succ_apply]
    by_cases hp : ds.parent x = x
    · rw [hp]; exact ih x hx
    · exact le_trans (le_of_lt (h.rank_lt x hx hp)) (ih _ (h.parent_range x hx))

theorem DSInv.rank_lt_root {ds : DisjointSet} (h : DSInv ds) (x : Int) (hx : InRange x)
    (hp : ds.parent x ≠ x) : ds.rank x < ds.rank (rootOf ds x) := by
  rw [← h.rootOf_parent x hx]
  exact lt_of_lt_of_le (h.rank_lt x hx hp) (h.rank_le_iterate _ _ (h.parent_range x hx))

/-- Transfer of representatives between two forests: if every root reached in `ds` along
the chain of `y` is mapped by `f` to a root that `ds2` reaches from `y`, the
representatives correspond. -/
theorem rootOf_transfer {ds ds2 : DisjointSet} (h : DSInv ds) (h2 : DSInv ds2) (f : Int → Int)
    (hroot : ∀ r, InRange r → ds.parent r = r →
      ∃ m, ds2.parent (ds2.parent^[m] r) = ds2.parent^[m] r ∧ ds2.parent^[m] r = f r)
    (hstep : ∀ y, InRange y → ds.parent y ≠ y →
      ∃ m, ds2.parent^[m] y = ds.parent y ∨
        (ds2.parent (ds2.parent^[m] y) = ds2.parent^[m] y ∧ ds2.parent^[m] y = f (rootOf ds y)))
    (y : Int) (hy : InRange y) : rootOf ds2 y = f (rootOf ds y) := by
  have key : ∀ n y, InRange y → ds.parent (ds.parent^[n] y) = ds.parent^[n] y →
      ∃ m, ds2.parent (ds2.parent^[m] y) = ds2.parent^[m] y ∧
        ds2.parent^[m] y = f (ds.parent^[n] y) := by
    intro n
    induction n with
    | zero => intro y hy hfix; exact hroot y hy hfix
    | succ n ih =>
      intro y hy hfix
      rw [Function.iterate_succ_apply] at hfix ⊢
      by_cases hp : ds.parent y = y
      · rw [hp] at hfix ⊢; exact ih y hy hfix
      · obtain ⟨m, hm⟩ := hstep y hy hp
        rcases hm with hm | ⟨hm1, hm2⟩
        · obtain ⟨k, hk1, hk2⟩ := ih (ds.parent y) (h.parent_range y hy) hfix
          refine ⟨k + m, ?_, ?_⟩
          · rw [Function.iterate_add_apply, hm]; exact hk1
          · rw [Function.iterate_add_apply, hm]; exact hk2
        · refine ⟨m, hm1, ?_⟩
          rw [hm2, ← h.rootOf_parent y hy,
            h.rootOf_unique (ds.parent y) (h.parent_range y hy) n hfix]
  obtain ⟨m, hm1, hm2⟩ := key 49 y hy (h.root_at y hy)
  rw [h2.rootOf_unique y hy m hm1, hm2, h.rootOf_eq49 y hy]

theorem DSInv.fixed_iff_rootOf {ds : DisjointSet} (h : DSInv ds) (x : Int) (hx : InRange x) :
    ds.parent x = x ↔ rootOf ds x = x := by
  constructor
  · exact rootOf_of_fixed
  · intro hr
    have := h.rootOf_fixed x hx
    rwa [hr] at this

/-- Path compression of one slot: pointing `x` directly at its representative keeps the
forest well formed and keeps every representative. -/
theorem DSInv.compress {ds : DisjointSet} (h : DSInv ds) (ds2 : DisjointSet) (x : Int)
    (hx : InRange x)
    (hp : ds2.parent = Function.update ds.parent x (rootOf ds x)) (hr : ds2.rank = ds.rank) :
    DSInv ds2 ∧ ∀ y, InRange y → rootOf ds2 y = rootOf ds y := by
  have hrootfix : ds2.parent (rootOf ds x) = rootOf ds x := by
    rw [hp]
    by_cases hxr : rootOf ds x = x
    · rw [hxr, Function.update_same]
    · rw [Function.update_noteq hxr]; exact h.rootOf_fixed x hx
  have hinv : DSInv ds2 := by
    constructor
    · intro z hz
      rw [hp]
      by_cases hzx : z = x
      · subst hzx; rw [Function.update_same]; exact h.rootOf_range z hz
      · rw [Function.update_noteq hzx]; exact h.parent_range z hz
    · intro z hz hne
      rw [hr]
      rw [hp] at hne ⊢
      by_cases hzx : z = x
      · subst hzx
        rw [Function.update_same] at hne ⊢
        apply h.rank_lt_root z hz
        intro hfix
        exact hne (rootOf_of_fixed hfix)
      · rw [Function.update_noteq hzx] at hne ⊢
        exact h.rank_lt z hz hne
  refine ⟨hinv, ?_⟩
  intro y hy
  refine rootOf_transfer h hinv id ?_ ?_ y hy
  · intro r hrr hfix
    refine ⟨0, ?_, rfl⟩
    simp only [Function.iterate_zero, id_eq]
    rw [hp]
    by_cases hrx : r = x
    · subst hrx; rw [Function.update_same]; exact rootOf_of_fixed hfix
    · rw [Function.update_noteq hrx]; exact hfix
  · intro z hz hne
    refine ⟨1, ?_⟩
    simp only [Function.iterate_one, id_eq]
    by_cases hzx : z = x
    · right
      subst hzx
      have : ds2.parent z = rootOf ds z := by rw [hp, Function.update_same]
      rw [this]
      exact ⟨hrootfix, rfl⟩
    · left
      rw [hp, Function.update_noteq hzx]

theorem findSet_eq (ds : DisjointSet) (x : Int) : findSet ds x = findSetFuel 51 ds x := rfl

theorem findSetFuel_out (n : Nat) (ds : DisjointSet) (x : Int) (hx : ¬ InRange x) :
    findSetFuel (n + 1) ds x = some (ds, -1) := by
  unfold findSetFuel
  have : x < 0 ∨ x ≥ MAX_ROOMS := by
    unfold InRange at hx; omega
  simp [this]

/-- In a well-formed forest `findSet` returns the representative once the fuel covers
the depth of `x`; the forest stays well formed, representatives, ranks and the counter
are unchanged. -/
theorem findSetFuel_spec (n : Nat) (ds : DisjointSet) (h : DSInv ds) (x : Int)
    (hx : InRange x) (hfix : ds.parent (ds.parent^[n] x) = ds.parent^[n] x) :
    ∃ ds2, findSetFuel (n + 1) ds x = some (ds2, rootOf ds x) ∧ DSInv ds2 ∧
      ds2.rank = ds.rank ∧ ds2.count = ds.count ∧
      (∀ y, InRange y → rootOf ds2 y = rootOf ds y) ∧
      (∀ y, ¬ InRange y → ds2.parent y = ds.parent y) := by
  induction n generalizing x with
  | zero =>
    simp only [Function.iterate_zero, id_eq] at hfix
    refine ⟨ds, ?_, h, rfl, rfl, fun _ _ => rfl, fun _ _ => rfl⟩
    unfold findSetFuel
    have hx2 : ¬ (x < 0 ∨ x ≥ MAX_ROOMS) := by unfold InRange at hx; omega
    simp [hx2, hfix, rootOf_of_fixed hfix]
  | succ n ih =>
    rw [Function.iterate_succ_apply] at hfix
    have hx2 : ¬ (x < 0 ∨ x ≥ MAX_ROOMS) := by unfold InRange at hx; omega
    by_cases hp : ds.parent x = x
    · refine ⟨ds, ?_, h, rfl, rfl, fun _ _ => rfl, fun _ _ => rfl⟩
      unfold findSetFuel
      simp [hx2, hp, rootOf_of_fixed hp]
    · obtain ⟨ds1, hcall, hinv1, hrank1, hcount1, hroot1, hout1⟩ :=
        ih (ds.parent x) (h.parent_range x hx) hfix
      rw [h.rootOf_parent x hx] at hcall
      have hrx : rootOf ds1 x = rootOf ds x := hroot1 x hx
      obtain ⟨hinv2, hroot2⟩ := hinv1.compress
          { ds1 with parent := Function.update ds1.parent x (rootOf ds x) } x hx
          (by rw [hrx]) rfl
      refine ⟨{ ds1 with parent := Function.update ds1.parent x (rootOf ds x) }, ?_, hinv2,
        hrank1, hcount1, ?_, ?_⟩
      · rw [findSetFuel]
        simp only [hx2, if_false, hp, ne_eq, not_false_eq_true, if_true, hcall,
          Function.update_same]
      · intro y hy; rw [hroot2 y hy, hroot1 y hy]
      · intro y hy
        have hyx : y ≠ x := by rintro rfl; exact hy hx
        simp only [Function.update_noteq hyx]
        exact hout1 y hy

theorem findSet_spec (ds : DisjointSet) (h : DSInv ds) (x : Int) (hx : InRange x) :
    ∃ ds2, findSet ds x = some (ds2, rootOf ds x) ∧ DSInv ds2 ∧
      ds2.rank = ds.rank ∧ ds2.count = ds.count ∧
      (∀ y, InRange y → rootOf ds2 y = rootOf ds y) ∧
      (∀ y, ¬ InRange y → ds2.parent y = ds.parent y) := by
  rw [findSet_eq]
  apply findSetFuel_spec 50 ds h x hx
  have := h.rootOf_fixed x hx
  unfold rootOf at this
  exact this

/-- Linking the root `a` below the root `b`. -/
theorem DSInv.link {ds : DisjointSet} (h : DSInv ds) (ds2 : DisjointSet) (a b : Int)
    (ha : InRange a)
    (hb : InRange b) (hab : a ≠ b) (hfa : ds.parent a = a) (hfb : ds.parent b = b)
    (hp : ds2.parent = Function.update ds.parent a b)
    (hr : ∀ z, z ≠ b → ds2.rank z = ds.rank z) (hrb : ds.rank b ≤ ds2.rank b)
    (hrab : ds.rank a < ds2.rank b) :
    DSInv ds2 ∧ ∀ y, InRange y → rootOf ds2 y = if rootOf ds y = a then b else rootOf ds y := by
  have hinv : DSInv ds2 := by
    constructor
    · intro z hz
      rw [hp]
      by_cases hza : z = a
      · subst hza; rw [Function.update_same]; exact hb
      · rw [Function.update_noteq hza]; exact h.parent_range z hz
    · intro z hz hne
      rw [hp] at hne ⊢
      by_cases hza : z = a
      · subst hza
        rw [Function.update_same, hr z hab]
        exact hrab
      · rw [Function.update_noteq hza] at hne ⊢
        have hzb : z ≠ b := by rintro rfl; exact hne hfb
        rw [hr z hzb]
        have h1 := h.rank_lt z hz hne
        by_cases hpb : ds.parent z = b
        · rw [hpb] at h1 ⊢; omega
        · rw [hr _ hpb]; exact h1
  refine ⟨hinv, ?_⟩
  intro y hy
  refine rootOf_transfer h hinv (fun r => if r = a then b else r) ?_ ?_ y hy
  · intro r _ hfix
    by_cases hra : r = a
    · subst hra
      refine ⟨1, ?_, ?_⟩
      · simp only [Function.iterate_one, hp, Function.update_same,
          Function.update_noteq (Ne.symm hab), hfb]
      · simp only [Function.iterate_one, hp, Function.update_same, if_true]
    · refine ⟨0, ?_, ?_⟩
      · simp only [Function.iterate_zero, id_eq, hp, Function.update_noteq hra, hfix]
      · simp only [Function.iterate_zero, id_eq, hra, if_false]
  · intro z _ hne
    refine ⟨1, Or.inl ?_⟩
    have hza : z ≠ a := by rintro rfl; exact hne hfa
    simp only [Function.iterate_one, hp, Function.update_noteq hza]

/-- The effect of `unionSets` on a well-formed forest: the call returns, the forest stays
well formed; when the representatives differ one of them is put below the other and the
counter drops by one, otherwise representatives and counter are unchanged. -/
theorem unionSets_spec (ds : DisjointSet) (h : DSInv ds) (x y : Int) (hx : InRange x)
    (hy : InRange y) :
    ∃ ds2, unionSets ds x y = some ds2 ∧ DSInv ds2 ∧
      ((rootOf ds x = rootOf ds y ∧ ds2.count = ds.count ∧
          ∀ z, InRange z → rootOf ds2 z = rootOf ds z) ∨
       (rootOf ds x ≠ rootOf ds y ∧ ds2.count = ds.count - 1 ∧
          ∃ a b, ((a = rootOf ds x ∧ b = rootOf ds y) ∨ (a = rootOf ds y ∧ b = rootOf ds x)) ∧
            ∀ z, InRange z → rootOf ds2 z = if rootOf ds z = a then b else rootOf ds z)) := by
  obtain ⟨ds1, hf1, hinv1, hrank1, hcount1, hroot1, _⟩ := findSet_spec ds h x hx
  obtain ⟨ds2, hf2, hinv2, hrank2, hcount2, hroot2, _⟩ := findSet_spec ds1 hinv1 y hy
  rw [hroot1 y hy] at hf2
  have hRx := h.rootOf_range x hx
  have hRy := h.rootOf_range y hy
  have hroot12 : ∀ z, InRange z → rootOf ds2 z = rootOf ds z := fun z hz => by
    rw [hroot2 z hz, hroot1 z hz]
  have hfixx : ds2.parent (rootOf ds x) = rootOf ds x := by
    rw [hinv2.fixed_iff_rootOf _ hRx, hroot12 _ hRx]; exact h.rootOf_idem x hx
  have hfixy : ds2.parent (rootOf ds y) = rootOf ds y := by
    rw [hinv2.fixed_iff_rootOf _ hRy, hroot12 _ hRy]; exact h.rootOf_idem y hy
  have hneg : ¬ (rootOf ds x < 0 ∨ rootOf ds y < 0) := by
    have := hRx.1; have := hRy.1; omega
  unfold unionSets
  simp only [hf1, hf2, hneg, if_false]
  by_cases heq : rootOf ds x = rootOf ds y
  · refine ⟨ds2, by simp [heq], hinv2, Or.inl ⟨heq, by rw [hcount2, hcount1], hroot12⟩⟩
  · simp only [heq, if_false]
    by_cases hlt : ds2.rank (rootOf ds x) < ds2.rank (rootOf ds y)
    · simp only [hlt, if_true]
      obtain ⟨hinv3, hroot3⟩ := hinv2.link
        { parent := Function.update ds2.parent (rootOf ds x) (rootOf ds y),
          rank := ds2.rank, count := ds2.count - 1 }
        (rootOf ds x) (rootOf ds y) hRx hRy heq hfixx hfixy rfl (fun _ _ => rfl)
        (le_refl _) hlt
      refine ⟨_, rfl, hinv3, Or.inr ⟨heq, ?_, rootOf ds x, rootOf ds y, Or.inl ⟨rfl, rfl⟩, ?_⟩⟩
      · show ds2.count - 1 = ds.count - 1
        rw [hcount2, hcount1]
      · intro z hz
        rw [hroot3 z hz, hroot12 z hz]
    · simp only [hlt, if_false]
      by_cases hgt : ds2.rank (rootOf ds x) > ds2.rank (rootOf ds y)
      · simp only [hgt, if_true]
        obtain ⟨hinv3, hroot3⟩ := hinv2.link
          { parent := Function.update ds2.parent (rootOf ds y) (rootOf ds x),
            rank := ds2.rank, count := ds2.count - 1 }
          (rootOf ds y) (rootOf ds x) hRy hRx (Ne.symm heq) hfixy hfixx rfl (fun _ _ => rfl)
          (le_refl _) hgt
        refine ⟨_, rfl, hinv3,
          Or.inr ⟨heq, ?_, rootOf ds y, rootOf ds x, Or.inr ⟨rfl, rfl⟩, ?_⟩⟩
        · show ds2.count - 1 = ds.count - 1
          rw [hcount2, hcount1]
        · intro z hz
          rw [hroot3 z hz, hroot12 z hz]
      · simp only [hgt, if_false]
        have htie : ds2.rank (rootOf ds x) = ds2.rank (rootOf ds y) := by omega
        obtain ⟨hinv3, hroot3⟩ := hinv2.link
          { parent := Function.update ds2.parent (rootOf ds y) (rootOf ds x),
            rank := Function.update ds2.rank (rootOf ds x) (ds2.rank (rootOf ds x) + 1),
            count := ds2.count - 1 }
          (rootOf ds y) (rootOf ds x) hRy hRx (Ne.symm heq) hfixy hfixx rfl
          (fun z hz => Function.update_noteq hz _ _)
          (by simp only [Function.update_same]; omega)
          (by simp only [Function.update_same]; omega)
        refine ⟨_, rfl, hinv3,
          Or.inr ⟨heq, ?_, rootOf ds y, rootOf ds x, Or.inr ⟨rfl, rfl⟩, ?_⟩⟩
        · show ds2.count - 1 = ds.count - 1
          rw [hcount2, hcount1]
        · intro z hz
          rw [hroot3 z hz, hroot12 z hz]

theorem isConnected_spec (ds : DisjointSet) (h : DSInv ds) (x y : Int) (hx : InRange x)
    (hy : InRange y) :
    ∃ ds2, isConnected ds x y = some (ds2, decide (rootOf ds x = rootOf ds y)) ∧ DSInv ds2 ∧
      ds2.count = ds.count ∧ ∀ z, InRange z → rootOf ds2 z = rootOf ds z := by
  obtain ⟨ds1, hf1, hinv1, _, hcount1, hroot1, _⟩ := findSet_spec ds h x hx
  obtain ⟨ds2, hf2, hinv2, _, hcount2, hroot2, _⟩ := findSet_spec ds1 hinv1 y hy
  rw [hroot1 y hy] at hf2
  have hneg : ¬ (rootOf ds x < 0 ∨ rootOf ds y < 0) := by
    have := (h.rootOf_range x hx).1; have := (h.rootOf_range y hy).1; omega
  refine ⟨ds2, ?_, hinv2, by rw [hcount2, hcount1], fun z hz => by rw [hroot2 z hz, hroot1 z hz]⟩
  unfold isConnected
  simp only [hf1, hf2, hneg, if_false]

/-! # Loops and frame properties -/

theorem mem_intRange (lo hi j : Int) : j ∈ intRange lo hi ↔ lo ≤ j ∧ j < hi := by
  unfold intRange
  simp only [List.mem_map, List.mem_range]
  constructor
  · rintro ⟨k, hk, rfl⟩
    omega
  · rintro ⟨h1, h2⟩
    refine ⟨(j - lo).toNat, ?_, ?_⟩ <;> omega

theorem intRange_nodup (lo hi : Int) : (intRange lo hi).Nodup := by
  unfold intRange
  apply List.Nodup.map _ (List.nodup_range _)
  intro a b h
  simpa using h

theorem initDisjointSet_loop (l : List Int) (ds : DisjointSet) :
    let r := l.foldl (fun d i => { d with parent := Function.update d.parent i i,
                                          rank := Function.update d.rank i 0 }) ds
    (∀ j, r.parent j = if j ∈ l then j else ds.parent j) ∧
    (∀ j, r.rank j = if j ∈ l then 0 else ds.rank j) ∧ r.count = ds.count := by
  induction l generalizing ds with
  | nil => simp
  | cons a l ih =>
    simp only [List.foldl_cons]
    obtain ⟨h1, h2, h3⟩ := ih { ds with parent := Function.update ds.parent a a,
                                        rank := Function.update ds.rank a 0 }
    refine ⟨?_, ?_, h3⟩
    · intro j
      rw [h1 j]
      by_cases hj : j ∈ l
      · simp [hj]
      · by_cases hja : j = a
        · subst hja; simp [hj]
        · simp [hj, hja, Function.update_noteq hja]
    · intro j
      rw [h2 j]
      by_cases hj : j ∈ l
      · simp [hj]
      · by_cases hja : j = a
        · subst hja; simp [hj]
        · simp [hj, hja, Function.update_noteq hja]

theorem initDisjointSet_parent (ds : DisjointSet) (count j : Int) :
    (initDisjointSet ds count).parent j = if InRange j then j else ds.parent j := by
  unfold initDisjointSet
  have := (initDisjointSet_loop (intRange 0 MAX_ROOMS) ds).1 j
  simp only [mem_intRange] at this
  exact this

theorem initDisjointSet_rank (ds : DisjointSet) (count j : Int) :
    (initDisjointSet ds count).rank j = if InRange j then 0 else ds.rank j := by
  unfold initDisjointSet
  have := (initDisjointSet_loop (intRange 0 MAX_ROOMS) ds).2.1 j
  simp only [mem_intRange] at this
  exact this

theorem initDisjointSet_count (ds : DisjointSet) (count : Int) :
    (initDisjointSet ds count).count =
      if count < 0 then 0 else if count > MAX_ROOMS then MAX_ROOMS else count := by
  unfold initDisjointSet
  simp only
  split_ifs <;> first | rfl | (simp only [MAX_ROOMS] at *; omega)

theorem initDisjointSet_inv (ds : DisjointSet) (count : Int) :
    DSInv (initDisjointSet ds count) := by
  constructor
  · intro x hx
    rw [initDisjointSet_parent, if_pos hx]; exact hx
  · intro x hx hne
    rw [initDisjointSet_parent, if_pos hx] at hne
    exact absurd rfl hne

theorem initDisjointSet_rootOf (ds : DisjointSet) (count x : Int) (hx : InRange x) :
    rootOf (initDisjointSet ds count) x = x :=
  rootOf_of_fixed (by rw [initDisjointSet_parent, if_pos hx])

theorem storeTile_frame (world : World) (x y v : Int) :
    ∃ t, storeTile world x y v = { world with tiles := t } := ⟨_, rfl⟩

theorem carveCell_frame (world : World) (x y : Int) :
    ∃ t, carveCell world x y = { world with tiles := t } := by
  unfold carveCell
  split_ifs
  · exact ⟨_, rfl⟩
  · exact ⟨world.tiles, rfl⟩
  · exact ⟨world.tiles, rfl⟩

theorem drawCorridorX_frame (stepX endX : Int) (n : Nat) (world : World) (current : Point) :
    ∃ t, (drawCorridorX stepX endX n world current).1 = { world with tiles := t } := by
  induction n generalizing world current with
  | zero => exact ⟨world.tiles, rfl⟩
  | succ n ih =>
    unfold drawCorridorX
    split_ifs
    · obtain ⟨t1, h1⟩ := carveCell_frame world current.x current.y
      obtain ⟨t2, h2⟩ := ih (carveCell world current.x current.y)
        { current with x := current.x + stepX }
      rw [h2, h1]
      exact ⟨t2, rfl⟩
    · exact ⟨world.tiles, rfl⟩

theorem drawCorridorY_frame (stepY endY : Int) (n : Nat) (world : World) (current : Point) :
    ∃ t, (drawCorridorY stepY endY n world current).1 = { world with tiles := t } := by
  induction n generalizing world current with
  | zero => exact ⟨world.tiles, rfl⟩
  | succ n ih =>
    unfold drawCorridorY
    split_ifs
    · obtain ⟨t1, h1⟩ := carveCell_frame world current.x current.y
      obtain ⟨t2, h2⟩ := ih (carveCell world current.x current.y)
        { current with y := current.y + stepY }
      rw [h2, h1]
      exact ⟨t2, rfl⟩
    · exact ⟨world.tiles, rfl⟩

/-- The rasteriser `drawCorridor` writes tiles only. -/
theorem drawCorridor_frame (world : World) (start end_ : Point) :
    ∃ t, drawCorridor world start end_ = { world with tiles := t } := by
  unfold drawCorridor
  simp only
  obtain ⟨t1, h1⟩ := drawCorridorX_frame (if end_.x > start.x then 1 else -1) end_.x
    (end_.x - start.x).natAbs world start
  generalize drawCorridorX (if end_.x > start.x then 1 else -1) end_.x
    (end_.x - start.x).natAbs world start = r1 at h1
  obtain ⟨w1, c1⟩ := r1
  simp only at h1 ⊢
  obtain ⟨t2, h2⟩ := drawCorridorY_frame (if end_.y > c1.y then 1 else -1) end_.y
    (end_.y - c1.y).natAbs w1 c1
  generalize drawCorridorY (if end_.y > c1.y then 1 else -1) end_.y
    (end_.y - c1.y).natAbs w1 c1 = r2 at h2
  obtain ⟨w2, c2⟩ := r2
  simp only at h2 ⊢
  obtain ⟨t3, h3⟩ := carveCell_frame w2 end_.x end_.y
  rw [h3, h2, h1]
  exact ⟨t3, rfl⟩

theorem paintRoom_frame (world : World) (x y w h : Int) :
    ∃ t, paintRoom world x y w h = { world with tiles := t } := by
  unfold paintRoom
  have inner : ∀ (l : List Int) (ry : Int) (wd : World),
      ∃ t, l.foldl (fun wd2 rx =>
        if isValidPosition wd2 rx ry then storeTile wd2 rx ry TILE_ROOM else wd2) wd
        = { wd with tiles := t } := by
    intro l ry
    induction l with
    | nil => intro wd; exact ⟨wd.tiles, rfl⟩
    | cons a l ih =>
      intro wd
      simp only [List.foldl_cons]
      split_ifs
      · obtain ⟨t, ht⟩ := ih (storeTile wd a ry TILE_ROOM)
        rw [ht]; exact ⟨t, rfl⟩
      · exact ih wd
  generalize intRange y (y + h) = ly
  induction ly generalizing world with
  | nil => exact ⟨world.tiles, rfl⟩
  | cons a l ih =>
    simp only [List.foldl_cons]
    obtain ⟨t1, h1⟩ := inner (intRange x (x + w)) a world
    rw [h1]
    obtain ⟨t2, h2⟩ := ih { world with tiles := t1 }
    rw [h2]; exact ⟨t2, rfl⟩

@[simp] theorem drawCorridor_rooms (world : World) (start end_ : Point) :
    (drawCorridor world start end_).rooms = world.rooms := by
  obtain ⟨t, ht⟩ := drawCorridor_frame world start end_
  rw [ht]

@[simp] theorem drawCorridor_corridors (world : World) (start end_ : Point) :
    (drawCorridor world start end_).corridors = world.corridors := by
  obtain ⟨t, ht⟩ := drawCorridor_frame world start end_
  rw [ht]

@[simp] theorem drawCorridor_roomCount (world : World) (start end_ : Point) :
    (drawCorridor world start end_).roomCount = world.roomCount := by
  obtain ⟨t, ht⟩ := drawCorridor_frame world start end_
  rw [ht]

@[simp] theorem drawCorridor_corridorCount (world : World) (start end_ : Point) :
    (drawCorridor world start end_).corridorCount = world.corridorCount := by
  obtain ⟨t, ht⟩ := drawCorridor_frame world start end_
  rw [ht]

@[simp] theorem drawCorridor_connections (world : World) (start end_ : Point) :
    (drawCorridor world start end_).connections = world.connections := by
  obtain ⟨t, ht⟩ := drawCorridor_frame world start end_
  rw [ht]

@[simp] theorem drawCorridor_disjointSet (world : World) (start end_ : Point) :
    (drawCorridor world start end_).disjointSet = world.disjointSet := by
  obtain ⟨t, ht⟩ := drawCorridor_frame world start end_
  rw [ht]

@[simp] theorem drawCorridor_width (world : World) (start end_ : Point) :
    (drawCorridor world start end_).width = world.width := by
  obtain ⟨t, ht⟩ := drawCorridor_frame world start end_
  rw [ht]

@[simp] theorem drawCorridor_height (world : World) (start end_ : Point) :
    (drawCorridor world start end_).height = world.height := by
  obtain ⟨t, ht⟩ := drawCorridor_frame world start end_
  rw [ht]

@[simp] theorem drawCorridor_seed (world : World) (start end_ : Point) :
    (drawCorridor world start end_).seed = world.seed := by
  obtain ⟨t, ht⟩ := drawCorridor_frame world start end_
  rw [ht]

@[simp] theorem drawCorridor_initialized (world : World) (start end_ : Point) :
    (drawCorridor world start end_).initialized = world.initialized := by
  obtain ⟨t, ht⟩ := drawCorridor_frame world start end_
  rw [ht]

@[simp] theorem paintRoom_rooms (world : World) (x y w h : Int) :
    (paintRoom world x y w h).rooms = world.rooms := by
  obtain ⟨t, ht⟩ := paintRoom_frame world x y w h
  rw [ht]

@[simp] theorem paintRoom_corridors (world : World) (x y w h : Int) :
    (paintRoom world x y w h).corridors = world.corridors := by
  obtain ⟨t, ht⟩ := paintRoom_frame world x y w h
  rw [ht]

@[simp] theorem paintRoom_roomCount (world : World) (x y w h : Int) :
    (paintRoom world x y w h).roomCount = world.roomCount := by
  obtain ⟨t, ht⟩ := paintRoom_frame world x y w h
  rw [ht]

@[simp] theorem paintRoom_corridorCount (world : World) (x y w h : Int) :
    (paintRoom world x y w h).corridorCount = world.corridorCount := by
  obtain ⟨t, ht⟩ := paintRoom_frame world x y w h
  rw [ht]

@[simp] theorem paintRoom_connections (world : World) (x y w h : Int) :
    (paintRoom world x y w h).connections = world.connections := by
  obtain ⟨t, ht⟩ := paintRoom_frame world x y w h
  rw [ht]

@[simp] theorem paintRoom_disjointSet (world : World) (x y w h : Int) :
    (paintRoom world x y w h).disjointSet = world.disjointSet := by
  obtain ⟨t, ht⟩ := paintRoom_frame world x y w h
  rw [ht]

@[simp] theorem paintRoom_width (world : World) (x y w h : Int) :
    (paintRoom world x y w h).width = world.width := by
  obtain ⟨t, ht⟩ := paintRoom_frame world x y w h
  rw [ht]

@[simp] theorem paintRoom_height (world : World) (x y w h : Int) :
    (paintRoom world x y w h).height = world.height := by
  obtain ⟨t, ht⟩ := paintRoom_frame world x y w h
  rw [ht]

@[simp] theorem paintRoom_seed (world : World) (x y w h : Int) :
    (paintRoom world x y w h).seed = world.seed := by
  obtain ⟨t, ht⟩ := paintRoom_frame world x y w h
  rw [ht]

@[simp] theorem paintRoom_initialized (world : World) (x y w h : Int) :
    (paintRoom world x y w h).initialized = world.initialized := by
  obtain ⟨t, ht⟩ := paintRoom_frame world x y w h
  rw [ht]

@[simp] theorem carveCell_rooms (world : World) (x y : Int) :
    (carveCell world x y).rooms = world.rooms := by
  obtain ⟨t, ht⟩ := carveCell_frame world x y
  rw [ht]

@[simp] theorem carveCell_corridors (world : World) (x y : Int) :
    (carveCell world x y).corridors = world.corridors := by
  obtain ⟨t, ht⟩ := carveCell_frame world x y
  rw [ht]

@[simp] theorem carveCell_roomCount (world : World) (x y : Int) :
    (carveCell world x y).roomCount = world.roomCount := by
  obtain ⟨t, ht⟩ := carveCell_frame world x y
  rw [ht]

@[simp] theorem carveCell_corridorCount (world : World) (x y : Int) :
    (carveCell world x y).corridorCount = world.corridorCount := by
  obtain ⟨t, ht⟩ := carveCell_frame world x y
  rw [ht]

@[simp] theorem carveCell_connections (world : World) (x y : Int) :
    (carveCell world x y).connections = world.connections := by
  obtain ⟨t, ht⟩ := carveCell_frame world x y
  rw [ht]

@[simp] theorem carveCell_disjointSet (world : World) (x y : Int) :
    (carveCell world x y).disjointSet = world.disjointSet := by
  obtain ⟨t, ht⟩ := carveCell_frame world x y
  rw [ht]

@[simp] theorem carveCell_width (world : World) (x y : Int) :
    (carveCell world x y).width = world.width := by
  obtain ⟨t, ht⟩ := carveCell_frame world x y
  rw [ht]

@[simp] theorem carveCell_height (world : World) (x y : Int) :
    (carveCell world x y).height = world.height := by
  obtain ⟨t, ht⟩ := carveCell_frame world x y
  rw [ht]

@[simp] theorem carveCell_seed (world : World) (x y : Int) :
    (carveCell world x y).seed = world.seed := by
  obtain ⟨t, ht⟩ := carveCell_frame world x y
  rw [ht]

@[simp] theorem carveCell_initialized (world : World) (x y : Int) :
    (carveCell world x y).initialized = world.initialized := by
  obtain ⟨t, ht⟩ := carveCell_frame world x y
  rw [ht]

theorem clearAllConnections_loop (l : List Int) (world : World) :
    l.foldl (fun wd i => { wd with connections := Function.update wd.connections i [] }) world
      = { world with connections := fun j => if j ∈ l then [] else world.connections j } := by
  induction l generalizing world with
  | nil => simp
  | cons a l ih =>
    simp only [List.foldl_cons]
    rw [ih]
    congr 1
    funext j
    by_cases hj : j ∈ l
    · simp [hj]
    · by_cases hja : j = a
      · subst hja; simp [hj]
      · simp [hj, hja, Function.update_noteq hja]

theorem clearAllConnections_eq (world : World) :
    clearAllConnections world =
      { world with connections := fun j => if InRange j then [] else world.connections j } := by
  unfold clearAllConnections
  rw [clearAllConnections_loop]
  congr 1
  funext j
  simp only [mem_intRange, InRange]

/-! # The Kruskal loop -/

theorem mem_foldl_append_if {α β : Type} (l : List α) (c : α → Bool) (f : α → β)
    (acc : List β) (e : β) :
    e ∈ l.foldl (fun acc2 j => if c j then acc2 ++ [f j] else acc2) acc ↔
      e ∈ acc ∨ ∃ j ∈ l, c j = true ∧ e = f j := by
  induction l generalizing acc with
  | nil => simp
  | cons a l ih =>
    simp only [List.foldl_cons]
    rw [ih]
    by_cases hc : c a = true
    · simp only [hc, if_true, List.mem_append, List.mem_singleton, List.mem_cons,
        List.not_mem_nil, or_false]
      constructor
      · rintro ((h | h) | ⟨j, hj, h1, h2⟩)
        · exact Or.inl h
        · exact Or.inr ⟨a, Or.inl rfl, hc, h⟩
        · exact Or.inr ⟨j, Or.inr hj, h1, h2⟩
      · rintro (h | ⟨j, hj | hj, h1, h2⟩)
        · exact Or.inl (Or.inl h)
        · subst hj; exact Or.inl (Or.inr h2)
        · exact Or.inr ⟨j, hj, h1, h2⟩
    · simp only [hc, List.mem_cons]
      constructor
      · rintro (h | ⟨j, hj, h1, h2⟩)
        · exact Or.inl h
        · exact Or.inr ⟨j, Or.inr hj, h1, h2⟩
      · rintro (h | ⟨j, hj | hj, h1, h2⟩)
        · exact Or.inl h
        · subst hj; exact absurd h1 hc
        · exact Or.inr ⟨j, hj, h1, h2⟩

theorem mem_buildEdges_loop (world : World) (l : List Int) (acc : List Edge) (e : Edge) :
    e ∈ l.foldl
      (fun acc i =>
        (intRange (i + 1) world.roomCount).foldl
          (fun acc2 j =>
            if (world.rooms i).exists_ && (world.rooms j).exists_ then
              acc2 ++ [{ room1 := i, room2 := j,
                         distance := roomDistance (world.rooms i) (world.rooms j) }]
            else acc2)
          acc) acc ↔
      e ∈ acc ∨ ∃ i ∈ l, ∃ j ∈ intRange (i + 1) world.roomCount,
        ((world.rooms i).exists_ && (world.rooms j).exists_) = true ∧
        e = { room1 := i, room2 := j, distance := roomDistance (world.rooms i) (world.rooms j) } := by
  induction l generalizing acc with
  | nil => simp
  | cons a l ih =>
    simp only [List.foldl_cons]
    rw [ih]
    rw [mem_foldl_append_if (intRange (a + 1) world.roomCount)
      (fun j => (world.rooms a).exists_ && (world.rooms j).exists_)
      (fun j => ({ room1 := a, room2 := j,
                   distance := roomDistance (world.rooms a) (world.rooms j) } : Edge))]
    simp only [List.mem_cons]
    constructor
    · rintro ((h | ⟨j, hj, h1, h2⟩) | ⟨i, hi, h⟩)
      · exact Or.inl h
      · exact Or.inr ⟨a, Or.inl rfl, j, hj, h1, h2⟩
      · exact Or.inr ⟨i, Or.inr hi, h⟩
    · rintro (h | ⟨i, hi | hi, j, hj, h1, h2⟩)
      · exact Or.inl (Or.inl h)
      · subst hi; exact Or.inl (Or.inr ⟨j, hj, h1, h2⟩)
      · exact Or.inr ⟨i, hi, j, hj, h1, h2⟩

theorem mem_buildEdges (world : World) (e : Edge) :
    e ∈ buildEdges world ↔
      ∃ i j, 0 ≤ i ∧ i < j ∧ j < world.roomCount ∧
        (world.rooms i).exists_ = true ∧ (world.rooms j).exists_ = true ∧
        e = { room1 := i, room2 := j, distance := roomDistance (world.rooms i) (world.rooms j) } := by
  unfold buildEdges
  rw [mem_buildEdges_loop]
  simp only [List.not_mem_nil, false_or, mem_intRange, Bool.and_eq_true]
  constructor
  · rintro ⟨i, ⟨hi1, _⟩, j, ⟨hj1, hj2⟩, ⟨h1, h2⟩, h3⟩
    exact ⟨i, j, hi1, by omega, hj2, h1, h2, h3⟩
  · rintro ⟨i, j, hi, hij, hj, h1, h2, h3⟩
    exact ⟨i, ⟨hi, by omega⟩, j, ⟨by omega, hj⟩, ⟨h1, h2⟩, h3⟩

theorem bubblePass_perm (k : Nat) (l : List Edge) : (bubblePass k l).Perm l := by
  induction k generalizing l with
  | zero => unfold bubblePass; exact List.Perm.refl _
  | succ k ih =>
    match l with
    | [] => unfold bubblePass; exact List.Perm.refl _
    | [a] => unfold bubblePass; exact List.Perm.refl _
    | a :: b :: t =>
      unfold bubblePass
      split_ifs
      · exact ((ih (a :: t)).cons b).trans (List.Perm.swap a b t)
      · exact (ih (b :: t)).cons a

theorem bubbleSort_perm (edges : List Edge) : (bubbleSort edges).Perm edges := by
  unfold bubbleSort
  generalize edges.length = n
  generalize List.range (n - 1) = l
  suffices h : ∀ acc : List Edge, acc.Perm edges →
      (l.foldl (fun acc i => bubblePass (n - i - 1) acc) acc).Perm edges from
    h edges (List.Perm.refl _)
  induction l with
  | nil => intro acc h; exact h
  | cons a l ih =>
    intro acc h
    simp only [List.foldl_cons]
    exact ih _ ((bubblePass_perm _ _).trans h)

theorem mem_bubbleSort (edges : List Edge) (e : Edge) : e ∈ bubbleSort edges ↔ e ∈ edges :=
  (bubbleSort_perm edges).mem_iff

theorem rootSet_congr {ds ds2 : DisjointSet}
    (h : ∀ z, InRange z → rootOf ds2 z = rootOf ds z) : rootSet ds2 = rootSet ds := by
  unfold rootSet
  apply Finset.filter_congr
  intro z hz
  rw [Finset.mem_Ico] at hz
  rw [h z hz]

theorem rootSet_link {ds ds2 : DisjointSet} (a b : Int) (ha : InRange a)
    (hfa : rootOf ds a = a) (hfb : rootOf ds b = b) (hab : a ≠ b)
    (hroot : ∀ z, InRange z → rootOf ds2 z = if rootOf ds z = a then b else rootOf ds z) :
    ((rootSet ds2).card : Int) = (rootSet ds).card - 1 := by
  have hmem : a ∈ rootSet ds := by
    unfold rootSet; rw [Finset.mem_filter, Finset.mem_Ico]; exact ⟨ha, hfa⟩
  have heq : rootSet ds2 = (rootSet ds).erase a := by
    ext z
    unfold rootSet
    simp only [Finset.mem_filter, Finset.mem_Ico, Finset.mem_erase]
    constructor
    · rintro ⟨hz, h2⟩
      rw [hroot z hz] at h2
      by_cases hza : rootOf ds z = a
      · rw [if_pos hza] at h2
        subst h2
        exact absurd (hza.symm.trans hfb) hab
      · rw [if_neg hza] at h2
        refine ⟨?_, hz, h2⟩
        rintro rfl
        exact hza h2
    · rintro ⟨hza, hz, h2⟩
      refine ⟨hz, ?_⟩
      rw [hroot z hz, h2, if_neg hza]
  rw [heq, Finset.card_erase_of_mem hmem]
  have : 0 < (rootSet ds).card := Finset.card_pos.mpr ⟨a, hmem⟩
  omega

theorem Reach.mono {w w2 : World} (h : ∀ a b, Adj w a b → Adj w2 a b) {a b : Int}
    (hr : Reach w a b) : Reach w2 a b :=
  Relation.ReflTransGen.mono h hr

/-- The step for an edge whose end points are already connected: only the
disjoint set (path compression) changes. -/
theorem kruskalStep_skip (world : World) (ci : Int) (e : Edge) (ds1 : DisjointSet)
    (hcall : isConnected world.disjointSet e.room1 e.room2 = some (ds1, true)) :
    kruskalStep (world, ci) e = some ({ world with disjointSet := ds1 }, ci) := by
  unfold kruskalStep
  simp only [hcall, Bool.not_true, Bool.false_eq_true, if_false]

/-- The step for an edge that joins two components. -/
theorem kruskalStep_join (world : World) (ci : Int) (e : Edge) (ds1 ds2 : DisjointSet)
    (hcall : isConnected world.disjointSet e.room1 e.room2 = some (ds1, false))
    (hci : ci < MAX_CORRIDORS) (hu : unionSets ds1 e.room1 e.room2 = some ds2) :
    ∃ w2, kruskalStep (world, ci) e = some (w2, ci + 1) ∧
      w2.rooms = world.rooms ∧ w2.roomCount = world.roomCount ∧ w2.disjointSet = ds2 ∧
      w2.width = world.width ∧ w2.height = world.height ∧ w2.seed = world.seed ∧
      w2.initialized = world.initialized ∧ w2.corridorCount = world.corridorCount ∧
      w2.connections = Function.update
        (Function.update world.connections e.room1 (e.room2 :: world.connections e.room1))
        e.room2
        (e.room1 :: Function.update world.connections e.room1
          (e.room2 :: world.connections e.room1) e.room2) ∧
      w2.corridors = Function.update world.corridors ci
        { id := ci,
          start := { x := (world.rooms e.room1).x + Int.tdiv (world.rooms e.room1).width 2,
                     y := (world.rooms e.room1).y + Int.tdiv (world.rooms e.room1).height 2 },
          end_ := { x := (world.rooms e.room2).x + Int.tdiv (world.rooms e.room2).width 2,
                    y := (world.rooms e.room2).y + Int.tdiv (world.rooms e.room2).height 2 },
          isTurning :=
            decide ((world.rooms e.room1).x + Int.tdiv (world.rooms e.room1).width 2 ≠
                    (world.rooms e.room2).x + Int.tdiv (world.rooms e.room2).width 2) &&
            decide ((world.rooms e.room1).y + Int.tdiv (world.rooms e.room1).height 2 ≠
                    (world.rooms e.room2).y + Int.tdiv (world.rooms e.room2).height 2) } := by
  unfold kruskalStep
  simp only [hcall, Bool.not_false, if_true, hci, drawCorridor_disjointSet, hu]
  refine ⟨_, rfl, ?_⟩
  simp only [drawCorridor_rooms, drawCorridor_roomCount, drawCorridor_width,
    drawCorridor_height, drawCorridor_seed, drawCorridor_initialized,
    drawCorridor_corridorCount, drawCorridor_connections, drawCorridor_corridors, and_self]

theorem kruskalStep_spec (rc : Int) (hrc : rc ≤ 50) (rooms0 : Int → Room) (st : World × Int)
    (hinv : KInv rc rooms0 st) (e : Edge)
    (he : 0 ≤ e.room1 ∧ e.room1 < e.room2 ∧ e.room2 < rc) :
    ∃ st1, kruskalStep st e = some st1 ∧ KInv rc rooms0 st1 ∧
      rootOf st1.1.disjointSet e.room1 = rootOf st1.1.disjointSet e.room2 ∧
      (∀ a b, InRange a → InRange b →
        rootOf st.1.disjointSet a = rootOf st.1.disjointSet b →
        rootOf st1.1.disjointSet a = rootOf st1.1.disjointSet b) := by
  obtain ⟨world, ci⟩ := st
  have h1 : InRange e.room1 := by unfold InRange; simp only [MAX_ROOMS]; omega
  have h2 : InRange e.room2 := by unfold InRange; simp only [MAX_ROOMS]; omega
  obtain ⟨ds1, hcall, hinv1, hcount1, hroot1⟩ :=
    isConnected_spec world.disjointSet hinv.ds_inv e.room1 e.room2 h1 h2
  have hcard0 : (0 : Int) ≤ (rootSet world.disjointSet).card := Int.natCast_nonneg _
  by_cases hc : rootOf world.disjointSet e.room1 = rootOf world.disjointSet e.room2
  · simp only [hc, decide_True] at hcall
    refine ⟨_, kruskalStep_skip world ci e ds1 hcall, ?_, ?_, ?_⟩
    · exact
        { ds_inv := hinv1
          roots := by
            show ((rootSet ds1).card : Int) + ci = 50
            rw [rootSet_congr hroot1]; exact hinv.roots
          low := fun y hy hlt => by
            show rootOf ds1 y < rc
            rw [hroot1 y hy]; exact hinv.low y hy hlt
          high := fun y hy hge => by
            show rootOf ds1 y = y
            rw [hroot1 y hy]; exact hinv.high y hy hge
          rooms_eq := hinv.rooms_eq
          roomCount_eq := hinv.roomCount_eq
          reach := fun a b ha hb hab => by
            have hab2 : rootOf ds1 a = rootOf ds1 b := hab
            rw [hroot1 a ha, hroot1 b hb] at hab2
            exact hinv.reach a b ha hb hab2
          conn_range := hinv.conn_range
          idx_nonneg := hinv.idx_nonneg }
    · show rootOf ds1 e.room1 = rootOf ds1 e.room2
      rw [hroot1 _ h1, hroot1 _ h2]; exact hc
    · intro a b ha hb hab
      show rootOf ds1 a = rootOf ds1 b
      rw [hroot1 a ha, hroot1 b hb]; exact hab
  · simp only [hc, decide_False] at hcall
    have hci : ci < MAX_CORRIDORS := by
      have := hinv.roots
      simp only [MAX_CORRIDORS] at *
      omega
    obtain ⟨ds2, hu, hinv2, hcases⟩ := unionSets_spec ds1 hinv1 e.room1 e.room2 h1 h2
    rw [hroot1 _ h1, hroot1 _ h2] at hcases
    rcases hcases with ⟨heq, _⟩ | ⟨_, hcount2, a, b, hab, hroot2⟩
    · exact absurd heq hc
    obtain ⟨w2, hstep, hrooms, hrcount, hds, _, _, _, _, _, hconn, _⟩ :=
      kruskalStep_join world ci e ds1 ds2 hcall hci hu
    have hne12 : e.room1 ≠ e.room2 := by omega
    -- the two representatives that were merged
    have hR1 := hinv.ds_inv.rootOf_range _ h1
    have hR2 := hinv.ds_inv.rootOf_range _ h2
    have haR : InRange a := by rcases hab with ⟨h, _⟩ | ⟨h, _⟩ <;> rw [h] <;> assumption
    have hab_ne : a ≠ b := by
      rcases hab with ⟨ha, hb⟩ | ⟨ha, hb⟩
      · rw [ha, hb]; exact hc
      · rw [ha, hb]; exact Ne.symm hc
    have hidem1 := hinv.ds_inv.rootOf_idem _ h1
    have hidem2 := hinv.ds_inv.rootOf_idem _ h2
    have hfa : rootOf ds1 a = a := by
      rw [hroot1 a haR]
      rcases hab with ⟨h, _⟩ | ⟨h, _⟩ <;> rw [h] <;> assumption
    have hfb : rootOf ds1 b = b := by
      rcases hab with ⟨_, h⟩ | ⟨_, h⟩
      · rw [h, hroot1 _ hR2]; exact hidem2
      · rw [h, hroot1 _ hR1]; exact hidem1
    have hroot2' : ∀ z, InRange z → rootOf ds2 z =
        if rootOf world.disjointSet z = a then b else rootOf world.disjointSet z := by
      intro z hz; rw [hroot2 z hz, hroot1 z hz]
    have hlow1 := hinv.low _ h1 (by omega)
    have hlow2 := hinv.low _ h2 (by omega)
    have hb_lt : b < rc := by
      rcases hab with ⟨_, h⟩ | ⟨_, h⟩ <;> rw [h] <;> assumption
    have ha_lt : a < rc := by
      rcases hab with ⟨h, _⟩ | ⟨h, _⟩ <;> rw [h] <;> assumption
    have hadj : ∀ x y, Adj world x y → Adj w2 x y := by
      intro x y hxy
      unfold Adj at hxy ⊢
      rw [hconn]
      by_cases hx2 : x = e.room2
      · subst hx2
        rw [Function.update_same, Function.update_noteq (Ne.symm hne12)]
        exact List.mem_cons_of_mem _ hxy
      · rw [Function.update_noteq hx2]
        by_cases hx1 : x = e.room1
        · subst hx1
          rw [Function.update_same]
          exact List.mem_cons_of_mem _ hxy
        · rw [Function.update_noteq hx1]; exact hxy
    have hadj12 : Adj w2 e.room1 e.room2 := by
      unfold Adj
      rw [hconn, Function.update_noteq hne12, Function.update_same]
      exact List.mem_cons_self _ _
    have hadj21 : Adj w2 e.room2 e.room1 := by
      unfold Adj
      rw [hconn, Function.update_same]
      exact List.mem_cons_self _ _
    refine ⟨_, hstep, ?_, ?_, ?_⟩
    · exact
        { ds_inv := by rw [hds]; exact hinv2
          roots := by
            show ((rootSet w2.disjointSet).card : Int) + (ci + 1) = 50
            rw [hds, rootSet_link a b haR hfa hfb hab_ne hroot2, rootSet_congr hroot1]
            have := hinv.roots
            simp only at this
            omega
          low := fun y hy hlt => by
            show rootOf w2.disjointSet y < rc
            rw [hds, hroot2' y hy]
            split_ifs
            · exact hb_lt
            · exact hinv.low y hy hlt
          high := fun y hy hge => by
            show rootOf w2.disjointSet y = y
            rw [hds, hroot2' y hy]
            have := hinv.high y hy hge
            rw [if_neg]
            · exact this
            · rw [this]; omega
          rooms_eq := by
            show w2.rooms = rooms0
            rw [hrooms]; exact hinv.rooms_eq
          roomCount_eq := by
            show w2.roomCount = rc
            rw [hrcount]; exact hinv.roomCount_eq
          reach := fun x y hx hy hxy => by
            have hxy2 : rootOf w2.disjointSet x = rootOf w2.disjointSet y := hxy
            rw [hds, hroot2' x hx, hroot2' y hy] at hxy2
            have old : ∀ u v, InRange u → InRange v →
                rootOf world.disjointSet u = rootOf world.disjointSet v → Reach w2 u v :=
              fun u v hu hv huv => Reach.mono hadj (hinv.reach u v hu hv huv)
            have cross : ∀ u v, InRange u → InRange v →
                rootOf world.disjointSet u = a → rootOf world.disjointSet v = b →
                Reach w2 u v := by
              intro u v hu hv hua hvb
              rcases hab with ⟨ha, hb⟩ | ⟨ha, hb⟩
              · exact (old u _ hu h1 (by rw [hua, ha])).trans
                  ((Relation.ReflTransGen.single hadj12).trans
                    (old _ v h2 hv (by rw [hvb, hb])))
              · exact (old u _ hu h2 (by rw [hua, ha])).trans
                  ((Relation.ReflTransGen.single hadj21).trans
                    (old _ v h1 hv (by rw [hvb, hb])))
            have cross2 : ∀ u v, InRange u → InRange v →
                rootOf world.disjointSet u = b → rootOf world.disjointSet v = a →
                Reach w2 u v := by
              intro u v hu hv hub hva
              rcases hab with ⟨ha, hb⟩ | ⟨ha, hb⟩
              · exact (old u _ hu h2 (by rw [hub, hb])).trans
                  ((Relation.ReflTransGen.single hadj21).trans
                    (old _ v h1 hv (by rw [hva, ha])))
              · exact (old u _ hu h1 (by rw [hub, hb])).trans
                  ((Relation.ReflTransGen.single hadj12).trans
                    (old _ v h2 hv (by rw [hva, ha])))
            by_cases hxa : rootOf world.disjointSet x = a
            · by_cases hya : rootOf world.disjointSet y = a
              · exact old x y hx hy (by rw [hxa, hya])
              · rw [if_pos hxa, if_neg hya] at hxy2
                exact cross x y hx hy hxa hxy2.symm
            · by_cases hya : rootOf world.disjointSet y = a
              · rw [if_neg hxa, if_pos hya] at hxy2
                exact cross2 x y hx hy hxy2 hya
              · rw [if_neg hxa, if_neg hya] at hxy2
                exact old x y hx hy hxy2
          conn_range := fun i hi j hj => by
            have hj2 : j ∈ w2.connections i := hj
            rw [hconn] at hj2
            by_cases hi2 : i = e.room2
            · subst hi2
              rw [Function.update_same, Function.update_noteq (Ne.symm hne12)] at hj2
              rcases List.mem_cons.mp hj2 with h | h
              · subst h; omega
              · exact hinv.conn_range _ hi j h
            · rw [Function.update_noteq hi2] at hj2
              by_cases hi1 : i = e.room1
              · subst hi1
                rw [Function.update_same] at hj2
                rcases List.mem_cons.mp hj2 with h | h
                · subst h; omega
                · exact hinv.conn_range _ hi j h
              · rw [Function.update_noteq hi1] at hj2
                exact hinv.conn_range _ hi j hj2
          idx_nonneg := by
            have := hinv.idx_nonneg
            show 0 ≤ ci + 1
            simp only at this
            omega }
    · show rootOf w2.disjointSet e.room1 = rootOf w2.disjointSet e.room2
      rw [hds, hroot2' _ h1, hroot2' _ h2]
      rcases hab with ⟨ha, hb⟩ | ⟨ha, hb⟩
      · rw [if_pos ha.symm, if_neg (by rw [ha]; exact Ne.symm hc), hb]
      · rw [if_neg (by rw [ha]; exact hc), if_pos ha.symm, hb]
    · intro x y hx hy hxy
      show rootOf w2.disjointSet x = rootOf w2.disjointSet y
      rw [hds, hroot2' x hx, hroot2' y hy, hxy]

theorem kruskalLoop_spec (rc : Int) (hrc : rc ≤ 50) (rooms0 : Int → Room) (es : List Edge)
    (st : World × Int) (hinv : KInv rc rooms0 st)
    (hes : ∀ e ∈ es, 0 ≤ e.room1 ∧ e.room1 < e.room2 ∧ e.room2 < rc) :
    ∃ st1, kruskalLoop es st = some st1 ∧ KInv rc rooms0 st1 ∧
      (∀ e ∈ es, rootOf st1.1.disjointSet e.room1 = rootOf st1.1.disjointSet e.room2) ∧
      (∀ a b, InRange a → InRange b →
        rootOf st.1.disjointSet a = rootOf st.1.disjointSet b →
        rootOf st1.1.disjointSet a = rootOf st1.1.disjointSet b) := by
  induction es generalizing st with
  | nil => exact ⟨st, rfl, hinv, fun _ h => absurd h (List.not_mem_nil _), fun _ _ _ _ h => h⟩
  | cons e es ih =>
    obtain ⟨st1, hstep, hinv1, hconn1, hmono1⟩ :=
      kruskalStep_spec rc hrc rooms0 st hinv e (hes e (List.mem_cons_self _ _))
    obtain ⟨st2, hloop, hinv2, hconn2, hmono2⟩ :=
      ih st1 hinv1 (fun e2 he2 => hes e2 (List.mem_cons_of_mem _ he2))
    refine ⟨st2, ?_, hinv2, ?_, ?_⟩
    · simp only [kruskalLoop, hstep, hloop]
    · intro e2 he2
      rcases List.mem_cons.mp he2 with h | h
      · subst h
        have hr := hes e2 (List.mem_cons_self _ _)
        exact hmono2 _ _ (by unfold InRange; simp only [MAX_ROOMS]; omega)
          (by unfold InRange; simp only [MAX_ROOMS]; omega) hconn1
      · exact hconn2 e2 h
    · intro a b ha hb hab
      exact hmono2 a b ha hb (hmono1 a b ha hb hab)

theorem kruskalStep_frame (st st1 : World × Int) (e : Edge)
    (h : kruskalStep st e = some st1) :
    st1.1.width = st.1.width ∧ st1.1.height = st.1.height ∧ st1.1.seed = st.1.seed ∧
      st1.1.initialized = st.1.initialized ∧ st1.1.rooms = st.1.rooms ∧
      st1.1.roomCount = st.1.roomCount ∧ st1.1.corridorCount = st.1.corridorCount := by
  unfold kruskalStep at h
  simp only at h
  split at h
  · exact absurd h (by simp)
  · rename_i ds1 connected hcall
    split_ifs at h with h1 h2
    · split at h
      · exact absurd h (by simp)
      · simp only [Option.some.injEq] at h
        subst h
        simp only [drawCorridor_width, drawCorridor_height, drawCorridor_seed,
          drawCorridor_initialized, drawCorridor_rooms, drawCorridor_roomCount,
          drawCorridor_corridorCount, and_self]
    · simp only [Option.some.injEq] at h
      subst h
      simp only [and_self]
    · simp only [Option.some.injEq] at h
      subst h
      simp only [and_self]

theorem kruskalLoop_frame (es : List Edge) (st st1 : World × Int)
    (h : kruskalLoop es st = some st1) :
    st1.1.width = st.1.width ∧ st1.1.height = st.1.height ∧ st1.1.seed = st.1.seed ∧
      st1.1.initialized = st.1.initialized ∧ st1.1.rooms = st.1.rooms ∧
      st1.1.roomCount = st.1.roomCount ∧ st1.1.corridorCount = st.1.corridorCount := by
  induction es generalizing st with
  | nil =>
    simp only [kruskalLoop, Option.some.injEq] at h
    subst h
    simp only [and_self]
  | cons e es ih =>
    unfold kruskalLoop at h
    split at h
    · exact absurd h (by simp)
    · rename_i st2 hstep
      obtain ⟨a1, a2, a3, a4, a5, a6, a7⟩ := kruskalStep_frame st st2 e hstep
      obtain ⟨b1, b2, b3, b4, b5, b6, b7⟩ := ih st2 h
      exact ⟨b1.trans a1, b2.trans a2, b3.trans a3, b4.trans a4, b5.trans a5, b6.trans a6,
        b7.trans a7⟩

theorem rootSet_init (ds : DisjointSet) (count : Int) :
    ((rootSet (initDisjointSet ds count)).card : Int) = 50 := by
  have : rootSet (initDisjointSet ds count) = Finset.Ico (0 : Int) MAX_ROOMS := by
    unfold rootSet
    apply Finset.filter_true_of_mem
    intro z hz
    rw [Finset.mem_Ico] at hz
    exact initDisjointSet_rootOf ds count z hz
  rw [this]
  simp [MAX_ROOMS]

/-- The Kruskal scan started on a world `w0` whose adjacency lists are empty: it
returns, has joined all rooms and has created `roomCount - 1` corridors. -/
theorem kruskal_from_init (w0 : World) (h2 : 2 ≤ w0.roomCount)
    (h50 : w0.roomCount ≤ MAX_ROOMS)
    (hex : ∀ i, 0 ≤ i → i < w0.roomCount → (w0.rooms i).exists_ = true)
    (hempty : ∀ i, InRange i → w0.connections i = []) :
    ∃ w2 ci,
      kruskalLoop
        (bubbleSort (buildEdges
          { w0 with disjointSet := initDisjointSet w0.disjointSet w0.roomCount }))
        ({ w0 with disjointSet := initDisjointSet w0.disjointSet w0.roomCount }, 0)
        = some (w2, ci) ∧
      ci = w0.roomCount - 1 ∧ KInv w0.roomCount w0.rooms (w2, ci) ∧
      (∀ i j, 0 ≤ i → i < w0.roomCount → 0 ≤ j → j < w0.roomCount →
        rootOf w2.disjointSet i = rootOf w2.disjointSet j) ∧
      w2.width = w0.width ∧ w2.height = w0.height ∧ w2.seed = w0.seed ∧
      w2.initialized = w0.initialized := by
  have h50' : w0.roomCount ≤ 50 := h50
  have hw1 : KInv w0.roomCount w0.rooms
      ({ w0 with disjointSet := initDisjointSet w0.disjointSet w0.roomCount }, 0) :=
    { ds_inv := initDisjointSet_inv _ _
      roots := by
        show ((rootSet (initDisjointSet w0.disjointSet w0.roomCount)).card : Int) + 0 = 50
        rw [rootSet_init]; rfl
      low := fun y hy hlt => by
        show rootOf (initDisjointSet w0.disjointSet w0.roomCount) y < w0.roomCount
        rw [initDisjointSet_rootOf _ _ y hy]; exact hlt
      high := fun y hy _ => initDisjointSet_rootOf _ _ y hy
      rooms_eq := rfl
      roomCount_eq := rfl
      reach := fun a b ha hb hab => by
        have hab2 : rootOf (initDisjointSet w0.disjointSet w0.roomCount) a
            = rootOf (initDisjointSet w0.disjointSet w0.roomCount) b := hab
        rw [initDisjointSet_rootOf _ _ a ha, initDisjointSet_rootOf _ _ b hb] at hab2
        rw [hab2]
        exact Relation.ReflTransGen.refl
      conn_range := fun i hi j hj => by
        have hj2 : j ∈ w0.connections i := hj
        rw [hempty i hi] at hj2
        exact absurd hj2 (List.not_mem_nil _)
      idx_nonneg := le_refl _ }
  have hedges : ∀ e ∈ bubbleSort (buildEdges
        { w0 with disjointSet := initDisjointSet w0.disjointSet w0.roomCount }),
      (0 ≤ e.room1 ∧ e.room1 < e.room2 ∧ e.room2 < w0.roomCount) := by
    intro e he
    rw [mem_bubbleSort, mem_buildEdges] at he
    obtain ⟨i, j, hi, hij, hj, _, _, rfl⟩ := he
    exact ⟨hi, hij, hj⟩
  have hall : ∀ i j, 0 ≤ i → i < j → j < w0.roomCount →
      ∃ e ∈ bubbleSort (buildEdges
        { w0 with disjointSet := initDisjointSet w0.disjointSet w0.roomCount }),
        e.room1 = i ∧ e.room2 = j := by
    intro i j hi hij hj
    refine ⟨{ room1 := i, room2 := j,
              distance := roomDistance (w0.rooms i) (w0.rooms j) }, ?_, rfl, rfl⟩
    rw [mem_bubbleSort, mem_buildEdges]
    exact ⟨i, j, hi, hij, hj, hex i hi (by omega), hex j (by omega) hj, rfl⟩
  obtain ⟨st1, hloop, hinv1, hconn, _⟩ :=
    kruskalLoop_spec w0.roomCount h50' w0.rooms _ _ hw1 hedges
  obtain ⟨f1, f2, f3, f4, _, _, _⟩ := kruskalLoop_frame _ _ _ hloop
  obtain ⟨w1, ci⟩ := st1
  -- every pair of rooms has the same representative
  have hpair : ∀ i j, 0 ≤ i → i < w0.roomCount → 0 ≤ j → j < w0.roomCount →
      rootOf w1.disjointSet i = rootOf w1.disjointSet j := by
    intro i j hi hi2 hj hj2
    rcases lt_trichotomy i j with hlt | heq | hgt
    · obtain ⟨e, he, h1, h2⟩ := hall i j hi hlt hj2
      have := hconn e he
      rw [h1, h2] at this
      exact this
    · rw [heq]
    · obtain ⟨e, he, h1, h2⟩ := hall j i hj hgt hi2
      have := hconn e he
      rw [h1, h2] at this
      exact this.symm
  -- counting the representatives gives the number of corridors
  have hci : ci = w0.roomCount - 1 := by
    have hroots : ((rootSet w1.disjointSet).card : Int) + ci = 50 := hinv1.roots
    have h0 : InRange 0 := by unfold InRange; simp only [MAX_ROOMS]; omega
    have hr0 : rootOf w1.disjointSet 0 < w0.roomCount := hinv1.low 0 h0 (by omega)
    have hr0R : InRange (rootOf w1.disjointSet 0) := hinv1.ds_inv.rootOf_range 0 h0
    have hset : rootSet w1.disjointSet =
        insert (rootOf w1.disjointSet 0) (Finset.Ico w0.roomCount MAX_ROOMS) := by
      ext z
      unfold rootSet
      simp only [Finset.mem_filter, Finset.mem_Ico, Finset.mem_insert]
      constructor
      · rintro ⟨hz, hfix⟩
        by_cases hlt : z < w0.roomCount
        · left
          rw [← hfix]
          exact hpair z 0 hz.1 hlt (le_refl _) (by omega)
        · right; exact ⟨by omega, hz.2⟩
      · rintro (h | h)
        · subst h
          exact ⟨hr0R, hinv1.ds_inv.rootOf_idem 0 h0⟩
        · have hz : InRange z := ⟨by omega, h.2⟩
          exact ⟨hz, hinv1.high z hz h.1⟩
    rw [hset, Finset.card_insert_of_not_mem
      (by rw [Finset.mem_Ico]; omega), Int.card_Ico] at hroots
    simp only [MAX_ROOMS] at hroots h50
    push_cast at hroots
    omega
  exact ⟨w1, ci, hloop, hci, hinv1, hpair, f1, f2, f3, f4⟩

theorem connectRoomsWithMST_spec (world : World) (h2 : 2 ≤ world.roomCount)
    (h50 : world.roomCount ≤ MAX_ROOMS)
    (hex : ∀ i, 0 ≤ i → i < world.roomCount → (world.rooms i).exists_ = true) :
    ∃ w2, connectRoomsWithMST world = some (w2, 0) ∧ MSTPost world w2 := by
  have hnot : ¬ world.roomCount < 2 := by omega
  obtain ⟨w1, ci, hloop, hci, hinv1, hpair, f1, f2, f3, f4⟩ :=
    kruskal_from_init (clearAllConnections world)
      (by rw [clearAllConnections_eq]; exact h2)
      (by rw [clearAllConnections_eq]; exact h50)
      (by rw [clearAllConnections_eq]; exact hex)
      (by
        intro i hi
        rw [clearAllConnections_eq]
        simp only [hi, if_true])
  have e1 : (clearAllConnections world).roomCount = world.roomCount := by
    rw [clearAllConnections_eq]
  have e2 : (clearAllConnections world).rooms = world.rooms := by
    rw [clearAllConnections_eq]
  have hR : ∀ i, 0 ≤ i → i < world.roomCount → InRange i := by
    intro i hi hi2
    unfold InRange; simp only [MAX_ROOMS] at *; omega
  rw [e1] at hci hpair hinv1
  rw [e2] at hinv1
  refine ⟨{ w1 with corridorCount := ci }, ?_, ?_⟩
  · unfold connectRoomsWithMST
    simp only [hnot, if_false, hloop]
  · exact
      { corridorCount_eq := hci
        roomCount_eq := hinv1.roomCount_eq
        rooms_eq := hinv1.rooms_eq
        width_eq := by
          show w1.width = world.width
          rw [f1, clearAllConnections_eq]
        height_eq := by
          show w1.height = world.height
          rw [f2, clearAllConnections_eq]
        seed_eq := by
          show w1.seed = world.seed
          rw [f3, clearAllConnections_eq]
        initialized_eq := by
          show w1.initialized = world.initialized
          rw [f4, clearAllConnections_eq]
        ds_inv := hinv1.ds_inv
        same_root := hpair
        reach := fun i j hi hi2 hj hj2 =>
          hinv1.reach i j (hR i hi hi2) (hR j hj hj2) (hpair i j hi hi2 hj hj2)
        conn_range := hinv1.conn_range }

/-! # Room placement -/

theorem roomsOverlap_comm (a b : Room) : roomsOverlap a b = roomsOverlap b a := by
  unfold roomsOverlap
  rw [Bool.eq_iff_iff]
  simp only [Bool.not_eq_true', Bool.or_eq_false_iff, decide_eq_false_iff_not]
  tauto

theorem generateRoomsAttempt_eq (minSize maxSize : Int) (st : World × Int) :
    generateRoomsAttempt minSize maxSize st =
      if candidateOverlaps st.1 (candidateRoom minSize maxSize st).1 then
        (st.1, (candidateRoom minSize maxSize st).2)
      else
        (placeRoom st.1 (candidateRoom minSize maxSize st).1,
          (candidateRoom minSize maxSize st).2) := by
  unfold generateRoomsAttempt candidateOverlaps candidateRoom placeRoom
  simp only
  split_ifs with h1 h2 h2
  · simp only [Bool.not_eq_true'] at h1
    rw [h1] at h2
    exact absurd h2 (by simp)
  · rfl
  · rfl
  · simp only [Bool.not_eq_true', Bool.not_eq_false] at h1 h2
    rw [h1] at h2
    exact absurd h2 (by simp)

theorem placeRoom_rooms (world : World) (r : Room) :
    (placeRoom world r).rooms = Function.update world.rooms world.roomCount r := by
  unfold placeRoom; simp only [paintRoom_rooms]

theorem placeRoom_roomCount (world : World) (r : Room) :
    (placeRoom world r).roomCount = world.roomCount + 1 := by
  unfold placeRoom; simp only [paintRoom_roomCount]

theorem placeRoom_frame (world : World) (r : Room) :
    (placeRoom world r).width = world.width ∧ (placeRoom world r).height = world.height ∧
      (placeRoom world r).seed = world.seed ∧
      (placeRoom world r).initialized = world.initialized ∧
      (placeRoom world r).disjointSet = world.disjointSet ∧
      (placeRoom world r).connections = world.connections ∧
      (placeRoom world r).corridors = world.corridors ∧
      (placeRoom world r).corridorCount = world.corridorCount := by
  unfold placeRoom
  simp only [paintRoom_width, paintRoom_height, paintRoom_seed, paintRoom_initialized,
    paintRoom_disjointSet, paintRoom_connections, paintRoom_corridors,
    paintRoom_corridorCount, and_self]

theorem candidateOverlaps_false (world : World) (r : Room) :
    candidateOverlaps world r = false ↔
      ∀ i, 0 ≤ i → i < world.roomCount → (world.rooms i).exists_ = true →
        roomsOverlap r (world.rooms i) = false := by
  unfold candidateOverlaps
  rw [List.any_eq_false]
  simp only [mem_intRange, Bool.and_eq_true, not_and, Bool.not_eq_true]
  constructor
  · intro h i hi hi2 he; exact h i ⟨hi, hi2⟩ he
  · intro h i hi he; exact h i hi.1 hi.2 he

/-- One placement attempt keeps the rooms existing and pairwise non-overlapping. -/
theorem generateRoomsAttempt_inv (minSize maxSize : Int) (st : World × Int)
    (h : RoomsInv st.1) : RoomsInv (generateRoomsAttempt minSize maxSize st).1 := by
  rw [generateRoomsAttempt_eq]
  split_ifs with hov
  · exact h
  · simp only [Bool.not_eq_true] at hov
    rw [candidateOverlaps_false] at hov
    have hc := h.count_nonneg
    have hex : ((candidateRoom minSize maxSize st).1).exists_ = true := rfl
    generalize (candidateRoom minSize maxSize st).1 = r at hov hex
    constructor
    · show 0 ≤ (placeRoom st.1 r).roomCount
      rw [placeRoom_roomCount]; omega
    · intro i hi hi2
      have hi3 : i < (placeRoom st.1 r).roomCount := hi2
      show ((placeRoom st.1 r).rooms i).exists_ = true
      rw [placeRoom_roomCount] at hi3
      rw [placeRoom_rooms]
      by_cases hie : i = st.1.roomCount
      · subst hie
        simp only [Function.update_same]
        exact hex
      · simp only [Function.update_noteq hie]
        exact h.all_exist i hi (by omega)
    · intro i j hi hi2 hj hj2 hij
      have hi3 : i < (placeRoom st.1 r).roomCount := hi2
      have hj3 : j < (placeRoom st.1 r).roomCount := hj2
      show roomsOverlap ((placeRoom st.1 r).rooms i) ((placeRoom st.1 r).rooms j) = false
      rw [placeRoom_roomCount] at hi3 hj3
      rw [placeRoom_rooms]
      by_cases hie : i = st.1.roomCount
      · have hje : j ≠ st.1.roomCount := by omega
        subst hie
        simp only [Function.update_same, Function.update_noteq hje]
        exact hov j hj (by omega) (h.all_exist j hj (by omega))
      · by_cases hje : j = st.1.roomCount
        · subst hje
          simp only [Function.update_same, Function.update_noteq hie]
          rw [roomsOverlap_comm]
          exact hov i hi (by omega) (h.all_exist i hi (by omega))
        · simp only [Function.update_noteq hie, Function.update_noteq hje]
          exact h.no_overlap i j hi (by omega) hj (by omega) hij

/-- Induction principle for the placement loop. -/
theorem generateRoomsLoop_induct (minSize maxSize maxRooms : Int) (P : World × Int → Prop)
    (hstep : ∀ st, P st → st.1.roomCount < maxRooms →
      P (generateRoomsAttempt minSize maxSize st))
    (n : Nat) (st : World × Int) (h : P st) :
    P (generateRoomsLoop minSize maxSize maxRooms n st) := by
  induction n generalizing st with
  | zero => exact h
  | succ n ih =>
    unfold generateRoomsLoop
    split_ifs with hlt
    · exact ih _ (hstep st h hlt)
    · exact h

/-- What one placement attempt leaves untouched, and how the room count moves. -/
theorem generateRoomsAttempt_frame (minSize maxSize : Int) (st : World × Int) :
    let st1 := generateRoomsAttempt minSize maxSize st
    st1.1.width = st.1.width ∧ st1.1.height = st.1.height ∧ st1.1.seed = st.1.seed ∧
      st1.1.initialized = st.1.initialized ∧ st1.1.disjointSet = st.1.disjointSet ∧
      st1.1.connections = st.1.connections ∧ st1.1.corridors = st.1.corridors ∧
      st1.1.corridorCount = st.1.corridorCount ∧
      (st1.1.roomCount = st.1.roomCount ∨ st1.1.roomCount = st.1.roomCount + 1) ∧
      (st.1.roomCount = 0 → st1.1.roomCount = 1) := by
  intro st1
  have hst1 : st1 = generateRoomsAttempt minSize maxSize st := rfl
  rw [generateRoomsAttempt_eq] at hst1
  split_ifs at hst1 with hov
  · rw [hst1]
    refine ⟨rfl, rfl, rfl, rfl, rfl, rfl, rfl, rfl, Or.inl rfl, ?_⟩
    intro h0
    exfalso
    unfold candidateOverlaps at hov
    rw [h0] at hov
    simp [intRange] at hov
  · rw [hst1]
    obtain ⟨a1, a2, a3, a4, a5, a6, a7, a8⟩ :=
      placeRoom_frame st.1 (candidateRoom minSize maxSize st).1
    refine ⟨a1, a2, a3, a4, a5, a6, a7, a8, Or.inr (placeRoom_roomCount _ _), ?_⟩
    intro h0
    show (placeRoom st.1 _).roomCount = 1
    rw [placeRoom_roomCount, h0]; rfl

/-! # World creation and generation -/

theorem initTiles_frame (world : World) (width height : Int) :
    ∃ t, initTiles world width height = { world with tiles := t } := by
  unfold initTiles
  have inner : ∀ (l : List Int) (y : Int) (wd : World),
      ∃ t, l.foldl (fun wd2 x => storeTile wd2 x y TILE_WALL) wd = { wd with tiles := t } := by
    intro l y
    induction l with
    | nil => intro wd; exact ⟨wd.tiles, rfl⟩
    | cons a l ih =>
      intro wd
      simp only [List.foldl_cons]
      obtain ⟨t, ht⟩ := ih (storeTile wd a y TILE_WALL)
      rw [ht]; exact ⟨t, rfl⟩
  generalize intRange 0 height = ly
  induction ly generalizing world with
  | nil => exact ⟨world.tiles, rfl⟩
  | cons a l ih =>
    simp only [List.foldl_cons]
    obtain ⟨t1, h1⟩ := inner (intRange 0 width) a world
    rw [h1]
    obtain ⟨t2, h2⟩ := ih { world with tiles := t1 }
    rw [h2]; exact ⟨t2, rfl⟩

theorem initRoomSlots_loop (l : List Int) (world : World) :
    l.foldl
      (fun wd i =>
        { wd with rooms := Function.update wd.rooms i { wd.rooms i with exists_ := false },
                  connections := Function.update wd.connections i [] })
      world =
    { world with
        rooms := fun j => if j ∈ l then { world.rooms j with exists_ := false } else world.rooms j,
        connections := fun j => if j ∈ l then [] else world.connections j } := by
  induction l generalizing world with
  | nil => simp
  | cons a l ih =>
    simp only [List.foldl_cons]
    rw [ih]
    congr 1
    · funext j
      by_cases hj : j ∈ l
      · by_cases hja : j = a
        · subst hja; simp [hj]
        · simp [hj, hja, Function.update_noteq hja]
      · by_cases hja : j = a
        · subst hja; simp [hj]
        · simp [hj, hja, Function.update_noteq hja]
    · funext j
      by_cases hj : j ∈ l
      · simp [hj]
      · by_cases hja : j = a
        · subst hja; simp [hj]
        · simp [hj, hja, Function.update_noteq hja]

theorem initRoomSlots_eq (world : World) :
    initRoomSlots world =
    { world with
        rooms := fun j =>
          if InRange j then { world.rooms j with exists_ := false } else world.rooms j,
        connections := fun j => if InRange j then [] else world.connections j } := by
  unfold initRoomSlots
  rw [initRoomSlots_loop]
  congr 1
  · funext j; simp only [mem_intRange, InRange]
  · funext j; simp only [mem_intRange, InRange]

theorem createWorld_spec (currentSeed : Int) (mem : World) (seed width height : Int)
    (hw : 5 ≤ width) (hh : 5 ≤ height) :
    ∃ world, createWorld currentSeed mem seed width height = (some world, seed) ∧
      CreatePost seed width height world := by
  have hnot : ¬ (width < 5 ∨ height < 5) := by omega
  unfold createWorld
  simp only [hnot, if_false, setSeed]
  refine ⟨_, rfl, ?_⟩
  obtain ⟨t, ht⟩ := initTiles_frame
    { mem with seed := seed,
               width := if width > MAX_WORLD_WIDTH then MAX_WORLD_WIDTH else width,
               height := if height > MAX_WORLD_HEIGHT then MAX_WORLD_HEIGHT else height,
               roomCount := 0, corridorCount := 0, initialized := false }
    (if width > MAX_WORLD_WIDTH then MAX_WORLD_WIDTH else width)
    (if height > MAX_WORLD_HEIGHT then MAX_WORLD_HEIGHT else height)
  rw [ht, initRoomSlots_eq]
  exact
    { roomCount_eq := rfl
      corridorCount_eq := rfl
      width_eq := by
        show (if width > MAX_WORLD_WIDTH then MAX_WORLD_WIDTH else width) = _
        simp only [MAX_WORLD_WIDTH]
        split_ifs <;> omega
      height_eq := by
        show (if height > MAX_WORLD_HEIGHT then MAX_WORLD_HEIGHT else height) = _
        simp only [MAX_WORLD_HEIGHT]
        split_ifs <;> omega
      seed_eq := rfl
      initialized_eq := rfl
      no_room := fun i hi => by simp only [hi, if_true]
      no_conn := fun i hi => by simp only [hi, if_true]
      ds_inv := initDisjointSet_inv _ _
      ds_root := fun i hi => initDisjointSet_rootOf _ _ i hi }

theorem createWorld_null (currentSeed : Int) (mem : World) (seed width height : Int)
    (h : width < 5 ∨ height < 5) :
    createWorld currentSeed mem seed width height = (none, currentSeed) := by
  unfold createWorld
  simp only [h, if_true]

theorem generateRooms_spec (currentSeed : Int) (world0 : World)
    (h0 : world0.roomCount = 0) :
    PlacePost world0 (generateRooms currentSeed world0 3 6 25).1 := by
  unfold generateRooms
  have h125 : ((25 : Int) * 5).toNat = 124 + 1 := by decide
  rw [h125]
  unfold generateRoomsLoop
  have hlt : (world0, currentSeed).1.roomCount < 25 := by
    show world0.roomCount < 25
    rw [h0]; decide
  rw [if_pos hlt]
  have hrooms0 : RoomsInv world0 :=
    { count_nonneg := by rw [h0]
      all_exist := fun i hi hi2 => by rw [h0] at hi2; omega
      no_overlap := fun i j hi hi2 => by rw [h0] at hi2; omega }
  have hfirst : PlacePost world0 (generateRoomsAttempt 3 6 (world0, currentSeed)).1 := by
    obtain ⟨a1, a2, a3, a4, a5, a6, a7, a8, _, a10⟩ :=
      generateRoomsAttempt_frame 3 6 (world0, currentSeed)
    have hc := a10 h0
    exact
      { rooms_inv := generateRoomsAttempt_inv 3 6 (world0, currentSeed) hrooms0
        count_pos := by rw [hc]
        count_le := by rw [hc]; decide
        width_eq := a1
        height_eq := a2
        seed_eq := a3
        initialized_eq := a4
        ds_eq := a5
        conn_eq := a6
        corridors_eq := a7
        corridorCount_eq := a8 }
  refine generateRoomsLoop_induct 3 6 25 (fun st => PlacePost world0 st.1) ?_ 124 _ hfirst
  intro st hP hlt2
  obtain ⟨a1, a2, a3, a4, a5, a6, a7, a8, a9, _⟩ := generateRoomsAttempt_frame 3 6 st
  exact
    { rooms_inv := generateRoomsAttempt_inv 3 6 st hP.rooms_inv
      count_pos := by
        have := hP.count_pos
        rcases a9 with h | h <;> rw [h] <;> omega
      count_le := by
        rcases a9 with h | h <;> rw [h] <;> omega
      width_eq := a1.trans hP.width_eq
      height_eq := a2.trans hP.height_eq
      seed_eq := a3.trans hP.seed_eq
      initialized_eq := a4.trans hP.initialized_eq
      ds_eq := a5.trans hP.ds_eq
      conn_eq := a6.trans hP.conn_eq
      corridors_eq := a7.trans hP.corridors_eq
      corridorCount_eq := a8.trans hP.corridorCount_eq }

theorem candidateRoom_congr (minSize maxSize : Int) (w1 w2 : World) (s : Int)
    (hw : w1.width = w2.width) (hh : w1.height = w2.height)
    (hc : w1.roomCount = w2.roomCount) :
    candidateRoom minSize maxSize (w1, s) = candidateRoom minSize maxSize (w2, s) := by
  unfold candidateRoom
  simp only [hw, hh, hc]

/-- The first placement attempt on a fresh world is always accepted, and room 0 is never
written again. -/
theorem generateRooms_first_room (currentSeed : Int) (world0 : World)
    (h0 : world0.roomCount = 0) :
    (generateRooms currentSeed world0 3 6 25).1.rooms 0 =
      (candidateRoom 3 6 (world0, currentSeed)).1 := by
  unfold generateRooms
  have h125 : ((25 : Int) * 5).toNat = 124 + 1 := by decide
  rw [h125]
  unfold generateRoomsLoop
  have hlt : (world0, currentSeed).1.roomCount < 25 := by
    show world0.roomCount < 25
    rw [h0]; decide
  rw [if_pos hlt]
  have hfirst : 1 ≤ (generateRoomsAttempt 3 6 (world0, currentSeed)).1.roomCount ∧
      (generateRoomsAttempt 3 6 (world0, currentSeed)).1.rooms 0 =
        (candidateRoom 3 6 (world0, currentSeed)).1 := by
    rw [generateRoomsAttempt_eq]
    have hno : candidateOverlaps (world0, currentSeed).1
        (candidateRoom 3 6 (world0, currentSeed)).1 = false := by
      rw [candidateOverlaps_false]
      intro i hi hi2
      have hi3 : i < world0.roomCount := hi2
      omega
    rw [hno]
    simp only [Bool.false_eq_true, if_false]
    rw [placeRoom_roomCount, placeRoom_rooms]
    constructor
    · show 1 ≤ world0.roomCount + 1
      omega
    · show Function.update world0.rooms world0.roomCount _ 0 = _
      rw [h0, Function.update_same]
  refine (generateRoomsLoop_induct 3 6 25
    (fun st => 1 ≤ st.1.roomCount ∧
      st.1.rooms 0 = (candidateRoom 3 6 (world0, currentSeed)).1) ?_ 124 _ hfirst).2
  intro st hP _
  rw [generateRoomsAttempt_eq]
  split_ifs
  · exact hP
  · rw [placeRoom_roomCount, placeRoom_rooms]
    refine ⟨by have := hP.1; omega, ?_⟩
    have hne : (0 : Int) ≠ st.1.roomCount := by have := hP.1; omega
    rw [Function.update_noteq hne]
    exact hP.2

theorem ensureAtLeastOneRoom_of_pos (world : World) (h : 1 ≤ world.roomCount) :
    ensureAtLeastOneRoom world = world := by
  unfold ensureAtLeastOneRoom
  have : world.roomCount > 0 := by omega
  simp only [this, if_true]

/-- The generation pipeline as a function of the created world. -/
theorem generateWorldFromSeed_eq (currentSeed : Int) (mem : World) (seed width height : Int)
    (world0 : World) (s : Int)
    (hc : createWorld currentSeed mem seed width height = (some world0, s)) :
    generateWorldFromSeed currentSeed mem seed width height =
      match connectRoomsWithMST (ensureAtLeastOneRoom (generateRooms s world0 3 6 25).1) with
      | none => none
      | some (world, _) =>
        some (some { world with initialized := true }, (generateRooms s world0 3 6 25).2) := by
  unfold generateWorldFromSeed
  rw [hc]

theorem generateWorldFromSeed_spec (currentSeed : Int) (mem : World) (seed width height : Int)
    (hw : 5 ≤ width) (hh : 5 ≤ height) :
    ∃ world s, generateWorldFromSeed currentSeed mem seed width height = some (some world, s) ∧
      GenPost seed width height world := by
  obtain ⟨world0, hc, hpost0⟩ := createWorld_spec currentSeed mem seed width height hw hh
  rw [generateWorldFromSeed_eq _ _ _ _ _ _ _ hc]
  have hP := generateRooms_spec seed world0 hpost0.roomCount_eq
  have hfr := generateRooms_first_room seed world0 hpost0.roomCount_eq
  rw [ensureAtLeastOneRoom_of_pos _ hP.count_pos]
  generalize (generateRooms seed world0 3 6 25) = gr at hP hfr ⊢
  obtain ⟨w1, s1⟩ := gr
  simp only at hP hfr ⊢
  have hfirst : ∀ w0 : World, w0.width = min width MAX_WORLD_WIDTH →
      w0.height = min height MAX_WORLD_HEIGHT → w0.roomCount = 0 →
      w1.rooms 0 = (candidateRoom 3 6 (w0, seed)).1 := by
    intro w0 e1 e2 e3
    rw [hfr, candidateRoom_congr 3 6 world0 w0 seed (hpost0.width_eq.trans e1.symm)
      (hpost0.height_eq.trans e2.symm) (hpost0.roomCount_eq.trans e3.symm)]
  by_cases h1 : w1.roomCount = 1
  · -- a single room: the connector returns -1 and changes nothing
    have hlt : w1.roomCount < 2 := by omega
    refine ⟨{ w1 with initialized := true }, s1, ?_, ?_⟩
    · unfold connectRoomsWithMST
      simp only [hlt, if_true]
    · have hroot : ∀ i, InRange i → rootOf w1.disjointSet i = i := by
        intro i hi; rw [hP.ds_eq]; exact hpost0.ds_root i hi
      exact
        { rooms_inv :=
            { count_nonneg := hP.rooms_inv.count_nonneg
              all_exist := hP.rooms_inv.all_exist
              no_overlap := hP.rooms_inv.no_overlap }
          count_pos := hP.count_pos
          count_le := hP.count_le
          corridorCount_eq := by
            show w1.corridorCount = w1.roomCount - 1
            rw [hP.corridorCount_eq, hpost0.corridorCount_eq, h1]; rfl
          width_eq := by
            show w1.width = _
            rw [hP.width_eq]; exact hpost0.width_eq
          height_eq := by
            show w1.height = _
            rw [hP.height_eq]; exact hpost0.height_eq
          seed_eq := by
            show w1.seed = _
            rw [hP.seed_eq]; exact hpost0.seed_eq
          initialized_eq := rfl
          ds_inv := by
            show DSInv w1.disjointSet
            rw [hP.ds_eq]; exact hpost0.ds_inv
          same_root := fun i j hi hi2 hj hj2 => by
            have hi3 : i < w1.roomCount := hi2
            have hj3 : j < w1.roomCount := hj2
            have : i = j := by omega
            rw [this]
          reach := fun i j hi hi2 hj hj2 => by
            have hi3 : i < w1.roomCount := hi2
            have hj3 : j < w1.roomCount := hj2
            have : i = j := by omega
            rw [this]
            exact Relation.ReflTransGen.refl
          conn_range := fun i hi j hj => by
            have hj2 : j ∈ w1.connections i := hj
            rw [hP.conn_eq, hpost0.no_conn i hi] at hj2
            exact absurd hj2 (List.not_mem_nil _)
          first_room := hfirst }
  · have h2 : 2 ≤ w1.roomCount := by have := hP.count_pos; omega
    have h50 : w1.roomCount ≤ MAX_ROOMS := by
      have := hP.count_le; simp only [MAX_ROOMS]; omega
    obtain ⟨w2, hconn, hpost⟩ := connectRoomsWithMST_spec w1 h2 h50 hP.rooms_inv.all_exist
    refine ⟨{ w2 with initialized := true }, s1, ?_, ?_⟩
    · simp only [hconn]
    · exact
        { rooms_inv :=
            { count_nonneg := by
                show 0 ≤ w2.roomCount
                rw [hpost.roomCount_eq]; exact hP.rooms_inv.count_nonneg
              all_exist := by
                show ∀ i, 0 ≤ i → i < w2.roomCount → (w2.rooms i).exists_ = true
                rw [hpost.roomCount_eq, hpost.rooms_eq]; exact hP.rooms_inv.all_exist
              no_overlap := by
                show ∀ i j, 0 ≤ i → i < w2.roomCount → 0 ≤ j → j < w2.roomCount → i ≠ j →
                  roomsOverlap (w2.rooms i) (w2.rooms j) = false
                rw [hpost.roomCount_eq, hpost.rooms_eq]; exact hP.rooms_inv.no_overlap }
          count_pos := by
            show 1 ≤ w2.roomCount
            rw [hpost.roomCount_eq]; exact hP.count_pos
          count_le := by
            show w2.roomCount ≤ 25
            rw [hpost.roomCount_eq]; exact hP.count_le
          corridorCount_eq := by
            show w2.corridorCount = w2.roomCount - 1
            rw [hpost.roomCount_eq]; exact hpost.corridorCount_eq
          width_eq := by
            show w2.width = _
            rw [hpost.width_eq, hP.width_eq]; exact hpost0.width_eq
          height_eq := by
            show w2.height = _
            rw [hpost.height_eq, hP.height_eq]; exact hpost0.height_eq
          seed_eq := by
            show w2.seed = _
            rw [hpost.seed_eq, hP.seed_eq]; exact hpost0.seed_eq
          initialized_eq := rfl
          ds_inv := hpost.ds_inv
          same_root := by
            show ∀ i j, 0 ≤ i → i < w2.roomCount → 0 ≤ j → j < w2.roomCount →
              rootOf w2.disjointSet i = rootOf w2.disjointSet j
            rw [hpost.roomCount_eq]; exact hpost.same_root
          reach := by
            show ∀ i j, 0 ≤ i → i < w2.roomCount → 0 ≤ j → j < w2.roomCount →
              Reach { w2 with initialized := true } i j
            rw [hpost.roomCount_eq]; exact hpost.reach
          conn_range := by
            show ∀ i, InRange i → ∀ j ∈ w2.connections i, 0 ≤ j ∧ j < w2.roomCount
            rw [hpost.roomCount_eq]; exact hpost.conn_range
          first_room := by
            show ∀ w0 : World, w0.width = min width MAX_WORLD_WIDTH →
              w0.height = min height MAX_WORLD_HEIGHT → w0.roomCount = 0 →
              w2.rooms 0 = (candidateRoom 3 6 (w0, seed)).1
            rw [hpost.rooms_eq]; exact hfirst }

theorem isWorldConnectedLoop_spec (root : Int) (l : List Int) (world : World)
    (hinv : DSInv world.disjointSet)
    (hl : ∀ i ∈ l, InRange i ∧ rootOf world.disjointSet i = root) :
    ∃ w2, isWorldConnectedLoop root l world = some (w2, true) := by
  induction l generalizing world with
  | nil => exact ⟨world, rfl⟩
  | cons i l ih =>
    unfold isWorldConnectedLoop
    obtain ⟨hi, hroot⟩ := hl i (List.mem_cons_self _ _)
    obtain ⟨ds1, hf, hinv1, _, _, hroot1, _⟩ := findSet_spec world.disjointSet hinv i hi
    have hrest : ∀ j ∈ l, InRange j ∧ rootOf ds1 j = root := by
      intro j hj
      obtain ⟨hj1, hj2⟩ := hl j (List.mem_cons_of_mem _ hj)
      exact ⟨hj1, by rw [hroot1 j hj1]; exact hj2⟩
    split_ifs with hex
    · simp only [hf, hroot, ne_eq, not_true_eq_false, if_false]
      exact ih { world with disjointSet := ds1 } hinv1 hrest
    · exact ih world hinv (fun j hj => hl j (List.mem_cons_of_mem _ hj))

theorem isWorldConnected_spec (world : World) (hinv : DSInv world.disjointSet)
    (hrc : world.roomCount ≤ MAX_ROOMS)
    (hsame : ∀ i, 0 ≤ i → i < world.roomCount →
      rootOf world.disjointSet i = rootOf world.disjointSet 0) :
    ∃ w2, isWorldConnected world = some (w2, true) := by
  unfold isWorldConnected
  split_ifs with h0 h1
  · exact ⟨world, rfl⟩
  · exact ⟨world, rfl⟩
  · have hR0 : InRange 0 := by unfold InRange; simp only [MAX_ROOMS]; omega
    obtain ⟨ds1, hf, hinv1, _, _, hroot1, _⟩ := findSet_spec world.disjointSet hinv 0 hR0
    simp only [hf]
    apply isWorldConnectedLoop_spec _ _ { world with disjointSet := ds1 } hinv1
    intro i hi
    rw [mem_intRange] at hi
    have hRi : InRange i := by
      unfold InRange; simp only [MAX_ROOMS] at *; omega
    refine ⟨hRi, ?_⟩
    show rootOf ds1 i = _
    rw [hroot1 i hRi]
    exact hsame i (by omega) hi.2

/-! # Breadth-first search -/

theorem unvisitedCount_update (vis : Int → Bool) (v : Int) (hv : InRange v)
    (hu : vis v = false) :
    unvisitedCount (Function.update vis v true) + 1 = unvisitedCount vis := by
  unfold unvisitedCount
  have hmem : v ∈ (Finset.Ico (0 : Int) MAX_ROOMS).filter (fun v => vis v = false) := by
    rw [Finset.mem_filter, Finset.mem_Ico]; exact ⟨hv, hu⟩
  have heq : (Finset.Ico (0 : Int) MAX_ROOMS).filter
        (fun x => Function.update vis v true x = false)
      = ((Finset.Ico (0 : Int) MAX_ROOMS).filter (fun v => vis v = false)).erase v := by
    ext z
    simp only [Finset.mem_filter, Finset.mem_Ico, Finset.mem_erase]
    by_cases hz : z = v
    · subst hz; simp
    · simp [Function.update_noteq hz, hz]
  rw [heq, Finset.card_erase_of_mem hmem]
  have : 0 < ((Finset.Ico (0 : Int) MAX_ROOMS).filter (fun v => vis v = false)).card :=
    Finset.card_pos.mpr ⟨v, hmem⟩
  omega

/-- Below the depth of the room being scanned every walk stays inside the finished part
of the tree. -/
theorem ScanInv.walk_low {world : World} {s e cur : Int} {rest : List Int} {st : Bfs}
    {d : Int → Nat} (h : ScanInv world s e cur rest st d) :
    ∀ n x, WalkN world n x e → ∀ k, st.visited x = true → d x ≤ k → k + n ≤ d cur →
      st.visited e = true := by
  intro n
  induction n with
  | zero =>
    intro x hw k hx _ _
    have : x = e := hw
    rw [← this]; exact hx
  | succ n ih =>
    intro x hw k hx hdx hk
    obtain ⟨c, hxc, hrest⟩ := hw
    have hq : x ∉ st.queue := by
      intro hmem
      have := (h.queue_bounds x hmem).1
      omega
    have hne : x ≠ cur := by
      rintro rfl
      omega
    obtain ⟨hcv, hcd⟩ := h.done x hx hq hne c hxc
    exact ih c hrest (k + 1) hcv (by omega) (by omega)

theorem ScanInv.core_step {world : World} {s e cur next : Int} {rest : List Int} {st : Bfs}
    {d : Int → Nat} (hok : AdjOK world) (h : ScanInv world s e cur (next :: rest) st d)
    (hun : st.visited next = false) :
    BfsCore world s (Function.update st.visited next true)
      (Function.update st.parent next cur) (Function.update d next (d cur + 1)) := by
  have hcurR : InRange cur := h.core.vis_range cur h.cur_vis
  have hnext_adj : Adj world cur next := h.rest_sub next (List.mem_cons_self _ _)
  have hns : next ≠ s := by
    rintro rfl
    rw [h.core.start_vis] at hun
    exact absurd hun (by simp)
  have hnc : cur ≠ next := by
    rintro rfl
    rw [h.cur_vis] at hun
    exact absurd hun (by simp)
  constructor
  · rw [Function.update_noteq (Ne.symm hns)]; exact h.core.start_vis
  · rw [Function.update_noteq (Ne.symm hns)]; exact h.core.start_d
  · rw [Function.update_noteq (Ne.symm hns)]; exact h.core.start_par
  · intro v hv
    by_cases hvn : v = next
    · subst hvn; exact hok cur hcurR v hnext_adj
    · rw [Function.update_noteq hvn] at hv; exact h.core.vis_range v hv
  · intro v hv
    by_cases hvn : v = next
    · subst hvn; rw [Function.update_same] at hv; exact absurd hv (by simp)
    · rw [Function.update_noteq hvn] at hv ⊢; exact h.core.par_unvis v hv
  · intro v hv hvs
    by_cases hvn : v = next
    · subst hvn
      rw [Function.update_same, Function.update_same, Function.update_noteq hnc,
        Function.update_noteq hnc]
      exact ⟨h.cur_vis, hnext_adj, rfl⟩
    · rw [Function.update_noteq hvn] at hv
      obtain ⟨t1, t2, t3⟩ := h.core.tree v hv hvs
      have hpn : st.parent v ≠ next := by
        intro hp
        rw [hp, hun] at t1
        exact absurd t1 (by simp)
      rw [Function.update_noteq hvn, Function.update_noteq hvn, Function.update_noteq hpn,
        Function.update_noteq hpn]
      exact ⟨t1, t2, t3⟩

theorem bfsScan_spec (world : World) (s e cur : Int) (hok : AdjOK world) (rest : List Int)
    (st : Bfs) (d : Int → Nat) (h : ScanInv world s e cur rest st d) :
    (∃ st1 d1, bfsScan e cur rest st = (st1, false) ∧ ScanInv world s e cur [] st1 d1 ∧
        unvisitedCount st1.visited + st1.queue.length =
          unvisitedCount st.visited + st.queue.length) ∨
    (∃ st1, bfsScan e cur rest st = (st1, true) ∧ FoundPost world s e st1.parent) := by
  induction rest generalizing st d with
  | nil => exact Or.inl ⟨st, d, rfl, h, rfl⟩
  | cons next rest ih =>
    have hcurR : InRange cur := h.core.vis_range cur h.cur_vis
    unfold bfsScan
    by_cases hvis : st.visited next = true
    · simp only [hvis, Bool.not_true, Bool.false_eq_true, if_false]
      apply ih st d
      exact
        { core := h.core
          end_unvis := h.end_unvis
          cur_vis := h.cur_vis
          queue_vis := h.queue_vis
          queue_sorted := h.queue_sorted
          queue_bounds := h.queue_bounds
          done := h.done
          scanned := fun v hv => by
            rcases h.scanned v hv with hmem | hr
            · rcases List.mem_cons.mp hmem with rfl | hmem2
              · exact Or.inr ⟨hvis, h.low v hvis⟩
              · exact Or.inl hmem2
            · exact Or.inr hr
          rest_sub := fun v hv => h.rest_sub v (List.mem_cons_of_mem _ hv)
          low := h.low }
    · have hun : st.visited next = false := by
        cases hb : st.visited next
        · rfl
        · exact absurd hb hvis
      have hcore := h.core_step hok hun
      have hnc : cur ≠ next := by
        rintro rfl
        rw [h.cur_vis] at hun
        exact absurd hun (by simp)
      have hnextR : InRange next := hok cur hcurR next (h.rest_sub next (List.mem_cons_self _ _))
      simp only [hun, Bool.not_false, if_true]
      by_cases hne : next = e
      · right
        simp only [hne, if_true]
        refine ⟨_, rfl, Function.update st.visited next true,
          Function.update d next (d cur + 1), ?_, ?_, ?_⟩
        · rw [← hne]; exact hcore
        · rw [← hne, Function.update_same]
        · intro n hw
          rw [← hne, Function.update_same]
          by_contra hlt
          have := h.walk_low n s hw 0 h.core.start_vis (by rw [h.core.start_d]) (by omega)
          rw [h.end_unvis] at this
          exact absurd this (by simp)
      · simp only [hne, if_false]
        have hd_old : ∀ v, st.visited v = true →
            Function.update d next (d cur + 1) v = d v := by
          intro v hv
          have : v ≠ next := by
            rintro rfl
            rw [hun] at hv
            exact absurd hv (by simp)
          rw [Function.update_noteq this]
        have hdcur : Function.update d next (d cur + 1) cur = d cur := hd_old cur h.cur_vis
        have hstep : ScanInv world s e cur rest
            { queue := st.queue ++ [next],
              visited := Function.update st.visited next true,
              parent := Function.update st.parent next cur }
            (Function.update d next (d cur + 1)) :=
          { core := hcore
            end_unvis := by
              show Function.update st.visited next true e = false
              rw [Function.update_noteq (Ne.symm hne)]; exact h.end_unvis
            cur_vis := by
              show Function.update st.visited next true cur = true
              rw [Function.update_noteq hnc]; exact h.cur_vis
            queue_vis := fun q hq => by
              show Function.update st.visited next true q = true
              have hq2 : q ∈ st.queue ++ [next] := hq
              rcases List.mem_append.mp hq2 with hq3 | hq3
              · by_cases hqn : q = next
                · rw [hqn, Function.update_same]
                · rw [Function.update_noteq hqn]; exact h.queue_vis q hq3
              · rw [List.mem_singleton.mp hq3, Function.update_same]
            queue_sorted := by
              show (st.queue ++ [next]).Pairwise _
              rw [List.pairwise_append]
              refine ⟨?_, List.pairwise_singleton _ _, ?_⟩
              · refine h.queue_sorted.imp_of_mem ?_
                intro a b ha hb hab
                rw [hd_old a (h.queue_vis a ha), hd_old b (h.queue_vis b hb)]
                exact hab
              · intro a ha b hb
                rw [List.mem_singleton.mp hb, Function.update_same,
                  hd_old a (h.queue_vis a ha)]
                exact (h.queue_bounds a ha).2
            queue_bounds := fun q hq => by
              have hq2 : q ∈ st.queue ++ [next] := hq
              rw [hdcur]
              rcases List.mem_append.mp hq2 with hq3 | hq3
              · rw [hd_old q (h.queue_vis q hq3)]; exact h.queue_bounds q hq3
              · rw [List.mem_singleton.mp hq3, Function.update_same]
                omega
            done := fun u hu huq huc v huv => by
              have hu1 : Function.update st.visited next true u = true := hu
              have huq1 : u ∉ st.queue ++ [next] := huq
              have hun2 : u ≠ next := by
                rintro rfl
                exact huq1 (List.mem_append_right _ (List.mem_singleton_self _))
              rw [Function.update_noteq hun2] at hu1
              have huq2 : u ∉ st.queue := fun hm => huq1 (List.mem_append_left _ hm)
              obtain ⟨hv1, hv2⟩ := h.done u hu1 huq2 huc v huv
              have hvn : v ≠ next := by
                rintro rfl
                rw [hun] at hv1
                exact absurd hv1 (by simp)
              show Function.update st.visited next true v = true ∧ _
              rw [Function.update_noteq hvn, hd_old v hv1, hd_old u hu1]
              exact ⟨hv1, hv2⟩
            scanned := fun v hv => by
              show v ∈ rest ∨ (Function.update st.visited next true v = true ∧ _)
              rw [hdcur]
              by_cases hvn : v = next
              · right
                rw [hvn, Function.update_same, Function.update_same]
                exact ⟨rfl, le_refl _⟩
              · rcases h.scanned v hv with hmem | ⟨hr1, hr2⟩
                · rcases List.mem_cons.mp hmem with hh | hh
                  · exact absurd hh hvn
                  · exact Or.inl hh
                · right
                  rw [Function.update_noteq hvn, hd_old v hr1]
                  exact ⟨hr1, hr2⟩
            rest_sub := fun v hv => h.rest_sub v (List.mem_cons_of_mem _ hv)
            low := fun u hu => by
              have hu1 : Function.update st.visited next true u = true := hu
              rw [hdcur]
              by_cases hun2 : u = next
              · rw [hun2, Function.update_same]
              · rw [Function.update_noteq hun2] at hu1
                rw [hd_old u hu1]
                exact h.low u hu1 }
        rcases ih _ _ hstep with ⟨st1, d1, hscan, hinv1, hmeasure⟩ | ⟨st1, hscan, hfound⟩
        · left
          refine ⟨st1, d1, hscan, hinv1, ?_⟩
          rw [hmeasure]
          have := unvisitedCount_update st.visited next hnextR hun
          simp only [List.length_append, List.length_singleton]
          omega
        · right
          exact ⟨st1, hscan, hfound⟩

/-- When the queue is empty every room reachable from the start has been visited. -/
theorem LoopInv.closed {world : World} {s e : Int} {st : Bfs} {d : Int → Nat}
    (h : LoopInv world s e st d) (hq : st.queue = []) (x : Int) (hr : Reach world s x) :
    st.visited x = true := by
  induction hr with
  | refl => exact h.core.start_vis
  | tail _ hbc ih =>
    exact (h.done _ ih (by rw [hq]; exact List.not_mem_nil _) _ hbc).1

theorem bfsLoop_spec (world : World) (s e : Int) (hok : AdjOK world) (fuel : Nat) (st : Bfs)
    (d : Int → Nat) (h : LoopInv world s e st d)
    (hfuel : unvisitedCount st.visited + st.queue.length < fuel) :
    (bfsLoop world e fuel st = some none ∧ ¬ Reach world s e) ∨
    (∃ par, bfsLoop world e fuel st = some (some par) ∧ FoundPost world s e par) := by
  induction fuel generalizing st d with
  | zero => omega
  | succ n ih =>
    unfold bfsLoop
    cases hq : st.queue with
    | nil =>
      left
      refine ⟨rfl, ?_⟩
      intro hr
      have := h.closed hq e hr
      rw [h.end_unvis] at this
      exact absurd this (by simp)
    | cons cur q =>
      simp only
      have hcur_mem : cur ∈ st.queue := by rw [hq]; exact List.mem_cons_self _ _
      have hq_mem : ∀ x ∈ q, x ∈ st.queue := fun x hx => by
        rw [hq]; exact List.mem_cons_of_mem _ hx
      have hsorted : (cur :: q).Pairwise (fun a b => d a ≤ d b) := by
        rw [← hq]; exact h.queue_sorted
      have hscan : ScanInv world s e cur (world.connections cur) { st with queue := q } d :=
        { core := h.core
          end_unvis := h.end_unvis
          cur_vis := h.queue_vis cur hcur_mem
          queue_vis := fun x hx => h.queue_vis x (hq_mem x hx)
          queue_sorted := (List.pairwise_cons.mp hsorted).2
          queue_bounds := fun x hx =>
            ⟨(List.pairwise_cons.mp hsorted).1 x hx, h.queue_span cur hcur_mem x (hq_mem x hx)⟩
          done := fun u hu huq huc v huv => by
            apply h.done u hu _ v huv
            rw [hq]
            intro hmem
            rcases List.mem_cons.mp hmem with hh | hh
            · exact huc hh
            · exact huq hh
          scanned := fun v hv => Or.inl hv
          rest_sub := fun v hv => hv
          low := fun u hu => h.low u hu cur hcur_mem }
      rcases bfsScan_spec world s e cur hok _ _ d hscan with
        ⟨st1, d1, hs, hinv1, hmeasure⟩ | ⟨st1, hs, hfound⟩
      · rw [hs]
        simp only [Bool.false_eq_true, if_false]
        apply ih st1 d1
        · exact
            { core := hinv1.core
              end_unvis := hinv1.end_unvis
              queue_vis := hinv1.queue_vis
              queue_sorted := hinv1.queue_sorted
              queue_span := fun a ha b hb => by
                have := hinv1.queue_bounds a ha
                have := hinv1.queue_bounds b hb
                omega
              done := fun u hu huq v huv => by
                by_cases huc : u = cur
                · rcases hinv1.scanned v (by rw [← huc]; exact huv) with hmem | hr
                  · exact absurd hmem (List.not_mem_nil _)
                  · rw [huc]; exact hr
                · exact hinv1.done u hu huq huc v huv
              low := fun u hu x hx => by
                have := hinv1.low u hu
                have := hinv1.queue_bounds x hx
                omega }
        · rw [hmeasure]
          simp only
          rw [hq] at hfuel
          simp only [List.length_cons] at hfuel
          omega
      · right
        rw [hs]
        simp only [if_true]
        exact ⟨st1.parent, rfl, hfound⟩

theorem unvisitedCount_init (s : Int) (hs : InRange s) :
    unvisitedCount (Function.update (fun _ => false) s true) = 49 := by
  have h1 := unvisitedCount_update (fun _ => false) s hs rfl
  have h2 : unvisitedCount (fun _ => false) = 50 := by
    unfold unvisitedCount
    simp [MAX_ROOMS]
  omega

/-- The search proper (after the argument checks of `findShortestPath`): it returns, and
reports failure exactly when the end room cannot be reached. -/
theorem bfs_from_start (world : World) (s e : Int) (hok : AdjOK world) (hs : InRange s)
    (hse : s ≠ e) :
    (bfsLoop world e (MAX_ROOMS + 1).toNat
        { queue := [s], visited := Function.update (fun _ => false) s true,
          parent := fun _ => -1 } = some none ∧ ¬ Reach world s e) ∨
    (∃ par, bfsLoop world e (MAX_ROOMS + 1).toNat
        { queue := [s], visited := Function.update (fun _ => false) s true,
          parent := fun _ => -1 } = some (some par) ∧ FoundPost world s e par) := by
  apply bfsLoop_spec world s e hok _ _ (fun _ => 0)
  · exact
      { core :=
          { start_vis := by simp only [Function.update_same]
            start_d := rfl
            start_par := rfl
            vis_range := fun v hv => by
              by_cases hvs : v = s
              · rw [hvs]; exact hs
              · simp only [Function.update_noteq hvs] at hv
                exact absurd hv (by simp)
            par_unvis := fun _ _ => rfl
            tree := fun v hv hvs => by
              simp only [Function.update_noteq hvs] at hv
              exact absurd hv (by simp) }
        end_unvis := by
          simp only [Function.update_noteq (Ne.symm hse)]
        queue_vis := fun q hq => by
          rw [List.mem_singleton.mp hq]
          simp only [Function.update_same]
        queue_sorted := List.pairwise_singleton _ _
        queue_span := fun _ _ _ _ => Nat.le_succ _
        done := fun u hu huq => by
          exfalso
          by_cases hus : u = s
          · exact huq (by rw [hus]; exact List.mem_singleton_self _)
          · simp only [Function.update_noteq hus] at hu
            exact absurd hu (by simp)
        low := fun _ _ _ _ => Nat.le_succ _ }
  · simp only [unvisitedCount_init s hs, List.length_singleton]
    decide

theorem backtrack_stop (par : Int → Int) (k : Nat) : backtrack par k (-1) = [] := by
  cases k with
  | zero => rfl
  | succ k => unfold backtrack; simp

theorem BfsCore.reach {world : World} {s : Int} {vis : Int → Bool} {par : Int → Int}
    {d : Int → Nat} (h : BfsCore world s vis par d) :
    ∀ n v, d v = n → vis v = true → Reach world s v := by
  intro n
  induction n with
  | zero =>
    intro v hd hv
    by_cases hvs : v = s
    · rw [hvs]; exact Relation.ReflTransGen.refl
    · have := (h.tree v hv hvs).2.2
      omega
  | succ n ih =>
    intro v hd hv
    by_cases hvs : v = s
    · rw [hvs]; exact Relation.ReflTransGen.refl
    · obtain ⟨t1, t2, t3⟩ := h.tree v hv hvs
      exact Relation.ReflTransGen.tail (ih (par v) (by omega) t1) t2

/-- With less room in the buffer the back-tracking loop stops earlier on the same
chain. -/
theorem backtrack_take (par : Int → Int) (k m : Nat) (v : Int) :
    (backtrack par (k + m) v).take k = backtrack par k v := by
  induction k generalizing v with
  | zero => simp [backtrack]
  | succ k ih =>
    have hkm : k + 1 + m = (k + m) + 1 := by omega
    rw [hkm]
    unfold backtrack
    split_ifs
    · rw [List.take_succ_cons, ih]
    · rfl

/-- The list produced by the back-tracking loop from a visited room. -/
theorem BfsCore.backtrack_spec {world : World} {s : Int} {vis : Int → Bool}
    {par : Int → Int} {d : Int → Nat} (h : BfsCore world s vis par d) :
    ∀ k v, vis v = true →
      (backtrack par k v).length = min k (d v + 1) ∧
      (backtrack par k v).Chain' (fun a b => Adj world b a ∧ d a = d b + 1) ∧
      (∀ x ∈ backtrack par k v, vis x = true) ∧
      (0 < k → (backtrack par k v).head? = some v) ∧
      (d v + 1 ≤ k → (backtrack par k v).getLast? = some s) := by
  intro k
  induction k with
  | zero =>
    intro v _
    refine ⟨by simp [backtrack], by simp [backtrack], by simp [backtrack], by omega, by omega⟩
  | succ k ih =>
    intro v hv
    have hvR := h.vis_range v hv
    have hv1 : v ≠ -1 := by
      intro hh; rw [hh] at hvR; unfold InRange at hvR; omega
    unfold backtrack
    simp only [ne_eq, hv1, not_false_eq_true, if_true]
    by_cases hvs : v = s
    · rw [hvs, h.start_par, backtrack_stop, h.start_d]
      refine ⟨by simp, by simp, ?_, by simp, by simp⟩
      intro x hx
      rw [List.mem_singleton.mp hx]; exact h.start_vis
    · obtain ⟨t1, t2, t3⟩ := h.tree v hv hvs
      obtain ⟨i1, i2, i3, i4, i5⟩ := ih (par v) t1
      refine ⟨?_, ?_, ?_, ?_, ?_⟩
      · rw [List.length_cons, i1, t3]; omega
      · rw [List.chain'_cons']
        refine ⟨?_, i2⟩
        intro y hy
        by_cases hk : 0 < k
        · rw [i4 hk] at hy
          simp only [Option.mem_def, Option.some.injEq] at hy
          rw [← hy]; exact ⟨t2, t3⟩
        · have hk0 : k = 0 := by omega
          rw [hk0] at hy
          simp [backtrack] at hy
      · intro x hx
        rcases List.mem_cons.mp hx with hh | hh
        · rw [hh]; exact hv
        · exact i3 x hh
      · intro _; rfl
      · intro hk
        have hk2 : d (par v) + 1 ≤ k := by omega
        have hlen : (backtrack par k (par v)).length ≠ 0 := by rw [i1]; omega
        have hne : backtrack par k (par v) ≠ [] := fun hh => hlen (by rw [hh]; rfl)
        obtain ⟨a, l, hal⟩ := List.exists_cons_of_ne_nil hne
        rw [hal, List.getLast?_cons_cons, ← hal]
        exact i5 hk2

/-- A search tree over the `MAX_ROOMS` slots has depth below `MAX_ROOMS`. -/
theorem BfsCore.depth_lt {world : World} {s : Int} {vis : Int → Bool} {par : Int → Int}
    {d : Int → Nat} (h : BfsCore world s vis par d) (v : Int) (hv : vis v = true) :
    d v + 1 ≤ 50 := by
  obtain ⟨i1, i2, i3, _, _⟩ := h.backtrack_spec (d v + 1) v hv
  have hchain : (backtrack par (d v + 1) v).Chain' (fun a b => d b < d a) :=
    i2.imp (fun {a b} hab => by have := hab.2; omega)
  have hpw : (backtrack par (d v + 1) v).Pairwise (fun a b => d b < d a) := by
    haveI : IsTrans Int (fun a b => d b < d a) := ⟨fun a b c hab hbc => lt_trans hbc hab⟩
    exact List.chain'_iff_pairwise.mp hchain
  have hnodup : (backtrack par (d v + 1) v).Nodup :=
    hpw.imp (fun {a b} hab heq => by rw [heq] at hab; exact lt_irrefl _ hab)
  have hsub : (backtrack par (d v + 1) v).toFinset ⊆ Finset.Ico (0 : Int) MAX_ROOMS := by
    intro x hx
    rw [List.mem_toFinset] at hx
    rw [Finset.mem_Ico]
    exact h.vis_range x (i3 x hx)
  have hcard := Finset.card_le_card hsub
  rw [List.toFinset_card_of_nodup hnodup, i1] at hcard
  simp [MAX_ROOMS] at hcard
  omega

theorem walkN_of_isWalk (world : World) (p : List Int) (a b : Int)
    (h : IsWalk world p a b) : WalkN world (p.length - 1) a b := by
  induction p generalizing a with
  | nil =>
    obtain ⟨h1, _, _⟩ := h
    simp at h1
  | cons x t ih =>
    obtain ⟨h1, h2, h3⟩ := h
    simp only [List.head?_cons, Option.some.injEq] at h1
    subst h1
    cases t with
    | nil =>
      simp only [List.getLast?_singleton, Option.some.injEq] at h2
      exact h2
    | cons y t =>
      rw [List.getLast?_cons_cons] at h2
      rw [List.chain'_cons] at h3
      have := ih y ⟨rfl, h2, h3.2⟩
      exact ⟨y, h3.1, this⟩

theorem foldl_update_apply (l : List Int) (g : Int → Int) (path : Int → Int) (j : Int) :
    (l.foldl (fun p i => Function.update p i (g i)) path) j =
      if j ∈ l then g j else path j := by
  induction l generalizing path with
  | nil => simp
  | cons a l ih =>
    simp only [List.foldl_cons]
    rw [ih]
    by_cases hj : j ∈ l
    · simp [hj]
    · by_cases hja : j = a
      · subst hja; simp [hj]
      · simp [hj, hja, Function.update_noteq hja]

theorem reversal_loop (temp : List Int) (path : Int → Int) :
    (intRange 0 (temp.length : Int)).foldl
      (fun p i => Function.update p i (temp.getD ((temp.length : Int) - 1 - i).toNat 0)) path
      = writtenPath path temp.reverse := by
  funext j
  rw [foldl_update_apply]
  unfold writtenPath
  simp only [mem_intRange, List.length_reverse]
  by_cases hj : 0 ≤ j ∧ j < (temp.length : Int)
  · simp only [hj, and_self, if_true]
    have h1 : j.toNat < temp.reverse.length := by rw [List.length_reverse]; omega
    have h2 : ((temp.length : Int) - 1 - j).toNat < temp.length := by omega
    rw [List.getD_eq_getElem _ _ h1, List.getD_eq_getElem _ _ h2, List.getElem_reverse]
    congr 1
    omega
  · simp only [hj, if_false]

/-- The part of `findShortestPath` after the argument checks. -/
theorem findShortestPath_search (world : World) (s e : Int) (path : Int → Int) (maxLen : Int)
    (hmax : 0 < maxLen) (hs : InRange s) (he : InRange e)
    (hexs : (world.rooms s).exists_ = true) (hexe : (world.rooms e).exists_ = true)
    (hse : s ≠ e) :
    findShortestPath world s e path maxLen =
      match bfsLoop world e (MAX_ROOMS + 1).toNat
          { queue := [s], visited := Function.update (fun _ => false) s true,
            parent := fun _ => -1 } with
      | none => none
      | some none => some (-1, path)
      | some (some parent) =>
        some (((backtrack parent maxLen.toNat e).reverse.length : Int),
          writtenPath path (backtrack parent maxLen.toNat e).reverse) := by
  unfold findShortestPath
  have c1 : ¬ maxLen ≤ 0 := by omega
  have c2 : ¬ (s < 0 ∨ e < 0) := by unfold InRange at hs he; omega
  have c3 : ¬ (s ≥ MAX_ROOMS ∨ e ≥ MAX_ROOMS) := by unfold InRange at hs he; omega
  simp only [c1, c2, c3, hexs, hexe, hse, if_false, Bool.not_true, Bool.false_eq_true,
    or_self, reversal_loop, List.length_reverse]

theorem FoundPost.pathPost {world : World} {s e : Int} {par : Int → Int}
    (h : FoundPost world s e par) (maxLen : Int) (hmax : 0 < maxLen) :
    ∃ dist, PathPost world s e maxLen (backtrack par maxLen.toNat e).reverse dist := by
  obtain ⟨vis, d, hcore, hve, hlow⟩ := h
  obtain ⟨i1, i2, _, i4, i5⟩ := hcore.backtrack_spec maxLen.toNat e hve
  obtain ⟨f1, f2, _, f4, f5⟩ := hcore.backtrack_spec (d e + 1) e hve
  have hflip : ∀ l : List Int, l.Chain' (fun a b => Adj world b a ∧ d a = d b + 1) →
      l.reverse.Chain' (Adj world) := by
    intro l hl
    rw [List.chain'_reverse]
    exact hl.imp (fun {a b} hab => hab.1)
  refine ⟨d e, ?_⟩
  exact
    { length_eq := by rw [List.length_reverse]; exact i1
      chain := hflip _ i2
      last_eq := by rw [List.getLast?_reverse]; exact i4 (by omega)
      head_eq := fun hk => by rw [List.head?_reverse]; exact i5 hk
      dist_lt := hcore.depth_lt e hve
      shortest := fun p hp => by
        have hw := hlow _ (walkN_of_isWalk world p s e hp)
        have hne : p.length ≠ 0 := by
          intro h0
          have := hp.1
          rw [List.length_eq_zero.mp h0] at this
          simp at this
        omega
      suffix_of := ⟨(backtrack par (d e + 1) e).reverse,
        ⟨by rw [List.head?_reverse]; exact f5 (le_refl _),
         by rw [List.getLast?_reverse]; exact f4 (by omega),
         hflip _ f2⟩,
        by rw [List.length_reverse, f1]; omega,
        by
          rw [List.length_reverse, ← List.reverse_take]
          congr 1
          rcases Nat.le_total maxLen.toNat (d e + 1) with hle | hle
          · obtain ⟨m, hm⟩ := Nat.exists_eq_add_of_le hle
            rw [hm, backtrack_take]
          · obtain ⟨m, hm⟩ := Nat.exists_eq_add_of_le hle
            have := backtrack_take par (d e + 1) m e
            rw [← hm] at this
            have hfull : backtrack par maxLen.toNat e = backtrack par (d e + 1) e := by
              rw [← this]
              exact (List.take_of_length_le (by rw [i1]; omega)).symm
            rw [← hfull]
            exact (List.take_of_length_le (by rw [i1]; omega)).symm⟩
      reach := hcore.reach (d e) e rfl hve }

/-- Specification of `findShortestPath` for two distinct existing rooms: the call
returns; it returns -1 with the buffer untouched when the end room is unreachable, and
otherwise the length of the list written to the buffer. -/
theorem findShortestPath_spec (world : World) (s e : Int) (path : Int → Int) (maxLen : Int)
    (hok : AdjOK world) (hmax : 0 < maxLen) (hs : InRange s) (he : InRange e)
    (hexs : (world.rooms s).exists_ = true) (hexe : (world.rooms e).exists_ = true)
    (hse : s ≠ e) :
    (findShortestPath world s e path maxLen = some (-1, path) ∧ ¬ Reach world s e) ∨
    (∃ walk dist, findShortestPath world s e path maxLen =
        some ((walk.length : Int), writtenPath path walk) ∧
        PathPost world s e maxLen walk dist) := by
  rw [findShortestPath_search world s e path maxLen hmax hs he hexs hexe hse]
  rcases bfs_from_start world s e hok hs hse with ⟨hb, hnr⟩ | ⟨par, hb, hfound⟩
  · left
    rw [hb]
    exact ⟨rfl, hnr⟩
  · right
    rw [hb]
    obtain ⟨dist, hpost⟩ := hfound.pathPost maxLen hmax
    exact ⟨_, dist, rfl, hpost⟩

/-! # Facts about the concrete inputs -/

theorem chainWorld_adjOK : AdjOK chainWorld := by
  intro i _ j hj
  have hj2 : j ∈ (if i = 0 then [1] else if i = 1 then [2, 0] else if i = 2 then [1]
      else ([] : List Int)) := hj
  unfold InRange
  simp only [MAX_ROOMS]
  split_ifs at hj2 <;> simp at hj2 <;> omega

/-! # Agreement of two runs -/

theorem findSetFuel_agree (n : Nat) (d1 d2 : DisjointSet) (x : Int) (h : DSAgree d1 d2) :
    Option.Rel (fun p q => p.2 = q.2 ∧ DSAgree p.1 q.1 ∧ (p.2 = -1 ∨ InRange p.2))
      (findSetFuel n d1 x) (findSetFuel n d2 x) := by
  induction n generalizing x with
  | zero => exact Option.Rel.none
  | succ n ih =>
    unfold findSetFuel
    by_cases hx : x < 0 ∨ x ≥ MAX_ROOMS
    · simp only [hx, if_true]
      exact Option.Rel.some ⟨rfl, h, Or.inl rfl⟩
    · have hxR : InRange x := by unfold InRange; omega
      simp only [hx, if_false, ← h.parent_eq x hxR]
      by_cases hp : d1.parent x = x
      · simp only [hp, ne_eq, not_true_eq_false, if_false]
        exact Option.Rel.some ⟨rfl, h, Or.inr hxR⟩
      · simp only [ne_eq, hp, not_false_eq_true, if_true]
        have hrec := ih (d1.parent x)
        revert hrec
        generalize findSetFuel n d1 (d1.parent x) = a
        generalize findSetFuel n d2 (d1.parent x) = b
        intro hrec
        cases hrec with
        | none => exact Option.Rel.none
        | some hab =>
          rename_i p q
          obtain ⟨e1, r1⟩ := p
          obtain ⟨e2, r2⟩ := q
          obtain ⟨hr, hag, hrange⟩ := hab
          simp only at hr hag hrange
          subst hr
          simp only [Function.update_same]
          refine Option.Rel.some ⟨rfl, ?_, hrange⟩
          exact
            { parent_eq := fun i hi => by
                by_cases hix : i = x
                · subst hix; simp only [Function.update_same]
                · simp only [Function.update_noteq hix]; exact hag.parent_eq i hi
              rank_eq := hag.rank_eq
              count_eq := hag.count_eq }

theorem findSet_agree (d1 d2 : DisjointSet) (x : Int) (h : DSAgree d1 d2) :
    Option.Rel (fun p q => p.2 = q.2 ∧ DSAgree p.1 q.1 ∧ (p.2 = -1 ∨ InRange p.2))
      (findSet d1 x) (findSet d2 x) :=
  findSetFuel_agree _ d1 d2 x h

theorem isConnected_agree (d1 d2 : DisjointSet) (x y : Int) (h : DSAgree d1 d2) :
    Option.Rel (fun p q => p.2 = q.2 ∧ DSAgree p.1 q.1)
      (isConnected d1 x y) (isConnected d2 x y) := by
  unfold isConnected
  have h1 := findSet_agree d1 d2 x h
  revert h1
  generalize findSet d1 x = a
  generalize findSet d2 x = b
  intro h1
  cases h1 with
  | none => exact Option.Rel.none
  | some hab =>
    rename_i p q
    obtain ⟨e1, r1⟩ := p
    obtain ⟨e2, r2⟩ := q
    obtain ⟨hr, hag, _⟩ := hab
    simp only at hr hag
    subst hr
    simp only
    have h2 := findSet_agree e1 e2 y hag
    revert h2
    generalize findSet e1 y = a2
    generalize findSet e2 y = b2
    intro h2
    cases h2 with
    | none => exact Option.Rel.none
    | some hab2 =>
      rename_i p2 q2
      obtain ⟨f1, s1⟩ := p2
      obtain ⟨f2, s2⟩ := q2
      obtain ⟨hs, hag2, _⟩ := hab2
      simp only at hs hag2
      subst hs
      simp only
      split_ifs
      · exact Option.Rel.some ⟨rfl, hag2⟩
      · exact Option.Rel.some ⟨rfl, hag2⟩

theorem unionSets_agree (d1 d2 : DisjointSet) (x y : Int) (h : DSAgree d1 d2) :
    Option.Rel DSAgree (unionSets d1 x y) (unionSets d2 x y) := by
  unfold unionSets
  have h1 := findSet_agree d1 d2 x h
  revert h1
  generalize findSet d1 x = a
  generalize findSet d2 x = b
  intro h1
  cases h1 with
  | none => exact Option.Rel.none
  | some hab =>
    rename_i p q
    obtain ⟨e1, r1⟩ := p
    obtain ⟨e2, r2⟩ := q
    obtain ⟨hr, hag, hr1⟩ := hab
    simp only at hr hag hr1
    subst hr
    simp only
    have h2 := findSet_agree e1 e2 y hag
    revert h2
    generalize findSet e1 y = a2
    generalize findSet e2 y = b2
    intro h2
    cases h2 with
    | none => exact Option.Rel.none
    | some hab2 =>
      rename_i p2 q2
      obtain ⟨f1, s1⟩ := p2
      obtain ⟨f2, s2⟩ := q2
      obtain ⟨hs, hag2, hs1⟩ := hab2
      simp only at hs hag2 hs1
      subst hs
      simp only
      by_cases hneg : r1 < 0 ∨ s1 < 0
      · simp only [hneg, if_true]
        exact Option.Rel.some hag2
      · simp only [hneg, if_false]
        have hR1 : InRange r1 := by
          rcases hr1 with h | h
          · omega
          · exact h
        have hS1 : InRange s1 := by
          rcases hs1 with h | h
          · omega
          · exact h
        by_cases heq : r1 = s1
        · simp only [heq, if_true]
          exact Option.Rel.some hag2
        · simp only [heq, if_false, ← hag2.rank_eq r1 hR1, ← hag2.rank_eq s1 hS1]
          have hupd : ∀ (a v : Int) (i : Int), InRange i →
              Function.update f1.parent a v i = Function.update f2.parent a v i := by
            intro a v i hi
            by_cases hia : i = a
            · subst hia; simp only [Function.update_same]
            · simp only [Function.update_noteq hia]; exact hag2.parent_eq i hi
          have hupr : ∀ (a v : Int) (i : Int), InRange i →
              Function.update f1.rank a v i = Function.update f2.rank a v i := by
            intro a v i hi
            by_cases hia : i = a
            · subst hia; simp only [Function.update_same]
            · simp only [Function.update_noteq hia]; exact hag2.rank_eq i hi
          split_ifs
          · exact Option.Rel.some
              { parent_eq := hupd _ _
                rank_eq := hag2.rank_eq
                count_eq := by
                  show f1.count - 1 = f2.count - 1
                  rw [hag2.count_eq] }
          · exact Option.Rel.some
              { parent_eq := hupd _ _
                rank_eq := hag2.rank_eq
                count_eq := by
                  show f1.count - 1 = f2.count - 1
                  rw [hag2.count_eq] }
          · exact Option.Rel.some
              { parent_eq := hupd _ _
                rank_eq := hupr _ _
                count_eq := by
                  show f1.count - 1 = f2.count - 1
                  rw [hag2.count_eq] }


theorem SameState.of_frame {c : Int} {w1 w2 v1 v2 : World} (h : SameState c w1 w2)
    (f1 : ∃ t, v1 = { w1 with tiles := t }) (f2 : ∃ t, v2 = { w2 with tiles := t })
    (ht : ∀ x y, 0 ≤ x → x < w1.width → 0 ≤ y → y < w1.height → v1.tiles y x = v2.tiles y x) :
    SameState c v1 v2 := by
  obtain ⟨t1, rfl⟩ := f1
  obtain ⟨t2, rfl⟩ := f2
  exact
    { width_eq := h.width_eq
      height_eq := h.height_eq
      seed_eq := h.seed_eq
      roomCount_eq := h.roomCount_eq
      corridorCount_eq := h.corridorCount_eq
      initialized_eq := h.initialized_eq
      tiles_eq := ht
      rooms_eq := h.rooms_eq
      corridors_eq := h.corridors_eq
      conn_eq := h.conn_eq
      ds_eq := h.ds_eq }

theorem SameState.weaken {c c2 : Int} {w1 w2 : World} (h : SameState c w1 w2) (hc : c2 ≤ c) :
    SameState c2 w1 w2 :=
  { width_eq := h.width_eq
    height_eq := h.height_eq
    seed_eq := h.seed_eq
    roomCount_eq := h.roomCount_eq
    corridorCount_eq := h.corridorCount_eq
    initialized_eq := h.initialized_eq
    tiles_eq := h.tiles_eq
    rooms_eq := h.rooms_eq
    corridors_eq := fun k hk hk2 => h.corridors_eq k hk (by omega)
    conn_eq := h.conn_eq
    ds_eq := h.ds_eq }

theorem isValidPosition_agree {c : Int} {w1 w2 : World} (h : SameState c w1 w2) (x y : Int) :
    isValidPosition w1 x y = isValidPosition w2 x y := by
  unfold isValidPosition
  rw [h.width_eq, h.height_eq]

theorem isValidPosition_iff (world : World) (x y : Int) :
    isValidPosition world x y = true ↔ 0 ≤ x ∧ x < world.width ∧ 0 ≤ y ∧ y < world.height := by
  unfold isValidPosition
  simp only [Bool.and_eq_true, decide_eq_true_eq, ge_iff_le]
  tauto

theorem storeTile_agree {c : Int} {w1 w2 : World} (h : SameState c w1 w2) (x y v : Int) :
    SameState c (storeTile w1 x y v) (storeTile w2 x y v) := by
  refine h.of_frame (storeTile_frame w1 x y v) (storeTile_frame w2 x y v) ?_
  intro tx ty h1 h2 h3 h4
  show Function.update w1.tiles y (Function.update (w1.tiles y) x v) ty tx
    = Function.update w2.tiles y (Function.update (w2.tiles y) x v) ty tx
  by_cases hy : ty = y
  · subst hy
    rw [Function.update_same, Function.update_same]
    by_cases hx : tx = x
    · subst hx; rw [Function.update_same, Function.update_same]
    · rw [Function.update_noteq hx, Function.update_noteq hx]
      exact h.tiles_eq tx ty h1 h2 h3 h4
  · rw [Function.update_noteq hy, Function.update_noteq hy]
    exact h.tiles_eq tx ty h1 h2 h3 h4

theorem carveCell_agree {c : Int} {w1 w2 : World} (h : SameState c w1 w2) (x y : Int) :
    SameState c (carveCell w1 x y) (carveCell w2 x y) := by
  unfold carveCell
  rw [← isValidPosition_agree h x y]
  by_cases hv : isValidPosition w1 x y = true
  · obtain ⟨a1, a2, a3, a4⟩ := (isValidPosition_iff w1 x y).mp hv
    simp only [hv, if_true, ← h.tiles_eq x y a1 a2 a3 a4]
    split_ifs
    · exact storeTile_agree h x y TILE_CORRIDOR
    · exact h
  · simp only [hv, if_false]
    exact h

theorem drawCorridorX_agree {c : Int} (stepX endX : Int) (n : Nat) (w1 w2 : World)
    (cur : Point) (h : SameState c w1 w2) :
    SameState c (drawCorridorX stepX endX n w1 cur).1 (drawCorridorX stepX endX n w2 cur).1 ∧
      (drawCorridorX stepX endX n w1 cur).2 = (drawCorridorX stepX endX n w2 cur).2 := by
  induction n generalizing w1 w2 cur with
  | zero => exact ⟨h, rfl⟩
  | succ n ih =>
    unfold drawCorridorX
    split_ifs
    · exact ih _ _ _ (carveCell_agree h _ _)
    · exact ⟨h, rfl⟩

theorem drawCorridorY_agree {c : Int} (stepY endY : Int) (n : Nat) (w1 w2 : World)
    (cur : Point) (h : SameState c w1 w2) :
    SameState c (drawCorridorY stepY endY n w1 cur).1 (drawCorridorY stepY endY n w2 cur).1 ∧
      (drawCorridorY stepY endY n w1 cur).2 = (drawCorridorY stepY endY n w2 cur).2 := by
  induction n generalizing w1 w2 cur with
  | zero => exact ⟨h, rfl⟩
  | succ n ih =>
    unfold drawCorridorY
    split_ifs
    · exact ih _ _ _ (carveCell_agree h _ _)
    · exact ⟨h, rfl⟩

theorem drawCorridor_agree {c : Int} (w1 w2 : World) (start end_ : Point)
    (h : SameState c w1 w2) :
    SameState c (drawCorridor w1 start end_) (drawCorridor w2 start end_) := by
  unfold drawCorridor
  simp only
  obtain ⟨hx1, hx2⟩ := drawCorridorX_agree (if end_.x > start.x then 1 else -1) end_.x
    (end_.x - start.x).natAbs w1 w2 start h
  revert hx1 hx2
  generalize drawCorridorX (if end_.x > start.x then 1 else -1) end_.x
    (end_.x - start.x).natAbs w1 start = r1
  generalize drawCorridorX (if end_.x > start.x then 1 else -1) end_.x
    (end_.x - start.x).natAbs w2 start = r2
  obtain ⟨u1, c1⟩ := r1
  obtain ⟨u2, c2⟩ := r2
  intro hx1 hx2
  simp only at hx1 hx2
  subst hx2
  simp only
  obtain ⟨hy1, _⟩ := drawCorridorY_agree (if end_.y > c1.y then 1 else -1) end_.y
    (end_.y - c1.y).natAbs u1 u2 c1 hx1
  revert hy1
  generalize drawCorridorY (if end_.y > c1.y then 1 else -1) end_.y
    (end_.y - c1.y).natAbs u1 c1 = q1
  generalize drawCorridorY (if end_.y > c1.y then 1 else -1) end_.y
    (end_.y - c1.y).natAbs u2 c1 = q2
  obtain ⟨v1, _⟩ := q1
  obtain ⟨v2, _⟩ := q2
  intro hy1
  exact carveCell_agree hy1 _ _

theorem foldl_agree {α : Type} {c : Int} (f : World → α → World)
    (hstep : ∀ a b x, SameState c a b → SameState c (f a x) (f b x)) (l : List α)
    (w1 w2 : World) (h : SameState c w1 w2) : SameState c (l.foldl f w1) (l.foldl f w2) := by
  induction l generalizing w1 w2 with
  | nil => exact h
  | cons a l ih => exact ih _ _ (hstep _ _ a h)

theorem paintRoom_agree {c : Int} (w1 w2 : World) (x y w h : Int) (hs : SameState c w1 w2) :
    SameState c (paintRoom w1 x y w h) (paintRoom w2 x y w h) := by
  unfold paintRoom
  apply foldl_agree _ _ _ _ _ hs
  intro a b ry hab
  apply foldl_agree _ _ _ _ _ hab
  intro a2 b2 rx hab2
  rw [← isValidPosition_agree hab2 rx ry]
  split_ifs
  · exact storeTile_agree hab2 _ _ _
  · exact hab2


theorem candidateOverlaps_agree {c : Int} {w1 w2 : World} (h : SameState c w1 w2) (r : Room) :
    candidateOverlaps w1 r = candidateOverlaps w2 r := by
  unfold candidateOverlaps
  rw [← h.roomCount_eq, Bool.eq_iff_iff]
  simp only [List.any_eq_true, mem_intRange]
  constructor
  · rintro ⟨i, hi, hp⟩
    exact ⟨i, hi, by rw [← h.rooms_eq i hi.1 hi.2]; exact hp⟩
  · rintro ⟨i, hi, hp⟩
    exact ⟨i, hi, by rw [h.rooms_eq i hi.1 hi.2]; exact hp⟩

theorem placeRoom_agree {c : Int} {w1 w2 : World} (h : SameState c w1 w2) (r : Room) :
    SameState c (placeRoom w1 r) (placeRoom w2 r) := by
  have hmid : SameState c
      { w1 with rooms := Function.update w1.rooms w1.roomCount r }
      { w2 with rooms := Function.update w2.rooms w2.roomCount r } :=
    { width_eq := h.width_eq
      height_eq := h.height_eq
      seed_eq := h.seed_eq
      roomCount_eq := h.roomCount_eq
      corridorCount_eq := h.corridorCount_eq
      initialized_eq := h.initialized_eq
      tiles_eq := h.tiles_eq
      rooms_eq := fun i hi hi2 => by
        have hi3 : i < w1.roomCount := hi2
        have hne1 : i ≠ w1.roomCount := by omega
        have hne2 : i ≠ w2.roomCount := by rw [← h.roomCount_eq]; exact hne1
        show Function.update w1.rooms w1.roomCount r i = Function.update w2.rooms w2.roomCount r i
        rw [Function.update_noteq hne1, Function.update_noteq hne2]
        exact h.rooms_eq i hi hi3
      corridors_eq := h.corridors_eq
      conn_eq := h.conn_eq
      ds_eq := h.ds_eq }
  have hp := paintRoom_agree _ _ r.x r.y r.width r.height hmid
  unfold placeRoom
  exact
    { width_eq := hp.width_eq
      height_eq := hp.height_eq
      seed_eq := hp.seed_eq
      roomCount_eq := by
        show (paintRoom _ _ _ _ _).roomCount + 1 = (paintRoom _ _ _ _ _).roomCount + 1
        rw [hp.roomCount_eq]
      corridorCount_eq := hp.corridorCount_eq
      initialized_eq := hp.initialized_eq
      tiles_eq := hp.tiles_eq
      rooms_eq := fun i hi hi2 => by
        have hi3 : i < (paintRoom { w1 with rooms := Function.update w1.rooms w1.roomCount r }
          r.x r.y r.width r.height).roomCount + 1 := hi2
        rw [paintRoom_roomCount] at hi3
        have hi4 : i < w1.roomCount + 1 := hi3
        show (paintRoom _ _ _ _ _).rooms i = (paintRoom _ _ _ _ _).rooms i
        rw [paintRoom_rooms, paintRoom_rooms]
        show Function.update w1.rooms w1.roomCount r i = Function.update w2.rooms w2.roomCount r i
        by_cases hie : i = w1.roomCount
        · rw [← h.roomCount_eq, hie, Function.update_same, Function.update_same]
        · have hne2 : i ≠ w2.roomCount := by rw [← h.roomCount_eq]; exact hie
          rw [Function.update_noteq hie, Function.update_noteq hne2]
          exact h.rooms_eq i hi (by omega)
      corridors_eq := hp.corridors_eq
      conn_eq := hp.conn_eq
      ds_eq := hp.ds_eq }

theorem generateRoomsAttempt_agree {c : Int} (minSize maxSize : Int) (w1 w2 : World) (s : Int)
    (h : SameState c w1 w2) (hc : 0 ≤ w1.roomCount) :
    SameState c (generateRoomsAttempt minSize maxSize (w1, s)).1
        (generateRoomsAttempt minSize maxSize (w2, s)).1 ∧
      (generateRoomsAttempt minSize maxSize (w1, s)).2 =
        (generateRoomsAttempt minSize maxSize (w2, s)).2 ∧
      0 ≤ (generateRoomsAttempt minSize maxSize (w1, s)).1.roomCount := by
  rw [generateRoomsAttempt_eq, generateRoomsAttempt_eq,
    candidateRoom_congr minSize maxSize w1 w2 s h.width_eq h.height_eq h.roomCount_eq]
  dsimp only
  rw [candidateOverlaps_agree h]
  split_ifs
  · exact ⟨h, rfl, hc⟩
  · refine ⟨placeRoom_agree h _, rfl, ?_⟩
    show 0 ≤ (placeRoom w1 _).roomCount
    rw [placeRoom_roomCount]; omega

theorem generateRoomsLoop_agree {c : Int} (minSize maxSize maxRooms : Int) (n : Nat)
    (w1 w2 : World) (s : Int) (h : SameState c w1 w2) (hc : 0 ≤ w1.roomCount) :
    SameState c (generateRoomsLoop minSize maxSize maxRooms n (w1, s)).1
        (generateRoomsLoop minSize maxSize maxRooms n (w2, s)).1 ∧
      (generateRoomsLoop minSize maxSize maxRooms n (w1, s)).2 =
        (generateRoomsLoop minSize maxSize maxRooms n (w2, s)).2 := by
  induction n generalizing w1 w2 s with
  | zero => exact ⟨h, rfl⟩
  | succ n ih =>
    unfold generateRoomsLoop
    dsimp only
    rw [← h.roomCount_eq]
    split_ifs
    · obtain ⟨a1, a2, a3⟩ := generateRoomsAttempt_agree minSize maxSize w1 w2 s h hc
      revert a1 a2 a3
      generalize generateRoomsAttempt minSize maxSize (w1, s) = r1
      generalize generateRoomsAttempt minSize maxSize (w2, s) = r2
      obtain ⟨u1, t1⟩ := r1
      obtain ⟨u2, t2⟩ := r2
      intro a1 a2 a3
      simp only at a1 a2 a3
      subst a2
      exact ih u1 u2 t1 a1 a3
    · exact ⟨h, rfl⟩

theorem foldl_congr_mem {α β : Type} (f g : β → α → β) (l : List α)
    (h : ∀ acc, ∀ x ∈ l, f acc x = g acc x) (a : β) : l.foldl f a = l.foldl g a := by
  induction l generalizing a with
  | nil => rfl
  | cons x l ih =>
    simp only [List.foldl_cons]
    rw [h a x (List.mem_cons_self _ _)]
    exact ih (fun acc y hy => h acc y (List.mem_cons_of_mem _ hy)) _

theorem buildEdges_agree {c : Int} {w1 w2 : World} (h : SameState c w1 w2) :
    buildEdges w1 = buildEdges w2 := by
  unfold buildEdges
  rw [← h.roomCount_eq]
  apply foldl_congr_mem
  intro acc i hi
  rw [mem_intRange] at hi
  apply foldl_congr_mem
  intro acc2 j hj
  rw [mem_intRange] at hj
  rw [h.rooms_eq i hi.1 hi.2, h.rooms_eq j (by omega) hj.2]


theorem SameState.with_ds {c : Int} {w1 w2 : World} (h : SameState c w1 w2)
    (d1 d2 : DisjointSet) (hd : DSAgree d1 d2) :
    SameState c { w1 with disjointSet := d1 } { w2 with disjointSet := d2 } :=
  { width_eq := h.width_eq
    height_eq := h.height_eq
    seed_eq := h.seed_eq
    roomCount_eq := h.roomCount_eq
    corridorCount_eq := h.corridorCount_eq
    initialized_eq := h.initialized_eq
    tiles_eq := h.tiles_eq
    rooms_eq := h.rooms_eq
    corridors_eq := h.corridors_eq
    conn_eq := h.conn_eq
    ds_eq := hd }

theorem SameState.with_corridor {c : Int} {w1 w2 : World} (h : SameState c w1 w2)
    (k : Corridor) :
    SameState (c + 1) { w1 with corridors := Function.update w1.corridors c k }
      { w2 with corridors := Function.update w2.corridors c k } :=
  { width_eq := h.width_eq
    height_eq := h.height_eq
    seed_eq := h.seed_eq
    roomCount_eq := h.roomCount_eq
    corridorCount_eq := h.corridorCount_eq
    initialized_eq := h.initialized_eq
    tiles_eq := h.tiles_eq
    rooms_eq := h.rooms_eq
    corridors_eq := fun j hj hj2 => by
      show Function.update w1.corridors c k j = Function.update w2.corridors c k j
      by_cases hjc : j = c
      · rw [hjc, Function.update_same, Function.update_same]
      · rw [Function.update_noteq hjc, Function.update_noteq hjc]
        exact h.corridors_eq j hj (by omega)
    conn_eq := h.conn_eq
    ds_eq := h.ds_eq }

theorem SameState.with_connection {c : Int} {w1 w2 : World} (h : SameState c w1 w2)
    (a b : Int) :
    SameState c
      { w1 with connections := Function.update w1.connections a (b :: w1.connections a) }
      { w2 with connections := Function.update w2.connections a (b :: w2.connections a) } :=
  { width_eq := h.width_eq
    height_eq := h.height_eq
    seed_eq := h.seed_eq
    roomCount_eq := h.roomCount_eq
    corridorCount_eq := h.corridorCount_eq
    initialized_eq := h.initialized_eq
    tiles_eq := h.tiles_eq
    rooms_eq := h.rooms_eq
    corridors_eq := h.corridors_eq
    conn_eq := fun i hi => by
      show Function.update w1.connections a (b :: w1.connections a) i
        = Function.update w2.connections a (b :: w2.connections a) i
      by_cases hia : i = a
      · rw [hia, Function.update_same, Function.update_same, ← hia, h.conn_eq i hi]
      · rw [Function.update_noteq hia, Function.update_noteq hia]
        exact h.conn_eq i hi
    ds_eq := h.ds_eq }

theorem kruskalStep_agree (ci : Int) (w1 w2 : World) (e : Edge) (h : SameState ci w1 w2)
    (he : 0 ≤ e.room1 ∧ e.room1 < w1.roomCount ∧ 0 ≤ e.room2 ∧ e.room2 < w1.roomCount) :
    Option.Rel (fun p q => p.2 = q.2 ∧ SameState p.2 p.1 q.1 ∧ p.1.roomCount = w1.roomCount)
      (kruskalStep (w1, ci) e) (kruskalStep (w2, ci) e) := by
  obtain ⟨hr1a, hr1b, hr2a, hr2b⟩ := he
  have hic := isConnected_agree w1.disjointSet w2.disjointSet e.room1 e.room2 h.ds_eq
  unfold kruskalStep
  dsimp only
  revert hic
  generalize isConnected w1.disjointSet e.room1 e.room2 = a
  generalize isConnected w2.disjointSet e.room1 e.room2 = b
  intro hic
  cases hic with
  | none => exact Option.Rel.none
  | some hab =>
    rename_i p q
    obtain ⟨d1, b1⟩ := p
    obtain ⟨d2, b2⟩ := q
    obtain ⟨hb, hag⟩ := hab
    simp only at hb hag
    subst hb
    dsimp only
    cases b1 with
    | true =>
      simp only [Bool.not_true, Bool.false_eq_true, if_false]
      exact Option.Rel.some ⟨rfl, h.with_ds _ _ hag, rfl⟩
    | false =>
      simp only [Bool.not_false, if_true]
      rw [← h.rooms_eq e.room1 hr1a hr1b, ← h.rooms_eq e.room2 hr2a hr2b]
      by_cases hlt : ci < MAX_CORRIDORS
      · simp only [hlt, if_true, drawCorridor_disjointSet, drawCorridor_connections]
        have hun := unionSets_agree d1 d2 e.room1 e.room2 hag
        revert hun
        generalize unionSets d1 e.room1 e.room2 = ua
        generalize unionSets d2 e.room1 e.room2 = ub
        intro hun
        cases hun with
        | none => exact Option.Rel.none
        | some huab =>
          rename_i u1 u2
          refine Option.Rel.some ⟨rfl, ?_, ?_⟩
          · have hmid := (h.with_ds _ _ hag).with_corridor
              { id := ci,
                start := { x := (w1.rooms e.room1).x + Int.tdiv (w1.rooms e.room1).width 2,
                           y := (w1.rooms e.room1).y + Int.tdiv (w1.rooms e.room1).height 2 },
                end_ := { x := (w1.rooms e.room2).x + Int.tdiv (w1.rooms e.room2).width 2,
                          y := (w1.rooms e.room2).y + Int.tdiv (w1.rooms e.room2).height 2 },
                isTurning :=
                  decide ((w1.rooms e.room1).x + Int.tdiv (w1.rooms e.room1).width 2 ≠
                          (w1.rooms e.room2).x + Int.tdiv (w1.rooms e.room2).width 2) &&
                  decide ((w1.rooms e.room1).y + Int.tdiv (w1.rooms e.room1).height 2 ≠
                          (w1.rooms e.room2).y + Int.tdiv (w1.rooms e.room2).height 2) }
            have hdc := drawCorridor_agree _ _
              { x := (w1.rooms e.room1).x + Int.tdiv (w1.rooms e.room1).width 2,
                y := (w1.rooms e.room1).y + Int.tdiv (w1.rooms e.room1).height 2 }
              { x := (w1.rooms e.room2).x + Int.tdiv (w1.rooms e.room2).width 2,
                y := (w1.rooms e.room2).y + Int.tdiv (w1.rooms e.room2).height 2 } hmid
            have hc1 := hdc.with_connection e.room1 e.room2
            have hc2 := hc1.with_connection e.room2 e.room1
            have hfin := hc2.with_ds _ _ huab
            simp only [drawCorridor_connections] at hfin
            exact hfin
          · show (drawCorridor _ _ _).roomCount = w1.roomCount
            rw [drawCorridor_roomCount]
      · simp only [hlt, if_false]
        exact Option.Rel.some ⟨rfl, h.with_ds _ _ hag, rfl⟩

theorem kruskalLoop_agree (es : List Edge) (ci : Int) (w1 w2 : World)
    (h : SameState ci w1 w2)
    (hes : ∀ e ∈ es, 0 ≤ e.room1 ∧ e.room1 < w1.roomCount ∧ 0 ≤ e.room2 ∧
      e.room2 < w1.roomCount) :
    Option.Rel (fun p q => p.2 = q.2 ∧ SameState p.2 p.1 q.1)
      (kruskalLoop es (w1, ci)) (kruskalLoop es (w2, ci)) := by
  induction es generalizing ci w1 w2 with
  | nil => exact Option.Rel.some ⟨rfl, h⟩
  | cons e es ih =>
    unfold kruskalLoop
    have hstep := kruskalStep_agree ci w1 w2 e h (hes e (List.mem_cons_self _ _))
    revert hstep
    generalize kruskalStep (w1, ci) e = a
    generalize kruskalStep (w2, ci) e = b
    intro hstep
    cases hstep with
    | none => exact Option.Rel.none
    | some hab =>
      rename_i p q
      obtain ⟨u1, c1⟩ := p
      obtain ⟨u2, c2⟩ := q
      obtain ⟨hc, hs, hrc⟩ := hab
      simp only at hc hs hrc
      subst hc
      dsimp only
      apply ih c1 u1 u2 hs
      intro e2 he2
      rw [hrc]
      exact hes e2 (List.mem_cons_of_mem _ he2)


theorem storeTile_loop_tiles (l : List Int) (y v : Int) (wd : World) (ty tx : Int) :
    (l.foldl (fun wd2 x => storeTile wd2 x y v) wd).tiles ty tx =
      if ty = y ∧ tx ∈ l then v else wd.tiles ty tx := by
  induction l generalizing wd with
  | nil => simp
  | cons a l ih =>
    simp only [List.foldl_cons]
    rw [ih]
    unfold storeTile
    by_cases hy : ty = y
    · subst hy
      by_cases hl : tx ∈ l
      · simp [hl]
      · by_cases hx : tx = a
        · subst hx; simp [hl]
        · simp [hl, hx, Function.update_noteq hx]
    · simp [hy, Function.update_noteq hy]

/-- The tile grid after the initialisation loop of `createWorld`. -/
theorem initTiles_tiles (world : World) (width height ty tx : Int) :
    (initTiles world width height).tiles ty tx =
      if (0 ≤ ty ∧ ty < height) ∧ (0 ≤ tx ∧ tx < width) then TILE_WALL
      else world.tiles ty tx := by
  unfold initTiles
  have outer : ∀ (ly : List Int) (wd : World),
      (ly.foldl (fun wd y =>
        (intRange 0 width).foldl (fun wd2 x => storeTile wd2 x y TILE_WALL) wd) wd).tiles ty tx
      = if ty ∈ ly ∧ (0 ≤ tx ∧ tx < width) then TILE_WALL else wd.tiles ty tx := by
    intro ly
    induction ly with
    | nil => intro wd; simp
    | cons a l ih =>
      intro wd
      simp only [List.foldl_cons]
      rw [ih, storeTile_loop_tiles]
      simp only [mem_intRange, List.mem_cons]
      by_cases hx : 0 ≤ tx ∧ tx < width
      · by_cases hl : ty ∈ l
        · simp only [hl, hx, and_self, or_true, if_true]
        · by_cases ha : ty = a
          · subst ha
            simp [hl, hx]
          · simp [hl, ha, hx]
      · simp only [hx, and_false, if_false]
  rw [outer]
  simp only [mem_intRange]

theorem createWorld_eq (currentSeed : Int) (mem : World) (seed width height : Int)
    (hw : 5 ≤ width) (hh : 5 ≤ height) :
    createWorld currentSeed mem seed width height =
      (some { initRoomSlots (initTiles
                { mem with seed := seed, width := min width MAX_WORLD_WIDTH,
                           height := min height MAX_WORLD_HEIGHT, roomCount := 0,
                           corridorCount := 0, initialized := false }
                (min width MAX_WORLD_WIDTH) (min height MAX_WORLD_HEIGHT)) with
              disjointSet := initDisjointSet
                (initRoomSlots (initTiles
                  { mem with seed := seed, width := min width MAX_WORLD_WIDTH,
                             height := min height MAX_WORLD_HEIGHT, roomCount := 0,
                             corridorCount := 0, initialized := false }
                  (min width MAX_WORLD_WIDTH) (min height MAX_WORLD_HEIGHT))).disjointSet
                MAX_ROOMS },
        seed) := by
  have hnot : ¬ (width < 5 ∨ height < 5) := by omega
  have e1 : (if width > MAX_WORLD_WIDTH then MAX_WORLD_WIDTH else width)
      = min width MAX_WORLD_WIDTH := by
    simp only [MAX_WORLD_WIDTH]; split_ifs <;> omega
  have e2 : (if height > MAX_WORLD_HEIGHT then MAX_WORLD_HEIGHT else height)
      = min height MAX_WORLD_HEIGHT := by
    simp only [MAX_WORLD_HEIGHT]; split_ifs <;> omega
  unfold createWorld
  simp only [hnot, if_false, setSeed, e1, e2]

theorem initDisjointSet_agree (d1 d2 : DisjointSet) (count : Int) :
    DSAgree (initDisjointSet d1 count) (initDisjointSet d2 count) :=
  { parent_eq := fun i hi => by
      rw [initDisjointSet_parent, initDisjointSet_parent, if_pos hi, if_pos hi]
    rank_eq := fun i hi => by
      rw [initDisjointSet_rank, initDisjointSet_rank, if_pos hi, if_pos hi]
    count_eq := by rw [initDisjointSet_count, initDisjointSet_count] }

/-- Two calls of `createWorld` with the same arguments agree on everything the
generator reads, whatever the random state and the contents of the allocated blocks. -/
theorem createWorld_agree (s1 s2 : Int) (mem1 mem2 : World) (seed width height : Int)
    (hw : 5 ≤ width) (hh : 5 ≤ height) :
    ∃ w1 w2, createWorld s1 mem1 seed width height = (some w1, seed) ∧
      createWorld s2 mem2 seed width height = (some w2, seed) ∧
      SameState 0 w1 w2 ∧ w1.roomCount = 0 ∧ w1.corridorCount = 0 := by
  refine ⟨_, _, createWorld_eq s1 mem1 seed width height hw hh,
    createWorld_eq s2 mem2 seed width height hw hh, ?_, ?_, ?_⟩
  · obtain ⟨t1, ht1⟩ := initTiles_frame
      { mem1 with seed := seed, width := min width MAX_WORLD_WIDTH,
                  height := min height MAX_WORLD_HEIGHT, roomCount := 0,
                  corridorCount := 0, initialized := false }
      (min width MAX_WORLD_WIDTH) (min height MAX_WORLD_HEIGHT)
    obtain ⟨t2, ht2⟩ := initTiles_frame
      { mem2 with seed := seed, width := min width MAX_WORLD_WIDTH,
                  height := min height MAX_WORLD_HEIGHT, roomCount := 0,
                  corridorCount := 0, initialized := false }
      (min width MAX_WORLD_WIDTH) (min height MAX_WORLD_HEIGHT)
    have hT1 := initTiles_tiles
      { mem1 with seed := seed, width := min width MAX_WORLD_WIDTH,
                  height := min height MAX_WORLD_HEIGHT, roomCount := 0,
                  corridorCount := 0, initialized := false }
      (min width MAX_WORLD_WIDTH) (min height MAX_WORLD_HEIGHT)
    have hT2 := initTiles_tiles
      { mem2 with seed := seed, width := min width MAX_WORLD_WIDTH,
                  height := min height MAX_WORLD_HEIGHT, roomCount := 0,
                  corridorCount := 0, initialized := false }
      (min width MAX_WORLD_WIDTH) (min height MAX_WORLD_HEIGHT)
    rw [initRoomSlots_eq, initRoomSlots_eq]
    rw [ht1] at hT1
    rw [ht2] at hT2
    rw [ht1, ht2]
    exact
      { width_eq := rfl
        height_eq := rfl
        seed_eq := rfl
        roomCount_eq := rfl
        corridorCount_eq := rfl
        initialized_eq := rfl
        tiles_eq := fun x y h1 h2 h3 h4 => by
          have a1 := hT1 y x
          have a2 := hT2 y x
          have hin : (0 ≤ y ∧ y < min height MAX_WORLD_HEIGHT) ∧
              (0 ≤ x ∧ x < min width MAX_WORLD_WIDTH) := ⟨⟨h3, h4⟩, ⟨h1, h2⟩⟩
          rw [if_pos hin] at a1 a2
          show t1 y x = t2 y x
          exact a1.trans a2.symm
        rooms_eq := fun i hi hi2 => by
          have : i < (0 : Int) := hi2
          omega
        corridors_eq := fun k hk hk2 => by omega
        conn_eq := fun i hi => by
          show (if InRange i then [] else mem1.connections i)
            = (if InRange i then [] else mem2.connections i)
          rw [if_pos hi, if_pos hi]
        ds_eq := initDisjointSet_agree _ _ _ }
  · rw [initRoomSlots_eq]
    obtain ⟨t1, ht1⟩ := initTiles_frame
      { mem1 with seed := seed, width := min width MAX_WORLD_WIDTH,
                  height := min height MAX_WORLD_HEIGHT, roomCount := 0,
                  corridorCount := 0, initialized := false }
      (min width MAX_WORLD_WIDTH) (min height MAX_WORLD_HEIGHT)
    rw [ht1]
  · rw [initRoomSlots_eq]
    obtain ⟨t1, ht1⟩ := initTiles_frame
      { mem1 with seed := seed, width := min width MAX_WORLD_WIDTH,
                  height := min height MAX_WORLD_HEIGHT, roomCount := 0,
                  corridorCount := 0, initialized := false }
      (min width MAX_WORLD_WIDTH) (min height MAX_WORLD_HEIGHT)
    rw [ht1]

theorem clearAllConnections_agree {c : Int} {w1 w2 : World} (h : SameState c w1 w2) :
    SameState c (clearAllConnections w1) (clearAllConnections w2) := by
  rw [clearAllConnections_eq, clearAllConnections_eq]
  exact
    { width_eq := h.width_eq
      height_eq := h.height_eq
      seed_eq := h.seed_eq
      roomCount_eq := h.roomCount_eq
      corridorCount_eq := h.corridorCount_eq
      initialized_eq := h.initialized_eq
      tiles_eq := h.tiles_eq
      rooms_eq := h.rooms_eq
      corridors_eq := h.corridors_eq
      conn_eq := fun i hi => by
        show (if InRange i then [] else w1.connections i)
          = (if InRange i then [] else w2.connections i)
        rw [if_pos hi, if_pos hi]
      ds_eq := h.ds_eq }

theorem connectRoomsWithMST_agree (w1 w2 : World) (h : SameState w1.corridorCount w1 w2) :
    Option.Rel (fun p q => p.2 = q.2 ∧ SameState p.1.corridorCount p.1 q.1)
      (connectRoomsWithMST w1) (connectRoomsWithMST w2) := by
  unfold connectRoomsWithMST
  rw [← h.roomCount_eq]
  by_cases hlt : w1.roomCount < 2
  · simp only [hlt, if_true]
    exact Option.Rel.some ⟨rfl, h⟩
  · simp only [hlt, if_false]
    have hcl := clearAllConnections_agree h
    have hrc : (clearAllConnections w1).roomCount = w1.roomCount := by
      rw [clearAllConnections_eq]
    have hstart : SameState 0
        { clearAllConnections w1 with
          disjointSet := initDisjointSet (clearAllConnections w1).disjointSet
            (clearAllConnections w1).roomCount }
        { clearAllConnections w2 with
          disjointSet := initDisjointSet (clearAllConnections w2).disjointSet
            (clearAllConnections w2).roomCount } := by
      have := hcl.with_ds
          (initDisjointSet (clearAllConnections w1).disjointSet
            (clearAllConnections w1).roomCount)
          (initDisjointSet (clearAllConnections w2).disjointSet
            (clearAllConnections w2).roomCount)
          (by rw [hcl.roomCount_eq]; exact initDisjointSet_agree _ _ _)
      exact
        { width_eq := this.width_eq
          height_eq := this.height_eq
          seed_eq := this.seed_eq
          roomCount_eq := this.roomCount_eq
          corridorCount_eq := this.corridorCount_eq
          initialized_eq := this.initialized_eq
          tiles_eq := this.tiles_eq
          rooms_eq := this.rooms_eq
          corridors_eq := fun k hk hk2 => by omega
          conn_eq := this.conn_eq
          ds_eq := this.ds_eq }
    rw [← buildEdges_agree hstart]
    have hloop := kruskalLoop_agree
      (bubbleSort (buildEdges
        { clearAllConnections w1 with
          disjointSet := initDisjointSet (clearAllConnections w1).disjointSet
            (clearAllConnections w1).roomCount })) 0 _ _ hstart
      (by
        intro e he
        rw [mem_bubbleSort, mem_buildEdges] at he
        obtain ⟨i, j, hi, hij, hj, _, _, rfl⟩ := he
        have hj2 : j < (clearAllConnections w1).roomCount := hj
        exact ⟨hi, by show i < (clearAllConnections w1).roomCount; omega,
          by show 0 ≤ j; omega, hj2⟩)
    revert hloop
    generalize kruskalLoop _ ({ clearAllConnections w1 with
          disjointSet := initDisjointSet (clearAllConnections w1).disjointSet
            (clearAllConnections w1).roomCount }, 0) = a
    generalize kruskalLoop _ ({ clearAllConnections w2 with
          disjointSet := initDisjointSet (clearAllConnections w2).disjointSet
            (clearAllConnections w2).roomCount }, 0) = b
    intro hloop
    cases hloop with
    | none => exact Option.Rel.none
    | some hab =>
      rename_i p q
      obtain ⟨u1, c1⟩ := p
      obtain ⟨u2, c2⟩ := q
      obtain ⟨hc, hs⟩ := hab
      simp only at hc hs
      subst hc
      refine Option.Rel.some ⟨rfl, ?_⟩
      exact
        { width_eq := hs.width_eq
          height_eq := hs.height_eq
          seed_eq := hs.seed_eq
          roomCount_eq := hs.roomCount_eq
          corridorCount_eq := rfl
          initialized_eq := hs.initialized_eq
          tiles_eq := hs.tiles_eq
          rooms_eq := hs.rooms_eq
          corridors_eq := hs.corridors_eq
          conn_eq := hs.conn_eq
          ds_eq := hs.ds_eq }

/-! # Room slots that are not in use -/

/-- One placement attempt keeps the slots from `roomCount` on marked absent. -/
theorem generateRoomsAttempt_absent (minSize maxSize : Int) (st : World × Int)
    (h : ∀ i, InRange i → st.1.roomCount ≤ i → (st.1.rooms i).exists_ = false) :
    ∀ i, InRange i → (generateRoomsAttempt minSize maxSize st).1.roomCount ≤ i →
      ((generateRoomsAttempt minSize maxSize st).1.rooms i).exists_ = false := by
  rw [generateRoomsAttempt_eq]
  split_ifs with hov
  · exact h
  · intro i hi hle
    have hle2 : (placeRoom st.1 (candidateRoom minSize maxSize st).1).roomCount ≤ i := hle
    rw [placeRoom_roomCount] at hle2
    show ((placeRoom st.1 (candidateRoom minSize maxSize st).1).rooms i).exists_ = false
    rw [placeRoom_rooms, Function.update_noteq (by omega)]
    exact h i hi (by omega)

theorem generateRooms_absent (currentSeed : Int) (world0 : World)
    (minSize maxSize maxRooms : Int)
    (h : ∀ i, InRange i → world0.roomCount ≤ i → (world0.rooms i).exists_ = false) :
    ∀ i, InRange i → (generateRooms currentSeed world0 minSize maxSize maxRooms).1.roomCount ≤ i →
      ((generateRooms currentSeed world0 minSize maxSize maxRooms).1.rooms i).exists_ = false := by
  unfold generateRooms
  exact generateRoomsLoop_induct minSize maxSize maxRooms
    (fun st => ∀ i, InRange i → st.1.roomCount ≤ i → (st.1.rooms i).exists_ = false)
    (fun st hP _ => generateRoomsAttempt_absent minSize maxSize st hP) _ _ h

/-- The connector on a world with at least two rooms, in terms of the Kruskal scan. -/
theorem connectRoomsWithMST_eq (world : World) (h2 : ¬ world.roomCount < 2) :
    connectRoomsWithMST world =
      match kruskalLoop (bubbleSort (buildEdges (mstStart world))) (mstStart world, 0) with
      | none => none
      | some (w, ci) => some ({ w with corridorCount := ci }, 0) := by
  unfold connectRoomsWithMST
  rw [if_neg h2]
  rfl

/-- The connector never touches the room array or the room count. -/
theorem connectRoomsWithMST_rooms (world w2 : World) (r : Int)
    (h : connectRoomsWithMST world = some (w2, r)) :
    w2.rooms = world.rooms ∧ w2.roomCount = world.roomCount := by
  by_cases hlt : world.roomCount < 2
  · unfold connectRoomsWithMST at h
    rw [if_pos hlt] at h
    simp only [Option.some.injEq, Prod.mk.injEq] at h
    rw [← h.1]
    exact ⟨rfl, rfl⟩
  · rw [connectRoomsWithMST_eq world hlt] at h
    cases hk : kruskalLoop (bubbleSort (buildEdges (mstStart world))) (mstStart world, 0) with
    | none => rw [hk] at h; simp at h
    | some st1 =>
      rw [hk] at h
      obtain ⟨_, _, _, _, hrooms, hcount, _⟩ := kruskalLoop_frame _ _ _ hk
      simp only [Option.some.injEq, Prod.mk.injEq] at h
      rw [← h.1]
      refine ⟨hrooms.trans ?_, hcount.trans ?_⟩
      · show (clearAllConnections world).rooms = world.rooms
        rw [clearAllConnections_eq]
      · show (clearAllConnections world).roomCount = world.roomCount
        rw [clearAllConnections_eq]

/-- In a generated world the slots from `roomCount` up to `MAX_ROOMS` are absent. -/
theorem generateWorldFromSeed_absent (currentSeed : Int) (mem : World)
    (seed width height : Int) (hw : 5 ≤ width) (hh : 5 ≤ height) :
    ∃ world s, generateWorldFromSeed currentSeed mem seed width height = some (some world, s) ∧
      GenPost seed width height world ∧
      ∀ i, InRange i → world.roomCount ≤ i → (world.rooms i).exists_ = false := by
  obtain ⟨world, s, hgen, hpost⟩ :=
    generateWorldFromSeed_spec currentSeed mem seed width height hw hh
  refine ⟨world, s, hgen, hpost, ?_⟩
  obtain ⟨world0, hc, hpost0⟩ := createWorld_spec currentSeed mem seed width height hw hh
  have hP := generateRooms_spec seed world0 hpost0.roomCount_eq
  have habs := generateRooms_absent seed world0 3 6 25 (fun i hi _ => hpost0.no_room i hi)
  rw [generateWorldFromSeed_eq _ _ _ _ _ _ _ hc,
    ensureAtLeastOneRoom_of_pos _ hP.count_pos] at hgen
  revert hgen
  generalize hcm : connectRoomsWithMST (generateRooms seed world0 3 6 25).1 = res
  intro hgen
  cases res with
  | none => simp at hgen
  | some p =>
    obtain ⟨w2, r⟩ := p
    obtain ⟨hrooms, hcount⟩ := connectRoomsWithMST_rooms _ _ _ hcm
    simp only [Option.some.injEq, Prod.mk.injEq] at hgen
    rw [← hgen.1]
    show ∀ i, InRange i → w2.roomCount ≤ i → (w2.rooms i).exists_ = false
    rw [hrooms, hcount]
    exact habs

/-- A query that names a slot outside the array or an absent room is refused before the
buffer is touched. -/
theorem findShortestPath_invalid (world : World) (s e : Int) (path : Int → Int) (maxLen : Int)
    (h : ¬ InRange s ∨ ¬ InRange e ∨ (world.rooms s).exists_ = false ∨
      (world.rooms e).exists_ = false) :
    findShortestPath world s e path maxLen = some (-1, path) := by
  unfold findShortestPath
  split_ifs with c1 c2 c3 c4 c5
  · rfl
  · rfl
  · rfl
  · rfl
  · exfalso
    simp only [Bool.not_eq_true', not_or, Bool.not_eq_false] at c4
    unfold InRange at h
    rcases h with h | h | h | h
    · omega
    · omega
    · rw [c4.1] at h; exact absurd h (by decide)
    · rw [c4.2] at h; exact absurd h (by decide)
  · exfalso
    simp only [Bool.not_eq_true', not_or, Bool.not_eq_false] at c4
    unfold InRange at h
    rcases h with h | h | h | h
    · omega
    · omega
    · rw [c4.1] at h; exact absurd h (by decide)
    · rw [c4.2] at h; exact absurd h (by decide)

/-! # The bubble sort sorts -/

/-- A pass with `k` comparisons only looks at the first `k + 1` entries. -/
theorem bubblePass_append (k : Nat) (p s : List Edge) (hp : p.length = k + 1) :
    bubblePass k (p ++ s) = bubblePass k p ++ s := by
  induction k generalizing p with
  | zero =>
    cases p with
    | nil => simp at hp
    | cons a t => unfold bubblePass; rfl
  | succ k ih =>
    match p, hp with
    | a :: b :: t, hp =>
      have ht : (a :: t).length = k + 1 := by simpa using hp
      have ht2 : (b :: t).length = k + 1 := by simpa using hp
      show bubblePass (k + 1) (a :: b :: (t ++ s)) = bubblePass (k + 1) (a :: b :: t) ++ s
      unfold bubblePass
      split_ifs
      · have := ih (a :: t) ht
        simp only [List.cons_append] at this ⊢
        rw [this]
      · have := ih (b :: t) ht2
        simp only [List.cons_append] at this ⊢
        rw [this]

/-- A pass with `k` comparisons over `k + 1` entries moves a largest entry to the end. -/
theorem bubblePass_max (k : Nat) (p : List Edge) (hp : p.length = k + 1) :
    ∃ q m, bubblePass k p = q ++ [m] ∧ ∀ x ∈ p, x.distance ≤ m.distance := by
  induction k generalizing p with
  | zero =>
    match p, hp with
    | [a], _ =>
      refine ⟨[], a, ?_, ?_⟩
      · unfold bubblePass; rfl
      · intro x hx
        simp only [List.mem_singleton] at hx
        rw [hx]
  | succ k ih =>
    match p, hp with
    | a :: b :: t, hp =>
      have ht : (a :: t).length = k + 1 := by simpa using hp
      have ht2 : (b :: t).length = k + 1 := by simpa using hp
      unfold bubblePass
      split_ifs with hgt
      · obtain ⟨q, m, hq, hm⟩ := ih (a :: t) ht
        refine ⟨b :: q, m, by rw [hq]; rfl, ?_⟩
        intro x hx
        have ha := hm a (List.mem_cons_self _ _)
        simp only [List.mem_cons] at hx
        rcases hx with hx | hx | hx
        · rw [hx]; exact ha
        · rw [hx]; omega
        · exact hm x (List.mem_cons_of_mem _ hx)
      · obtain ⟨q, m, hq, hm⟩ := ih (b :: t) ht2
        refine ⟨a :: q, m, by rw [hq]; rfl, ?_⟩
        intro x hx
        have hb := hm b (List.mem_cons_self _ _)
        simp only [List.mem_cons] at hx
        rcases hx with hx | hx | hx
        · rw [hx]; omega
        · rw [hx]; exact hb
        · exact hm x (List.mem_cons_of_mem _ hx)

theorem bubblePass_length (k : Nat) (l : List Edge) : (bubblePass k l).length = l.length :=
  (bubblePass_perm k l).length_eq

/-- After `i` passes the last `i` entries are in order and not below any earlier
entry. -/
theorem bubbleSort_passes (edges : List Edge) (i : Nat) (hi : i + 1 ≤ edges.length) :
    ∃ p s, (List.range i).foldl (fun acc j => bubblePass (edges.length - j - 1) acc) edges
        = p ++ s ∧
      s.length = i ∧ s.Pairwise (fun a b => a.distance ≤ b.distance) ∧
      ∀ x ∈ p, ∀ y ∈ s, x.distance ≤ y.distance := by
  induction i with
  | zero =>
    exact ⟨edges, [], by simp, rfl, List.Pairwise.nil, fun x _ y hy => by simp at hy⟩
  | succ i ih =>
    obtain ⟨p, s, hfold, hlen, hsorted, hle⟩ := ih (by omega)
    rw [List.range_succ, List.foldl_append]
    simp only [List.foldl_cons, List.foldl_nil]
    rw [hfold]
    have htotal : (p ++ s).length = edges.length := by
      rw [← hfold]
      clear hfold hlen hsorted hle ih hi
      induction i with
      | zero => simp
      | succ i ih2 =>
        rw [List.range_succ, List.foldl_append]
        simp only [List.foldl_cons, List.foldl_nil]
        rw [bubblePass_length]
        exact ih2
    have hplen : p.length = (edges.length - i - 1) + 1 := by
      rw [List.length_append] at htotal
      omega
    rw [bubblePass_append _ p s hplen]
    obtain ⟨q, m, hq, hm⟩ := bubblePass_max _ p hplen
    have hperm := bubblePass_perm (edges.length - i - 1) p
    rw [hq] at hperm ⊢
    have hmp : m ∈ p := hperm.subset (by simp)
    refine ⟨q, m :: s, by simp, by simp [hlen], ?_, ?_⟩
    · rw [List.pairwise_cons]
      exact ⟨fun y hy => hle m hmp y hy, hsorted⟩
    · intro x hx y hy
      have hxp : x ∈ p := hperm.subset (by simp [hx])
      simp only [List.mem_cons] at hy
      rcases hy with hy | hy
      · rw [hy]; exact hm x hxp
      · exact hle x hxp y hy

/-- The edge array is in ascending order of distance after the sort. -/
theorem bubbleSort_sorted (edges : List Edge) :
    (bubbleSort edges).Pairwise (fun a b => a.distance ≤ b.distance) := by
  unfold bubbleSort
  by_cases h0 : edges.length = 0
  · have : edges = [] := List.length_eq_zero.mp h0
    subst this
    simp
  · obtain ⟨p, s, hfold, hlen, hsorted, hle⟩ :=
      bubbleSort_passes edges (edges.length - 1) (by omega)
    rw [hfold, List.pairwise_append]
    have htotal : (p ++ s).length = edges.length := by
      rw [← hfold]
      exact ((bubbleSort_perm edges).length_eq)
    have hp1 : p.length = 1 := by
      rw [List.length_append] at htotal
      omega
    refine ⟨?_, hsorted, hle⟩
    match p, hp1 with
    | [a], _ => exact List.pairwise_singleton _ _

/-! # Kruskal's selection rule yields a minimum spanning tree -/

theorem Linked.refl (F : List Edge) (a : Int) : Linked F a a := Relation.EqvGen.refl a

theorem Linked.symm {F : List Edge} {a b : Int} (h : Linked F a b) : Linked F b a :=
  Relation.EqvGen.symm _ _ h

theorem Linked.trans {F : List Edge} {a b c : Int} (h1 : Linked F a b) (h2 : Linked F b c) :
    Linked F a c :=
  Relation.EqvGen.trans _ _ _ h1 h2

theorem Linked.of_mem {F : List Edge} {e : Edge} (h : e ∈ F) : Linked F e.room1 e.room2 :=
  Relation.EqvGen.rel _ _ ⟨e, h, rfl, rfl⟩

/-- Whatever `F` joins is joined by every list whose edges join the end points of the
edges of `F`. -/
theorem Linked.of_edges {F G : List Edge} (h : ∀ e ∈ F, Linked G e.room1 e.room2) {a b : Int}
    (hab : Linked F a b) : Linked G a b := by
  induction hab with
  | rel x y hxy =>
    obtain ⟨e, he, h1, h2⟩ := hxy
    rw [← h1, ← h2]
    exact h e he
  | refl x => exact Linked.refl G x
  | symm x y _ ih => exact ih.symm
  | trans x y z _ _ ih1 ih2 => exact ih1.trans ih2

theorem Linked.of_subset {F G : List Edge} (h : ∀ e ∈ F, e ∈ G) {a b : Int} (hab : Linked F a b) :
    Linked G a b :=
  Linked.of_edges (fun e he => Linked.of_mem (h e he)) hab

/-- What one more edge can join. -/
theorem Linked.cons_cases {R : List Edge} {t : Edge} {u v : Int} (h : Linked (t :: R) u v) :
    Linked R u v ∨ (Linked R u t.room1 ∧ Linked R t.room2 v) ∨
      (Linked R u t.room2 ∧ Linked R t.room1 v) := by
  induction h with
  | rel x y hxy =>
    obtain ⟨e, he, h1, h2⟩ := hxy
    rw [List.mem_cons] at he
    rcases he with he | he
    · subst he
      right; left
      rw [h1, h2]
      exact ⟨Linked.refl R x, Linked.refl R y⟩
    · left
      rw [← h1, ← h2]
      exact Linked.of_mem he
  | refl x => exact Or.inl (Linked.refl R x)
  | symm x y _ ih =>
    rcases ih with h | ⟨h1, h2⟩ | ⟨h1, h2⟩
    · exact Or.inl h.symm
    · exact Or.inr (Or.inr ⟨h2.symm, h1.symm⟩)
    · exact Or.inr (Or.inl ⟨h2.symm, h1.symm⟩)
  | trans x y z _ _ ih1 ih2 =>
    rcases ih1 with h | ⟨h1, h2⟩ | ⟨h1, h2⟩
    · rcases ih2 with k | ⟨k1, k2⟩ | ⟨k1, k2⟩
      · exact Or.inl (h.trans k)
      · exact Or.inr (Or.inl ⟨h.trans k1, k2⟩)
      · exact Or.inr (Or.inr ⟨h.trans k1, k2⟩)
    · rcases ih2 with k | ⟨k1, k2⟩ | ⟨k1, k2⟩
      · exact Or.inr (Or.inl ⟨h1, h2.trans k⟩)
      · exact Or.inr (Or.inl ⟨h1, k2⟩)
      · exact Or.inl (h1.trans k2)
    · rcases ih2 with k | ⟨k1, k2⟩ | ⟨k1, k2⟩
      · exact Or.inr (Or.inr ⟨h1, h2.trans k⟩)
      · exact Or.inl (h1.trans k2)
      · exact Or.inr (Or.inr ⟨h1, k2⟩)

/-- The exchange step: when `e` joins two rooms that `F` does not join but `T ++ F`
does, some edge of `T` that `F` does not make redundant can be traded for `e`. -/
theorem Linked.exchange (e : Edge) (F : List Edge) (hne : ¬ Linked F e.room1 e.room2) :
    ∀ T : List Edge, Linked (T ++ F) e.room1 e.room2 →
      ∃ T1 t T2, T = T1 ++ t :: T2 ∧ ¬ Linked F t.room1 t.room2 ∧
        Linked ((T1 ++ T2) ++ e :: F) t.room1 t.room2 := by
  intro T
  induction T with
  | nil =>
    intro h
    exact absurd h hne
  | cons t T ih =>
    intro h
    by_cases hT : Linked (T ++ F) e.room1 e.room2
    · obtain ⟨T1, t0, T2, hsplit, hnot, hlink⟩ := ih hT
      refine ⟨t :: T1, t0, T2, by rw [hsplit]; rfl, hnot, ?_⟩
      exact Linked.of_subset (fun x hx => List.mem_cons_of_mem _ hx) hlink
    · have hcases := Linked.cons_cases (R := T ++ F) (t := t) h
      have hF : ∀ x ∈ T ++ F, x ∈ ([] ++ T) ++ e :: F := by
        intro x hx
        simp only [List.nil_append, List.mem_append, List.mem_cons] at hx ⊢
        rcases hx with hx | hx
        · exact Or.inl hx
        · exact Or.inr (Or.inr hx)
      have he : Linked (([] ++ T) ++ e :: F) e.room1 e.room2 :=
        Linked.of_mem (by simp)
      refine ⟨[], t, T, rfl, ?_, ?_⟩
      · intro hlinked
        apply hT
        have hsub : ∀ x ∈ t :: (T ++ F), Linked (T ++ F) x.room1 x.room2 := by
          intro x hx
          rw [List.mem_cons] at hx
          rcases hx with hx | hx
          · rw [hx]
            exact Linked.of_subset (fun y hy => List.mem_append_right _ hy) hlinked
          · exact Linked.of_mem hx
        exact Linked.of_edges hsub h
      · rcases hcases with h0 | ⟨h1, h2⟩ | ⟨h1, h2⟩
        · exact absurd h0 hT
        · exact (Linked.of_subset hF h1).symm.trans (he.trans (Linked.of_subset hF h2).symm)
        · exact (Linked.of_subset hF h2).trans (he.symm.trans (Linked.of_subset hF h1))

theorem totalDistance_cons (e : Edge) (F : List Edge) :
    totalDistance (e :: F) = e.distance + totalDistance F := by
  unfold totalDistance
  simp

theorem totalDistance_append (F G : List Edge) :
    totalDistance (F ++ G) = totalDistance F + totalDistance G := by
  unfold totalDistance
  simp

theorem shiftedDistance_cons (c : Int) (e : Edge) (F : List Edge) :
    shiftedDistance c (e :: F) = e.distance + c + shiftedDistance c F := by
  unfold shiftedDistance
  rw [totalDistance_cons, List.length_cons]
  push_cast
  ring

theorem shiftedDistance_append (c : Int) (F G : List Edge) :
    shiftedDistance c (F ++ G) = shiftedDistance c F + shiftedDistance c G := by
  unfold shiftedDistance
  rw [totalDistance_append, List.length_append]
  push_cast
  ring

theorem shiftedDistance_nonneg (c : Int) (T : List Edge) (h : ∀ t ∈ T, 0 ≤ t.distance + c) :
    0 ≤ shiftedDistance c T := by
  induction T with
  | nil => exact le_of_eq (by unfold shiftedDistance totalDistance; simp)
  | cons t T ih =>
    rw [shiftedDistance_cons]
    have := h t (List.mem_cons_self _ _)
    have := ih (fun x hx => h x (List.mem_cons_of_mem _ hx))
    omega

/-- Optimality of the selection rule, for distances that are at least `-c`: if the
scan of the sorted list `es` turns the chosen edges `F` into `F1`, then the added
length, each edge counted with `c` more, is at most that of any list `T` of edges that,
together with `F`, joins the end points of every scanned edge. -/
theorem Greedy.minimal {es F F1 : List Edge} (hg : Greedy es F F1) (c : Int) :
    es.Pairwise (fun a b => a.distance ≤ b.distance) →
    ∀ T : List Edge, (∀ t ∈ T, 0 ≤ t.distance + c) →
      (∀ t ∈ T, Linked F t.room1 t.room2 ∨ Covered es t) →
      (∀ e ∈ es, Linked (T ++ F) e.room1 e.room2) →
      shiftedDistance c F1 ≤ shiftedDistance c F + shiftedDistance c T := by
  induction hg with
  | done F =>
    intro _ T hpos _ _
    have := shiftedDistance_nonneg c T hpos
    omega
  | skip e es F F1 hlinked _ ih =>
    intro hsorted T hpos hcov hconn
    rw [List.pairwise_cons] at hsorted
    apply ih hsorted.2 T hpos
    · intro t ht
      rcases hcov t ht with h | ⟨e', he', hd, hends⟩
      · exact Or.inl h
      · rw [List.mem_cons] at he'
        rcases he' with he' | he'
        · subst he'
          left
          rcases hends with ⟨h1, h2⟩ | ⟨h1, h2⟩
          · rw [← h1, ← h2]; exact hlinked
          · rw [← h1, ← h2]; exact hlinked.symm
        · exact Or.inr ⟨e', he', hd, hends⟩
    · intro e' he'
      exact hconn e' (List.mem_cons_of_mem _ he')
  | take e es F F1 hnot _ ih =>
    intro hsorted T hpos hcov hconn
    rw [List.pairwise_cons] at hsorted
    obtain ⟨T1, t0, T2, hsplit, ht0, hlink⟩ :=
      Linked.exchange e F hnot T (hconn e (List.mem_cons_self _ _))
    have ht0mem : t0 ∈ T := by rw [hsplit]; simp
    have hsubT : ∀ x ∈ T1 ++ T2, x ∈ T := by
      intro x hx
      rw [hsplit]
      simp only [List.mem_append, List.mem_cons] at hx ⊢
      rcases hx with hx | hx
      · exact Or.inl hx
      · exact Or.inr (Or.inr hx)
    have hle : e.distance ≤ t0.distance := by
      rcases hcov t0 ht0mem with h | ⟨e', he', hd, _⟩
      · exact absurd h ht0
      · rw [List.mem_cons] at he'
        rcases he' with he' | he'
        · rw [← he']; exact hd
        · have := hsorted.1 e' he'
          omega
    have hweight : shiftedDistance c T = shiftedDistance c (T1 ++ T2) + t0.distance + c := by
      rw [hsplit, shiftedDistance_append, shiftedDistance_append, shiftedDistance_cons]
      omega
    have hih := ih hsorted.2 (T1 ++ T2) (fun t ht => hpos t (hsubT t ht))
      (by
        intro t ht
        rcases hcov t (hsubT t ht) with h | ⟨e', he', hd, hends⟩
        · exact Or.inl (Linked.of_subset (fun x hx => List.mem_cons_of_mem _ hx) h)
        · rw [List.mem_cons] at he'
          rcases he' with he' | he'
          · subst he'
            left
            have hself : Linked (e' :: F) e'.room1 e'.room2 :=
              Linked.of_mem (List.mem_cons_self _ _)
            rcases hends with ⟨h1, h2⟩ | ⟨h1, h2⟩
            · rw [← h1, ← h2]; exact hself
            · rw [← h1, ← h2]; exact hself.symm
          · exact Or.inr ⟨e', he', hd, hends⟩)
      (by
        intro e' he'
        have h1 := hconn e' (List.mem_cons_of_mem _ he')
        refine Linked.of_edges ?_ h1
        intro x hx
        rw [hsplit, List.mem_append] at hx
        rcases hx with hx | hx
        · rw [List.mem_append, List.mem_cons] at hx
          rcases hx with hx | hx | hx
          · exact Linked.of_mem (by simp [hx])
          · rw [hx]; exact hlink
          · exact Linked.of_mem (by simp [hx])
        · exact Linked.of_mem (by simp [hx]))
    rw [shiftedDistance_cons] at hih
    omega

/-- The scan keeps a forest a forest. -/
theorem Greedy.forest {es F F1 : List Edge} (hg : Greedy es F F1) : Forest F → Forest F1 := by
  induction hg with
  | done F => exact id
  | skip e es F F1 _ _ ih => exact ih
  | take e es F F1 hnot _ ih => exact fun hF => ih ⟨hnot, hF⟩

/-- Every scanned edge has its end points joined at the end of the scan. -/
theorem Greedy.spans {es F F1 : List Edge} (hg : Greedy es F F1) :
    (∀ e ∈ F, e ∈ F1) ∧ ∀ e ∈ es, Linked F1 e.room1 e.room2 := by
  induction hg with
  | done F => exact ⟨fun e he => he, fun e he => by simp at he⟩
  | skip e es F F1 hlinked _ ih =>
    refine ⟨ih.1, ?_⟩
    intro e' he'
    rw [List.mem_cons] at he'
    rcases he' with he' | he'
    · rw [he']; exact Linked.of_subset ih.1 hlinked
    · exact ih.2 e' he'
  | take e es F F1 _ _ ih =>
    refine ⟨fun x hx => ih.1 x (List.mem_cons_of_mem _ hx), ?_⟩
    intro e' he'
    rw [List.mem_cons] at he'
    rcases he' with he' | he'
    · rw [he']; exact Linked.of_mem (ih.1 e (List.mem_cons_self _ _))
    · exact ih.2 e' he'

/-- The chosen edges are scanned edges. -/
theorem Greedy.subset {es F F1 : List Edge} (hg : Greedy es F F1) :
    ∀ e ∈ F1, e ∈ F ∨ e ∈ es := by
  induction hg with
  | done F => exact fun e he => Or.inl he
  | skip e es F F1 _ _ ih =>
    intro x hx
    rcases ih x hx with h | h
    · exact Or.inl h
    · exact Or.inr (List.mem_cons_of_mem _ h)
  | take e es F F1 _ _ ih =>
    intro x hx
    rcases ih x hx with h | h
    · rw [List.mem_cons] at h
      rcases h with h | h
      · exact Or.inr (by rw [h]; exact List.mem_cons_self _ _)
      · exact Or.inl h
    · exact Or.inr (List.mem_cons_of_mem _ h)

/-! # The Kruskal scan follows the selection rule -/

theorem neighbours_cons (e : Edge) (F : List Edge) (i : Int) :
    neighbours (e :: F) i =
      (if e.room1 = i then [e.room2] else if e.room2 = i then [e.room1] else []) ++
        neighbours F i := by
  unfold neighbours
  rw [List.filterMap_cons]
  split_ifs <;> simp_all

theorem mem_neighbours (F : List Edge) (i j : Int) (h : j ∈ neighbours F i) :
    ∃ e ∈ F, (e.room1 = i ∧ e.room2 = j) ∨ (e.room2 = i ∧ e.room1 = j) := by
  unfold neighbours at h
  rw [List.mem_filterMap] at h
  obtain ⟨e, he, hsome⟩ := h
  refine ⟨e, he, ?_⟩
  split_ifs at hsome with h1 h2
  · left; exact ⟨h1, Option.some.inj hsome⟩
  · right; exact ⟨h2, Option.some.inj hsome⟩

theorem Linked.of_neighbour {F : List Edge} {i j : Int} (h : j ∈ neighbours F i) :
    Linked F i j := by
  obtain ⟨e, he, ⟨h1, h2⟩ | ⟨h1, h2⟩⟩ := mem_neighbours F i j h
  · rw [← h1, ← h2]; exact Linked.of_mem he
  · rw [← h1, ← h2]; exact (Linked.of_mem he).symm

theorem inRange_of_lt {rc x : Int} (hrc : rc ≤ 50) (h0 : 0 ≤ x) (h1 : x < rc) : InRange x := by
  unfold InRange
  simp only [MAX_ROOMS]
  omega

/-- Rooms with the same representative are joined by the chosen edges. -/
theorem KTrace.linked_of_root {rc : Int} {rooms0 : Int → Room} {st : World × Int}
    {F : List Edge} (htr : KTrace rc rooms0 st F) (hinv : KInv rc rooms0 st) (hrc : rc ≤ 50)
    (a b : Int) (ha : InRange a) (hb : InRange b)
    (h : rootOf st.1.disjointSet a = rootOf st.1.disjointSet b) : Linked F a b := by
  have hreach : Reach st.1 a b := hinv.reach a b ha hb h
  clear h hb
  have key : Linked F a b ∧ InRange b := by
    induction hreach with
    | refl => exact ⟨Linked.refl F a, ha⟩
    | @tail x y _ hstep ih =>
      obtain ⟨hax, hx⟩ := ih
      have hmem : y ∈ st.1.connections x := hstep
      have hr := hinv.conn_range x hx y hmem
      rw [htr.conn x hx] at hmem
      exact ⟨hax.trans (Linked.of_neighbour hmem), inRange_of_lt hrc hr.1 hr.2⟩
  exact key.1

/-- Rooms joined by the chosen edges have the same representative. -/
theorem KTrace.root_of_linked {rc : Int} {rooms0 : Int → Room} {st : World × Int}
    {F : List Edge} (htr : KTrace rc rooms0 st F) (hrc : rc ≤ 50)
    (a b : Int) (h : Linked F a b) :
    (InRange a ↔ InRange b) ∧
      (InRange a → rootOf st.1.disjointSet a = rootOf st.1.disjointSet b) := by
  induction h with
  | rel x y hxy =>
    obtain ⟨e, he, h1, h2⟩ := hxy
    obtain ⟨v0, v1, v2, _⟩ := htr.valid e he
    have hx : InRange x := by rw [← h1]; exact inRange_of_lt hrc v0 (by omega)
    have hy : InRange y := by rw [← h2]; exact inRange_of_lt hrc (by omega) v2
    refine ⟨⟨fun _ => hy, fun _ => hx⟩, fun _ => ?_⟩
    rw [← h1, ← h2]
    exact htr.same_root e he
  | refl x => exact ⟨Iff.rfl, fun _ => rfl⟩
  | symm x y _ ih => exact ⟨ih.1.symm, fun hy => (ih.2 (ih.1.mpr hy)).symm⟩
  | trans x y z _ _ ih1 ih2 =>
    exact ⟨ih1.1.trans ih2.1, fun hx => (ih1.2 hx).trans (ih2.2 (ih1.1.mp hx))⟩

/-- One step of the scan: the edge is skipped exactly when the chosen edges already
join its end points, and is added to them otherwise. -/
theorem kruskalStep_trace (rc : Int) (hrc : rc ≤ 50) (rooms0 : Int → Room) (st : World × Int)
    (F : List Edge) (hinv : KInv rc rooms0 st) (htr : KTrace rc rooms0 st F) (e : Edge)
    (he : 0 ≤ e.room1 ∧ e.room1 < e.room2 ∧ e.room2 < rc)
    (hd : e.distance = roomDistance (rooms0 e.room1) (rooms0 e.room2)) :
    ∃ st1, kruskalStep st e = some st1 ∧ KInv rc rooms0 st1 ∧
      ((Linked F e.room1 e.room2 ∧ KTrace rc rooms0 st1 F) ∨
       (¬ Linked F e.room1 e.room2 ∧ KTrace rc rooms0 st1 (e :: F))) := by
  obtain ⟨st1, hstep, hinv1, hroot1, hmono⟩ := kruskalStep_spec rc hrc rooms0 st hinv e he
  refine ⟨st1, hstep, hinv1, ?_⟩
  have h1 : InRange e.room1 := inRange_of_lt hrc he.1 (by omega)
  have h2 : InRange e.room2 := inRange_of_lt hrc (by omega) he.2.2
  obtain ⟨ds1, hcall, hds1, _, hroots⟩ :=
    isConnected_spec st.1.disjointSet hinv.ds_inv e.room1 e.room2 h1 h2
  by_cases heq : rootOf st.1.disjointSet e.room1 = rootOf st.1.disjointSet e.room2
  · left
    refine ⟨htr.linked_of_root hinv hrc e.room1 e.room2 h1 h2 heq, ?_⟩
    rw [decide_eq_true heq] at hcall
    have hskip := kruskalStep_skip st.1 st.2 e ds1 hcall
    have hst1 : st1 = ({ st.1 with disjointSet := ds1 }, st.2) :=
      Option.some.inj (hstep.symm.trans hskip)
    rw [hst1]
    exact
      { conn := htr.conn
        same_root := fun x hx => by
          obtain ⟨v0, v1, v2, _⟩ := htr.valid x hx
          show rootOf ds1 x.room1 = rootOf ds1 x.room2
          rw [hroots _ (inRange_of_lt hrc v0 (by omega)),
            hroots _ (inRange_of_lt hrc (by omega) v2)]
          exact htr.same_root x hx
        valid := htr.valid
        index_eq := htr.index_eq }
  · right
    refine ⟨fun hl => heq ((htr.root_of_linked hrc e.room1 e.room2 hl).2 h1), ?_⟩
    rw [decide_eq_false heq] at hcall
    obtain ⟨ds2, hu, _, _⟩ := unionSets_spec ds1 hds1 e.room1 e.room2 h1 h2
    have hci : st.2 < MAX_CORRIDORS := by
      have hr := hinv.roots
      have hc : (0 : Int) ≤ ((rootSet st.1.disjointSet).card : Int) := Int.natCast_nonneg _
      simp only [MAX_CORRIDORS]
      omega
    obtain ⟨w2, hjoin, _, _, _, _, _, _, _, _, hconn, _⟩ :=
      kruskalStep_join st.1 st.2 e ds1 ds2 hcall hci hu
    have hst1 : st1 = (w2, st.2 + 1) := Option.some.inj (hstep.symm.trans hjoin)
    have hne : e.room1 ≠ e.room2 := by omega
    exact
      { conn := fun i hi => by
          rw [hst1]
          show w2.connections i = _
          rw [hconn, neighbours_cons, ← htr.conn i hi]
          by_cases hi2 : i = e.room2
          · subst hi2
            rw [Function.update_same, Function.update_noteq hne.symm, if_neg hne, if_pos rfl]
            rfl
          · rw [Function.update_noteq hi2]
            by_cases hi1 : i = e.room1
            · subst hi1
              rw [Function.update_same, if_pos rfl]
              rfl
            · rw [Function.update_noteq hi1, if_neg (Ne.symm hi1), if_neg (Ne.symm hi2)]
              rfl
        same_root := fun x hx => by
          rw [List.mem_cons] at hx
          rcases hx with hx | hx
          · rw [hx]; exact hroot1
          · obtain ⟨v0, v1, v2, _⟩ := htr.valid x hx
            exact hmono _ _ (inRange_of_lt hrc v0 (by omega)) (inRange_of_lt hrc (by omega) v2)
              (htr.same_root x hx)
        valid := fun x hx => by
          rw [List.mem_cons] at hx
          rcases hx with hx | hx
          · rw [hx]; exact ⟨he.1, he.2.1, he.2.2, hd⟩
          · exact htr.valid x hx
        index_eq := by
          rw [hst1]
          show st.2 + 1 = ((e :: F).length : Int)
          rw [htr.index_eq]
          simp }

/-- The whole scan follows the selection rule. -/
theorem kruskalLoop_trace (rc : Int) (hrc : rc ≤ 50) (rooms0 : Int → Room) (es : List Edge) :
    ∀ (st : World × Int) (F : List Edge), KInv rc rooms0 st → KTrace rc rooms0 st F →
      (∀ e ∈ es, (0 ≤ e.room1 ∧ e.room1 < e.room2 ∧ e.room2 < rc) ∧
        e.distance = roomDistance (rooms0 e.room1) (rooms0 e.room2)) →
      ∃ st1 F1, kruskalLoop es st = some st1 ∧ KInv rc rooms0 st1 ∧ KTrace rc rooms0 st1 F1 ∧
        Greedy es F F1 := by
  induction es with
  | nil =>
    intro st F hinv htr _
    exact ⟨st, F, rfl, hinv, htr, Greedy.done F⟩
  | cons e es ih =>
    intro st F hinv htr hes
    obtain ⟨hv, hd⟩ := hes e (List.mem_cons_self _ _)
    obtain ⟨st1, hstep, hinv1, hcase⟩ := kruskalStep_trace rc hrc rooms0 st F hinv htr e hv hd
    have hrest := fun x hx => hes x (List.mem_cons_of_mem _ hx)
    rcases hcase with ⟨hl, htr1⟩ | ⟨hl, htr1⟩
    · obtain ⟨st2, F1, hloop, hinv2, htr2, hg⟩ := ih st1 F hinv1 htr1 hrest
      refine ⟨st2, F1, ?_, hinv2, htr2, Greedy.skip e es F F1 hl hg⟩
      unfold kruskalLoop
      rw [hstep]
      exact hloop
    · obtain ⟨st2, F1, hloop, hinv2, htr2, hg⟩ := ih st1 (e :: F) hinv1 htr1 hrest
      refine ⟨st2, F1, ?_, hinv2, htr2, Greedy.take e es F F1 hl hg⟩
      unfold kruskalLoop
      rw [hstep]
      exact hloop

/-! # The connector builds a minimum spanning tree -/

/-- The wrapped differences `a - b` and `b - a` have the same square. -/
theorem wrapInt_sub_sq (a b : Int) :
    wrapInt (b - a) * wrapInt (b - a) = wrapInt (a - b) * wrapInt (a - b) := by
  have h : wrapInt (b - a) = -wrapInt (a - b) ∨ wrapInt (b - a) = wrapInt (a - b) := by
    unfold wrapInt
    omega
  rcases h with h | h
  · rw [h]; ring
  · rw [h]

theorem roomDistance_comm (a b : Room) : roomDistance a b = roomDistance b a := by
  unfold roomDistance
  simp only
  rw [wrapInt_sub_sq (wrapInt (a.x + Int.tdiv a.width 2)) (wrapInt (b.x + Int.tdiv b.width 2)),
    wrapInt_sub_sq (wrapInt (a.y + Int.tdiv a.height 2))
      (wrapInt (b.y + Int.tdiv b.height 2))]

/-- The distance is `INT_MIN` or not negative. -/
theorem roomDistance_ge (a b : Room) : INT_MIN ≤ roomDistance a b := by
  unfold roomDistance
  simp only
  split_ifs
  · exact le_refl _
  · exact le_trans (by decide) (Int.sqrt_nonneg _)

/-- In a forest no room is listed twice among the neighbours of a room. -/
theorem Forest.neighbours_nodup {F : List Edge} (hF : Forest F) (i : Int) :
    (neighbours F i).Nodup := by
  induction F with
  | nil => exact List.nodup_nil
  | cons e F ih =>
    obtain ⟨hnot, hrest⟩ := hF
    rw [neighbours_cons]
    split_ifs with h1 h2
    · rw [List.singleton_append, List.nodup_cons]
      refine ⟨fun hmem => hnot ?_, ih hrest⟩
      rw [h1]
      exact Linked.of_neighbour hmem
    · rw [List.singleton_append, List.nodup_cons]
      refine ⟨fun hmem => hnot ?_, ih hrest⟩
      rw [h2]
      exact (Linked.of_neighbour hmem).symm
    · rw [List.nil_append]
      exact ih hrest

theorem mstStart_rooms (world : World) : (mstStart world).rooms = world.rooms := by
  show (clearAllConnections world).rooms = world.rooms
  rw [clearAllConnections_eq]

theorem mstStart_roomCount (world : World) : (mstStart world).roomCount = world.roomCount := by
  show (clearAllConnections world).roomCount = world.roomCount
  rw [clearAllConnections_eq]

theorem mstStart_connections (world : World) (i : Int) (hi : InRange i) :
    (mstStart world).connections i = [] := by
  show (clearAllConnections world).connections i = []
  rw [clearAllConnections_eq]
  simp only [hi, if_true]

/-- The invariant of the scan holds at its start. -/
theorem mstStart_kInv (world : World) :
    KInv world.roomCount world.rooms (mstStart world, 0) :=
  { ds_inv := initDisjointSet_inv _ _
    roots := by
      show ((rootSet (initDisjointSet _ _)).card : Int) + 0 = 50
      rw [rootSet_init]; rfl
    low := fun y hy hlt => by
      show rootOf (initDisjointSet _ _) y < world.roomCount
      rw [initDisjointSet_rootOf _ _ y hy]; exact hlt
    high := fun y hy _ => initDisjointSet_rootOf _ _ y hy
    rooms_eq := mstStart_rooms world
    roomCount_eq := mstStart_roomCount world
    reach := fun a b ha hb hab => by
      have hab2 : rootOf (initDisjointSet (clearAllConnections world).disjointSet
            (clearAllConnections world).roomCount) a
          = rootOf (initDisjointSet (clearAllConnections world).disjointSet
            (clearAllConnections world).roomCount) b := hab
      rw [initDisjointSet_rootOf _ _ a ha, initDisjointSet_rootOf _ _ b hb] at hab2
      rw [hab2]
      exact Relation.ReflTransGen.refl
    conn_range := fun i hi j hj => by
      have hj2 : j ∈ (mstStart world).connections i := hj
      rw [mstStart_connections world i hi] at hj2
      exact absurd hj2 (List.not_mem_nil _)
    idx_nonneg := le_refl _ }

theorem mstStart_kTrace (world : World) :
    KTrace world.roomCount world.rooms (mstStart world, 0) [] :=
  { conn := fun i hi => mstStart_connections world i hi
    same_root := fun _ he => absurd he (List.not_mem_nil _)
    valid := fun _ he => absurd he (List.not_mem_nil _)
    index_eq := rfl }

/-- The scanned edges: every pair `i < j` of existing rooms, with its distance. -/
theorem mem_mstEdges (world : World) (e : Edge) :
    e ∈ bubbleSort (buildEdges (mstStart world)) ↔
      ∃ i j, 0 ≤ i ∧ i < j ∧ j < world.roomCount ∧
        (world.rooms i).exists_ = true ∧ (world.rooms j).exists_ = true ∧
        e = { room1 := i, room2 := j,
              distance := roomDistance (world.rooms i) (world.rooms j) } := by
  rw [mem_bubbleSort, mem_buildEdges, mstStart_rooms, mstStart_roomCount]

/-- The connector on a world with at least two rooms, all existing: the result in terms
of the edges chosen by the scan. -/
theorem connectRoomsWithMST_trace (world : World) (h2 : 2 ≤ world.roomCount)
    (h50 : world.roomCount ≤ MAX_ROOMS)
    (hex : ∀ i, 0 ≤ i → i < world.roomCount → (world.rooms i).exists_ = true) :
    ∃ w1 ci F1,
      kruskalLoop (bubbleSort (buildEdges (mstStart world))) (mstStart world, 0)
        = some (w1, ci) ∧
      connectRoomsWithMST world = some ({ w1 with corridorCount := ci }, 0) ∧
      KInv world.roomCount world.rooms (w1, ci) ∧
      KTrace world.roomCount world.rooms (w1, ci) F1 ∧
      Greedy (bubbleSort (buildEdges (mstStart world))) [] F1 ∧
      ci = world.roomCount - 1 := by
  have hrc : world.roomCount ≤ 50 := h50
  have hnot : ¬ world.roomCount < 2 := by omega
  obtain ⟨st1, F1, hloop, hinv1, htr1, hg⟩ :=
    kruskalLoop_trace world.roomCount hrc world.rooms
      (bubbleSort (buildEdges (mstStart world))) (mstStart world, 0) []
      (mstStart_kInv world) (mstStart_kTrace world)
      (by
        intro e he
        rw [mem_mstEdges] at he
        obtain ⟨i, j, hi, hij, hj, _, _, rfl⟩ := he
        exact ⟨⟨hi, hij, hj⟩, rfl⟩)
  obtain ⟨w1, ci⟩ := st1
  have hconn : connectRoomsWithMST world = some ({ w1 with corridorCount := ci }, 0) := by
    rw [connectRoomsWithMST_eq world hnot, hloop]
  obtain ⟨w2, hc2, hpost⟩ := connectRoomsWithMST_spec world h2 h50 hex
  have hw2 : w2 = { w1 with corridorCount := ci } := by
    have := hc2.symm.trans hconn
    simp only [Option.some.injEq, Prod.mk.injEq, and_true] at this
    exact this
  have hci : ci = world.roomCount - 1 := by
    have := hpost.corridorCount_eq
    rw [hw2] at this
    exact this
  exact ⟨w1, ci, F1, hloop, hconn, hinv1, htr1, hg, hci⟩

/-! # Corridor rasterisation as a function of the tile grid -/

theorem carve_none (W H : Int) (tiles : Int → Int → Int) :
    carve W H (fun _ _ => false) tiles = tiles := by
  funext y x
  unfold carve
  simp

theorem carve_carve (W H : Int) (C1 C2 : Int → Int → Bool) (tiles : Int → Int → Int) :
    carve W H C2 (carve W H C1 tiles) = carve W H (fun a b => C1 a b || C2 a b) tiles := by
  funext y x
  unfold carve
  have hne : TILE_CORRIDOR ≠ TILE_WALL := by decide
  by_cases hv : 0 ≤ x ∧ x < W ∧ 0 ≤ y ∧ y < H
  · by_cases hw : tiles y x = TILE_WALL
    · cases h1 : C1 x y <;> cases h2 : C2 x y <;> simp [hv, hw, hne, h1, h2]
    · cases h1 : C1 x y <;> cases h2 : C2 x y <;> simp [hv, hw, hne, h1, h2]
  · simp [hv]

theorem carve_idem (W H : Int) (C : Int → Int → Bool) (tiles : Int → Int → Int) :
    carve W H C (carve W H C tiles) = carve W H C tiles := by
  rw [carve_carve]
  have hC : (fun a b => C a b || C a b) = C := by
    funext a b
    exact Bool.or_self _
  rw [hC]

theorem world_ext (a b : World) (h1 : a.tiles = b.tiles) (h2 : a.rooms = b.rooms)
    (h3 : a.corridors = b.corridors) (h4 : a.roomCount = b.roomCount)
    (h5 : a.corridorCount = b.corridorCount) (h6 : a.connections = b.connections)
    (h7 : a.disjointSet = b.disjointSet) (h8 : a.width = b.width) (h9 : a.height = b.height)
    (h10 : a.seed = b.seed) (h11 : a.initialized = b.initialized) : a = b := by
  cases a
  cases b
  simp only at h1 h2 h3 h4 h5 h6 h7 h8 h9 h10 h11
  subst h1 h2 h3 h4 h5 h6 h7 h8 h9 h10 h11
  rfl

theorem carveCell_carve (world : World) (x y : Int) :
    carveCell world x y =
      { world with
        tiles := carve world.width world.height (fun a b => decide (a = x ∧ b = y))
          world.tiles } := by
  obtain ⟨t, ht⟩ := carveCell_frame world x y
  rw [ht]
  have htiles : t = (carveCell world x y).tiles := by rw [ht]
  congr 1
  rw [htiles]
  funext y2 x2
  unfold carveCell carve
  by_cases hv : isValidPosition world x y = true
  · have hv2 := (isValidPosition_iff world x y).mp hv
    by_cases hw : world.tiles y x = TILE_WALL
    · simp only [hv, hw, if_true]
      unfold storeTile
      show Function.update world.tiles y (Function.update (world.tiles y) x TILE_CORRIDOR) y2 x2
        = _
      by_cases hy : y2 = y
      · subst hy
        rw [Function.update_same]
        by_cases hx : x2 = x
        · subst hx
          rw [Function.update_same]
          simp [hv2, hw]
        · rw [Function.update_noteq hx]
          simp [hx]
      · rw [Function.update_noteq hy]
        simp [hy]
    · simp only [hv, hw, if_true, if_false]
      by_cases hc : x2 = x ∧ y2 = y
      · obtain ⟨hx, hy⟩ := hc
        subst hx hy
        simp [hw]
      · simp [hc]
  · simp only [hv, if_false, Bool.false_eq_true]
    by_cases hc : x2 = x ∧ y2 = y
    · obtain ⟨hx, hy⟩ := hc
      subst hx hy
      have hv3 : ¬ (0 ≤ x2 ∧ x2 < world.width ∧ 0 ≤ y2 ∧ y2 < world.height) :=
        fun h => hv ((isValidPosition_iff world x2 y2).mpr h)
      simp [hv3]
    · simp [hc]

theorem drawCorridorX_carve (W H stepX endX : Int) (n : Nat) :
    ∀ cur : Point, ∃ (C : Int → Int → Bool) (p : Point), ∀ w : World,
      w.width = W → w.height = H →
      drawCorridorX stepX endX n w cur = ({ w with tiles := carve W H C w.tiles }, p) := by
  induction n with
  | zero =>
    intro cur
    refine ⟨fun _ _ => false, cur, ?_⟩
    intro w _ _
    rw [carve_none]
    rfl
  | succ n ih =>
    intro cur
    by_cases hx : cur.x ≠ endX
    · obtain ⟨C, p, hC⟩ := ih { cur with x := cur.x + stepX }
      refine ⟨fun a b => decide (a = cur.x ∧ b = cur.y) || C a b, p, ?_⟩
      intro w hw hh
      subst hw hh
      rw [drawCorridorX, if_pos hx, carveCell_carve,
        hC { w with
             tiles := carve w.width w.height (fun a b => decide (a = cur.x ∧ b = cur.y))
               w.tiles } rfl rfl]
      simp only [carve_carve]
    · refine ⟨fun _ _ => false, cur, ?_⟩
      intro w _ _
      rw [drawCorridorX, if_neg hx, carve_none]

theorem drawCorridorY_carve (W H stepY endY : Int) (n : Nat) :
    ∀ cur : Point, ∃ (C : Int → Int → Bool) (p : Point), ∀ w : World,
      w.width = W → w.height = H →
      drawCorridorY stepY endY n w cur = ({ w with tiles := carve W H C w.tiles }, p) := by
  induction n with
  | zero =>
    intro cur
    refine ⟨fun _ _ => false, cur, ?_⟩
    intro w _ _
    rw [carve_none]
    rfl
  | succ n ih =>
    intro cur
    by_cases hy : cur.y ≠ endY
    · obtain ⟨C, p, hC⟩ := ih { cur with y := cur.y + stepY }
      refine ⟨fun a b => decide (a = cur.x ∧ b = cur.y) || C a b, p, ?_⟩
      intro w hw hh
      subst hw hh
      rw [drawCorridorY, if_pos hy, carveCell_carve,
        hC { w with
             tiles := carve w.width w.height (fun a b => decide (a = cur.x ∧ b = cur.y))
               w.tiles } rfl rfl]
      simp only [carve_carve]
    · refine ⟨fun _ _ => false, cur, ?_⟩
      intro w _ _
      rw [drawCorridorY, if_neg hy, carve_none]

/-- Drawing a corridor changes the tile grid by a function that does not look at
anything else in the world. -/
theorem drawCorridor_carve (W H : Int) (start end_ : Point) :
    ∃ C : Int → Int → Bool, ∀ w : World, w.width = W → w.height = H →
      drawCorridor w start end_ = { w with tiles := carve W H C w.tiles } := by
  obtain ⟨C1, p1, h1⟩ := drawCorridorX_carve W H (if end_.x > start.x then 1 else -1) end_.x
    (end_.x - start.x).natAbs start
  obtain ⟨C2, p2, h2⟩ := drawCorridorY_carve W H (if end_.y > p1.y then 1 else -1) end_.y
    (end_.y - p1.y).natAbs p1
  refine ⟨fun a b => (C1 a b || C2 a b) || decide (a = end_.x ∧ b = end_.y), ?_⟩
  intro w hw hh
  subst hw hh
  unfold drawCorridor
  simp only [h1 w rfl rfl,
    h2 { w with tiles := carve w.width w.height C1 w.tiles } rfl rfl, carveCell_carve,
    carve_carve]

theorem drawCorridor_tiles_of_carve {W H : Int} {C : Int → Int → Bool} {start end_ : Point}
    (hC : ∀ w : World, w.width = W → w.height = H →
      drawCorridor w start end_ = { w with tiles := carve W H C w.tiles })
    (w : World) (hw : w.width = W) (hh : w.height = H) :
    (drawCorridor w start end_).tiles = carve W H C w.tiles := by
  rw [hC w hw hh]

/-- One step of the scan on a world with another tile grid and another corridor count:
the rest of the state moves the same way, and the tile grid is carved along a set of
cells that depends on neither. -/
theorem kruskalStep_carve (w : World) (ci : Int) (e : Edge) :
    ∃ C : Int → Int → Bool, ∀ (tiles : Int → Int → Int) (cc : Int),
      kruskalStep ({ w with tiles := tiles, corridorCount := cc }, ci) e =
        (kruskalStep (w, ci) e).map
          (fun r => ({ r.1 with tiles := carve w.width w.height C tiles, corridorCount := cc },
            r.2)) := by
  obtain ⟨C, hC⟩ := drawCorridor_carve w.width w.height
    { x := (w.rooms e.room1).x + Int.tdiv (w.rooms e.room1).width 2,
      y := (w.rooms e.room1).y + Int.tdiv (w.rooms e.room1).height 2 }
    { x := (w.rooms e.room2).x + Int.tdiv (w.rooms e.room2).width 2,
      y := (w.rooms e.room2).y + Int.tdiv (w.rooms e.room2).height 2 }
  have hT := fun w' h1 h2 => drawCorridor_tiles_of_carve hC w' h1 h2
  cases hcall : isConnected w.disjointSet e.room1 e.room2 with
  | none =>
    refine ⟨C, fun tiles cc => ?_⟩
    unfold kruskalStep
    simp only [hcall]
    rfl
  | some p =>
    obtain ⟨ds1, connected⟩ := p
    cases connected with
    | true =>
      refine ⟨fun _ _ => false, fun tiles cc => ?_⟩
      rw [kruskalStep_skip w ci e ds1 hcall,
        kruskalStep_skip { w with tiles := tiles, corridorCount := cc } ci e ds1 hcall,
        carve_none]
      rfl
    | false =>
      by_cases hci : ci < MAX_CORRIDORS
      · cases hu : unionSets ds1 e.room1 e.room2 with
        | none =>
          refine ⟨C, fun tiles cc => ?_⟩
          unfold kruskalStep
          simp only [hcall, Bool.not_false, if_true, hci, drawCorridor_disjointSet, hu]
          rfl
        | some ds2 =>
          refine ⟨C, fun tiles cc => ?_⟩
          unfold kruskalStep
          simp only [hcall, Bool.not_false, if_true, hci, drawCorridor_disjointSet, hu,
            Option.map_some']
          refine congrArg some (Prod.ext ?_ rfl)
          apply world_ext
          · exact hT _ rfl rfl
          all_goals simp only [drawCorridor_rooms, drawCorridor_corridors,
            drawCorridor_roomCount, drawCorridor_corridorCount, drawCorridor_connections,
            drawCorridor_width, drawCorridor_height, drawCorridor_seed,
            drawCorridor_initialized]
      · refine ⟨fun _ _ => false, fun tiles cc => ?_⟩
        unfold kruskalStep
        simp only [hcall, Bool.not_false, if_true, hci, if_false, Option.map_some', carve_none]

theorem kruskalLoop_cons_some (e : Edge) (es : List Edge) (st st1 : World × Int)
    (h : kruskalStep st e = some st1) : kruskalLoop (e :: es) st = kruskalLoop es st1 := by
  rw [kruskalLoop, h]

theorem kruskalLoop_cons_none (e : Edge) (es : List Edge) (st : World × Int)
    (h : kruskalStep st e = none) : kruskalLoop (e :: es) st = none := by
  rw [kruskalLoop, h]

/-- The whole scan on a world with another tile grid and another corridor count. -/
theorem kruskalLoop_carve (es : List Edge) :
    ∀ (w : World) (ci : Int), ∃ C : Int → Int → Bool, ∀ (tiles : Int → Int → Int) (cc : Int),
      kruskalLoop es ({ w with tiles := tiles, corridorCount := cc }, ci) =
        (kruskalLoop es (w, ci)).map
          (fun r => ({ r.1 with tiles := carve w.width w.height C tiles, corridorCount := cc },
            r.2)) := by
  induction es with
  | nil =>
    intro w ci
    refine ⟨fun _ _ => false, fun tiles cc => ?_⟩
    rw [carve_none]
    rfl
  | cons e es ih =>
    intro w ci
    obtain ⟨C0, h0⟩ := kruskalStep_carve w ci e
    cases hs : kruskalStep (w, ci) e with
    | none =>
      refine ⟨C0, fun tiles cc => ?_⟩
      have hL := h0 tiles cc
      rw [hs] at hL
      rw [kruskalLoop_cons_none e es _ hL, kruskalLoop_cons_none e es _ hs]
      rfl
    | some st1 =>
      obtain ⟨w1, c1⟩ := st1
      obtain ⟨C1, h1⟩ := ih w1 c1
      obtain ⟨fw, fh, _⟩ := kruskalStep_frame _ _ _ hs
      have fw2 : w1.width = w.width := fw
      have fh2 : w1.height = w.height := fh
      refine ⟨fun a b => C0 a b || C1 a b, fun tiles cc => ?_⟩
      have hL := h0 tiles cc
      rw [hs] at hL
      rw [kruskalLoop_cons_some e es _ _ hL, kruskalLoop_cons_some e es _ _ hs]
      have h1' := h1 (carve w.width w.height C0 tiles) cc
      have hcv : carve w1.width w1.height C1 (carve w.width w.height C0 tiles)
          = carve w.width w.height (fun a b => C0 a b || C1 a b) tiles := by
        rw [fw2, fh2, carve_carve]
      rw [hcv] at h1'
      exact h1'

theorem optionRel_some_left {α β : Type} {r : α → β → Prop} {a : α} {ob : Option β}
    (h : Option.Rel r (some a) ob) : ∃ b, ob = some b ∧ r a b := by
  cases h with
  | some hab => exact ⟨_, rfl, hab⟩

theorem buildEdges_congr (a b : World) (h1 : a.rooms = b.rooms)
    (h2 : a.roomCount = b.roomCount) : buildEdges a = buildEdges b := by
  unfold buildEdges
  rw [h1, h2]

/-- Running the connector on its own result replays the same scan: the second result
agrees with the first on everything the connector writes. -/
theorem connectRoomsWithMST_again (world : World) (h2 : 2 ≤ world.roomCount)
    (h50 : world.roomCount ≤ MAX_ROOMS)
    (hex : ∀ i, 0 ≤ i → i < world.roomCount → (world.rooms i).exists_ = true) :
    ∃ w2 w3 F1, connectRoomsWithMST world = some (w2, 0) ∧
      connectRoomsWithMST w2 = some (w3, 0) ∧
      SameState w2.corridorCount w2 w3 ∧ Forest F1 ∧
      ∀ i, InRange i → w2.connections i = neighbours F1 i := by
  obtain ⟨w1, ci, F1, hloop, hconn, hinv, htr, hg, _⟩ :=
    connectRoomsWithMST_trace world h2 h50 hex
  obtain ⟨fw, fh, fs, fi, _, _, _⟩ := kruskalLoop_frame _ _ _ hloop
  have fw1 : w1.width = (mstStart world).width := fw
  have fh1 : w1.height = (mstStart world).height := fh
  have fs1 : w1.seed = (mstStart world).seed := fs
  have fi1 : w1.initialized = (mstStart world).initialized := fi
  have hrooms : w1.rooms = world.rooms := hinv.rooms_eq
  have hcount : w1.roomCount = world.roomCount := hinv.roomCount_eq
  have hnot : ¬ ({ w1 with corridorCount := ci } : World).roomCount < 2 := by
    show ¬ w1.roomCount < 2
    omega
  -- the first scan as a function of the tile grid
  obtain ⟨C, hC⟩ := kruskalLoop_carve (bubbleSort (buildEdges (mstStart world)))
    (mstStart world) 0
  have htiles : w1.tiles = carve (mstStart world).width (mstStart world).height C
      (mstStart world).tiles := by
    have h := hC (mstStart world).tiles (mstStart world).corridorCount
    have h' : kruskalLoop (bubbleSort (buildEdges (mstStart world))) (mstStart world, 0)
        = Option.map
            (fun r => ({ r.1 with
                tiles := carve (mstStart world).width (mstStart world).height C
                  (mstStart world).tiles,
                corridorCount := (mstStart world).corridorCount }, r.2))
            (kruskalLoop (bubbleSort (buildEdges (mstStart world))) (mstStart world, 0)) := h
    rw [hloop] at h'
    simp only [Option.map_some', Option.some.injEq, Prod.mk.injEq, and_true] at h'
    exact congrArg World.tiles h'
  have hsecond : kruskalLoop (bubbleSort (buildEdges (mstStart world)))
      ({ mstStart world with tiles := w1.tiles, corridorCount := ci }, 0)
      = some ({ w1 with corridorCount := ci }, ci) := by
    rw [hC w1.tiles ci, hloop]
    simp only [Option.map_some']
    have : carve (mstStart world).width (mstStart world).height C w1.tiles = w1.tiles := by
      rw [htiles, carve_idem]
    rw [this]
  -- the second scan starts from a state that agrees with it
  have hedges : buildEdges (mstStart { w1 with corridorCount := ci })
      = buildEdges (mstStart world) :=
    buildEdges_congr _ _
      (by rw [mstStart_rooms, mstStart_rooms]; exact hrooms)
      (by rw [mstStart_roomCount, mstStart_roomCount]; exact hcount)
  have hstart : SameState 0
      { mstStart world with tiles := w1.tiles, corridorCount := ci }
      (mstStart { w1 with corridorCount := ci }) :=
    { width_eq := by
        show (mstStart world).width = (clearAllConnections { w1 with corridorCount := ci }).width
        rw [clearAllConnections_eq]; exact fw1.symm
      height_eq := by
        show (mstStart world).height
          = (clearAllConnections { w1 with corridorCount := ci }).height
        rw [clearAllConnections_eq]; exact fh1.symm
      seed_eq := by
        show (mstStart world).seed = (clearAllConnections { w1 with corridorCount := ci }).seed
        rw [clearAllConnections_eq]; exact fs1.symm
      roomCount_eq := by
        show (mstStart world).roomCount
          = (clearAllConnections { w1 with corridorCount := ci }).roomCount
        rw [clearAllConnections_eq, mstStart_roomCount]; exact hcount.symm
      corridorCount_eq := by
        show ci = (clearAllConnections { w1 with corridorCount := ci }).corridorCount
        rw [clearAllConnections_eq]
      initialized_eq := by
        show (mstStart world).initialized
          = (clearAllConnections { w1 with corridorCount := ci }).initialized
        rw [clearAllConnections_eq]; exact fi1.symm
      tiles_eq := fun x y _ _ _ _ => by
        show w1.tiles y x = (clearAllConnections { w1 with corridorCount := ci }).tiles y x
        rw [clearAllConnections_eq]
      rooms_eq := fun i _ _ => by
        show (mstStart world).rooms i
          = (clearAllConnections { w1 with corridorCount := ci }).rooms i
        rw [clearAllConnections_eq, mstStart_rooms]
        exact (congrFun hrooms i).symm
      corridors_eq := fun k hk hk2 => by omega
      conn_eq := fun i hi => by
        show (mstStart world).connections i
          = (mstStart { w1 with corridorCount := ci }).connections i
        rw [mstStart_connections _ i hi, mstStart_connections _ i hi]
      ds_eq := by
        show DSAgree (initDisjointSet _ (clearAllConnections world).roomCount)
          (initDisjointSet _ (clearAllConnections { w1 with corridorCount := ci }).roomCount)
        have e1 : (clearAllConnections world).roomCount = world.roomCount := by
          rw [clearAllConnections_eq]
        have e2 : (clearAllConnections { w1 with corridorCount := ci }).roomCount
            = world.roomCount := by
          rw [clearAllConnections_eq]; exact hcount
        rw [e1, e2]
        exact initDisjointSet_agree _ _ _ }
  have hrel := kruskalLoop_agree (bubbleSort (buildEdges (mstStart world))) 0 _ _ hstart
    (by
      intro e he
      rw [mem_mstEdges] at he
      obtain ⟨i, j, hi, hij, hj, _, _, rfl⟩ := he
      have hrc : ({ mstStart world with tiles := w1.tiles, corridorCount := ci } : World).roomCount
          = world.roomCount := mstStart_roomCount world
      rw [hrc]
      exact ⟨hi, by show i < world.roomCount; omega, by show 0 ≤ j; omega, hj⟩)
  rw [hsecond] at hrel
  obtain ⟨q, hq, hq2, hsame⟩ := optionRel_some_left hrel
  obtain ⟨w3, c3⟩ := q
  simp only at hq2 hsame
  subst hq2
  have hconn2 : connectRoomsWithMST { w1 with corridorCount := ci }
      = some ({ w3 with corridorCount := ci }, 0) := by
    rw [connectRoomsWithMST_eq _ hnot, hedges, hq]
  refine ⟨{ w1 with corridorCount := ci }, { w3 with corridorCount := ci }, F1, hconn, hconn2,
    ?_, hg.forest trivial, htr.conn⟩
  exact
    { width_eq := hsame.width_eq
      height_eq := hsame.height_eq
      seed_eq := hsame.seed_eq
      roomCount_eq := hsame.roomCount_eq
      corridorCount_eq := rfl
      initialized_eq := hsame.initialized_eq
      tiles_eq := hsame.tiles_eq
      rooms_eq := hsame.rooms_eq
      corridors_eq := hsame.corridors_eq
      conn_eq := hsame.conn_eq
      ds_eq := hsame.ds_eq }

theorem sum_map_single_absent (l : List Int) (a c : Int) (h : a ∉ l) :
    (l.map (fun i => if a = i then c else 0)).sum = 0 := by
  induction l with
  | nil => rfl
  | cons x l ih =>
    rw [List.mem_cons, not_or] at h
    rw [List.map_cons, List.sum_cons, if_neg h.1, ih h.2]
    rfl

theorem sum_map_single (l : List Int) (a c : Int) (hnd : l.Nodup) (h : a ∈ l) :
    (l.map (fun i => if a = i then c else 0)).sum = c := by
  induction l with
  | nil => simp at h
  | cons x l ih =>
    rw [List.nodup_cons] at hnd
    rw [List.map_cons, List.sum_cons]
    by_cases hax : a = x
    · subst hax
      rw [if_pos rfl, sum_map_single_absent l a c hnd.1]
      omega
    · rw [List.mem_cons] at h
      rcases h with h | h
      · exact absurd h hax
      · rw [if_neg hax, ih hnd.2 h]
        omega

/-- Summing `roomDistance` over the pairs `i < j` of the adjacency lists counts every
chosen edge once. -/
theorem neighbours_distance (rooms0 : Int → Room) (rc : Int) (F : List Edge)
    (hvalid : ∀ e ∈ F, 0 ≤ e.room1 ∧ e.room1 < e.room2 ∧ e.room2 < rc ∧
      e.distance = roomDistance (rooms0 e.room1) (rooms0 e.room2)) :
    ((intRange 0 rc).map
      (fun i =>
        (((neighbours F i).filter (fun j => decide (i < j))).map
          (fun j => roomDistance (rooms0 i) (rooms0 j))).sum)).sum = totalDistance F := by
  induction F with
  | nil =>
    unfold totalDistance neighbours
    simp
  | cons e F ih =>
    obtain ⟨v0, v1, v2, vd⟩ := hvalid e (List.mem_cons_self _ _)
    have hstep : ∀ i,
        (((neighbours (e :: F) i).filter (fun j => decide (i < j))).map
          (fun j => roomDistance (rooms0 i) (rooms0 j))).sum
        = (if e.room1 = i then e.distance else 0) +
          (((neighbours F i).filter (fun j => decide (i < j))).map
            (fun j => roomDistance (rooms0 i) (rooms0 j))).sum := by
      intro i
      rw [neighbours_cons, List.filter_append, List.map_append, List.sum_append]
      congr 1
      by_cases h1 : e.room1 = i
      · have hlt : i < e.room2 := by omega
        rw [if_pos h1, if_pos h1]
        simp only [List.filter_cons, hlt, decide_True, if_true, List.filter_nil, List.map_cons,
          List.map_nil, List.sum_cons, List.sum_nil, add_zero]
        rw [vd, h1]
      · rw [if_neg h1, if_neg h1]
        by_cases h2 : e.room2 = i
        · have hnlt : ¬ i < e.room1 := by omega
          rw [if_pos h2]
          simp [hnlt]
        · rw [if_neg h2]
          rfl
    have hfun : (fun i =>
        (((neighbours (e :: F) i).filter (fun j => decide (i < j))).map
          (fun j => roomDistance (rooms0 i) (rooms0 j))).sum)
        = fun i => (if e.room1 = i then e.distance else 0) +
          (((neighbours F i).filter (fun j => decide (i < j))).map
            (fun j => roomDistance (rooms0 i) (rooms0 j))).sum := funext hstep
    rw [hfun, List.sum_map_add, ih (fun x hx => hvalid x (List.mem_cons_of_mem _ hx)),
      sum_map_single _ _ _ (intRange_nodup 0 rc) ((mem_intRange 0 rc e.room1).mpr ⟨v0, by omega⟩),
      totalDistance_cons]

/-- The adjacency lists of a world that records the chosen edges `F` add up to the total
length of `F`. -/
theorem joinedDistance_of_trace (w : World) (F : List Edge) (h50 : w.roomCount ≤ 50)
    (hconn : ∀ i, InRange i → w.connections i = neighbours F i)
    (hvalid : ∀ e ∈ F, 0 ≤ e.room1 ∧ e.room1 < e.room2 ∧ e.room2 < w.roomCount ∧
      e.distance = roomDistance (w.rooms e.room1) (w.rooms e.room2)) :
    joinedDistance w = totalDistance F := by
  rw [← neighbours_distance w.rooms w.roomCount F hvalid]
  unfold joinedDistance
  congr 1
  apply List.map_congr_left
  intro i hi
  rw [mem_intRange] at hi
  rw [hconn i (inRange_of_lt h50 hi.1 hi.2)]

/-! # World creation, tiles, random numbers -/

/-- Every cell of the grid of a freshly created world is a wall. -/
theorem createWorld_walls (currentSeed : Int) (mem : World) (seed width height : Int)
    (hw : 5 ≤ width) (hh : 5 ≤ height) :
    ∃ world, createWorld currentSeed mem seed width height = (some world, seed) ∧
      CreatePost seed width height world ∧
      ∀ x y, 0 ≤ x → x < world.width → 0 ≤ y → y < world.height →
        world.tiles y x = TILE_WALL := by
  obtain ⟨world, hc, hpost⟩ := createWorld_spec currentSeed mem seed width height hw hh
  refine ⟨world, hc, hpost, ?_⟩
  have heq := createWorld_eq currentSeed mem seed width height hw hh
  rw [hc] at heq
  have hworld := Option.some.inj (congrArg Prod.fst heq)
  intro x y hx0 hx1 hy0 hy1
  rw [hpost.width_eq] at hx1
  rw [hpost.height_eq] at hy1
  obtain ⟨t, ht⟩ := initTiles_frame
    { mem with seed := seed, width := min width MAX_WORLD_WIDTH,
               height := min height MAX_WORLD_HEIGHT, roomCount := 0,
               corridorCount := 0, initialized := false }
    (min width MAX_WORLD_WIDTH) (min height MAX_WORLD_HEIGHT)
  have hT := initTiles_tiles
    { mem with seed := seed, width := min width MAX_WORLD_WIDTH,
               height := min height MAX_WORLD_HEIGHT, roomCount := 0,
               corridorCount := 0, initialized := false }
    (min width MAX_WORLD_WIDTH) (min height MAX_WORLD_HEIGHT) y x
  rw [if_pos ⟨⟨hy0, hy1⟩, ⟨hx0, hx1⟩⟩] at hT
  rw [hworld, initRoomSlots_eq]
  exact hT

theorem getTile_outside (world : World) (x y : Int)
    (h : ¬ (0 ≤ x ∧ x < world.width ∧ 0 ≤ y ∧ y < world.height)) :
    getTile world x y = TILE_WALL := by
  have hv : isValidPosition world x y = false := by
    rw [← Bool.not_eq_true, isValidPosition_iff]
    exact h
  unfold getTile
  simp only [hv, Bool.not_false, if_true]

theorem getTile_inside (world : World) (x y : Int)
    (h : 0 ≤ x ∧ x < world.width ∧ 0 ≤ y ∧ y < world.height) :
    getTile world x y = world.tiles y x := by
  have hv : isValidPosition world x y = true := (isValidPosition_iff world x y).mpr h
  unfold getTile
  simp only [hv, Bool.not_true, Bool.false_eq_true, if_false]

theorem setTile_outside (world : World) (x y v : Int)
    (h : ¬ (0 ≤ x ∧ x < world.width ∧ 0 ≤ y ∧ y < world.height)) :
    setTile world x y v = world := by
  have hv : isValidPosition world x y = false := by
    rw [← Bool.not_eq_true, isValidPosition_iff]
    exact h
  unfold setTile
  simp only [hv, Bool.false_eq_true, if_false]

theorem setTile_inside (world : World) (x y v : Int)
    (h : 0 ≤ x ∧ x < world.width ∧ 0 ≤ y ∧ y < world.height) :
    setTile world x y v = storeTile world x y v := by
  have hv : isValidPosition world x y = true := (isValidPosition_iff world x y).mpr h
  unfold setTile
  simp only [hv, if_true]

theorem storeTile_tiles (world : World) (x y v x2 y2 : Int) :
    (storeTile world x y v).tiles y2 x2 = if y2 = y ∧ x2 = x then v else world.tiles y2 x2 := by
  unfold storeTile
  show Function.update world.tiles y (Function.update (world.tiles y) x v) y2 x2 = _
  by_cases hy : y2 = y
  · subst hy
    rw [Function.update_same]
    by_cases hx : x2 = x
    · subst hx
      rw [Function.update_same, if_pos ⟨rfl, rfl⟩]
    · rw [Function.update_noteq hx, if_neg (fun h => hx h.2)]
  · rw [Function.update_noteq hy, if_neg (fun h => hy h.1)]

theorem lcgNext_range (s : Int) : 0 ≤ lcgNext s ∧ lcgNext s < 2147483648 := by
  unfold lcgNext
  constructor
  · exact Int.emod_nonneg _ (by decide)
  · exact Int.emod_lt_of_pos _ (by decide)

/-! # Reachable disjoint-set states -/

/-- The value `findSet` returns for a slot in range is the parent it leaves in that
slot. -/
theorem findSetFuel_parent (n : Nat) (ds ds2 : DisjointSet) (x r : Int) (hx : InRange x)
    (h : findSetFuel n ds x = some (ds2, r)) : ds2.parent x = r := by
  cases n with
  | zero => simp [findSetFuel] at h
  | succ n =>
    have hx2 : ¬ (x < 0 ∨ x ≥ MAX_ROOMS) := by unfold InRange at hx; omega
    rw [findSetFuel] at h
    simp only [hx2, if_false] at h
    by_cases hp : ds.parent x = x
    · simp only [hp, ne_eq, not_true_eq_false, if_false, Option.some.injEq,
        Prod.mk.injEq] at h
      rw [← h.1, hp]; exact h.2
    · simp only [hp, ne_eq, not_false_eq_true, if_true] at h
      cases hq : findSetFuel n ds (ds.parent x) with
      | none => rw [hq] at h; simp at h
      | some q =>
        obtain ⟨ds1, r1⟩ := q
        rw [hq] at h
        simp only [Option.some.injEq, Prod.mk.injEq] at h
        rw [← h.1]; exact h.2

theorem findSet_out (ds : DisjointSet) (x : Int) (hx : ¬ InRange x) :
    findSet ds x = some (ds, -1) := by
  rw [findSet_eq]
  exact findSetFuel_out 50 ds x hx

/-- The two `findSet` calls that open `unionSets` and `isConnected`, for any arguments:
both return, and they leave a well-formed forest with the same ranks, counter and
representatives in which the representatives of the arguments are roots. -/
theorem findSet_pair (ds : DisjointSet) (h : DSInv ds) (x y : Int) :
    ∃ ds1 ds2, findSet ds x = some (ds1, if InRange x then rootOf ds x else -1) ∧
      findSet ds1 y = some (ds2, if InRange y then rootOf ds y else -1) ∧
      DSInv ds2 ∧ ds2.rank = ds.rank ∧ ds2.count = ds.count ∧
      (∀ z, InRange z → rootOf ds2 z = rootOf ds z) ∧
      (InRange x → InRange y → ds1.parent x = rootOf ds x ∧ ds2.parent y = rootOf ds y) := by
  have first : ∃ ds1, findSet ds x = some (ds1, if InRange x then rootOf ds x else -1) ∧
      DSInv ds1 ∧ ds1.rank = ds.rank ∧ ds1.count = ds.count ∧
      (∀ z, InRange z → rootOf ds1 z = rootOf ds z) := by
    by_cases hx : InRange x
    · obtain ⟨ds1, hf, hinv, hr, hc, hroot, _⟩ := findSet_spec ds h x hx
      exact ⟨ds1, by rw [if_pos hx]; exact hf, hinv, hr, hc, hroot⟩
    · exact ⟨ds, by rw [if_neg hx]; exact findSet_out ds x hx, h, rfl, rfl, fun _ _ => rfl⟩
  obtain ⟨ds1, hf1, hinv1, hr1, hc1, hroot1⟩ := first
  have second : ∃ ds2, findSet ds1 y = some (ds2, if InRange y then rootOf ds y else -1) ∧
      DSInv ds2 ∧ ds2.rank = ds1.rank ∧ ds2.count = ds1.count ∧
      (∀ z, InRange z → rootOf ds2 z = rootOf ds1 z) := by
    by_cases hy : InRange y
    · obtain ⟨ds2, hf, hinv, hr, hc, hroot, _⟩ := findSet_spec ds1 hinv1 y hy
      exact ⟨ds2, by rw [if_pos hy, ← hroot1 y hy]; exact hf, hinv, hr, hc, hroot⟩
    · exact ⟨ds1, by rw [if_neg hy]; exact findSet_out ds1 y hy, hinv1, rfl, rfl,
        fun _ _ => rfl⟩
  obtain ⟨ds2, hf2, hinv2, hr2, hc2, hroot2⟩ := second
  refine ⟨ds1, ds2, hf1, hf2, hinv2, hr2.trans hr1, hc2.trans hc1,
    fun z hz => (hroot2 z hz).trans (hroot1 z hz), ?_⟩
  intro hx hy
  rw [if_pos hx] at hf1
  rw [if_pos hy] at hf2
  rw [findSet_eq] at hf1 hf2
  exact ⟨findSetFuel_parent _ _ _ _ _ hx hf1, findSetFuel_parent _ _ _ _ _ hy hf2⟩

/-- The result of `isConnected` for any arguments. -/
theorem isConnected_total (ds : DisjointSet) (h : DSInv ds) (x y : Int) :
    ∃ ds2, isConnected ds x y
        = some (ds2, decide (InRange x ∧ InRange y ∧ rootOf ds x = rootOf ds y)) ∧
      DSInv ds2 ∧ ds2.rank = ds.rank ∧ ds2.count = ds.count ∧
      ∀ z, InRange z → rootOf ds2 z = rootOf ds z := by
  obtain ⟨ds1, ds2, hf1, hf2, hinv2, hr, hc, hroot, _⟩ := findSet_pair ds h x y
  refine ⟨ds2, ?_, hinv2, hr, hc, hroot⟩
  unfold isConnected
  simp only [hf1, hf2]
  by_cases hx : InRange x
  · by_cases hy : InRange y
    · have := (h.rootOf_range x hx).1
      have := (h.rootOf_range y hy).1
      have hneg : ¬ (rootOf ds x < 0 ∨ rootOf ds y < 0) := by omega
      simp only [hx, hy, if_true, hneg, if_false, true_and]
    · simp [hx, hy]
  · simp [hx]

theorem connected_iff (ds : DisjointSet) (h : DSInv ds) (x y : Int) :
    Connected ds x y ↔ InRange x ∧ InRange y ∧ rootOf ds x = rootOf ds y := by
  obtain ⟨ds2, hc, _⟩ := isConnected_total ds h x y
  unfold Connected
  rw [hc]
  constructor
  · rintro ⟨ds3, h3⟩
    simp only [Option.some.injEq, Prod.mk.injEq, decide_eq_true_eq] at h3
    exact h3.2
  · intro h3
    exact ⟨ds2, by rw [decide_eq_true h3]⟩

/-- The result of `unionSets` in terms of the forest `dsf` left by its two `findSet`
calls, for arguments in range. -/
theorem unionSets_detail (ds : DisjointSet) (h : DSInv ds) (x y : Int) (hx : InRange x)
    (hy : InRange y) :
    ∃ ds1 dsf, findSet ds x = some (ds1, rootOf ds x) ∧
      findSet ds1 y = some (dsf, rootOf ds y) ∧
      DSInv dsf ∧ dsf.rank = ds.rank ∧ dsf.count = ds.count ∧
      (∀ z, InRange z → rootOf dsf z = rootOf ds z) ∧
      dsf.parent (rootOf ds x) = rootOf ds x ∧ dsf.parent (rootOf ds y) = rootOf ds y ∧
      unionSets ds x y = some
        (if rootOf ds x = rootOf ds y then dsf
         else if ds.rank (rootOf ds x) < ds.rank (rootOf ds y) then
           { parent := Function.update dsf.parent (rootOf ds x) (rootOf ds y),
             rank := ds.rank, count := ds.count - 1 }
         else if ds.rank (rootOf ds x) > ds.rank (rootOf ds y) then
           { parent := Function.update dsf.parent (rootOf ds y) (rootOf ds x),
             rank := ds.rank, count := ds.count - 1 }
         else
           { parent := Function.update dsf.parent (rootOf ds y) (rootOf ds x),
             rank := Function.update ds.rank (rootOf ds x) (ds.rank (rootOf ds x) + 1),
             count := ds.count - 1 }) := by
  obtain ⟨ds1, dsf, hf1, hf2, hinv, hr, hc, hroot, _⟩ := findSet_pair ds h x y
  rw [if_pos hx] at hf1
  rw [if_pos hy] at hf2
  have hRx := h.rootOf_range x hx
  have hRy := h.rootOf_range y hy
  have hfixx : dsf.parent (rootOf ds x) = rootOf ds x := by
    rw [hinv.fixed_iff_rootOf _ hRx, hroot _ hRx]; exact h.rootOf_idem x hx
  have hfixy : dsf.parent (rootOf ds y) = rootOf ds y := by
    rw [hinv.fixed_iff_rootOf _ hRy, hroot _ hRy]; exact h.rootOf_idem y hy
  refine ⟨ds1, dsf, hf1, hf2, hinv, hr, hc, hroot, hfixx, hfixy, ?_⟩
  have hneg : ¬ (rootOf ds x < 0 ∨ rootOf ds y < 0) := by
    have := hRx.1; have := hRy.1; omega
  unfold unionSets
  simp only [hf1, hf2, hneg, if_false]
  by_cases heq : rootOf ds x = rootOf ds y
  · simp only [heq, if_true]
  · simp only [heq, if_false]
    rw [hr, hc]
    split_ifs <;> rfl

/-- The result of `unionSets` when an argument is out of range: the call returns and
ranks, counter and representatives are unchanged. -/
theorem unionSets_out (ds : DisjointSet) (h : DSInv ds) (x y : Int)
    (hxy : ¬ InRange x ∨ ¬ InRange y) :
    ∃ ds2, unionSets ds x y = some ds2 ∧ DSInv ds2 ∧ ds2.rank = ds.rank ∧
      ds2.count = ds.count ∧ ∀ z, InRange z → rootOf ds2 z = rootOf ds z := by
  obtain ⟨ds1, ds2, hf1, hf2, hinv, hr, hc, hroot, _⟩ := findSet_pair ds h x y
  refine ⟨ds2, ?_, hinv, hr, hc, hroot⟩
  unfold unionSets
  simp only [hf1, hf2]
  rcases hxy with hx | hy
  · simp [hx]
  · simp [hy]

/-- Every reachable state is a well-formed forest. -/
theorem DSReachable.inv {ds : DisjointSet} (h : DSReachable ds) : DSInv ds := by
  induction h with
  | init mem count => exact initDisjointSet_inv mem count
  | find ds ds2 x r _ hf ih =>
    by_cases hx : InRange x
    · obtain ⟨ds3, hf3, hinv, _⟩ := findSet_spec ds ih x hx
      rw [hf] at hf3
      simp only [Option.some.injEq, Prod.mk.injEq] at hf3
      rw [hf3.1]; exact hinv
    · rw [findSet_out ds x hx] at hf
      simp only [Option.some.injEq, Prod.mk.injEq] at hf
      rw [← hf.1]; exact ih
  | union ds ds2 x y _ hu ih =>
    by_cases hxy : InRange x ∧ InRange y
    · obtain ⟨ds3, hu3, hinv, _⟩ := unionSets_spec ds ih x y hxy.1 hxy.2
      rw [hu] at hu3
      rw [Option.some.inj hu3]; exact hinv
    · have hxy2 : ¬ InRange x ∨ ¬ InRange y := by
        by_cases hx : InRange x
        · exact Or.inr (fun hy => hxy ⟨hx, hy⟩)
        · exact Or.inl hx
      obtain ⟨ds3, hu3, hinv, _⟩ := unionSets_out ds ih x y hxy2
      rw [hu] at hu3
      rw [Option.some.inj hu3]; exact hinv
  | query ds ds2 x y b _ hq ih =>
    obtain ⟨ds3, hq3, hinv, _⟩ := isConnected_total ds ih x y
    rw [hq] at hq3
    simp only [Option.some.injEq, Prod.mk.injEq] at hq3
    rw [hq3.1]; exact hinv

theorem twoTrees_reachable : DSReachable twoTrees := by
  unfold twoTrees
  have h0 := DSReachable.init { parent := fun _ => 0, rank := fun _ => 0, count := 0 } 4
  cases h1 : unionSets
      (initDisjointSet { parent := fun _ => 0, rank := fun _ => 0, count := 0 } 4) 0 1 with
  | none => exact h0
  | some ds =>
    have hds := DSReachable.union _ _ _ _ h0 h1
    show DSReachable (match unionSets ds 3 2 with
      | none => ds
      | some ds2 => ds2)
    cases h2 : unionSets ds 3 2 with
    | none => exact hds
    | some ds2 => exact DSReachable.union _ _ _ _ hds h2

/-! # The shape of the generated rooms -/

theorem getRandom_bounds (currentSeed min max : Int) (hlt : min < max) :
    min ≤ (getRandom currentSeed min max).1 ∧ (getRandom currentSeed min max).1 ≤ max := by
  have hnot : ¬ min ≥ max := by omega
  unfold getRandom
  simp only [hnot, if_false]
  obtain ⟨h0, _⟩ := lcgNext_range currentSeed
  have hpos : 0 < max - min + 1 := by omega
  have hmod : Int.tmod (lcgNext currentSeed) (max - min + 1)
      = lcgNext currentSeed % (max - min + 1) :=
    Int.tmod_eq_emod h0 (by omega)
  rw [hmod]
  have h1 := Int.emod_nonneg (lcgNext currentSeed) (by omega : max - min + 1 ≠ 0)
  have h2 := Int.emod_lt_of_pos (lcgNext currentSeed) hpos
  constructor <;> omega

theorem getRandom_of_ge (currentSeed min max : Int) (hge : min ≥ max) :
    getRandom currentSeed min max = (min, currentSeed) := by
  unfold getRandom
  rw [if_pos hge]

/-- The value drawn is at least `min`, and it is `min` or at most `max`. -/
theorem getRandom_fst (currentSeed min max : Int) :
    min ≤ (getRandom currentSeed min max).1 ∧
      ((getRandom currentSeed min max).1 = min ∨ (getRandom currentSeed min max).1 ≤ max) := by
  by_cases h : min < max
  · obtain ⟨h1, h2⟩ := getRandom_bounds currentSeed min max h
    exact ⟨h1, Or.inr h2⟩
  · rw [getRandom_of_ge currentSeed min max (by omega)]
    exact ⟨le_refl _, Or.inl rfl⟩

/-- The candidate of a placement attempt with sizes drawn from `[3, 6]`. -/
theorem candidateRoom_shape (st : World × Int) :
    RoomShape st.1.width st.1.height (candidateRoom 3 6 st).1 ∧
      (candidateRoom 3 6 st).1.id = st.1.roomCount := by
  unfold candidateRoom
  simp only
  obtain ⟨w1, w2⟩ := getRandom_bounds st.2 3 6 (by decide)
  obtain ⟨h1, h2⟩ := getRandom_bounds (getRandom st.2 3 6).2 3 6 (by decide)
  obtain ⟨x1, x2⟩ := getRandom_fst (getRandom (getRandom st.2 3 6).2 3 6).2 1
    (st.1.width - (getRandom st.2 3 6).1 - 1)
  obtain ⟨y1, y2⟩ := getRandom_fst
    (getRandom (getRandom (getRandom st.2 3 6).2 3 6).2 1
      (st.1.width - (getRandom st.2 3 6).1 - 1)).2 1
    (st.1.height - (getRandom (getRandom st.2 3 6).2 3 6).1 - 1)
  refine ⟨?_, trivial⟩
  exact
    { width_ge := w1
      width_le := w2
      height_ge := h1
      height_le := h2
      x_ge := x1
      y_ge := y1
      x_le := by
        rcases x2 with h | h
        · exact Or.inl h
        · right
          dsimp only
          omega
      y_le := by
        rcases y2 with h | h
        · exact Or.inl h
        · right
          dsimp only
          omega
      present := rfl }

/-- Every room `generateRooms(world, 3, 6, 25)` places on a fresh world has the shape of
a candidate, and the room in slot `i` carries the id `i`. -/
theorem generateRooms_shape (currentSeed : Int) (world0 : World)
    (h0 : world0.roomCount = 0) :
    ∀ i, 0 ≤ i → i < (generateRooms currentSeed world0 3 6 25).1.roomCount →
      RoomShape world0.width world0.height ((generateRooms currentSeed world0 3 6 25).1.rooms i) ∧
      ((generateRooms currentSeed world0 3 6 25).1.rooms i).id = i := by
  unfold generateRooms
  have key := generateRoomsLoop_induct 3 6 25
    (fun st => st.1.width = world0.width ∧ st.1.height = world0.height ∧
      0 ≤ st.1.roomCount ∧
      ∀ i, 0 ≤ i → i < st.1.roomCount →
        RoomShape world0.width world0.height (st.1.rooms i) ∧ (st.1.rooms i).id = i)
    ?_ ((25 : Int) * 5).toNat (world0, currentSeed)
    ⟨rfl, rfl, by show 0 ≤ world0.roomCount; omega,
      fun i hi hi2 => by
        have hi3 : i < world0.roomCount := hi2
        omega⟩
  · exact key.2.2.2
  · intro st hP _
    obtain ⟨hw, hh, hc, hall⟩ := hP
    rw [generateRoomsAttempt_eq]
    split_ifs
    · exact ⟨hw, hh, hc, hall⟩
    · obtain ⟨f1, f2, _⟩ := placeRoom_frame st.1 (candidateRoom 3 6 st).1
      refine ⟨f1.trans hw, f2.trans hh, ?_, ?_⟩
      · show 0 ≤ (placeRoom st.1 (candidateRoom 3 6 st).1).roomCount
        rw [placeRoom_roomCount]; omega
      · intro i hi hi2
        have hi3 : i < (placeRoom st.1 (candidateRoom 3 6 st).1).roomCount := hi2
        rw [placeRoom_roomCount] at hi3
        show RoomShape world0.width world0.height
            ((placeRoom st.1 (candidateRoom 3 6 st).1).rooms i) ∧
          ((placeRoom st.1 (candidateRoom 3 6 st).1).rooms i).id = i
        rw [placeRoom_rooms]
        by_cases hie : i = st.1.roomCount
        · rw [hie, Function.update_same]
          have hs := candidateRoom_shape st
          rw [hw, hh] at hs
          exact hs
        · rw [Function.update_noteq hie]
          exact hall i hi (by omega)

/-- The rooms of a generated world are the rooms `generateRooms` placed on the created
world. -/
theorem generateWorldFromSeed_rooms (currentSeed : Int) (mem : World)
    (seed width height : Int) (hw : 5 ≤ width) (hh : 5 ≤ height) :
    ∃ world s world0, createWorld currentSeed mem seed width height = (some world0, seed) ∧
      CreatePost seed width height world0 ∧
      generateWorldFromSeed currentSeed mem seed width height = some (some world, s) ∧
      GenPost seed width height world ∧
      (∀ i, InRange i → world.roomCount ≤ i → (world.rooms i).exists_ = false) ∧
      world.rooms = (generateRooms seed world0 3 6 25).1.rooms ∧
      world.roomCount = (generateRooms seed world0 3 6 25).1.roomCount := by
  obtain ⟨world, s, hgen, hpost, habs⟩ :=
    generateWorldFromSeed_absent currentSeed mem seed width height hw hh
  obtain ⟨world0, hc, hpost0⟩ := createWorld_spec currentSeed mem seed width height hw hh
  refine ⟨world, s, world0, hc, hpost0, hgen, hpost, habs, ?_⟩
  have hP := generateRooms_spec seed world0 hpost0.roomCount_eq
  rw [generateWorldFromSeed_eq _ _ _ _ _ _ _ hc,
    ensureAtLeastOneRoom_of_pos _ hP.count_pos] at hgen
  revert hgen
  generalize hcm : connectRoomsWithMST (generateRooms seed world0 3 6 25).1 = res
  intro hgen
  cases res with
  | none => simp at hgen
  | some p =>
    obtain ⟨w2, r⟩ := p
    obtain ⟨hrooms, hcount⟩ := connectRoomsWithMST_rooms _ _ _ hcm
    simp only [Option.some.injEq, Prod.mk.injEq] at hgen
    rw [← hgen.1]
    exact ⟨hrooms, hcount⟩

/-- The rooms of a generated world have the shape of a candidate and dense ids. -/
theorem generateWorldFromSeed_shape (currentSeed : Int) (mem : World)
    (seed width height : Int) (hw : 5 ≤ width) (hh : 5 ≤ height) :
    ∃ world s, generateWorldFromSeed currentSeed mem seed width height = some (some world, s) ∧
      GenPost seed width height world ∧
      (∀ i, InRange i → world.roomCount ≤ i → (world.rooms i).exists_ = false) ∧
      ∀ i, 0 ≤ i → i < world.roomCount →
        RoomShape world.width world.height (world.rooms i) ∧ (world.rooms i).id = i := by
  obtain ⟨world, s, world0, _, hpost0, hgen, hpost, habs, hrooms, hcount⟩ :=
    generateWorldFromSeed_rooms currentSeed mem seed width height hw hh
  refine ⟨world, s, hgen, hpost, habs, ?_⟩
  rw [hrooms, hcount, hpost.width_eq, hpost.height_eq, ← hpost0.width_eq, ← hpost0.height_eq]
  exact generateRooms_shape seed world0 hpost0.roomCount_eq

/-! # The fallback room -/

/-- The tile grid after a room has been rasterised. -/
theorem paintRoom_tiles (world : World) (x y w h ty tx : Int) :
    (paintRoom world x y w h).tiles ty tx =
      if (y ≤ ty ∧ ty < y + h) ∧ (x ≤ tx ∧ tx < x + w) ∧
          (0 ≤ tx ∧ tx < world.width ∧ 0 ≤ ty ∧ ty < world.height) then TILE_ROOM
      else world.tiles ty tx := by
  unfold paintRoom
  have inner : ∀ (l : List Int) (ry : Int) (wd : World),
      (l.foldl (fun wd2 rx =>
          if isValidPosition wd2 rx ry then storeTile wd2 rx ry TILE_ROOM else wd2) wd).width
        = wd.width ∧
      (l.foldl (fun wd2 rx =>
          if isValidPosition wd2 rx ry then storeTile wd2 rx ry TILE_ROOM else wd2) wd).height
        = wd.height ∧
      (l.foldl (fun wd2 rx =>
          if isValidPosition wd2 rx ry then storeTile wd2 rx ry TILE_ROOM else wd2) wd).tiles
          ty tx
        = if ty = ry ∧ tx ∈ l ∧ (0 ≤ tx ∧ tx < wd.width ∧ 0 ≤ ty ∧ ty < wd.height) then
            TILE_ROOM
          else wd.tiles ty tx := by
    intro l ry
    induction l with
    | nil => intro wd; simp
    | cons a l ih =>
      intro wd
      simp only [List.foldl_cons]
      by_cases hv : isValidPosition wd a ry = true
      · rw [if_pos hv]
        obtain ⟨i1, i2, i3⟩ := ih (storeTile wd a ry TILE_ROOM)
        refine ⟨i1, i2, ?_⟩
        rw [i3, storeTile_tiles]
        have e1 : (storeTile wd a ry TILE_ROOM).width = wd.width := rfl
        have e2 : (storeTile wd a ry TILE_ROOM).height = wd.height := rfl
        rw [e1, e2]
        unfold isValidPosition at hv
        simp only [Bool.and_eq_true, decide_eq_true_eq] at hv
        by_cases hy : ty = ry
        · subst hy
          by_cases hx : tx = a
          · subst hx
            have : 0 ≤ tx ∧ tx < wd.width ∧ 0 ≤ ty ∧ ty < wd.height := by omega
            simp [this]
          · simp [hx]
        · simp [hy]
      · rw [if_neg hv]
        obtain ⟨i1, i2, i3⟩ := ih wd
        refine ⟨i1, i2, ?_⟩
        rw [i3]
        unfold isValidPosition at hv
        simp only [Bool.and_eq_true, decide_eq_true_eq] at hv
        by_cases hy : ty = ry
        · subst hy
          by_cases hx : tx = a
          · subst hx
            have : ¬ (0 ≤ tx ∧ tx < wd.width ∧ 0 ≤ ty ∧ ty < wd.height) := by
              intro h; apply hv; omega
            simp [this]
          · simp [hx]
        · simp [hy]
  have outer : ∀ (ly : List Int) (wd : World),
      (ly.foldl (fun wd ry =>
          (intRange x (x + w)).foldl (fun wd2 rx =>
            if isValidPosition wd2 rx ry then storeTile wd2 rx ry TILE_ROOM else wd2) wd)
          wd).tiles ty tx
        = if ty ∈ ly ∧ (x ≤ tx ∧ tx < x + w) ∧
              (0 ≤ tx ∧ tx < wd.width ∧ 0 ≤ ty ∧ ty < wd.height) then TILE_ROOM
          else wd.tiles ty tx := by
    intro ly
    induction ly with
    | nil => intro wd; simp
    | cons a l ih =>
      intro wd
      simp only [List.foldl_cons]
      obtain ⟨i1, i2, i3⟩ := inner (intRange x (x + w)) a wd
      rw [ih, i1, i2, i3]
      simp only [mem_intRange, List.mem_cons]
      split_ifs <;> first | rfl | (exfalso; tauto)
  rw [outer]
  simp only [mem_intRange]

/-- The fallback on a world without rooms whose sides are at least 5: where the room is
put. -/
theorem ensureAtLeastOneRoom_eq (world : World) (h0 : world.roomCount = 0)
    (hw : 5 ≤ world.width) (hh : 5 ≤ world.height) :
    ensureAtLeastOneRoom world =
      paintRoom
        { world with
          rooms := Function.update world.rooms 0
            { id := 0
              x := if world.width = 5 then 0 else (world.width - 3) / 2
              y := if world.height = 5 then 0 else (world.height - 3) / 2
              width := 3
              height := 3
              exists_ := true }
          roomCount := 1 }
        (if world.width = 5 then 0 else (world.width - 3) / 2)
        (if world.height = 5 then 0 else (world.height - 3) / 2) 3 3 := by
  unfold ensureAtLeastOneRoom
  have h1 : ¬ world.roomCount > 0 := by omega
  have h2 : ¬ (world.width < 3 + 2 ∨ world.height < 3 + 2) := by omega
  have ex : Int.tdiv (world.width - 3) 2 = (world.width - 3) / 2 :=
    Int.tdiv_eq_ediv (by omega) (by decide)
  have ey : Int.tdiv (world.height - 3) 2 = (world.height - 3) / 2 :=
    Int.tdiv_eq_ediv (by omega) (by decide)
  simp only [h1, h2, if_false, ex, ey]
  have hx1 : ¬ (world.width - 3) / 2 < 1 := by omega
  have hy1 : ¬ (world.height - 3) / 2 < 1 := by omega
  simp only [hx1, hy1, if_false]
  have hx2 : ((world.width - 3) / 2 + 3 ≥ world.width - 1) ↔ world.width = 5 := by
    constructor <;> intro h <;> omega
  have hy2 : ((world.height - 3) / 2 + 3 ≥ world.height - 1) ↔ world.height = 5 := by
    constructor <;> intro h <;> omega
  simp only [hx2, hy2]
  by_cases a : world.width = 5 <;> by_cases b : world.height = 5 <;> simp [a, b]

/-- The fallback on a world without rooms whose sides are at least 5: one room, id 0 and
size 3 × 3, is stored in slot 0 and its nine cells become `TILE_ROOM`.  The room stays
inside the grid and leaves a free column on the right and a free row below; it keeps
the margin on the left (above) exactly when the width (height) is at least 6, and on a
side of length 5 it is put at coordinate 0. -/
theorem ensureAtLeastOneRoom_fallback (world : World) (h0 : world.roomCount = 0)
    (hw : 5 ≤ world.width) (hh : 5 ≤ world.height) :
    ∃ fx fy, (ensureAtLeastOneRoom world).roomCount = 1 ∧
      (ensureAtLeastOneRoom world).rooms 0
        = { id := 0, x := fx, y := fy, width := 3, height := 3, exists_ := true } ∧
      (∀ i, i ≠ 0 → (ensureAtLeastOneRoom world).rooms i = world.rooms i) ∧
      (∀ tx ty, (ensureAtLeastOneRoom world).tiles ty tx =
        if (fy ≤ ty ∧ ty < fy + 3) ∧ (fx ≤ tx ∧ tx < fx + 3) then TILE_ROOM
        else world.tiles ty tx) ∧
      0 ≤ fx ∧ fx + 3 ≤ world.width - 1 ∧ 0 ≤ fy ∧ fy + 3 ≤ world.height - 1 ∧
      (1 ≤ fx ↔ 6 ≤ world.width) ∧ (1 ≤ fy ↔ 6 ≤ world.height) := by
  refine ⟨if world.width = 5 then 0 else (world.width - 3) / 2,
    if world.height = 5 then 0 else (world.height - 3) / 2, ?_⟩
  rw [ensureAtLeastOneRoom_eq world h0 hw hh]
  have bx : 0 ≤ (if world.width = 5 then 0 else (world.width - 3) / 2) ∧
      (if world.width = 5 then 0 else (world.width - 3) / 2) + 3 ≤ world.width - 1 ∧
      (1 ≤ (if world.width = 5 then 0 else (world.width - 3) / 2) ↔ 6 ≤ world.width) := by
    split_ifs <;> omega
  have by_ : 0 ≤ (if world.height = 5 then 0 else (world.height - 3) / 2) ∧
      (if world.height = 5 then 0 else (world.height - 3) / 2) + 3 ≤ world.height - 1 ∧
      (1 ≤ (if world.height = 5 then 0 else (world.height - 3) / 2) ↔ 6 ≤ world.height) := by
    split_ifs <;> omega
  generalize (if world.width = 5 then 0 else (world.width - 3) / 2) = fx at bx ⊢
  generalize (if world.height = 5 then 0 else (world.height - 3) / 2) = fy at by_ ⊢
  refine ⟨by rw [paintRoom_roomCount], ?_, ?_, ?_, bx.1, bx.2.1, by_.1, by_.2.1, bx.2.2,
    by_.2.2⟩
  · rw [paintRoom_rooms]
    exact Function.update_same (0 : Int) _ world.rooms
  · intro i hi
    rw [paintRoom_rooms]
    exact Function.update_noteq hi _ world.rooms
  · intro tx ty
    rw [paintRoom_tiles]
    have e1 : ({ world with
        rooms := Function.update world.rooms 0
          { id := 0, x := fx, y := fy, width := 3, height := 3, exists_ := true },
        roomCount := 1 } : World).width = world.width := rfl
    have e2 : ({ world with
        rooms := Function.update world.rooms 0
          { id := 0, x := fx, y := fy, width := 3, height := 3, exists_ := true },
        roomCount := 1 } : World).height = world.height := rfl
    have e3 : ({ world with
        rooms := Function.update world.rooms 0
          { id := 0, x := fx, y := fy, width := 3, height := 3, exists_ := true },
        roomCount := 1 } : World).tiles = world.tiles := rfl
    rw [e1, e2, e3]
    by_cases hc : (fy ≤ ty ∧ ty < fy + 3) ∧ (fx ≤ tx ∧ tx < fx + 3)
    · have hv : 0 ≤ tx ∧ tx < world.width ∧ 0 ≤ ty ∧ ty < world.height := by omega
      rw [if_pos hc, if_pos ⟨hc.1, hc.2, hv⟩]
    · rw [if_neg hc, if_neg (fun h => hc ⟨h.1, h.2.1⟩)]

/-! # The buffer of the JSON encoders -/

/-- An append at the end of the text the buffer holds: it succeeds exactly when the
longer text and its terminator fit, and otherwise leaves the first `bufferSize - 1`
characters of the longer text. -/
theorem bufAppend_sync (bufferSize : Int) (buf : List Char) (pos : Int) (t : List Char)
    (hpos : pos = buf.length) (hlt : pos < bufferSize) :
    bufAppend bufferSize (buf, pos) t =
      if pos + t.length < bufferSize then .ok (buf ++ t, pos + t.length)
      else .error ((buf ++ t).take (bufferSize - 1).toNat) := by
  unfold bufAppend
  have h1 : ¬ (bufferSize = 0 ∨ pos < 0) := by omega
  have h2 : ¬ pos ≥ bufferSize := by omega
  have h3 : List.take pos.toNat buf = buf := by
    rw [hpos, Int.toNat_ofNat, List.take_length]
  simp only [h1, h2, if_false, h3]
  by_cases hfit : pos + t.length < bufferSize
  · have h4 : ¬ ((t.length : Int) ≥ bufferSize - pos) := by omega
    rw [if_neg h4, if_pos hfit, List.take_of_length_le (by omega)]
  · have h4 : (t.length : Int) ≥ bufferSize - pos := by omega
    rw [if_pos h4, if_neg hfit]
    have h5 : (bufferSize - 1).toNat = buf.length + (bufferSize - pos - 1).toNat := by omega
    rw [h5, List.take_append]

/-- The first append of an encoder overwrites whatever the buffer held. -/
theorem bufAppend_start (bufferSize : Int) (hsize : 1 ≤ bufferSize) (buffer t : List Char) :
    bufAppend bufferSize (buffer, 0) t = bufAppend bufferSize ([], 0) t := by
  unfold bufAppend
  have h1 : ¬ (bufferSize = 0 ∨ (0 : Int) < 0) := by omega
  have h2 : ¬ (0 : Int) ≥ bufferSize := by omega
  simp only [h1, h2, if_false, Int.toNat_zero, List.take_zero]

theorem appendAll_start (bufferSize : Int) (hsize : 1 ≤ bufferSize) (buffer t : List Char)
    (ts : List (List Char)) :
    appendAll bufferSize (t :: ts) (buffer, 0) = appendAll bufferSize (t :: ts) ([], 0) := by
  unfold appendAll
  rw [bufAppend_start bufferSize hsize]

theorem appendAll_append (bufferSize : Int) (as bs : List (List Char)) :
    ∀ st, appendAll bufferSize (as ++ bs) st =
      match appendAll bufferSize as st with
      | .error b => .error b
      | .ok st1 => appendAll bufferSize bs st1 := by
  induction as with
  | nil => intro st; rfl
  | cons a as ih =>
    intro st
    simp only [List.cons_append, appendAll]
    cases bufAppend bufferSize st a with
    | error b => rfl
    | ok st1 => exact ih st1

/-- A run of appends at the end of the text the buffer holds: it succeeds exactly when
the whole text and its terminator fit, and otherwise leaves the first `bufferSize - 1`
characters of the whole text. -/
theorem appendAll_sync (bufferSize : Int) (ts : List (List Char)) :
    ∀ (buf : List Char) (pos : Int), pos = buf.length → pos < bufferSize →
      appendAll bufferSize ts (buf, pos) =
        if pos + ts.flatten.length < bufferSize then
          .ok (buf ++ ts.flatten, pos + ts.flatten.length)
        else .error ((buf ++ ts.flatten).take (bufferSize - 1).toNat) := by
  induction ts with
  | nil =>
    intro buf pos _ hlt
    simp [appendAll, hlt]
  | cons t ts ih =>
    intro buf pos hpos hlt
    unfold appendAll
    rw [bufAppend_sync bufferSize buf pos t hpos hlt]
    have hlen : ((t :: ts).flatten.length : Int) = t.length + ts.flatten.length := by
      rw [List.flatten_cons, List.length_append]; push_cast; rfl
    by_cases hfit : pos + t.length < bufferSize
    · rw [if_pos hfit]
      simp only
      rw [ih (buf ++ t) (pos + t.length) (by rw [List.length_append]; push_cast; omega) hfit]
      rw [hlen, List.flatten_cons, List.append_assoc]
      by_cases hfit2 : pos + t.length + ts.flatten.length < bufferSize
      · rw [if_pos hfit2, if_pos (by omega)]
        congr 2
        omega
      · rw [if_neg hfit2, if_neg (by omega)]
    · rw [if_neg hfit]
      simp only
      rw [if_neg (by rw [hlen]; have : (0 : Int) ≤ ts.flatten.length := Int.natCast_nonneg _
                     omega)]
      rw [List.flatten_cons, ← List.append_assoc]
      have hle : (bufferSize - 1).toNat ≤ (buf ++ t).length := by
        rw [List.length_append]
        omega
      rw [List.take_append_of_le_length hle]

/-- An encoder that starts at position 0 and only appends: the result in terms of the
whole text. -/
theorem appendAll_encode (bufferSize : Int) (hsize : 1 ≤ bufferSize) (buffer t : List Char)
    (ts : List (List Char)) :
    encoderResult (appendAll bufferSize (t :: ts) (buffer, 0)) =
      if ((t :: ts).flatten.length : Int) < bufferSize then ((t :: ts).flatten, 0)
      else ((t :: ts).flatten.take (bufferSize - 1).toNat, -1) := by
  rw [appendAll_start bufferSize hsize, appendAll_sync bufferSize (t :: ts) [] 0 rfl (by omega)]
  simp only [zero_add, List.nil_append]
  split_ifs <;> rfl

/-! # The loops of the JSON encoders -/

theorem getRoomsJSONLoop_eq (world : World) (bufferSize : Int) (l : List Int) :
    ∀ (st : List Char × Int) (first : Bool), ∃ f,
      getRoomsJSONLoop world bufferSize l (st, first) =
        match appendAll bufferSize (roomPieces world l first) st with
        | .error b => .error b
        | .ok s => .ok (s, f) := by
  induction l with
  | nil => intro st first; exact ⟨first, rfl⟩
  | cons i rest ih =>
    intro st first
    unfold getRoomsJSONLoop roomPieces
    by_cases hex : (world.rooms i).exists_ = false
    · simp only [hex, if_true]
      exact ih st first
    · simp only [hex, if_false]
      cases first with
      | true =>
        simp only [Bool.true_eq_false, if_false, List.nil_append, appendAll]
        cases bufAppend bufferSize st (fmtRoom (world.rooms i)) with
        | error b => exact ⟨true, rfl⟩
        | ok st2 => exact ih st2 false
      | false =>
        simp only [if_true, List.singleton_append, appendAll]
        cases bufAppend bufferSize st ",".toList with
        | error b => exact ⟨true, rfl⟩
        | ok st1 =>
          simp only
          cases bufAppend bufferSize st1 (fmtRoom (world.rooms i)) with
          | error b => exact ⟨true, rfl⟩
          | ok st2 => exact ih st2 false

/-- A loop that appends a comma before every item but item 0 and then the texts of the
item. -/
theorem sepLoop_eq (bufferSize : Int) (item : Int → List (List Char))
    (loop : List Int → List Char × Int → Except (List Char) (List Char × Int))
    (hnil : ∀ st, loop [] st = .ok st)
    (hcons : ∀ i rest st, loop (i :: rest) st =
      match (if i > 0 then bufAppend bufferSize st ",".toList else .ok st) with
      | .error b => .error b
      | .ok st1 =>
        match appendAll bufferSize (item i) st1 with
        | .error b => .error b
        | .ok st2 => loop rest st2)
    (l : List Int) :
    ∀ st, loop l st = appendAll bufferSize (sepPieces item l) st := by
  induction l with
  | nil => intro st; rw [hnil]; rfl
  | cons i rest ih =>
    intro st
    rw [hcons]
    unfold sepPieces
    rw [List.map_cons, List.flatten_cons, appendAll_append]
    by_cases hi : i > 0
    · simp only [hi, if_true, List.singleton_append, appendAll]
      cases bufAppend bufferSize st ",".toList with
      | error b => rfl
      | ok st1 =>
        simp only
        rw [show appendAll bufferSize (item i) st1 =
          (match appendAll bufferSize (item i) st1 with
            | .error b => .error b
            | .ok st2 => .ok st2) by cases appendAll bufferSize (item i) st1 <;> rfl]
        cases appendAll bufferSize (item i) st1 with
        | error b => rfl
        | ok st2 => exact ih st2
    · simp only [hi, if_false, List.nil_append]
      cases appendAll bufferSize (item i) st with
      | error b => rfl
      | ok st2 => exact ih st2

theorem getCorridorsJSONLoop_eq (world : World) (bufferSize : Int) (l : List Int)
    (st : List Char × Int) :
    getCorridorsJSONLoop world bufferSize l st =
      appendAll bufferSize (sepPieces (fun i => [fmtCorridor (world.corridors i)]) l) st := by
  refine sepLoop_eq bufferSize _ (getCorridorsJSONLoop world bufferSize) (fun _ => rfl) ?_ l st
  intro i rest st
  rw [getCorridorsJSONLoop]
  cases (if i > 0 then bufAppend bufferSize st ",".toList else .ok st) with
  | error b => rfl
  | ok st1 =>
    simp only [appendAll]
    cases bufAppend bufferSize st1 (fmtCorridor (world.corridors i)) <;> rfl

theorem getWorldMapJSONRow_eq (world : World) (bufferSize : Int) (y : Int) (l : List Int)
    (st : List Char × Int) :
    getWorldMapJSONRow world bufferSize y l st =
      appendAll bufferSize (sepPieces (fun x => [fmtInt (world.tiles y x)]) l) st := by
  refine sepLoop_eq bufferSize _ (getWorldMapJSONRow world bufferSize y) (fun _ => rfl) ?_ l st
  intro i rest st
  rw [getWorldMapJSONRow]
  cases (if i > 0 then bufAppend bufferSize st ",".toList else .ok st) with
  | error b => rfl
  | ok st1 =>
    simp only [appendAll]
    cases bufAppend bufferSize st1 (fmtInt (world.tiles y i)) <;> rfl

theorem getWorldMapJSONLoop_eq (world : World) (bufferSize : Int) (l : List Int)
    (st : List Char × Int) :
    getWorldMapJSONLoop world bufferSize l st =
      appendAll bufferSize
        (sepPieces
          (fun y => "[".toList ::
            (sepPieces (fun x => [fmtInt (world.tiles y x)]) (intRange 0 world.width) ++
              ["]".toList])) l) st := by
  refine sepLoop_eq bufferSize _ (getWorldMapJSONLoop world bufferSize) (fun _ => rfl) ?_ l st
  intro i rest st
  rw [getWorldMapJSONLoop]
  cases (if i > 0 then bufAppend bufferSize st ",".toList else .ok st) with
  | error b => rfl
  | ok st1 =>
    simp only [appendAll]
    cases bufAppend bufferSize st1 "[".toList with
    | error b => rfl
    | ok st2 =>
      simp only
      rw [getWorldMapJSONRow_eq, appendAll_append]
      cases appendAll bufferSize
          (sepPieces (fun x => [fmtInt (world.tiles i x)]) (intRange 0 world.width)) st2 with
      | error b => rfl
      | ok st3 =>
        simp only [appendAll]
        cases bufAppend bufferSize st3 "]".toList <;> rfl

/-! # The encoders as runs of appends -/

theorem getRoomsJSON_eq (world : World) (buffer : List Char) (bufferSize : Int)
    (hsize : 1 ≤ bufferSize) :
    getRoomsJSON world buffer bufferSize =
      encoderResult (appendAll bufferSize
          ("[".toList :: (roomPieces world (intRange 0 world.roomCount) true ++ ["]".toList]))
          (buffer, 0)) := by
  unfold getRoomsJSON
  have h0 : ¬ bufferSize = 0 := by omega
  simp only [h0, if_false, appendAll, encoderResult]
  cases bufAppend bufferSize (buffer, 0) "[".toList with
  | error b => rfl
  | ok st =>
    simp only
    obtain ⟨f, hf⟩ := getRoomsJSONLoop_eq world bufferSize (intRange 0 world.roomCount) st true
    rw [hf, appendAll_append]
    cases appendAll bufferSize (roomPieces world (intRange 0 world.roomCount) true) st with
    | error b => rfl
    | ok st1 =>
      simp only [appendAll]
      cases bufAppend bufferSize st1 "]".toList <;> rfl

theorem getCorridorsJSON_eq (world : World) (buffer : List Char) (bufferSize : Int)
    (hsize : 1 ≤ bufferSize) :
    getCorridorsJSON world buffer bufferSize =
      encoderResult (appendAll bufferSize
          ("[".toList ::
            (sepPieces (fun i => [fmtCorridor (world.corridors i)])
              (intRange 0 world.corridorCount) ++ ["]".toList]))
          (buffer, 0)) := by
  unfold getCorridorsJSON
  have h0 : ¬ bufferSize = 0 := by omega
  simp only [h0, if_false, appendAll, encoderResult]
  cases bufAppend bufferSize (buffer, 0) "[".toList with
  | error b => rfl
  | ok st =>
    simp only
    rw [getCorridorsJSONLoop_eq, appendAll_append]
    cases appendAll bufferSize
        (sepPieces (fun i => [fmtCorridor (world.corridors i)])
          (intRange 0 world.corridorCount)) st with
    | error b => rfl
    | ok st1 =>
      simp only [appendAll]
      cases bufAppend bufferSize st1 "]".toList <;> rfl

theorem getWorldMapJSON_eq (world : World) (buffer : List Char) (bufferSize : Int)
    (hsize : 1 ≤ bufferSize) :
    getWorldMapJSON world buffer bufferSize =
      encoderResult (appendAll bufferSize
          ("[".toList ::
            (sepPieces
              (fun y => "[".toList ::
                (sepPieces (fun x => [fmtInt (world.tiles y x)]) (intRange 0 world.width) ++
                  ["]".toList])) (intRange 0 world.height) ++ ["]".toList]))
          (buffer, 0)) := by
  unfold getWorldMapJSON
  have h0 : ¬ bufferSize = 0 := by omega
  simp only [h0, if_false, appendAll, encoderResult]
  cases bufAppend bufferSize (buffer, 0) "[".toList with
  | error b => rfl
  | ok st =>
    simp only
    rw [getWorldMapJSONLoop_eq, appendAll_append]
    cases appendAll bufferSize
        (sepPieces
          (fun y => "[".toList ::
            (sepPieces (fun x => [fmtInt (world.tiles y x)]) (intRange 0 world.width) ++
              ["]".toList])) (intRange 0 world.height)) st with
    | error b => rfl
    | ok st1 =>
      simp only [appendAll]
      cases bufAppend bufferSize st1 "]".toList <;> rfl

/-! # The text of the JSON encoders -/

theorem intercalate_cons (sep a : List Char) (l : List (List Char)) :
    List.intercalate sep (a :: l) = a ++ (l.map (fun t => sep ++ t)).flatten := by
  unfold List.intercalate
  induction l generalizing a with
  | nil => simp [List.intersperse]
  | cons b l ih =>
    have h : List.intersperse sep (a :: b :: l) = a :: sep :: List.intersperse sep (b :: l) :=
      rfl
    rw [h, List.flatten_cons, List.flatten_cons, ih b, List.map_cons, List.flatten_cons,
      List.append_assoc]

theorem intRange_empty (lo hi : Int) (h : hi ≤ lo) : intRange lo hi = [] := by
  unfold intRange
  have : (hi - lo).toNat = 0 := by omega
  rw [this]
  rfl

theorem intRange_cons (lo hi : Int) (h : lo < hi) :
    intRange lo hi = lo :: intRange (lo + 1) hi := by
  unfold intRange
  have h1 : (hi - lo).toNat = (hi - (lo + 1)).toNat + 1 := by omega
  rw [h1, List.range_succ_eq_map, List.map_cons, List.map_map]
  congr 1
  · simp
  · apply List.map_congr_left
    intro k _
    simp only [Function.comp_apply, Nat.succ_eq_add_one]
    push_cast
    omega

theorem sepPieces_cons (item : Int → List (List Char)) (i : Int) (l : List Int) :
    (sepPieces item (i :: l)).flatten =
      (if i > 0 then ",".toList else []) ++ (item i).flatten ++ (sepPieces item l).flatten := by
  unfold sepPieces
  rw [List.map_cons, List.flatten_cons, List.flatten_append, List.flatten_append]
  split_ifs <;> simp

theorem sepPieces_positive (item : Int → List (List Char)) (l : List Int)
    (hl : ∀ i ∈ l, i > 0) :
    (sepPieces item l).flatten = (l.map (fun i => ",".toList ++ (item i).flatten)).flatten := by
  induction l with
  | nil => rfl
  | cons i l ih =>
    rw [sepPieces_cons, ih (fun j hj => hl j (List.mem_cons_of_mem _ hj)), List.map_cons,
      List.flatten_cons, if_pos (hl i (List.mem_cons_self _ _))]

/-- The text a loop with separators appends over the indices `0 .. n-1`: the items
separated by commas. -/
theorem sepPieces_flatten (item : Int → List (List Char)) (n : Int) :
    (sepPieces item (intRange 0 n)).flatten =
      List.intercalate ",".toList ((intRange 0 n).map (fun i => (item i).flatten)) := by
  by_cases hn : 0 < n
  · rw [intRange_cons 0 n hn, sepPieces_cons, List.map_cons, intercalate_cons,
      sepPieces_positive item _ (fun i hi => by
        rw [mem_intRange] at hi
        omega),
      List.map_map]
    simp only [gt_iff_lt, lt_self_iff_false, if_false, List.nil_append]
    rfl
  · rw [intRange_empty 0 n (by omega)]
    rfl

theorem roomPieces_flatten_false (world : World) (l : List Int) :
    (roomPieces world l false).flatten =
      (((l.filter (fun i => (world.rooms i).exists_)).map (fun i => fmtRoom (world.rooms i))).map
        (fun t => ",".toList ++ t)).flatten := by
  induction l with
  | nil => rfl
  | cons i l ih =>
    unfold roomPieces
    by_cases hex : (world.rooms i).exists_ = false
    · rw [if_pos hex, ih, List.filter_cons_of_neg (by rw [hex]; decide)]
    · have hex2 : (world.rooms i).exists_ = true := by
        cases h : (world.rooms i).exists_
        · exact absurd h hex
        · rfl
      have hf : List.filter (fun i => (world.rooms i).exists_) (i :: l)
          = i :: List.filter (fun i => (world.rooms i).exists_) l :=
        List.filter_cons_of_pos hex2
      rw [if_neg hex, hf]
      simp only [if_true, List.singleton_append, List.flatten_cons, List.map_cons, ih,
        List.append_assoc]

theorem roomPieces_flatten (world : World) (l : List Int) :
    (roomPieces world l true).flatten =
      List.intercalate ",".toList
        ((l.filter (fun i => (world.rooms i).exists_)).map (fun i => fmtRoom (world.rooms i)))
    := by
  induction l with
  | nil => rfl
  | cons i l ih =>
    unfold roomPieces
    by_cases hex : (world.rooms i).exists_ = false
    · rw [if_pos hex, ih, List.filter_cons_of_neg (by rw [hex]; decide)]
    · have hex2 : (world.rooms i).exists_ = true := by
        cases h : (world.rooms i).exists_
        · exact absurd h hex
        · rfl
      have hf : List.filter (fun i => (world.rooms i).exists_) (i :: l)
          = i :: List.filter (fun i => (world.rooms i).exists_) l :=
        List.filter_cons_of_pos hex2
      rw [if_neg hex, hf, List.map_cons, intercalate_cons]
      simp only [Bool.true_eq_false, if_false, List.nil_append, List.flatten_cons,
        roomPieces_flatten_false]

theorem fmtRoom_eq (r : Room) : fmtRoom r = roomObject r := by
  unfold fmtRoom roomObject jsonObject jsonMember
  simp only [intercalate_cons, List.map_cons, List.map_nil, List.flatten_cons,
    List.flatten_nil, List.append_assoc, List.append_nil]
  rfl

theorem fmtCorridor_eq (c : Corridor) : fmtCorridor c = corridorObject c := by
  unfold fmtCorridor corridorObject pointObject jsonObject jsonMember fmtBool
  simp only [intercalate_cons, List.map_cons, List.map_nil, List.flatten_cons,
    List.flatten_nil, List.append_assoc, List.append_nil]
  rfl

theorem roomsText_eq (world : World) :
    ("[".toList ::
      (roomPieces world (intRange 0 world.roomCount) true ++ ["]".toList])).flatten
      = roomsEncoding world := by
  unfold roomsEncoding jsonArray
  rw [List.flatten_cons, List.flatten_append, roomPieces_flatten]
  simp only [List.flatten_cons, List.flatten_nil, List.append_nil, List.append_assoc]
  congr 3
  apply List.map_congr_left
  intro i _
  exact fmtRoom_eq _

theorem corridorsText_eq (world : World) :
    ("[".toList ::
      (sepPieces (fun i => [fmtCorridor (world.corridors i)])
        (intRange 0 world.corridorCount) ++ ["]".toList])).flatten
      = corridorsEncoding world := by
  unfold corridorsEncoding jsonArray
  rw [List.flatten_cons, List.flatten_append, sepPieces_flatten]
  simp only [List.flatten_cons, List.flatten_nil, List.append_nil, List.append_assoc]
  congr 3
  apply List.map_congr_left
  intro i _
  exact fmtCorridor_eq _

theorem rowText_eq (world : World) (y : Int) :
    ("[".toList ::
      (sepPieces (fun x => [fmtInt (world.tiles y x)]) (intRange 0 world.width) ++
        ["]".toList])).flatten
      = jsonArray ((intRange 0 world.width).map (fun x => fmtInt (world.tiles y x))) := by
  unfold jsonArray
  rw [List.flatten_cons, List.flatten_append, sepPieces_flatten]
  simp only [List.flatten_cons, List.flatten_nil, List.append_nil, List.append_assoc]

theorem mapText_eq (world : World) :
    ("[".toList ::
      (sepPieces
        (fun y => "[".toList ::
          (sepPieces (fun x => [fmtInt (world.tiles y x)]) (intRange 0 world.width) ++
            ["]".toList])) (intRange 0 world.height) ++ ["]".toList])).flatten
      = mapEncoding world := by
  unfold mapEncoding
  rw [List.flatten_cons, List.flatten_append, sepPieces_flatten]
  simp only [rowText_eq]
  unfold jsonArray
  simp only [List.flatten_cons, List.flatten_nil, List.append_nil, List.append_assoc]

/-! # The encoders: result and return value -/

theorem getRoomsJSON_spec (world : World) (buffer : List Char) (bufferSize : Int)
    (hsize : 1 ≤ bufferSize) :
    getRoomsJSON world buffer bufferSize =
      if ((roomsEncoding world).length : Int) < bufferSize then (roomsEncoding world, 0)
      else ((roomsEncoding world).take (bufferSize - 1).toNat, -1) := by
  rw [getRoomsJSON_eq world buffer bufferSize hsize, appendAll_encode bufferSize hsize,
    roomsText_eq]

theorem getCorridorsJSON_spec (world : World) (buffer : List Char) (bufferSize : Int)
    (hsize : 1 ≤ bufferSize) :
    getCorridorsJSON world buffer bufferSize =
      if ((corridorsEncoding world).length : Int) < bufferSize then
        (corridorsEncoding world, 0)
      else ((corridorsEncoding world).take (bufferSize - 1).toNat, -1) := by
  rw [getCorridorsJSON_eq world buffer bufferSize hsize, appendAll_encode bufferSize hsize,
    corridorsText_eq]

theorem getWorldMapJSON_spec (world : World) (buffer : List Char) (bufferSize : Int)
    (hsize : 1 ≤ bufferSize) :
    getWorldMapJSON world buffer bufferSize =
      if ((mapEncoding world).length : Int) < bufferSize then (mapEncoding world, 0)
      else ((mapEncoding world).take (bufferSize - 1).toNat, -1) := by
  rw [getWorldMapJSON_eq world buffer bufferSize hsize, appendAll_encode bufferSize hsize,
    mapText_eq]

/-! # The encoder of the whole world -/

/-- The run of appends `getWorldJSON` makes when its three staging encoders succeed. -/
theorem getWorldJSON_ok (world : World) (buffer : List Char) (bufferSize : Int)
    (roomsBuffer corridorsBuffer mapBuffer : List Char) (hsize : 1 ≤ bufferSize)
    (hr : (getRoomsJSON world roomsBuffer 4096).2 = 0)
    (hc : (getCorridorsJSON world corridorsBuffer 16384).2 = 0)
    (hm : (getWorldMapJSON world mapBuffer 65536).2 = 0) :
    getWorldJSON world buffer bufferSize roomsBuffer corridorsBuffer mapBuffer =
      encoderResult (appendAll bufferSize
        [fmtHeader world, "\"rooms\":".toList,
          (getRoomsJSON world roomsBuffer 4096).1 ++ ",".toList, "\"corridors\":".toList,
          (getCorridorsJSON world corridorsBuffer 16384).1 ++ ",".toList, "\"map\":".toList,
          (getWorldMapJSON world mapBuffer 65536).1, "\x7d".toList] (buffer, 0)) := by
  unfold getWorldJSON
  have h0 : ¬ bufferSize = 0 := by omega
  simp only [h0, if_false, appendAll, encoderResult, hr, hc, hm, ne_eq, not_true_eq_false]
  cases bufAppend bufferSize (buffer, 0) (fmtHeader world) with
  | error b => rfl
  | ok st1 =>
    simp only
    cases bufAppend bufferSize st1 "\"rooms\":".toList with
    | error b => rfl
    | ok st2 =>
      simp only
      cases bufAppend bufferSize st2 ((getRoomsJSON world roomsBuffer 4096).1 ++ ",".toList) with
      | error b => rfl
      | ok st3 =>
        simp only
        cases bufAppend bufferSize st3 "\"corridors\":".toList with
        | error b => rfl
        | ok st4 =>
          simp only
          cases bufAppend bufferSize st4
            ((getCorridorsJSON world corridorsBuffer 16384).1 ++ ",".toList) with
          | error b => rfl
          | ok st5 =>
            simp only
            cases bufAppend bufferSize st5 "\"map\":".toList with
            | error b => rfl
            | ok st6 =>
              simp only
              cases bufAppend bufferSize st6 (getWorldMapJSON world mapBuffer 65536).1 with
              | error b => rfl
              | ok st7 =>
                simp only
                cases bufAppend bufferSize st7 "\x7d".toList <;> rfl

/-- The return value of `getWorldJSON` is 0 or -1, and it is -1 when a staging encoder
fails. -/
theorem getWorldJSON_status (world : World) (buffer : List Char) (bufferSize : Int)
    (roomsBuffer corridorsBuffer mapBuffer : List Char) :
    ((getWorldJSON world buffer bufferSize roomsBuffer corridorsBuffer mapBuffer).2 = 0 ∧
      (getRoomsJSON world roomsBuffer 4096).2 = 0 ∧
      (getCorridorsJSON world corridorsBuffer 16384).2 = 0 ∧
      (getWorldMapJSON world mapBuffer 65536).2 = 0) ∨
    (getWorldJSON world buffer bufferSize roomsBuffer corridorsBuffer mapBuffer).2 = -1 := by
  unfold getWorldJSON
  by_cases h0 : bufferSize = 0
  · right; simp only [h0, if_true]
  simp only [h0, if_false]
  cases bufAppend bufferSize (buffer, 0) (fmtHeader world) with
  | error b => right; rfl
  | ok st1 =>
    simp only
    cases bufAppend bufferSize st1 "\"rooms\":".toList with
    | error b => right; rfl
    | ok st2 =>
      simp only
      by_cases hr : (getRoomsJSON world roomsBuffer 4096).2 = 0
      swap
      · right; simp only [hr, ne_eq, not_false_eq_true, if_true]
      simp only [hr, ne_eq, not_true_eq_false, if_false]
      cases bufAppend bufferSize st2 ((getRoomsJSON world roomsBuffer 4096).1 ++ ",".toList) with
      | error b => right; rfl
      | ok st3 =>
        simp only
        cases bufAppend bufferSize st3 "\"corridors\":".toList with
        | error b => right; rfl
        | ok st4 =>
          simp only
          by_cases hc : (getCorridorsJSON world corridorsBuffer 16384).2 = 0
          swap
          · right; simp only [hc, ne_eq, not_false_eq_true, if_true]
          simp only [hc, ne_eq, not_true_eq_false, if_false]
          cases bufAppend bufferSize st4
            ((getCorridorsJSON world corridorsBuffer 16384).1 ++ ",".toList) with
          | error b => right; rfl
          | ok st5 =>
            simp only
            cases bufAppend bufferSize st5 "\"map\":".toList with
            | error b => right; rfl
            | ok st6 =>
              simp only
              by_cases hm : (getWorldMapJSON world mapBuffer 65536).2 = 0
              swap
              · right; simp only [hm, ne_eq, not_false_eq_true, if_true]
              simp only [hm, ne_eq, not_true_eq_false, if_false]
              cases bufAppend bufferSize st6 (getWorldMapJSON world mapBuffer 65536).1 with
              | error b => right; rfl
              | ok st7 =>
                simp only
                cases bufAppend bufferSize st7 "\x7d".toList with
                | error b => right; rfl
                | ok st8 => left; exact ⟨rfl, trivial, trivial, trivial⟩

theorem worldText_eq (world : World) :
    [fmtHeader world, "\"rooms\":".toList, roomsEncoding world ++ ",".toList,
      "\"corridors\":".toList, corridorsEncoding world ++ ",".toList, "\"map\":".toList,
      mapEncoding world, "\x7d".toList].flatten = worldEncoding world := by
  unfold worldEncoding fmtHeader jsonObject jsonMember
  simp only [intercalate_cons, List.map_cons, List.map_nil, List.flatten_cons,
    List.flatten_nil, List.append_assoc, List.append_nil]
  rfl

/-- When an encoder that either returns the whole text or fails returns 0. -/
theorem encoder_zero_iff (enc : List Char) (size : Int) :
    ((if (enc.length : Int) < size then (enc, (0 : Int))
      else (enc.take (size - 1).toNat, -1)).2 = 0) ↔ (enc.length : Int) < size := by
  split_ifs with h
  · exact ⟨fun _ => h, fun _ => rfl⟩
  · exact ⟨fun h2 => absurd (show (-1 : Int) = 0 from h2) (by decide), fun h2 => absurd h2 h⟩

/-- The result of `getWorldJSON`: it returns 0 exactly when each staged part fits its
local array and the whole text fits the buffer, and then the buffer holds the whole
text; otherwise it returns -1. -/
theorem getWorldJSON_spec (world : World) (buffer : List Char) (bufferSize : Int)
    (roomsBuffer corridorsBuffer mapBuffer : List Char) (hsize : 1 ≤ bufferSize) :
    ((getWorldJSON world buffer bufferSize roomsBuffer corridorsBuffer mapBuffer).2 = 0 ↔
      ((roomsEncoding world).length : Int) < 4096 ∧
      ((corridorsEncoding world).length : Int) < 16384 ∧
      ((mapEncoding world).length : Int) < 65536 ∧
      ((worldEncoding world).length : Int) < bufferSize) ∧
    ((getWorldJSON world buffer bufferSize roomsBuffer corridorsBuffer mapBuffer).2 = 0 →
      (getWorldJSON world buffer bufferSize roomsBuffer corridorsBuffer mapBuffer).1
        = worldEncoding world) ∧
    ((getWorldJSON world buffer bufferSize roomsBuffer corridorsBuffer mapBuffer).2 = 0 ∨
      (getWorldJSON world buffer bufferSize roomsBuffer corridorsBuffer mapBuffer).2 = -1) := by
  have er := getRoomsJSON_spec world roomsBuffer 4096 (by decide)
  have ec := getCorridorsJSON_spec world corridorsBuffer 16384 (by decide)
  have em := getWorldMapJSON_spec world mapBuffer 65536 (by decide)
  have zr : (getRoomsJSON world roomsBuffer 4096).2 = 0 ↔
      ((roomsEncoding world).length : Int) < 4096 := by
    rw [er]; exact encoder_zero_iff _ _
  have zc : (getCorridorsJSON world corridorsBuffer 16384).2 = 0 ↔
      ((corridorsEncoding world).length : Int) < 16384 := by
    rw [ec]; exact encoder_zero_iff _ _
  have zm : (getWorldMapJSON world mapBuffer 65536).2 = 0 ↔
      ((mapEncoding world).length : Int) < 65536 := by
    rw [em]; exact encoder_zero_iff _ _
  have hok : (getRoomsJSON world roomsBuffer 4096).2 = 0 →
      (getCorridorsJSON world corridorsBuffer 16384).2 = 0 →
      (getWorldMapJSON world mapBuffer 65536).2 = 0 →
      getWorldJSON world buffer bufferSize roomsBuffer corridorsBuffer mapBuffer =
        if ((worldEncoding world).length : Int) < bufferSize then (worldEncoding world, 0)
        else ((worldEncoding world).take (bufferSize - 1).toNat, -1) := by
    intro hr hc hm
    rw [getWorldJSON_ok world buffer bufferSize roomsBuffer corridorsBuffer mapBuffer hsize
      hr hc hm, appendAll_encode bufferSize hsize]
    have e1 : (getRoomsJSON world roomsBuffer 4096).1 = roomsEncoding world := by
      rw [er, if_pos (zr.mp hr)]
    have e2 : (getCorridorsJSON world corridorsBuffer 16384).1 = corridorsEncoding world := by
      rw [ec, if_pos (zc.mp hc)]
    have e3 : (getWorldMapJSON world mapBuffer 65536).1 = mapEncoding world := by
      rw [em, if_pos (zm.mp hm)]
    rw [e1, e2, e3, worldText_eq]
  have hst := getWorldJSON_status world buffer bufferSize roomsBuffer corridorsBuffer mapBuffer
  refine ⟨⟨?_, ?_⟩, ?_, ?_⟩
  · intro hz
    rcases hst with ⟨_, hr, hc, hm⟩ | hneg
    · refine ⟨zr.mp hr, zc.mp hc, zm.mp hm, ?_⟩
      rw [hok hr hc hm] at hz
      exact (encoder_zero_iff _ _).mp hz
    · rw [hneg] at hz
      exact absurd hz (by decide)
  · rintro ⟨h1, h2, h3, h4⟩
    rw [hok (zr.mpr h1) (zc.mpr h2) (zm.mpr h3), if_pos h4]
  · intro hz
    rcases hst with ⟨_, hr, hc, hm⟩ | hneg
    · have h4 : ((worldEncoding world).length : Int) < bufferSize := by
        rw [hok hr hc hm] at hz
        exact (encoder_zero_iff _ _).mp hz
      rw [hok hr hc hm, if_pos h4]
    · rw [hneg] at hz
      exact absurd hz (by decide)
  · rcases hst with ⟨hz, _⟩ | hneg
    · exact Or.inl hz
    · exact Or.inr hneg

theorem reportsTruncation_of_eq (result : List Char × Int) (enc : List Char) (bufferSize : Int)
    (h : result = if (enc.length : Int) < bufferSize then (enc, 0)
      else (enc.take (bufferSize - 1).toNat, -1)) :
    ReportsTruncation result enc bufferSize := by
  subst h
  unfold ReportsTruncation
  by_cases hfit : (enc.length : Int) < bufferSize
  · rw [if_pos hfit]
    exact ⟨⟨fun _ => hfit, fun _ => rfl⟩, fun _ => rfl, fun h => absurd rfl h⟩
  · rw [if_neg hfit]
    refine ⟨⟨fun h => ?_, fun h => absurd h hfit⟩, fun h => ?_, fun _ => ⟨rfl, rfl⟩⟩
    · exact absurd (show (-1 : Int) = 0 from h) (by decide)
    · exact absurd (show (-1 : Int) = 0 from h) (by decide)

/-- With a buffer size below 1 `getWorldJSON` returns -1. -/
theorem getWorldJSON_small (world : World) (buffer : List Char) (bufferSize : Int)
    (roomsBuffer corridorsBuffer mapBuffer : List Char) (hsize : bufferSize < 1) :
    (getWorldJSON world buffer bufferSize roomsBuffer corridorsBuffer mapBuffer).2 = -1 := by
  unfold getWorldJSON
  by_cases h0 : bufferSize = 0
  · simp only [h0, if_true]
  · have herr : bufAppend bufferSize (buffer, 0) (fmtHeader world) = .error buffer := by
      unfold bufAppend
      have h1 : ¬ (bufferSize = 0 ∨ (0 : Int) < 0) := by omega
      have h2 : (0 : Int) ≥ bufferSize := by omega
      simp only [h1, h2, if_false, if_true]
    simp only [h0, if_false, herr]

/-! # The encoding of a concrete world -/

set_option maxRecDepth 100000 in
theorem smallWorld_encoding :
    String.mk (worldEncoding smallWorld) =
      "\x7b\"seed\":-7,\"width\":3,\"height\":2,\"roomCount\":2,\"corridorCount\":1," ++
      "\"rooms\":[\x7b\"id\":0,\"x\":0,\"y\":0,\"width\":1,\"height\":1\x7d," ++
      "\x7b\"id\":1,\"x\":2,\"y\":0,\"width\":1,\"height\":1\x7d]," ++
      "\"corridors\":[\x7b\"id\":0,\"start\":\x7b\"x\":0,\"y\":0\x7d," ++
      "\"end\":\x7b\"x\":2,\"y\":0\x7d,\"isTurning\":false\x7d]," ++
      "\"map\":[[2,2,2],[1,3,1]]\x7d" := by
  decide

/-! # Termination of `findSet` -/

/-- Along the parent pointers the only way back to a slot is to stay on a root. -/
theorem DSInv.no_cycle {ds : DisjointSet} (h : DSInv ds) (x : Int) (hx : InRange x) (n : Nat)
    (hn : 0 < n) (hback : ds.parent^[n] x = x) : ds.parent x = x := by
  by_contra hne
  obtain ⟨m, rfl⟩ := Nat.exists_eq_succ_of_ne_zero (by omega : n ≠ 0)
  rw [Function.iterate_succ_apply] at hback
  have h1 := h.rank_lt x hx hne
  have h2 := h.rank_le_iterate m (ds.parent x) (h.parent_range x hx)
  rw [hback] at h2
  omega

/-- In a well-formed forest `MAX_ROOMS` nested calls of `findSet` are enough. -/
theorem findSetFuel_fifty (ds : DisjointSet) (h : DSInv ds) (x : Int) (hx : InRange x) :
    ∃ ds2, findSetFuel 50 ds x = some (ds2, rootOf ds x) :=
  let ⟨ds2, hf, _⟩ := findSetFuel_spec 49 ds h x hx (h.root_at x hx)
  ⟨ds2, hf⟩

/-! # The back-tracking loop of the path search -/

/-- The parent chain from the end room visits pairwise distinct rooms, at most
`MAX_ROOMS` of them, however many steps the loop may take. -/
theorem FoundPost.chain_nodup {world : World} {s e : Int} {par : Int → Int}
    (h : FoundPost world s e par) (k : Nat) :
    (backtrack par k e).Nodup ∧ (backtrack par k e).length ≤ 50 ∧
      (backtrack par k e).length ≤ k ∧ ∀ x ∈ backtrack par k e, InRange x := by
  obtain ⟨vis, d, hcore, hve, _⟩ := h
  obtain ⟨i1, i2, i3, _, _⟩ := hcore.backtrack_spec k e hve
  have hchain : (backtrack par k e).Chain' (fun a b => d b < d a) :=
    i2.imp (fun {a b} hab => by have := hab.2; omega)
  have hpw : (backtrack par k e).Pairwise (fun a b => d b < d a) := by
    haveI : IsTrans Int (fun a b => d b < d a) := ⟨fun a b c hab hbc => lt_trans hbc hab⟩
    exact List.chain'_iff_pairwise.mp hchain
  refine ⟨hpw.imp (fun {a b} hab heq => by rw [heq] at hab; exact lt_irrefl _ hab), ?_, ?_,
    fun x hx => hcore.vis_range x (i3 x hx)⟩
  · have := hcore.depth_lt e hve
    rw [i1]
    omega
  · rw [i1]
    omega

/-! # Dense room ids -/

/-- The rooms `generateRooms` places on a world without rooms fill the slots
`0 .. roomCount-1` in order, each with its slot index as id, and there are never more
than `maxRooms` of them. -/
theorem generateRooms_dense (currentSeed : Int) (world0 : World)
    (minSize maxSize maxRooms : Int) (h0 : world0.roomCount = 0) :
    (generateRooms currentSeed world0 minSize maxSize maxRooms).1.width = world0.width ∧
    (generateRooms currentSeed world0 minSize maxSize maxRooms).1.height = world0.height ∧
    0 ≤ (generateRooms currentSeed world0 minSize maxSize maxRooms).1.roomCount ∧
    (generateRooms currentSeed world0 minSize maxSize maxRooms).1.roomCount ≤ max maxRooms 0 ∧
    ∀ i, 0 ≤ i → i < (generateRooms currentSeed world0 minSize maxSize maxRooms).1.roomCount →
      ((generateRooms currentSeed world0 minSize maxSize maxRooms).1.rooms i).exists_ = true ∧
      ((generateRooms currentSeed world0 minSize maxSize maxRooms).1.rooms i).id = i := by
  unfold generateRooms
  refine generateRoomsLoop_induct minSize maxSize maxRooms
    (fun st => st.1.width = world0.width ∧ st.1.height = world0.height ∧
      0 ≤ st.1.roomCount ∧ st.1.roomCount ≤ max maxRooms 0 ∧
      ∀ i, 0 ≤ i → i < st.1.roomCount →
        (st.1.rooms i).exists_ = true ∧ (st.1.rooms i).id = i)
    ?_ (maxRooms * 5).toNat (world0, currentSeed)
    ⟨rfl, rfl, by show 0 ≤ world0.roomCount; omega,
      by show world0.roomCount ≤ max maxRooms 0; rw [h0]; exact le_max_right _ _,
      fun i hi hi2 => by
        have hi3 : i < world0.roomCount := hi2
        omega⟩
  intro st hP hlt
  obtain ⟨hw, hh, hc, hle, hall⟩ := hP
  rw [generateRoomsAttempt_eq]
  split_ifs
  · exact ⟨hw, hh, hc, hle, hall⟩
  · obtain ⟨f1, f2, _⟩ := placeRoom_frame st.1 (candidateRoom minSize maxSize st).1
    refine ⟨f1.trans hw, f2.trans hh, ?_, ?_, ?_⟩
    · show 0 ≤ (placeRoom st.1 (candidateRoom minSize maxSize st).1).roomCount
      rw [placeRoom_roomCount]; omega
    · show (placeRoom st.1 (candidateRoom minSize maxSize st).1).roomCount ≤ max maxRooms 0
      rw [placeRoom_roomCount]
      have := le_max_left maxRooms 0
      omega
    · intro i hi hi2
      have hi3 : i < (placeRoom st.1 (candidateRoom minSize maxSize st).1).roomCount := hi2
      rw [placeRoom_roomCount] at hi3
      show ((placeRoom st.1 (candidateRoom minSize maxSize st).1).rooms i).exists_ = true ∧
        ((placeRoom st.1 (candidateRoom minSize maxSize st).1).rooms i).id = i
      rw [placeRoom_rooms]
      by_cases hie : i = st.1.roomCount
      · rw [hie, Function.update_same]
        exact ⟨rfl, rfl⟩
      · rw [Function.update_noteq hie]
        exact hall i hi (by omega)

/-- The slots in use after `generateRooms` and the fallback on a world without rooms
whose sides are at least 5: exactly the slots below `roomCount` hold an existing room,
and the room in slot `i` has the id `i`. -/
theorem ensureAtLeastOneRoom_dense (currentSeed : Int) (world0 : World)
    (minSize maxSize maxRooms : Int) (hmax : maxRooms ≤ MAX_ROOMS)
    (h0 : world0.roomCount = 0) (hw : 5 ≤ world0.width) (hh : 5 ≤ world0.height)
    (habs : ∀ i, InRange i → (world0.rooms i).exists_ = false) :
    0 ≤ (ensureAtLeastOneRoom
        (generateRooms currentSeed world0 minSize maxSize maxRooms).1).roomCount ∧
    (ensureAtLeastOneRoom
        (generateRooms currentSeed world0 minSize maxSize maxRooms).1).roomCount ≤ MAX_ROOMS ∧
    ∀ i, InRange i →
      (((ensureAtLeastOneRoom
          (generateRooms currentSeed world0 minSize maxSize maxRooms).1).rooms i).exists_ = true
        ↔ i < (ensureAtLeastOneRoom
          (generateRooms currentSeed world0 minSize maxSize maxRooms).1).roomCount) ∧
      (i < (ensureAtLeastOneRoom
          (generateRooms currentSeed world0 minSize maxSize maxRooms).1).roomCount →
        ((ensureAtLeastOneRoom
          (generateRooms currentSeed world0 minSize maxSize maxRooms).1).rooms i).id = i) := by
  obtain ⟨gw, gh, g0, gle, gall⟩ :=
    generateRooms_dense currentSeed world0 minSize maxSize maxRooms h0
  have gabs := generateRooms_absent currentSeed world0 minSize maxSize maxRooms
    (fun i hi _ => habs i hi)
  generalize (generateRooms currentSeed world0 minSize maxSize maxRooms).1 = w1 at *
  have hle50 : w1.roomCount ≤ MAX_ROOMS := by
    have : max maxRooms 0 ≤ MAX_ROOMS := max_le hmax (by decide)
    omega
  by_cases hpos : 1 ≤ w1.roomCount
  · rw [ensureAtLeastOneRoom_of_pos w1 hpos]
    refine ⟨g0, hle50, fun i hi => ⟨⟨fun hex => ?_, fun hlt => (gall i hi.1 hlt).1⟩,
      fun hlt => (gall i hi.1 hlt).2⟩⟩
    by_contra hge
    rw [gabs i hi (by omega)] at hex
    exact absurd hex (by decide)
  · have hz : w1.roomCount = 0 := by omega
    obtain ⟨fx, fy, f1, f2, f3, _⟩ :=
      ensureAtLeastOneRoom_fallback w1 hz (by omega) (by omega)
    rw [f1]
    refine ⟨by decide, by decide, fun i hi => ?_⟩
    by_cases hi0 : i = 0
    · subst hi0
      rw [f2]
      exact ⟨⟨fun _ => by decide, fun _ => rfl⟩, fun _ => rfl⟩
    · rw [f3 i hi0]
      have hi1 : ¬ i < 1 := by have := hi.1; omega
      refine ⟨⟨fun hex => ?_, fun hlt => absurd hlt hi1⟩, fun hlt => absurd hlt hi1⟩
      rw [gabs i hi (by omega)] at hex
      exact absurd hex (by decide)

/-! # The cells of a corridor -/

theorem carve_congr (W H : Int) (C1 C2 : Int → Int → Bool) (tiles : Int → Int → Int)
    (h : ∀ a b, C1 a b = C2 a b) : carve W H C1 tiles = carve W H C2 tiles := by
  have : C1 = C2 := by funext a b; exact h a b
  rw [this]

/-- The horizontal leg of a corridor: `n` cells from `cur` in the direction `stepX`. -/
theorem drawCorridorX_cells (stepX : Int) (hstep : stepX = 1 ∨ stepX = -1) (n : Nat) :
    ∀ (w : World) (cur : Point) (endX : Int), endX = cur.x + stepX * n →
      drawCorridorX stepX endX n w cur =
        ({ w with
            tiles :=
              carve w.width w.height
                (fun a b =>
                  decide (b = cur.y ∧ 0 ≤ (a - cur.x) * stepX ∧ (a - cur.x) * stepX < n))
                w.tiles },
          { cur with x := endX }) := by
  induction n with
  | zero =>
    intro w cur endX hend
    have hnone : carve w.width w.height
        (fun a b => decide (b = cur.y ∧ 0 ≤ (a - cur.x) * stepX ∧
          (a - cur.x) * stepX < ((0 : Nat) : Int))) w.tiles = w.tiles := by
      rw [carve_congr _ _ _ (fun _ _ => false), carve_none]
      intro a b
      simp only [Nat.cast_zero, decide_eq_false_iff_not]
      omega
    rw [hnone]
    simp only [Nat.cast_zero, mul_zero, add_zero] at hend
    rw [hend]
    rfl
  | succ n ih =>
    intro w cur endX hend
    have hne : cur.x ≠ endX := by
      rw [hend]
      push_cast
      rcases hstep with h | h <;> rw [h] <;> omega
    rw [drawCorridorX, if_pos hne, carveCell_carve,
      ih _ { cur with x := cur.x + stepX } endX (by
        show endX = cur.x + stepX + stepX * n
        rw [hend]; push_cast; ring)]
    congr 1
    apply world_ext <;> try rfl
    show carve w.width w.height _ (carve w.width w.height _ w.tiles) = _
    rw [carve_carve]
    apply carve_congr
    intro a b
    rw [Bool.eq_iff_iff]
    simp only [Bool.or_eq_true, decide_eq_true_eq]
    push_cast
    rcases hstep with h | h <;> subst h <;> constructor <;> intro hh <;> omega

/-- The vertical leg of a corridor: `n` cells from `cur` in the direction `stepY`. -/
theorem drawCorridorY_cells (stepY : Int) (hstep : stepY = 1 ∨ stepY = -1) (n : Nat) :
    ∀ (w : World) (cur : Point) (endY : Int), endY = cur.y + stepY * n →
      drawCorridorY stepY endY n w cur =
        ({ w with
            tiles :=
              carve w.width w.height
                (fun a b =>
                  decide (a = cur.x ∧ 0 ≤ (b - cur.y) * stepY ∧ (b - cur.y) * stepY < n))
                w.tiles },
          { cur with y := endY }) := by
  induction n with
  | zero =>
    intro w cur endY hend
    have hnone : carve w.width w.height
        (fun a b => decide (a = cur.x ∧ 0 ≤ (b - cur.y) * stepY ∧
          (b - cur.y) * stepY < ((0 : Nat) : Int))) w.tiles = w.tiles := by
      rw [carve_congr _ _ _ (fun _ _ => false), carve_none]
      intro a b
      simp only [Nat.cast_zero, decide_eq_false_iff_not]
      omega
    rw [hnone]
    simp only [Nat.cast_zero, mul_zero, add_zero] at hend
    rw [hend]
    rfl
  | succ n ih =>
    intro w cur endY hend
    have hne : cur.y ≠ endY := by
      rw [hend]
      push_cast
      rcases hstep with h | h <;> rw [h] <;> omega
    rw [drawCorridorY, if_pos hne, carveCell_carve,
      ih _ { cur with y := cur.y + stepY } endY (by
        show endY = cur.y + stepY + stepY * n
        rw [hend]; push_cast; ring)]
    congr 1
    apply world_ext <;> try rfl
    show carve w.width w.height _ (carve w.width w.height _ w.tiles) = _
    rw [carve_carve]
    apply carve_congr
    intro a b
    rw [Bool.eq_iff_iff]
    simp only [Bool.or_eq_true, decide_eq_true_eq]
    push_cast
    rcases hstep with h | h <;> subst h <;> constructor <;> intro hh <;> omega

/-- Drawing a corridor hands exactly the cells of the L-shaped path to `carveCell`. -/
theorem drawCorridor_lPath (w : World) (start end_ : Point) :
    drawCorridor w start end_ =
      { w with tiles := carve w.width w.height (lPath start end_) w.tiles } := by
  unfold drawCorridor
  have hsx : (if end_.x > start.x then (1 : Int) else -1) = 1 ∨
      (if end_.x > start.x then (1 : Int) else -1) = -1 := by
    split_ifs
    · exact Or.inl rfl
    · exact Or.inr rfl
  have hex : end_.x = start.x + (if end_.x > start.x then (1 : Int) else -1) *
      ((end_.x - start.x).natAbs : Nat) := by
    split_ifs <;> omega
  have hsy : (if end_.y > start.y then (1 : Int) else -1) = 1 ∨
      (if end_.y > start.y then (1 : Int) else -1) = -1 := by
    split_ifs
    · exact Or.inl rfl
    · exact Or.inr rfl
  have hey : end_.y = start.y + (if end_.y > start.y then (1 : Int) else -1) *
      ((end_.y - start.y).natAbs : Nat) := by
    split_ifs <;> omega
  simp only
  rw [drawCorridorX_cells _ hsx _ w start end_.x hex]
  simp only
  rw [drawCorridorY_cells _ hsy _ _ { start with x := end_.x } end_.y hey, carveCell_carve]
  apply world_ext <;> try rfl
  show carve w.width w.height _ (carve w.width w.height _ (carve w.width w.height _ w.tiles))
    = _
  rw [carve_carve, carve_carve]
  apply carve_congr
  intro a b
  unfold lPath
  rw [Bool.eq_iff_iff]
  simp only [Bool.or_eq_true, decide_eq_true_eq]
  by_cases h1 : end_.x > start.x <;> by_cases h2 : end_.y > start.y <;>
    simp only [h1, h2, if_true, if_false] <;> constructor <;> intro hh <;> omega

/-! # Paths of walkable tiles -/

theorem walkable_carve (w w2 : World) (C : Int → Int → Bool) (hw : w2.width = w.width)
    (hh : w2.height = w.height) (ht : w2.tiles = carve w.width w.height C w.tiles)
    (p : Int × Int) (h : Walkable w p) : Walkable w2 p := by
  obtain ⟨hb, hne⟩ := h
  refine ⟨by rw [hw, hh]; exact hb, ?_⟩
  rw [ht]
  unfold carve
  split_ifs with hc
  · decide
  · exact hne

theorem tilePath_mono {w w2 : World} (h : ∀ p, Walkable w p → Walkable w2 p) {p q : Int × Int}
    (hp : TilePath w p q) : TilePath w2 p q :=
  ⟨h p hp.1, Relation.ReflTransGen.mono (fun a b hab => ⟨hab.1, h a hab.2.1, h b hab.2.2⟩) hp.2⟩

theorem tileAdj_symm {p q : Int × Int} (h : TileAdj p q) : TileAdj q p := by
  unfold TileAdj at *
  omega

theorem tilePath_refl {w : World} {p : Int × Int} (h : Walkable w p) : TilePath w p p :=
  ⟨h, Relation.ReflTransGen.refl⟩

theorem tilePath_trans {w : World} {p q r : Int × Int} (h1 : TilePath w p q)
    (h2 : TilePath w q r) : TilePath w p r :=
  ⟨h1.1, h1.2.trans h2.2⟩

theorem TilePath.walkable_right {w : World} {p q : Int × Int} (h : TilePath w p q) :
    Walkable w q := by
  obtain ⟨hp, hr⟩ := h
  induction hr with
  | refl => exact hp
  | tail _ hbc _ => exact hbc.2.2

theorem tilePath_symm {w : World} {p q : Int × Int} (h : TilePath w p q) : TilePath w q p := by
  refine ⟨h.walkable_right, ?_⟩
  have hsymm : Symmetric (fun a b : Int × Int => TileAdj a b ∧ Walkable w a ∧ Walkable w b) :=
    fun a b hab => ⟨tileAdj_symm hab.1, hab.2.2, hab.2.1⟩
  exact Relation.ReflTransGen.symmetric hsymm h.2

/-- A row segment of walkable cells is a path. -/
theorem tilePath_row (w : World) (y : Int) (n : Nat) :
    ∀ x0 x1 : Int, (x1 - x0).natAbs = n →
      (∀ x, min x0 x1 ≤ x → x ≤ max x0 x1 → Walkable w (x, y)) →
      TilePath w (x0, y) (x1, y) := by
  induction n with
  | zero =>
    intro x0 x1 hn hall
    have : x1 = x0 := by omega
    rw [this]
    exact tilePath_refl (hall x0 (by omega) (by omega))
  | succ n ih =>
    intro x0 x1 hn hall
    have hw0 := hall x0 (by omega) (by omega)
    by_cases hlt : x0 < x1
    · have hstep := ih (x0 + 1) x1 (by omega) (fun x h1 h2 => hall x (by omega) (by omega))
      refine ⟨hw0, Relation.ReflTransGen.head ⟨?_, hw0, hstep.1⟩ hstep.2⟩
      unfold TileAdj
      simp
    · have hstep := ih (x0 - 1) x1 (by omega) (fun x h1 h2 => hall x (by omega) (by omega))
      refine ⟨hw0, Relation.ReflTransGen.head ⟨?_, hw0, hstep.1⟩ hstep.2⟩
      unfold TileAdj
      simp

/-- A column segment of walkable cells is a path. -/
theorem tilePath_column (w : World) (x : Int) (n : Nat) :
    ∀ y0 y1 : Int, (y1 - y0).natAbs = n →
      (∀ y, min y0 y1 ≤ y → y ≤ max y0 y1 → Walkable w (x, y)) →
      TilePath w (x, y0) (x, y1) := by
  induction n with
  | zero =>
    intro y0 y1 hn hall
    have : y1 = y0 := by omega
    rw [this]
    exact tilePath_refl (hall y0 (by omega) (by omega))
  | succ n ih =>
    intro y0 y1 hn hall
    have hw0 := hall y0 (by omega) (by omega)
    by_cases hlt : y0 < y1
    · have hstep := ih (y0 + 1) y1 (by omega) (fun y h1 h2 => hall y (by omega) (by omega))
      refine ⟨hw0, Relation.ReflTransGen.head ⟨?_, hw0, hstep.1⟩ hstep.2⟩
      unfold TileAdj
      simp
    · have hstep := ih (y0 - 1) y1 (by omega) (fun y h1 h2 => hall y (by omega) (by omega))
      refine ⟨hw0, Relation.ReflTransGen.head ⟨?_, hw0, hstep.1⟩ hstep.2⟩
      unfold TileAdj
      simp

/-- An L-shaped path of walkable cells is a path from its start to its end. -/
theorem tilePath_lPath (w : World) (start end_ : Point)
    (hall : ∀ x y, lPath start end_ x y = true → Walkable w (x, y)) :
    TilePath w (start.x, start.y) (end_.x, end_.y) := by
  have h1 : TilePath w (start.x, start.y) (end_.x, start.y) :=
    tilePath_row w start.y _ start.x end_.x rfl (fun x hx1 hx2 => hall x start.y (by
      unfold lPath
      rw [decide_eq_true_eq]
      exact Or.inl ⟨rfl, hx1, hx2⟩))
  have h2 : TilePath w (end_.x, start.y) (end_.x, end_.y) :=
    tilePath_column w end_.x _ start.y end_.y rfl (fun y hy1 hy2 => hall end_.x y (by
      unfold lPath
      rw [decide_eq_true_eq]
      exact Or.inr ⟨rfl, hy1, hy2⟩))
  exact tilePath_trans h1 h2

/-- The cells of an L-shaped path between two cells of the grid lie in the grid. -/
theorem lPath_inside (W H : Int) (start end_ : Point)
    (hs : 0 ≤ start.x ∧ start.x < W ∧ 0 ≤ start.y ∧ start.y < H)
    (he : 0 ≤ end_.x ∧ end_.x < W ∧ 0 ≤ end_.y ∧ end_.y < H) (x y : Int)
    (h : lPath start end_ x y = true) : 0 ≤ x ∧ x < W ∧ 0 ≤ y ∧ y < H := by
  unfold lPath at h
  rw [decide_eq_true_eq] at h
  omega

/-- After the cells of an L-shaped path inside the grid have been carved, they are
walkable. -/
theorem walkable_lPath (w w2 : World) (start end_ : Point) (hw : w2.width = w.width)
    (hh : w2.height = w.height)
    (ht : w2.tiles = carve w.width w.height (lPath start end_) w.tiles)
    (hs : 0 ≤ start.x ∧ start.x < w.width ∧ 0 ≤ start.y ∧ start.y < w.height)
    (he : 0 ≤ end_.x ∧ end_.x < w.width ∧ 0 ≤ end_.y ∧ end_.y < w.height) (x y : Int)
    (h : lPath start end_ x y = true) : Walkable w2 (x, y) := by
  have hin := lPath_inside w.width w.height start end_ hs he x y h
  refine ⟨by rw [hw, hh]; exact hin, ?_⟩
  rw [ht]
  unfold carve
  show (if lPath start end_ x y = true ∧ (0 ≤ x ∧ x < w.width ∧ 0 ≤ y ∧ y < w.height) ∧
      w.tiles y x = TILE_WALL then TILE_CORRIDOR else w.tiles y x) ≠ TILE_WALL
  split_ifs with hc
  · decide
  · exact fun hwall => hc ⟨h, hin, hwall⟩

/-! # The corridors of the Kruskal scan -/

/-- What a step of the scan does to the corridor index, the tile grid and the corridor
records: nothing, or one corridor is recorded at the index and drawn. -/
theorem kruskalStep_corridor (st st1 : World × Int) (e : Edge)
    (h : kruskalStep st e = some st1) :
    (st1.2 = st.2 ∧ st1.1.tiles = st.1.tiles ∧ st1.1.corridors = st.1.corridors) ∨
    (st1.2 = st.2 + 1 ∧
      st1.1.tiles = carve st.1.width st.1.height
        (lPath (roomCentre (st.1.rooms e.room1)) (roomCentre (st.1.rooms e.room2))) st.1.tiles ∧
      st1.1.corridors = Function.update st.1.corridors st.2 (edgeCorridor st.1.rooms st.2 e)) := by
  unfold kruskalStep at h
  simp only at h
  split at h
  · exact absurd h (by simp)
  · rename_i ds1 connected hcall
    split_ifs at h with h1 h2
    · split at h
      · exact absurd h (by simp)
      · simp only [Option.some.injEq] at h
        subst h
        right
        refine ⟨rfl, ?_, ?_⟩
        · show (drawCorridor _ _ _).tiles = _
          rw [drawCorridor_lPath]
          rfl
        · show (drawCorridor _ _ _).corridors = _
          rw [drawCorridor_corridors]
          rfl
    · simp only [Option.some.injEq] at h
      subst h
      exact Or.inl ⟨rfl, rfl, rfl⟩
    · simp only [Option.some.injEq] at h
      subst h
      exact Or.inl ⟨rfl, rfl, rfl⟩

/-- One step of the scan keeps the description of the corridors and tiles by the chosen
edges. -/
theorem kruskalStep_corr (rc : Int) (rooms0 : Int → Room) (tiles0 : Int → Int → Int)
    (st st1 : World × Int) (F F2 : List Edge) (e : Edge)
    (hrooms : st.1.rooms = rooms0) (hidx : st.2 = (F.length : Int))
    (hidx1 : st1.2 = (F2.length : Int)) (hF : F2 = F ∨ F2 = e :: F)
    (hv : 0 ≤ e.room1 ∧ e.room1 < rc ∧ 0 ≤ e.room2 ∧ e.room2 < rc)
    (hc : KCorr rc rooms0 tiles0 st F) (hstep : kruskalStep st e = some st1) :
    KCorr rc rooms0 tiles0 st1 F2 := by
  obtain ⟨fw, fh, _⟩ := kruskalStep_frame st st1 e hstep
  rcases kruskalStep_corridor st st1 e hstep with ⟨i1, t1, c1⟩ | ⟨i1, t1, c1⟩
  · -- nothing recorded: the chosen edges are the same
    have hFF : F2 = F := by
      rcases hF with h | h
      · exact h
      · rw [h, List.length_cons] at hidx1
        push_cast at hidx1
        omega
    subst hFF
    exact
      { of_edge := fun k hk hk2 => by
          rw [c1]
          exact hc.of_edge k hk (by omega)
        of_corridor := fun x hx => by
          rw [c1, i1]
          exact hc.of_corridor x hx
        carved := by
          rw [t1, fw, fh]
          exact hc.carved
        paths := fun hin x hx => by
          have hin2 : ∀ i, 0 ≤ i → i < rc →
              0 ≤ (roomCentre (rooms0 i)).x ∧ (roomCentre (rooms0 i)).x < st.1.width ∧
              0 ≤ (roomCentre (rooms0 i)).y ∧ (roomCentre (rooms0 i)).y < st.1.height := by
            rw [← fw, ← fh]; exact hin
          refine tilePath_mono (fun p hp => ?_) (hc.paths hin2 x hx)
          exact ⟨by rw [fw, fh]; exact hp.1, by rw [t1]; exact hp.2⟩ }
  · -- a corridor recorded at the index: the edge is the latest chosen
    have hFF : F2 = e :: F := by
      rcases hF with h | h
      · rw [h] at hidx1
        omega
      · exact h
    subst hFF
    rw [hrooms] at c1 t1
    exact
      { of_edge := fun k hk hk2 => by
          rw [c1]
          by_cases hks : k = st.2
          · rw [hks, Function.update_same]
            exact ⟨e, List.mem_cons_self _ _, rfl⟩
          · rw [Function.update_noteq hks]
            obtain ⟨x, hx, hxe⟩ := hc.of_edge k hk (by omega)
            exact ⟨x, List.mem_cons_of_mem _ hx, hxe⟩
        of_corridor := fun x hx => by
          rw [c1, i1]
          rcases List.mem_cons.mp hx with hxe | hxF
          · rw [hxe]
            have h0 : (0 : Int) ≤ st.2 := by rw [hidx]; exact Int.natCast_nonneg _
            exact ⟨st.2, h0, by omega, by rw [Function.update_same]⟩
          · obtain ⟨k, hk, hk2, hke⟩ := hc.of_corridor x hxF
            have hks : k ≠ st.2 := by omega
            exact ⟨k, hk, by omega, by rw [Function.update_noteq hks]; exact hke⟩
        carved := by
          obtain ⟨C, hC⟩ := hc.carved
          rw [t1, hC, fw, fh, carve_carve]
          exact ⟨_, rfl⟩
        paths := fun hin x hx => by
          have hin2 : ∀ i, 0 ≤ i → i < rc →
              0 ≤ (roomCentre (rooms0 i)).x ∧ (roomCentre (rooms0 i)).x < st.1.width ∧
              0 ≤ (roomCentre (rooms0 i)).y ∧ (roomCentre (rooms0 i)).y < st.1.height := by
            rw [← fw, ← fh]; exact hin
          rcases List.mem_cons.mp hx with hxe | hxF
          · rw [hxe]
            exact tilePath_lPath st1.1 (roomCentre (rooms0 e.room1))
              (roomCentre (rooms0 e.room2))
              (fun a b hab => walkable_lPath st.1 st1.1 _ _ fw fh t1
                (hin2 e.room1 hv.1 hv.2.1) (hin2 e.room2 hv.2.2.1 hv.2.2.2) a b hab)
          · exact tilePath_mono (fun p hp => walkable_carve st.1 st1.1 _ fw fh t1 p hp)
              (hc.paths hin2 x hxF) }

/-- The whole scan follows the selection rule, and its corridors and tiles are described
by the edges it chooses. -/
theorem kruskalLoop_corr (rc : Int) (hrc : rc ≤ 50) (rooms0 : Int → Room)
    (tiles0 : Int → Int → Int) (es : List Edge) :
    ∀ (st : World × Int) (F : List Edge), KInv rc rooms0 st → KTrace rc rooms0 st F →
      KCorr rc rooms0 tiles0 st F →
      (∀ e ∈ es, (0 ≤ e.room1 ∧ e.room1 < e.room2 ∧ e.room2 < rc) ∧
        e.distance = roomDistance (rooms0 e.room1) (rooms0 e.room2)) →
      ∃ st1 F1, kruskalLoop es st = some st1 ∧ KInv rc rooms0 st1 ∧ KTrace rc rooms0 st1 F1 ∧
        Greedy es F F1 ∧ KCorr rc rooms0 tiles0 st1 F1 := by
  induction es with
  | nil =>
    intro st F hinv htr hc _
    exact ⟨st, F, rfl, hinv, htr, Greedy.done F, hc⟩
  | cons e es ih =>
    intro st F hinv htr hc hes
    obtain ⟨hv, hd⟩ := hes e (List.mem_cons_self _ _)
    obtain ⟨st1, hstep, hinv1, hcase⟩ := kruskalStep_trace rc hrc rooms0 st F hinv htr e hv hd
    have hrest := fun x hx => hes x (List.mem_cons_of_mem _ hx)
    have hv4 : 0 ≤ e.room1 ∧ e.room1 < rc ∧ 0 ≤ e.room2 ∧ e.room2 < rc := by omega
    rcases hcase with ⟨hl, htr1⟩ | ⟨hl, htr1⟩
    · have hc1 := kruskalStep_corr rc rooms0 tiles0 st st1 F F e hinv.rooms_eq htr.index_eq
        htr1.index_eq (Or.inl rfl) hv4 hc hstep
      obtain ⟨st2, F1, hloop, hinv2, htr2, hg, hc2⟩ := ih st1 F hinv1 htr1 hc1 hrest
      refine ⟨st2, F1, ?_, hinv2, htr2, Greedy.skip e es F F1 hl hg, hc2⟩
      unfold kruskalLoop
      rw [hstep]
      exact hloop
    · have hc1 := kruskalStep_corr rc rooms0 tiles0 st st1 F (e :: F) e hinv.rooms_eq
        htr.index_eq htr1.index_eq (Or.inr rfl) hv4 hc hstep
      obtain ⟨st2, F1, hloop, hinv2, htr2, hg, hc2⟩ := ih st1 (e :: F) hinv1 htr1 hc1 hrest
      refine ⟨st2, F1, ?_, hinv2, htr2, Greedy.take e es F F1 hl hg, hc2⟩
      unfold kruskalLoop
      rw [hstep]
      exact hloop

theorem mstStart_tiles (world : World) : (mstStart world).tiles = world.tiles := by
  show (clearAllConnections world).tiles = world.tiles
  rw [clearAllConnections_eq]

theorem mstStart_width (world : World) : (mstStart world).width = world.width := by
  show (clearAllConnections world).width = world.width
  rw [clearAllConnections_eq]

theorem mstStart_height (world : World) : (mstStart world).height = world.height := by
  show (clearAllConnections world).height = world.height
  rw [clearAllConnections_eq]

theorem mstStart_kCorr (world : World) :
    KCorr world.roomCount world.rooms world.tiles (mstStart world, 0) [] :=
  { of_edge := fun k hk hk2 => by
      have hk3 : k < 0 := hk2
      omega
    of_corridor := fun _ he => absurd he (List.not_mem_nil _)
    carved := ⟨fun _ _ => false, by
      show (mstStart world).tiles = _
      rw [carve_none, mstStart_tiles]⟩
    paths := fun _ _ he => absurd he (List.not_mem_nil _) }

/-- The result of the connector on a world with at least two rooms, all existing, in
terms of the list `F` of the edges chosen by the scan (the latest first): the adjacency
lists, the corridor records and the tile grid. -/
theorem connectRoomsWithMST_corr (world : World) (h2 : 2 ≤ world.roomCount)
    (h50 : world.roomCount ≤ MAX_ROOMS)
    (hex : ∀ i, 0 ≤ i → i < world.roomCount → (world.rooms i).exists_ = true) :
    ∃ w2 F, connectRoomsWithMST world = some (w2, 0) ∧
      w2.rooms = world.rooms ∧ w2.roomCount = world.roomCount ∧
      w2.width = world.width ∧ w2.height = world.height ∧
      w2.corridorCount = world.roomCount - 1 ∧ (F.length : Int) = world.roomCount - 1 ∧
      (∀ i, InRange i → w2.connections i = neighbours F i) ∧
      (∀ e ∈ F, 0 ≤ e.room1 ∧ e.room1 < e.room2 ∧ e.room2 < world.roomCount) ∧
      Forest F ∧
      (∀ i j, 0 ≤ i → i < world.roomCount → 0 ≤ j → j < world.roomCount → Linked F i j) ∧
      (∀ k, 0 ≤ k → k < w2.corridorCount →
        ∃ e ∈ F, w2.corridors k = edgeCorridor world.rooms k e) ∧
      (∀ e ∈ F, ∃ k, 0 ≤ k ∧ k < w2.corridorCount ∧
        w2.corridors k = edgeCorridor world.rooms k e) ∧
      (∃ C, w2.tiles = carve world.width world.height C world.tiles) ∧
      ((∀ i, 0 ≤ i → i < world.roomCount →
          0 ≤ (roomCentre (world.rooms i)).x ∧ (roomCentre (world.rooms i)).x < world.width ∧
          0 ≤ (roomCentre (world.rooms i)).y ∧
          (roomCentre (world.rooms i)).y < world.height) →
        ∀ e ∈ F, TilePath w2
          ((roomCentre (world.rooms e.room1)).x, (roomCentre (world.rooms e.room1)).y)
          ((roomCentre (world.rooms e.room2)).x, (roomCentre (world.rooms e.room2)).y)) := by
  have hrc : world.roomCount ≤ 50 := h50
  have hnot : ¬ world.roomCount < 2 := by omega
  obtain ⟨st1, F1, hloop, hinv1, htr1, hg, hc1⟩ :=
    kruskalLoop_corr world.roomCount hrc world.rooms world.tiles
      (bubbleSort (buildEdges (mstStart world))) (mstStart world, 0) []
      (mstStart_kInv world) (mstStart_kTrace world) (mstStart_kCorr world)
      (by
        intro e he
        rw [mem_mstEdges] at he
        obtain ⟨i, j, hi, hij, hj, _, _, rfl⟩ := he
        exact ⟨⟨hi, hij, hj⟩, rfl⟩)
  obtain ⟨w1, ci⟩ := st1
  have hconn : connectRoomsWithMST world = some ({ w1 with corridorCount := ci }, 0) := by
    rw [connectRoomsWithMST_eq world hnot, hloop]
  obtain ⟨w2, hc2, hpost⟩ := connectRoomsWithMST_spec world h2 h50 hex
  have hw2 : w2 = { w1 with corridorCount := ci } := by
    have := hc2.symm.trans hconn
    simp only [Option.some.injEq, Prod.mk.injEq, and_true] at this
    exact this
  have hci : ci = world.roomCount - 1 := by
    have := hpost.corridorCount_eq
    rw [hw2] at this
    exact this
  obtain ⟨fw, fh, _⟩ := kruskalLoop_frame _ _ _ hloop
  have fw1 : w1.width = world.width := (show w1.width = (mstStart world).width from fw).trans
    (mstStart_width world)
  have fh1 : w1.height = world.height :=
    (show w1.height = (mstStart world).height from fh).trans (mstStart_height world)
  have hedge : ∀ i j, 0 ≤ i → i < j → j < world.roomCount →
      ({ room1 := i, room2 := j, distance := roomDistance (world.rooms i) (world.rooms j) }
        : Edge) ∈ bubbleSort (buildEdges (mstStart world)) := by
    intro i j hi hij hj
    rw [mem_mstEdges]
    exact ⟨i, j, hi, hij, hj, hex i hi (by omega), hex j (by omega) hj, rfl⟩
  have hidx : ci = (F1.length : Int) := htr1.index_eq
  refine ⟨{ w1 with corridorCount := ci }, F1, hconn, hinv1.rooms_eq, hinv1.roomCount_eq,
    fw1, fh1, hci, by omega, fun i hi => htr1.conn i hi,
    fun e he => by
      obtain ⟨v0, v1, v2, _⟩ := htr1.valid e he
      exact ⟨v0, v1, v2⟩,
    hg.forest trivial, ?_, fun k hk hk2 => hc1.of_edge k hk hk2,
    fun e he => hc1.of_corridor e he, ?_, ?_⟩
  · intro i j hi hi2 hj hj2
    rcases lt_trichotomy i j with hlt | heq | hgt
    · exact hg.spans.2 _ (hedge i j hi hlt hj2)
    · rw [heq]; exact Linked.refl F1 j
    · exact (hg.spans.2 _ (hedge j i hj hgt hi2)).symm
  · obtain ⟨C, hC⟩ := hc1.carved
    refine ⟨C, ?_⟩
    show w1.tiles = _
    rw [← fw1, ← fh1]
    exact hC
  · intro hin e he
    have hin2 : ∀ i, 0 ≤ i → i < world.roomCount →
        0 ≤ (roomCentre (world.rooms i)).x ∧ (roomCentre (world.rooms i)).x < w1.width ∧
        0 ≤ (roomCentre (world.rooms i)).y ∧ (roomCentre (world.rooms i)).y < w1.height := by
      rw [fw1, fh1]; exact hin
    exact tilePath_mono (fun p hp => hp) (hc1.paths hin2 e he)

/-! # The room graph and the corridors -/

theorem mem_neighbours_iff (F : List Edge) (i j : Int) :
    j ∈ neighbours F i ↔
      ∃ e ∈ F, (e.room1 = i ∧ e.room2 = j) ∨ (e.room2 = i ∧ e.room1 = j) := by
  constructor
  · exact mem_neighbours F i j
  · rintro ⟨e, he, hcase⟩
    unfold neighbours
    rw [List.mem_filterMap]
    refine ⟨e, he, ?_⟩
    rcases hcase with ⟨h1, h2⟩ | ⟨h1, h2⟩
    · rw [if_pos h1, h2]
    · by_cases h3 : e.room1 = i
      · rw [if_pos h3, h1, ← h2, h3]
      · rw [if_neg h3, if_pos h1, h2]

/-- Two rooms of non-negative size that do not overlap have different centres. -/
theorem roomCentre_ne (a b : Room) (haw : 0 ≤ a.width) (hah : 0 ≤ a.height)
    (hbw : 0 ≤ b.width) (hbh : 0 ≤ b.height) (hno : roomsOverlap a b = false) :
    roomCentre a ≠ roomCentre b := by
  intro heq
  unfold roomCentre at heq
  simp only [Point.mk.injEq] at heq
  obtain ⟨hx, hy⟩ := heq
  rw [Int.tdiv_eq_ediv haw (by decide), Int.tdiv_eq_ediv hbw (by decide)] at hx
  rw [Int.tdiv_eq_ediv hah (by decide), Int.tdiv_eq_ediv hbh (by decide)] at hy
  unfold roomsOverlap at hno
  simp only [Bool.not_eq_false', Bool.or_eq_true, decide_eq_true_eq] at hno
  omega

theorem edgeCorridor_turning (rooms : Int → Room) (k : Int) (e : Edge) :
    (edgeCorridor rooms k e).isTurning = true ↔
      (edgeCorridor rooms k e).start.x ≠ (edgeCorridor rooms k e).end_.x ∧
      (edgeCorridor rooms k e).start.y ≠ (edgeCorridor rooms k e).end_.y := by
  unfold edgeCorridor
  simp only [Bool.and_eq_true, decide_eq_true_eq]

/-! # Facts about the concrete inputs: the three rooms -/

theorem threeRooms_apart : ∀ i j, 0 ≤ i → i < threeRooms.roomCount → 0 ≤ j →
    j < threeRooms.roomCount → i ≠ j →
    roomsOverlap (threeRooms.rooms i) (threeRooms.rooms j) = false := by
  intro i j hi hi2 hj hj2 hij
  have hi3 : i < 3 := hi2
  have hj3 : j < 3 := hj2
  unfold roomsOverlap
  show (!(decide (1 + 6 * i + 3 < 1 + 6 * j) || decide (1 + 6 * j + 3 < 1 + 6 * i) ||
    decide ((1 : Int) + 3 < 1) || decide ((1 : Int) + 3 < 1))) = false
  simp only [Bool.not_eq_false', Bool.or_eq_true, decide_eq_true_eq]
  omega

theorem threeRooms_sizes : ∀ i, 0 ≤ i → i < threeRooms.roomCount →
    0 ≤ (threeRooms.rooms i).width ∧ 0 ≤ (threeRooms.rooms i).height := by
  intro i _ _
  show (0 : Int) ≤ 3 ∧ (0 : Int) ≤ 3
  exact ⟨by decide, by decide⟩

/-! # The tiles of the generated rooms -/

theorem placeRoom_tiles (world : World) (r : Room) (x y : Int) :
    (placeRoom world r).tiles y x =
      if InRoom r x y ∧ (0 ≤ x ∧ x < world.width ∧ 0 ≤ y ∧ y < world.height) then TILE_ROOM
      else world.tiles y x := by
  show (paintRoom { world with rooms := Function.update world.rooms world.roomCount r }
    r.x r.y r.width r.height).tiles y x = _
  rw [paintRoom_tiles]
  unfold InRoom
  by_cases hc : ((r.x ≤ x ∧ x < r.x + r.width) ∧ (r.y ≤ y ∧ y < r.y + r.height)) ∧
      (0 ≤ x ∧ x < world.width ∧ 0 ≤ y ∧ y < world.height)
  · rw [if_pos hc, if_pos ⟨hc.1.2, hc.1.1, hc.2⟩]
  · rw [if_neg hc, if_neg (fun h => hc ⟨⟨h.2.1, h.1⟩, h.2.2⟩)]

/-- After `generateRooms` on a grid of walls without rooms, a cell of the grid holds
`TILE_ROOM` when it lies in the rectangle of a placed room and `TILE_WALL` otherwise. -/
theorem generateRooms_tiles (currentSeed : Int) (world0 : World)
    (minSize maxSize maxRooms : Int) (h0 : world0.roomCount = 0)
    (hwalls : ∀ x y, 0 ≤ x → x < world0.width → 0 ≤ y → y < world0.height →
      world0.tiles y x = TILE_WALL) :
    ∀ x y, 0 ≤ x → x < world0.width → 0 ≤ y → y < world0.height →
      ((generateRooms currentSeed world0 minSize maxSize maxRooms).1.tiles y x = TILE_ROOM ∧
        RoomCell (generateRooms currentSeed world0 minSize maxSize maxRooms).1 x y) ∨
      ((generateRooms currentSeed world0 minSize maxSize maxRooms).1.tiles y x = TILE_WALL ∧
        ¬ RoomCell (generateRooms currentSeed world0 minSize maxSize maxRooms).1 x y) := by
  unfold generateRooms
  have key := generateRoomsLoop_induct minSize maxSize maxRooms
    (fun st => st.1.width = world0.width ∧ st.1.height = world0.height ∧
      0 ≤ st.1.roomCount ∧
      ∀ x y, 0 ≤ x → x < world0.width → 0 ≤ y → y < world0.height →
        (st.1.tiles y x = TILE_ROOM ∧ RoomCell st.1 x y) ∨
        (st.1.tiles y x = TILE_WALL ∧ ¬ RoomCell st.1 x y))
    ?_ (maxRooms * 5).toNat (world0, currentSeed)
    ⟨rfl, rfl, by show 0 ≤ world0.roomCount; omega,
      fun x y hx hx2 hy hy2 => Or.inr ⟨hwalls x y hx hx2 hy hy2, by
        rintro ⟨i, hi, hi2, _⟩
        have hi3 : i < world0.roomCount := hi2
        omega⟩⟩
  · exact key.2.2.2
  · intro st hP _
    obtain ⟨hw, hh, hc, hall⟩ := hP
    rw [generateRoomsAttempt_eq]
    split_ifs
    · exact ⟨hw, hh, hc, hall⟩
    · obtain ⟨f1, f2, _⟩ := placeRoom_frame st.1 (candidateRoom minSize maxSize st).1
      refine ⟨f1.trans hw, f2.trans hh, ?_, ?_⟩
      · show 0 ≤ (placeRoom st.1 (candidateRoom minSize maxSize st).1).roomCount
        rw [placeRoom_roomCount]; omega
      · intro x y hx hx2 hy hy2
        show ((placeRoom st.1 (candidateRoom minSize maxSize st).1).tiles y x = TILE_ROOM ∧
            RoomCell (placeRoom st.1 (candidateRoom minSize maxSize st).1) x y) ∨
          ((placeRoom st.1 (candidateRoom minSize maxSize st).1).tiles y x = TILE_WALL ∧
            ¬ RoomCell (placeRoom st.1 (candidateRoom minSize maxSize st).1) x y)
        have hcell : RoomCell (placeRoom st.1 (candidateRoom minSize maxSize st).1) x y ↔
            (InRoom (candidateRoom minSize maxSize st).1 x y ∨ RoomCell st.1 x y) := by
          unfold RoomCell
          rw [placeRoom_roomCount, placeRoom_rooms]
          constructor
          · rintro ⟨i, hi, hi2, hin⟩
            by_cases hie : i = st.1.roomCount
            · rw [hie, Function.update_same] at hin
              exact Or.inl hin
            · rw [Function.update_noteq hie] at hin
              exact Or.inr ⟨i, hi, by omega, hin⟩
          · rintro (hin | ⟨i, hi, hi2, hin⟩)
            · exact ⟨st.1.roomCount, hc, by omega, by rw [Function.update_same]; exact hin⟩
            · have hie : i ≠ st.1.roomCount := by omega
              exact ⟨i, hi, by omega, by rw [Function.update_noteq hie]; exact hin⟩
        rw [placeRoom_tiles, hcell, hw, hh]
        by_cases hin : InRoom (candidateRoom minSize maxSize st).1 x y
        · left
          rw [if_pos ⟨hin, hx, hx2, hy, hy2⟩]
          exact ⟨rfl, Or.inl hin⟩
        · rw [if_neg (fun h => hin h.1)]
          rcases hall x y hx hx2 hy hy2 with ⟨ht, hr⟩ | ⟨ht, hr⟩
          · exact Or.inl ⟨ht, Or.inr hr⟩
          · right
            refine ⟨ht, ?_⟩
            rintro (h | h)
            · exact hin h
            · exact hr h

/-- The centre of a room with the shape of a candidate on a grid whose sides are at
least 5 is a cell of the grid and of the room. -/
theorem RoomShape.centre {W H : Int} {r : Room} (h : RoomShape W H r) (hW : 5 ≤ W)
    (hH : 5 ≤ H) :
    (0 ≤ (roomCentre r).x ∧ (roomCentre r).x < W ∧ 0 ≤ (roomCentre r).y ∧
      (roomCentre r).y < H) ∧ InRoom r (roomCentre r).x (roomCentre r).y := by
  have a1 := h.width_ge; have a2 := h.width_le; have a3 := h.height_ge
  have a4 := h.height_le; have a5 := h.x_ge; have a6 := h.y_ge
  have a7 := h.x_le; have a8 := h.y_le
  unfold roomCentre InRoom
  simp only
  rw [Int.tdiv_eq_ediv (by omega) (by decide), Int.tdiv_eq_ediv (by omega) (by decide)]
  omega

/-! # The layout of a connected world -/

/-- Rooms joined by the chosen edges have their centres joined by a path of walkable
cells, once every chosen edge is such a path and every centre is walkable. -/
theorem tilePath_of_linked (w : World) (rooms : Int → Room) (rc : Int) (F : List Edge)
    (hvalid : ∀ e ∈ F, 0 ≤ e.room1 ∧ e.room1 < e.room2 ∧ e.room2 < rc)
    (hpaths : ∀ e ∈ F, TilePath w
      ((roomCentre (rooms e.room1)).x, (roomCentre (rooms e.room1)).y)
      ((roomCentre (rooms e.room2)).x, (roomCentre (rooms e.room2)).y))
    (hwalk : ∀ i, 0 ≤ i → i < rc →
      Walkable w ((roomCentre (rooms i)).x, (roomCentre (rooms i)).y))
    (a b : Int) (h : Linked F a b) :
    ((0 ≤ a ∧ a < rc) ↔ (0 ≤ b ∧ b < rc)) ∧
      ((0 ≤ a ∧ a < rc) → TilePath w
        ((roomCentre (rooms a)).x, (roomCentre (rooms a)).y)
        ((roomCentre (rooms b)).x, (roomCentre (rooms b)).y)) := by
  induction h with
  | rel x y hxy =>
    obtain ⟨e, he, h1, h2⟩ := hxy
    obtain ⟨v0, v1, v2⟩ := hvalid e he
    rw [← h1, ← h2]
    exact ⟨⟨fun _ => ⟨by omega, v2⟩, fun _ => ⟨v0, by omega⟩⟩, fun _ => hpaths e he⟩
  | refl x => exact ⟨Iff.rfl, fun hx => tilePath_refl (hwalk x hx.1 hx.2)⟩
  | symm x y _ ih => exact ⟨ih.1.symm, fun hy => tilePath_symm (ih.2 (ih.1.mpr hy))⟩
  | trans x y z _ _ ih1 ih2 =>
    exact ⟨ih1.1.trans ih2.1, fun hx => tilePath_trans (ih1.2 hx) (ih2.2 (ih1.1.mp hx))⟩

/-- The connector on a world with between 1 and `MAX_ROOMS` rooms, all existing, whose
centres are walkable cells: it returns, the rooms and the dimensions are unchanged, the
grid is the old grid with some wall cells carved, every corridor record comes from a
pair of rooms, and the centres of every two rooms are joined by a path of walkable
cells. -/
theorem connectRoomsWithMST_layout (world : World) (h1 : 1 ≤ world.roomCount)
    (h50 : world.roomCount ≤ MAX_ROOMS)
    (hex : ∀ i, 0 ≤ i → i < world.roomCount → (world.rooms i).exists_ = true)
    (hwalk : ∀ i, 0 ≤ i → i < world.roomCount →
      Walkable world ((roomCentre (world.rooms i)).x, (roomCentre (world.rooms i)).y)) :
    ∃ w2 r, connectRoomsWithMST world = some (w2, r) ∧
      w2.rooms = world.rooms ∧ w2.roomCount = world.roomCount ∧
      w2.width = world.width ∧ w2.height = world.height ∧
      (2 ≤ world.roomCount → w2.corridorCount = world.roomCount - 1) ∧
      (∃ C, w2.tiles = carve world.width world.height C world.tiles) ∧
      (2 ≤ world.roomCount → ∀ k, 0 ≤ k → k < w2.corridorCount →
        ∃ e : Edge, (0 ≤ e.room1 ∧ e.room1 < e.room2 ∧ e.room2 < world.roomCount) ∧
          w2.corridors k = edgeCorridor world.rooms k e) ∧
      ∀ i j, 0 ≤ i → i < world.roomCount → 0 ≤ j → j < world.roomCount →
        TilePath w2 ((roomCentre (world.rooms i)).x, (roomCentre (world.rooms i)).y)
          ((roomCentre (world.rooms j)).x, (roomCentre (world.rooms j)).y) := by
  by_cases h2 : 2 ≤ world.roomCount
  · obtain ⟨w2, F, hconn, hrooms, hcount, hw, hh, hcc, _, _, hvalid, _, hlinked, hof, _,
      hcarved, hpaths⟩ := connectRoomsWithMST_corr world h2 h50 hex
    obtain ⟨C, hC⟩ := hcarved
    have hmono : ∀ p, Walkable world p → Walkable w2 p :=
      fun p hp => walkable_carve world w2 C hw hh hC p hp
    refine ⟨w2, 0, hconn, hrooms, hcount, hw, hh, fun _ => hcc, ⟨C, hC⟩, ?_, ?_⟩
    · intro _ k hk hk2
      obtain ⟨e, he, hrec⟩ := hof k hk hk2
      exact ⟨e, hvalid e he, hrec⟩
    · intro i j hi hi2 hj hj2
      have hp := hpaths (fun i hi hi2 => (hwalk i hi hi2).1)
      exact (tilePath_of_linked w2 world.rooms world.roomCount F hvalid hp
        (fun i hi hi2 => hmono _ (hwalk i hi hi2)) i j (hlinked i j hi hi2 hj hj2)).2 ⟨hi, hi2⟩
  · have hlt : world.roomCount < 2 := by omega
    refine ⟨world, -1, ?_, rfl, rfl, rfl, rfl, fun h => absurd h h2,
      ⟨fun _ _ => false, by rw [carve_none]⟩, fun h => absurd h h2, ?_⟩
    · unfold connectRoomsWithMST
      rw [if_pos hlt]
    · intro i j hi hi2 hj hj2
      have hij : i = j := by omega
      rw [hij]
      exact tilePath_refl (hwalk j hj hj2)

/-- A carved grid keeps its room cells and turns wall cells into wall or corridor
cells. -/
theorem carve_codes (W H : Int) (C : Int → Int → Bool) (tiles : Int → Int → Int) (x y : Int) :
    (tiles y x = TILE_ROOM → carve W H C tiles y x = TILE_ROOM) ∧
    (tiles y x = TILE_WALL →
      carve W H C tiles y x = TILE_WALL ∨ carve W H C tiles y x = TILE_CORRIDOR) := by
  unfold carve
  constructor
  · intro hr
    rw [if_neg (fun h => by rw [hr] at h; exact absurd h.2.2 (by decide))]
    exact hr
  · intro hwall
    split_ifs
    · exact Or.inr rfl
    · exact Or.inl hwall

/-- The layout of a generated world: the rooms have the shape of a candidate and dense
ids, a cell of the grid holds `TILE_ROOM` when it lies in the rectangle of a room and
`TILE_WALL` or `TILE_CORRIDOR` otherwise, every corridor record joins the centres of
two rooms, and the centres of every two rooms are joined by a path of walkable
cells. -/
theorem generateWorldFromSeed_layout (currentSeed : Int) (mem : World)
    (seed width height : Int) (hw : 5 ≤ width) (hh : 5 ≤ height) :
    ∃ world s, generateWorldFromSeed currentSeed mem seed width height = some (some world, s) ∧
      GenPost seed width height world ∧
      (∀ i, InRange i → world.roomCount ≤ i → (world.rooms i).exists_ = false) ∧
      (∀ i, 0 ≤ i → i < world.roomCount →
        RoomShape world.width world.height (world.rooms i) ∧ (world.rooms i).id = i) ∧
      (∀ x y, 0 ≤ x → x < world.width → 0 ≤ y → y < world.height →
        (world.tiles y x = TILE_ROOM ∧ RoomCell world x y) ∨
        ((world.tiles y x = TILE_WALL ∨ world.tiles y x = TILE_CORRIDOR) ∧
          ¬ RoomCell world x y)) ∧
      (∀ k, 0 ≤ k → k < world.corridorCount →
        ∃ e : Edge, (0 ≤ e.room1 ∧ e.room1 < e.room2 ∧ e.room2 < world.roomCount) ∧
          world.corridors k = edgeCorridor world.rooms k e) ∧
      ∀ i j, 0 ≤ i → i < world.roomCount → 0 ≤ j → j < world.roomCount →
        TilePath world ((roomCentre (world.rooms i)).x, (roomCentre (world.rooms i)).y)
          ((roomCentre (world.rooms j)).x, (roomCentre (world.rooms j)).y) := by
  obtain ⟨world0, hc, hpost0, hwalls⟩ :=
    createWorld_walls currentSeed mem seed width height hw hh
  obtain ⟨world, s, hgen, hpost, habs, hshape⟩ :=
    generateWorldFromSeed_shape currentSeed mem seed width height hw hh
  have h0 := hpost0.roomCount_eq
  have hP := generateRooms_spec seed world0 h0
  have hsh1 := generateRooms_shape seed world0 h0
  have htiles1 := generateRooms_tiles seed world0 3 6 25 h0 hwalls
  have heq := generateWorldFromSeed_eq currentSeed mem seed width height world0 seed hc
  rw [ensureAtLeastOneRoom_of_pos _ hP.count_pos] at heq
  have h5w : 5 ≤ world0.width := by rw [hpost0.width_eq]; exact le_min hw (by decide)
  have h5h : 5 ≤ world0.height := by rw [hpost0.height_eq]; exact le_min hh (by decide)
  generalize (generateRooms seed world0 3 6 25) = gr at hP hsh1 htiles1 heq
  obtain ⟨w1, s1⟩ := gr
  simp only at hP hsh1 htiles1 heq
  have hw1 : w1.width = world0.width := hP.width_eq
  have hh1 : w1.height = world0.height := hP.height_eq
  have hwalk : ∀ i, 0 ≤ i → i < w1.roomCount →
      Walkable w1 ((roomCentre (w1.rooms i)).x, (roomCentre (w1.rooms i)).y) := by
    intro i hi hi2
    obtain ⟨hin, hroom⟩ := (hsh1 i hi hi2).1.centre h5w h5h
    refine ⟨by rw [hw1, hh1]; exact hin, ?_⟩
    rcases htiles1 _ _ hin.1 hin.2.1 hin.2.2.1 hin.2.2.2 with ⟨ht, _⟩ | ⟨_, hnot⟩
    · show w1.tiles _ _ ≠ TILE_WALL
      rw [ht]
      decide
    · exact absurd ⟨i, hi, hi2, hroom⟩ hnot
  obtain ⟨w2, r, hconn, hrooms, hcount, hw2, hh2, hcc, ⟨C, hC⟩, hcorr, hpaths⟩ :=
    connectRoomsWithMST_layout w1 hP.count_pos
      (by have := hP.count_le; simp only [MAX_ROOMS]; omega) hP.rooms_inv.all_exist hwalk
  rw [hconn] at heq
  have hworld : world = { w2 with initialized := true } := by
    have := hgen.symm.trans heq
    simp only [Option.some.injEq, Prod.mk.injEq] at this
    exact this.1
  refine ⟨world, s, hgen, hpost, habs, hshape, ?_, ?_, ?_⟩
  · rw [hworld]
    intro x y hx hx2 hy hy2
    have hx3 : x < world0.width := by
      have : x < w2.width := hx2
      rw [hw2, hw1] at this
      exact this
    have hy3 : y < world0.height := by
      have : y < w2.height := hy2
      rw [hh2, hh1] at this
      exact this
    have hcell : RoomCell { w2 with initialized := true } x y ↔ RoomCell w1 x y := by
      unfold RoomCell
      show (∃ i, 0 ≤ i ∧ i < w2.roomCount ∧ InRoom (w2.rooms i) x y) ↔ _
      rw [hrooms, hcount]
    rw [hcell]
    show (w2.tiles y x = TILE_ROOM ∧ RoomCell w1 x y) ∨
      ((w2.tiles y x = TILE_WALL ∨ w2.tiles y x = TILE_CORRIDOR) ∧ ¬ RoomCell w1 x y)
    rw [hC]
    obtain ⟨c1, c2⟩ := carve_codes w1.width w1.height C w1.tiles x y
    rcases htiles1 x y hx hx3 hy hy3 with ⟨ht, hr⟩ | ⟨ht, hr⟩
    · exact Or.inl ⟨c1 ht, hr⟩
    · exact Or.inr ⟨c2 ht, hr⟩
  · rw [hworld]
    show ∀ k, 0 ≤ k → k < w2.corridorCount →
      ∃ e : Edge, (0 ≤ e.room1 ∧ e.room1 < e.room2 ∧ e.room2 < w2.roomCount) ∧
        w2.corridors k = edgeCorridor w2.rooms k e
    rw [hrooms, hcount]
    intro k hk hk2
    by_cases h2 : 2 ≤ w1.roomCount
    · exact hcorr h2 k hk hk2
    · have hcc2 := hpost.corridorCount_eq
      rw [hworld] at hcc2
      have hcc3 : w2.corridorCount = w2.roomCount - 1 := hcc2
      rw [hcount] at hcc3
      omega
  · rw [hworld]
    show ∀ i j, 0 ≤ i → i < w2.roomCount → 0 ≤ j → j < w2.roomCount →
      TilePath { w2 with initialized := true }
        ((roomCentre (w2.rooms i)).x, (roomCentre (w2.rooms i)).y)
        ((roomCentre (w2.rooms j)).x, (roomCentre (w2.rooms j)).y)
    rw [hrooms, hcount]
    intro i j hi hi2 hj hj2
    exact tilePath_mono (fun p hp => hp) (hpaths i j hi hi2 hj hj2)

/-! # The size of the JSON encodings -/

/-- A non-negative value below `10 ^ e` prints with at most `e` digits. -/
theorem fmtInt_length_nonneg (i : Int) (e : Nat) (h0 : 0 ≤ i) (he : 0 < e)
    (hlt : i < 10 ^ e) : (fmtInt i).length ≤ e := by
  obtain ⟨m, rfl⟩ := Int.eq_ofNat_of_zero_le h0
  have hm : m < 10 ^ e := by exact_mod_cast hlt
  exact Nat.repr_length m e he hm

/-- A negative value above `-10 ^ e` prints with a sign and at most `e` digits. -/
theorem fmtInt_length_neg (i : Int) (e : Nat) (hneg : i < 0) (he : 0 < e)
    (hgt : -(10 ^ e) < i) : (fmtInt i).length ≤ e + 1 := by
  obtain ⟨m, rfl⟩ := Int.eq_negSucc_of_lt_zero hneg
  have hm : m + 1 < 10 ^ e := by
    have h1 : ((m : Int) + 1) < 10 ^ e := by
      have := Int.negSucc_eq m
      omega
    exact_mod_cast h1
  have hlen := Nat.repr_length (m + 1) e he hm
  show ('-' :: Nat.toDigits 10 (m + 1)).length ≤ e + 1
  rw [List.length_cons]
  exact Nat.succ_le_succ hlen

theorem fmtInt_length_le (i : Int) (e : Nat) (he : 0 < e) (hgt : -(10 ^ e) < i)
    (hlt : i < 10 ^ e) : (fmtInt i).length ≤ e + 1 := by
  by_cases h0 : 0 ≤ i
  · exact Nat.le_succ_of_le (fmtInt_length_nonneg i e h0 he hlt)
  · exact fmtInt_length_neg i e (by omega) he hgt

theorem fmtInt_length_digit (i : Int) (h0 : 0 ≤ i) (hlt : i < 10) : (fmtInt i).length ≤ 1 :=
  fmtInt_length_nonneg i 1 h0 (by decide) (by simpa using hlt)

theorem fmtInt_length_two (i : Int) (h0 : 0 ≤ i) (hlt : i < 100) : (fmtInt i).length ≤ 2 :=
  fmtInt_length_nonneg i 2 h0 (by decide) (by norm_num; exact hlt)

theorem fmtInt_length_three (i : Int) (h0 : 0 ≤ i) (hlt : i < 1000) : (fmtInt i).length ≤ 3 :=
  fmtInt_length_nonneg i 3 h0 (by decide) (by norm_num; exact hlt)

theorem fmtBool_length (b : Bool) : (fmtBool b).length ≤ 5 := by
  cases b <;> decide

theorem fmtRoom_length (r : Room) :
    (fmtRoom r).length = 36 + (fmtInt r.id).length + (fmtInt r.x).length +
      (fmtInt r.y).length + (fmtInt r.width).length + (fmtInt r.height).length := by
  unfold fmtRoom
  simp [List.length_append]
  omega

theorem fmtCorridor_length (c : Corridor) :
    (fmtCorridor c).length = 58 + (fmtInt c.id).length + (fmtInt c.start.x).length +
      (fmtInt c.start.y).length + (fmtInt c.end_.x).length + (fmtInt c.end_.y).length +
      (fmtBool c.isTurning).length := by
  unfold fmtCorridor
  simp [List.length_append]
  omega

theorem fmtHeader_length (world : World) :
    (fmtHeader world).length = 58 + (fmtInt world.seed).length +
      (fmtInt world.width).length + (fmtInt world.height).length +
      (fmtInt world.roomCount).length + (fmtInt world.corridorCount).length := by
  unfold fmtHeader
  simp [List.length_append]
  omega

theorem intercalate_length_le (sep : List Char) (m : Nat) (l : List (List Char))
    (hm : ∀ t ∈ l, t.length ≤ m) :
    (List.intercalate sep l).length ≤ l.length * (m + sep.length) := by
  have aux : ∀ l : List (List Char), (∀ t ∈ l, t.length ≤ m) →
      ((l.map (fun t => sep ++ t)).flatten).length ≤ l.length * (m + sep.length) := by
    intro l
    induction l with
    | nil => intro _; simp
    | cons a l ih =>
      intro h
      have ha := h a (List.mem_cons_self _ _)
      have hl := ih (fun t ht => h t (List.mem_cons_of_mem _ ht))
      rw [List.map_cons, List.flatten_cons, List.length_append, List.length_append,
        List.length_cons, Nat.succ_mul]
      omega
  cases l with
  | nil => simp [List.intercalate]
  | cons a l =>
    have ha := hm a (List.mem_cons_self _ _)
    have hl := aux l (fun t ht => hm t (List.mem_cons_of_mem _ ht))
    rw [intercalate_cons, List.length_append, List.length_cons, Nat.succ_mul]
    omega

/-- An array of at most `n` items of at most `m` characters. -/
theorem jsonArray_length_le (items : List (List Char)) (n m : Nat) (hn : items.length ≤ n)
    (hm : ∀ t ∈ items, t.length ≤ m) : (jsonArray items).length ≤ 2 + n * (m + 1) := by
  unfold jsonArray
  have h := intercalate_length_le ",".toList m items hm
  have hsep : (",".toList).length = 1 := rfl
  rw [hsep] at h
  have hmul : items.length * (m + 1) ≤ n * (m + 1) := Nat.mul_le_mul_right _ hn
  simp only [List.length_append]
  have h1 : ("[".toList).length = 1 := rfl
  have h2 : ("]".toList).length = 1 := rfl
  rw [h1, h2]
  omega

theorem length_intRange (lo hi : Int) : (intRange lo hi).length = (hi - lo).toNat := by
  unfold intRange
  rw [List.length_map, List.length_range]

/-- The rooms array of a world of at most 25 rooms whose fields are below 1000. -/
theorem roomsEncoding_length_le (world : World) (hrc : world.roomCount ≤ 25)
    (hroom : ∀ i, 0 ≤ i → i < world.roomCount →
      (0 ≤ (world.rooms i).id ∧ (world.rooms i).id < 1000) ∧
      (0 ≤ (world.rooms i).x ∧ (world.rooms i).x < 1000) ∧
      (0 ≤ (world.rooms i).y ∧ (world.rooms i).y < 1000) ∧
      (0 ≤ (world.rooms i).width ∧ (world.rooms i).width < 1000) ∧
      (0 ≤ (world.rooms i).height ∧ (world.rooms i).height < 1000)) :
    (roomsEncoding world).length ≤ 1302 := by
  unfold roomsEncoding
  refine jsonArray_length_le _ 25 51 ?_ ?_
  · rw [List.length_map]
    refine le_trans (List.length_filter_le _ _) ?_
    rw [length_intRange]
    omega
  · intro t ht
    obtain ⟨i, hi, rfl⟩ := List.mem_map.mp ht
    have hmem := (mem_intRange 0 world.roomCount i).mp (List.mem_filter.mp hi).1
    obtain ⟨h1, h2, h3, h4, h5⟩ := hroom i hmem.1 hmem.2
    rw [← fmtRoom_eq, fmtRoom_length]
    have a1 := fmtInt_length_three _ h1.1 h1.2
    have a2 := fmtInt_length_three _ h2.1 h2.2
    have a3 := fmtInt_length_three _ h3.1 h3.2
    have a4 := fmtInt_length_three _ h4.1 h4.2
    have a5 := fmtInt_length_three _ h5.1 h5.2
    omega

/-- The corridors array of a world of at most 24 corridors whose fields are below
1000. -/
theorem corridorsEncoding_length_le (world : World) (hcc : world.corridorCount ≤ 24)
    (hcorr : ∀ k, 0 ≤ k → k < world.corridorCount →
      (0 ≤ (world.corridors k).id ∧ (world.corridors k).id < 1000) ∧
      (0 ≤ (world.corridors k).start.x ∧ (world.corridors k).start.x < 1000) ∧
      (0 ≤ (world.corridors k).start.y ∧ (world.corridors k).start.y < 1000) ∧
      (0 ≤ (world.corridors k).end_.x ∧ (world.corridors k).end_.x < 1000) ∧
      (0 ≤ (world.corridors k).end_.y ∧ (world.corridors k).end_.y < 1000)) :
    (corridorsEncoding world).length ≤ 1898 := by
  unfold corridorsEncoding
  refine jsonArray_length_le _ 24 78 ?_ ?_
  · rw [List.length_map, length_intRange]
    omega
  · intro t ht
    obtain ⟨k, hk, rfl⟩ := List.mem_map.mp ht
    have hmem := (mem_intRange 0 world.corridorCount k).mp hk
    obtain ⟨h1, h2, h3, h4, h5⟩ := hcorr k hmem.1 hmem.2
    rw [← fmtCorridor_eq, fmtCorridor_length]
    have a1 := fmtInt_length_three _ h1.1 h1.2
    have a2 := fmtInt_length_three _ h2.1 h2.2
    have a3 := fmtInt_length_three _ h3.1 h3.2
    have a4 := fmtInt_length_three _ h4.1 h4.2
    have a5 := fmtInt_length_three _ h5.1 h5.2
    have a6 := fmtBool_length (world.corridors k).isTurning
    omega

/-- The tile grid of a world of at most 100 x 100 one-digit tiles. -/
theorem mapEncoding_length_le (world : World) (hw : world.width ≤ 100)
    (hh : world.height ≤ 100)
    (htile : ∀ x y, 0 ≤ x → x < world.width → 0 ≤ y → y < world.height →
      0 ≤ world.tiles y x ∧ world.tiles y x < 10) :
    (mapEncoding world).length ≤ 20302 := by
  unfold mapEncoding
  refine jsonArray_length_le _ 100 202 ?_ ?_
  · rw [List.length_map, length_intRange]
    omega
  · intro t ht
    obtain ⟨y, hy, rfl⟩ := List.mem_map.mp ht
    have hmy := (mem_intRange 0 world.height y).mp hy
    refine jsonArray_length_le _ 100 1 ?_ ?_
    · rw [List.length_map, length_intRange]
      omega
    · intro c hc
      obtain ⟨x, hx, rfl⟩ := List.mem_map.mp hc
      have hmx := (mem_intRange 0 world.width x).mp hx
      have hb := htile x y hmx.1 hmx.2 hmy.1 hmy.2
      exact fmtInt_length_digit _ hb.1 hb.2

/-- The length of the whole snapshot in terms of its parts. -/
theorem worldEncoding_length (world : World) :
    (worldEncoding world).length = (fmtHeader world).length + (roomsEncoding world).length +
      (corridorsEncoding world).length + (mapEncoding world).length + 29 := by
  rw [← worldText_eq]
  simp [List.length_append]
  omega

/-- The header of a world with a 64-bit seed and counts below 1000. -/
theorem fmtHeader_length_le (world : World)
    (hseed : -(2 ^ 63) ≤ world.seed ∧ world.seed < 2 ^ 63)
    (hw : 0 ≤ world.width ∧ world.width < 1000)
    (hh : 0 ≤ world.height ∧ world.height < 1000)
    (hrc : 0 ≤ world.roomCount ∧ world.roomCount < 1000)
    (hcc : 0 ≤ world.corridorCount ∧ world.corridorCount < 1000) :
    (fmtHeader world).length ≤ 90 := by
  rw [fmtHeader_length]
  have a0 : (fmtInt world.seed).length ≤ 19 + 1 :=
    fmtInt_length_le _ 19 (by decide) (by norm_num; omega) (by norm_num; omega)
  have a1 := fmtInt_length_three _ hw.1 hw.2
  have a2 := fmtInt_length_three _ hh.1 hh.2
  have a3 := fmtInt_length_three _ hrc.1 hrc.2
  have a4 := fmtInt_length_three _ hcc.1 hcc.2
  omega

/-- The centre of a room of the generator lies below 1000. -/
theorem RoomShape.centre_small {W H : Int} {r : Room} (h : RoomShape W H r)
    (hW : W ≤ 100) (hH : H ≤ 100) :
    (0 ≤ (roomCentre r).x ∧ (roomCentre r).x < 1000) ∧
      (0 ≤ (roomCentre r).y ∧ (roomCentre r).y < 1000) := by
  have h1 := h.width_ge
  have h2 := h.width_le
  have h3 := h.height_ge
  have h4 := h.height_le
  have h5 := h.x_ge
  have h6 := h.y_ge
  have h7 := h.x_le
  have h8 := h.y_le
  have e1 : Int.tdiv r.width 2 = r.width / 2 := Int.tdiv_eq_ediv (by omega) (by decide)
  have e2 : Int.tdiv r.height 2 = r.height / 2 := Int.tdiv_eq_ediv (by omega) (by decide)
  show (0 ≤ r.x + Int.tdiv r.width 2 ∧ r.x + Int.tdiv r.width 2 < 1000) ∧
    (0 ≤ r.y + Int.tdiv r.height 2 ∧ r.y + Int.tdiv r.height 2 < 1000)
  rw [e1, e2]
  omega

/-- The four encodings of a generated world fit their buffers. -/
theorem generateWorldFromSeed_sizes (currentSeed : Int) (mem : World)
    (seed width height : Int) (hw : 5 ≤ width) (hh : 5 ≤ height)
    (hseed : -(2 ^ 63) ≤ seed ∧ seed < 2 ^ 63) :
    ∃ world s, generateWorldFromSeed currentSeed mem seed width height = some (some world, s) ∧
      (roomsEncoding world).length ≤ 1302 ∧ (corridorsEncoding world).length ≤ 1898 ∧
      (mapEncoding world).length ≤ 20302 ∧ (worldEncoding world).length ≤ 23621 := by
  obtain ⟨world, s, hgen, hpost, _, hshape, htiles, hcorr, _⟩ :=
    generateWorldFromSeed_layout currentSeed mem seed width height hw hh
  have hrc1 := hpost.count_pos
  have hrc2 := hpost.count_le
  have hcc := hpost.corridorCount_eq
  have hW5 : 5 ≤ world.width := by rw [hpost.width_eq]; exact le_min hw (by decide)
  have hH5 : 5 ≤ world.height := by rw [hpost.height_eq]; exact le_min hh (by decide)
  have hW : world.width ≤ 100 := by rw [hpost.width_eq]; exact min_le_right _ _
  have hH : world.height ≤ 100 := by rw [hpost.height_eq]; exact min_le_right _ _
  have hr : (roomsEncoding world).length ≤ 1302 := by
    refine roomsEncoding_length_le world hrc2 ?_
    intro i hi hi2
    obtain ⟨hs, hid⟩ := hshape i hi hi2
    have h1 := hs.width_ge
    have h2 := hs.width_le
    have h3 := hs.height_ge
    have h4 := hs.height_le
    have h5 := hs.x_ge
    have h6 := hs.y_ge
    have h7 := hs.x_le
    have h8 := hs.y_le
    rw [hid]
    omega
  have hc : (corridorsEncoding world).length ≤ 1898 := by
    refine corridorsEncoding_length_le world (by omega) ?_
    intro k hk hk2
    obtain ⟨e, he, hck⟩ := hcorr k hk hk2
    rw [hck]
    have c1 := (hshape e.room1 he.1 (by omega)).1.centre_small hW hH
    have c2 := (hshape e.room2 (by omega) he.2.2).1.centre_small hW hH
    exact ⟨⟨hk, by show k < 1000; omega⟩, c1.1, c1.2, c2.1, c2.2⟩
  have hm : (mapEncoding world).length ≤ 20302 := by
    refine mapEncoding_length_le world hW hH ?_
    intro x y hx hx2 hy hy2
    rcases htiles x y hx hx2 hy hy2 with ⟨ht, _⟩ | ⟨ht | ht, _⟩ <;> rw [ht] <;> decide
  have hhd : (fmtHeader world).length ≤ 90 := by
    refine fmtHeader_length_le world ?_ ⟨by omega, by omega⟩ ⟨by omega, by omega⟩
      ⟨by omega, by omega⟩ ⟨by omega, by omega⟩
    rw [hpost.seed_eq]
    exact hseed
  refine ⟨world, s, hgen, hr, hc, hm, ?_⟩
  rw [worldEncoding_length]
  omega

/-! # Facts about the concrete inputs: distances that leave the 32 bits -/

/-- For rooms 50000 cells apart the sum of the squares wraps to a negative `int` and the
distance is `INT_MIN`; for rooms 65536 cells apart it wraps to 0. -/
theorem roomDistance_wraps :
    roomDistance (pointRoom 0) (pointRoom 50000) = INT_MIN ∧
    roomDistance (pointRoom 100) (pointRoom 50000) = INT_MIN ∧
    roomDistance (pointRoom 0) (pointRoom 65536) = 0 :=
  ⟨by decide, by decide, by decide⟩

/-! # Facts about the concrete inputs: the rooms with one centre -/

theorem sharedCentre_exist : ∀ i, 0 ≤ i → i < sharedCentre.roomCount →
    (sharedCentre.rooms i).exists_ = true := by
  intro i hi hi2
  have hi3 : i < 3 := hi2
  have hcases : i = 0 ∨ i = 1 ∨ i = 2 := by omega
  rcases hcases with h | h | h <;> subst h <;> decide

theorem sharedCentre_apart : ∀ i j, 0 ≤ i → i < sharedCentre.roomCount → 0 ≤ j →
    j < sharedCentre.roomCount → i ≠ j →
    roomsOverlap (sharedCentre.rooms i) (sharedCentre.rooms j) = false := by
  intro i j hi hi2 hj hj2 hij
  have hi3 : i < 3 := hi2
  have hj3 : j < 3 := hj2
  have hcases : (i = 0 ∨ i = 1 ∨ i = 2) ∧ (j = 0 ∨ j = 1 ∨ j = 2) := by omega
  rcases hcases with ⟨h | h | h, h' | h' | h'⟩ <;> subst h <;> subst h' <;>
    first
      | exact absurd rfl hij
      | decide

/-- The result of the connector on the rooms with one centre. -/
theorem sharedCentre_connected :
    ∃ w2, connectRoomsWithMST sharedCentre = some (w2, 0) ∧ w2.roomCount = 3 ∧
      w2.corridorCount = 2 ∧
      (w2.corridors 0).start = roomCentre (w2.rooms 1) ∧
      (w2.corridors 0).end_ = roomCentre (w2.rooms 2) ∧
      w2.connections 0 = [2, 1] ∧ w2.connections 1 = [0] ∧ w2.connections 2 = [0] := by
  have h1 : (connectRoomsWithMST sharedCentre).map
      (fun r => (r.2, r.1.roomCount, r.1.corridorCount,
        decide ((r.1.corridors 0).start = roomCentre (r.1.rooms 1)),
        decide ((r.1.corridors 0).end_ = roomCentre (r.1.rooms 2))))
      = some ((0 : Int), (3 : Int), (2 : Int), true, true) := by
    set_option maxRecDepth 100000 in decide
  have h2 : (connectRoomsWithMST sharedCentre).map
      (fun r => (r.1.connections 0, r.1.connections 1, r.1.connections 2))
      = some ([2, 1], [0], [0]) := by
    set_option maxRecDepth 100000 in decide
  match h : connectRoomsWithMST sharedCentre with
  | none => rw [h] at h1; exact absurd h1 (by simp)
  | some (w2, r) =>
    rw [h] at h1 h2
    simp only [Option.map_some', Option.some.injEq, Prod.mk.injEq, decide_eq_true_eq] at h1 h2
    obtain ⟨hr, hn, hc, hs, he⟩ := h1
    obtain ⟨a0, a1, a2⟩ := h2
    subst hr
    exact ⟨w2, rfl, hn, hc, hs, he, a0, a1, a2⟩

/-! # The claims -/

/-- A query from a room to itself returns the one-element path at once. -/
theorem findShortestPath_same (world : World) (r : Int) (path : Int → Int) (maxLen : Int)
    (hmax : 0 < maxLen) (hr : InRange r) (hex : (world.rooms r).exists_ = true) :
    findShortestPath world r r path maxLen = some (1, Function.update path 0 r) := by
  unfold findShortestPath
  have c1 : ¬ maxLen ≤ 0 := by omega
  have c2 : ¬ (r < 0 ∨ r < 0) := by unfold InRange at hr; omega
  have c3 : ¬ (r ≥ MAX_ROOMS ∨ r ≥ MAX_ROOMS) := by unfold InRange at hr; omega
  simp only [c1, c2, c3, hex, if_false, Bool.not_true, Bool.false_eq_true, or_self, if_true]

/-- C1: for every seed and all dimensions of at least 5, `generateWorldFromSeed`
returns a world in which `findSet` gives every room index below `roomCount` the
representative it gives room 0, and on which `isWorldConnected` returns true. -/
theorem generated_world_is_connected (currentSeed : Int) (mem : World)
    (seed width height : Int) (hw : 5 ≤ width) (hh : 5 ≤ height) :
    ∃ world s,
      generateWorldFromSeed currentSeed mem seed width height = some (some world, s) ∧
      (∃ root ds0, findSet world.disjointSet 0 = some (ds0, root) ∧
        ∀ i, 0 ≤ i → i < world.roomCount →
          ∃ ds1, findSet world.disjointSet i = some (ds1, root)) ∧
      ∃ w2, isWorldConnected world = some (w2, true) := by
  obtain ⟨world, s, hgen, hpost⟩ :=
    generateWorldFromSeed_spec currentSeed mem seed width height hw hh
  have hR : ∀ i, 0 ≤ i → i < world.roomCount → InRange i := by
    intro i hi hi2
    have := hpost.count_le
    unfold InRange; simp only [MAX_ROOMS]; omega
  have h0 : InRange 0 := hR 0 (le_refl _) (by have := hpost.count_pos; omega)
  refine ⟨world, s, hgen, ?_, ?_⟩
  · obtain ⟨ds0, hf0, _⟩ := findSet_spec world.disjointSet hpost.ds_inv 0 h0
    refine ⟨rootOf world.disjointSet 0, ds0, hf0, ?_⟩
    intro i hi hi2
    obtain ⟨ds1, hf1, _⟩ := findSet_spec world.disjointSet hpost.ds_inv i (hR i hi hi2)
    refine ⟨ds1, ?_⟩
    rw [hf1, hpost.same_root i 0 hi hi2 (le_refl _) (by have := hpost.count_pos; omega)]
  · apply isWorldConnected_spec world hpost.ds_inv
    · have := hpost.count_le
      simp only [MAX_ROOMS]; omega
    · intro i hi hi2
      exact hpost.same_root i 0 hi hi2 (le_refl _) (by have := hpost.count_pos; omega)

theorem generated_world_is_connected_witness :
    (5 : Int) ≤ 40 ∧ (5 : Int) ≤ 30 ∧
    ∃ world s,
      generateWorldFromSeed 0 staleMemory 42 40 30 = some (some world, s) ∧
      (∃ root ds0, findSet world.disjointSet 0 = some (ds0, root) ∧
        ∀ i, 0 ≤ i → i < world.roomCount →
          ∃ ds1, findSet world.disjointSet i = some (ds1, root)) ∧
      ∃ w2, isWorldConnected world = some (w2, true) :=
  ⟨by decide, by decide,
    generated_world_is_connected 0 staleMemory 42 40 30 (by decide) (by decide)⟩

/-- C2: on every world with between 2 and `MAX_ROOMS` rooms, all existing,
`connectRoomsWithMST` returns 0 and leaves `corridorCount = roomCount - 1`. -/
theorem connectRoomsWithMST_spanning (world : World) (h2 : 2 ≤ world.roomCount)
    (h50 : world.roomCount ≤ MAX_ROOMS)
    (hex : ∀ i, 0 ≤ i → i < world.roomCount → (world.rooms i).exists_ = true) :
    ∃ w2, connectRoomsWithMST world = some (w2, 0) ∧
      w2.roomCount = world.roomCount ∧ w2.corridorCount = w2.roomCount - 1 := by
  obtain ⟨w2, hc, hpost⟩ := connectRoomsWithMST_spec world h2 h50 hex
  exact ⟨w2, hc, hpost.roomCount_eq, by rw [hpost.roomCount_eq]; exact hpost.corridorCount_eq⟩

theorem threeRooms_exist :
    ∀ i, 0 ≤ i → i < threeRooms.roomCount → (threeRooms.rooms i).exists_ = true := by
  intro i hi hi2
  have hi3 : i < 3 := hi2
  show decide (0 ≤ i ∧ i < 3) = true
  simp only [decide_eq_true_eq]
  exact ⟨hi, hi3⟩

theorem connectRoomsWithMST_spanning_witness :
    2 ≤ threeRooms.roomCount ∧ threeRooms.roomCount ≤ MAX_ROOMS ∧
    ∃ w2, connectRoomsWithMST threeRooms = some (w2, 0) ∧
      w2.roomCount = threeRooms.roomCount ∧ w2.corridorCount = w2.roomCount - 1 :=
  ⟨by decide, by decide,
    connectRoomsWithMST_spanning threeRooms (by decide) (by decide) threeRooms_exist⟩

/-- C3: in every generated world each room is reachable from each other room through
the room graph, and `findShortestPath` with a buffer of `MAX_ROOMS` entries returns a
positive length for every pair of room ids below `roomCount`. -/
theorem generated_world_all_paths (currentSeed : Int) (mem : World)
    (seed width height : Int) (hw : 5 ≤ width) (hh : 5 ≤ height) :
    ∃ world s,
      generateWorldFromSeed currentSeed mem seed width height = some (some world, s) ∧
      ∀ i j, 0 ≤ i → i < world.roomCount → 0 ≤ j → j < world.roomCount →
        Reach world i j ∧
        ∀ path, ∃ L path2,
          findShortestPath world i j path MAX_ROOMS = some (L, path2) ∧ 0 < L := by
  obtain ⟨world, s, hgen, hpost⟩ :=
    generateWorldFromSeed_spec currentSeed mem seed width height hw hh
  refine ⟨world, s, hgen, ?_⟩
  intro i j hi hi2 hj hj2
  have hle := hpost.count_le
  have hRi : InRange i := by unfold InRange; simp only [MAX_ROOMS]; omega
  have hRj : InRange j := by unfold InRange; simp only [MAX_ROOMS]; omega
  have hreach := hpost.reach i j hi hi2 hj hj2
  refine ⟨hreach, ?_⟩
  intro path
  have hexi := hpost.rooms_inv.all_exist i hi hi2
  have hexj := hpost.rooms_inv.all_exist j hj hj2
  by_cases hij : i = j
  · subst hij
    refine ⟨1, Function.update path 0 i, ?_, by decide⟩
    exact findShortestPath_same world i path MAX_ROOMS (by decide) hRi hexi
  · have hok : AdjOK world := by
      intro a ha b hb
      have := hpost.conn_range a ha b hb
      unfold InRange; simp only [MAX_ROOMS]; omega
    rcases findShortestPath_spec world i j path MAX_ROOMS hok (by decide) hRi hRj hexi hexj hij
      with ⟨_, hnr⟩ | ⟨walk, dist, hf, hp⟩
    · exact absurd hreach hnr
    · refine ⟨_, _, hf, ?_⟩
      have := hp.length_eq
      have h50 : MAX_ROOMS.toNat = 50 := by decide
      rw [h50] at this
      omega

theorem generated_world_all_paths_witness :
    (5 : Int) ≤ 40 ∧ (5 : Int) ≤ 30 ∧
    ∃ world s,
      generateWorldFromSeed 0 staleMemory 42 40 30 = some (some world, s) ∧
      ∀ i j, 0 ≤ i → i < world.roomCount → 0 ≤ j → j < world.roomCount →
        Reach world i j ∧
        ∀ path, ∃ L path2,
          findShortestPath world i j path MAX_ROOMS = some (L, path2) ∧ 0 < L :=
  ⟨by decide, by decide,
    generated_world_all_paths 0 staleMemory 42 40 30 (by decide) (by decide)⟩

/-- C4: in every generated world no two distinct rooms below `roomCount` overlap (and
each of them exists). -/
theorem generated_rooms_disjoint (currentSeed : Int) (mem : World)
    (seed width height : Int) (hw : 5 ≤ width) (hh : 5 ≤ height) :
    ∃ world s,
      generateWorldFromSeed currentSeed mem seed width height = some (some world, s) ∧
      (∀ i, 0 ≤ i → i < world.roomCount → (world.rooms i).exists_ = true) ∧
      ∀ i j, 0 ≤ i → i < world.roomCount → 0 ≤ j → j < world.roomCount → i ≠ j →
        roomsOverlap (world.rooms i) (world.rooms j) = false := by
  obtain ⟨world, s, hgen, hpost⟩ :=
    generateWorldFromSeed_spec currentSeed mem seed width height hw hh
  exact ⟨world, s, hgen, hpost.rooms_inv.all_exist, hpost.rooms_inv.no_overlap⟩

theorem generated_rooms_disjoint_witness :
    (5 : Int) ≤ 40 ∧ (5 : Int) ≤ 30 ∧
    ∃ world s,
      generateWorldFromSeed 0 staleMemory 42 40 30 = some (some world, s) ∧
      (∀ i, 0 ≤ i → i < world.roomCount → (world.rooms i).exists_ = true) ∧
      ∀ i j, 0 ≤ i → i < world.roomCount → 0 ≤ j → j < world.roomCount → i ≠ j →
        roomsOverlap (world.rooms i) (world.rooms j) = false :=
  ⟨by decide, by decide,
    generated_rooms_disjoint 0 staleMemory 42 40 30 (by decide) (by decide)⟩

/-- With the same block of memory the whole result, not only its observable part, is
independent of the prior random state. -/
theorem generateWorldFromSeed_same_memory (s1 s2 : Int) (mem : World)
    (seed width height : Int) :
    (generateWorldFromSeed s1 mem seed width height).map Prod.fst =
      (generateWorldFromSeed s2 mem seed width height).map Prod.fst := by
  by_cases h : width < 5 ∨ height < 5
  · unfold generateWorldFromSeed
    rw [createWorld_null s1 mem seed width height h, createWorld_null s2 mem seed width height h]
    rfl
  · obtain ⟨w1, hc1, _⟩ := createWorld_spec s1 mem seed width height (by omega) (by omega)
    obtain ⟨w2, hc2, _⟩ := createWorld_spec s2 mem seed width height (by omega) (by omega)
    have hsame : w1 = w2 := by
      have e1 : (createWorld s1 mem seed width height).1 = some w1 := by rw [hc1]
      have e2 : (createWorld s2 mem seed width height).1 = some w2 := by rw [hc2]
      have e3 : (createWorld s1 mem seed width height).1
          = (createWorld s2 mem seed width height).1 := by
        unfold createWorld
        simp only [h, if_false]
      rw [e1, e2] at e3
      exact Option.some.inj e3
    rw [generateWorldFromSeed_eq _ _ _ _ _ _ _ hc1, generateWorldFromSeed_eq _ _ _ _ _ _ _ hc2,
      hsame]

/-- C6: `generateWorldFromSeed` is a function of `(seed, width, height)` alone.  Two calls
with the same arguments, started from any two values of the global random state and
with any two contents of the freshly allocated blocks, both return `NULL` or both
return worlds with the same dimensions, the same tile grid, the same room list and the
same corridor list. -/
theorem generateWorldFromSeed_deterministic (s1 s2 : Int) (mem1 mem2 : World)
    (seed width height : Int) :
    (generateWorldFromSeed s1 mem1 seed width height = some (none, s1) ∧
      generateWorldFromSeed s2 mem2 seed width height = some (none, s2)) ∨
    ∃ w1 w2 t,
      generateWorldFromSeed s1 mem1 seed width height = some (some w1, t) ∧
      generateWorldFromSeed s2 mem2 seed width height = some (some w2, t) ∧
      w1.width = w2.width ∧ w1.height = w2.height ∧ w1.seed = w2.seed ∧
      w1.roomCount = w2.roomCount ∧ w1.corridorCount = w2.corridorCount ∧
      (∀ x y, 0 ≤ x → x < w1.width → 0 ≤ y → y < w1.height → w1.tiles y x = w2.tiles y x) ∧
      (∀ i, 0 ≤ i → i < w1.roomCount → w1.rooms i = w2.rooms i) ∧
      (∀ k, 0 ≤ k → k < w1.corridorCount → w1.corridors k = w2.corridors k) := by
  by_cases hsmall : width < 5 ∨ height < 5
  · left
    unfold generateWorldFromSeed
    rw [createWorld_null s1 mem1 seed width height hsmall,
      createWorld_null s2 mem2 seed width height hsmall]
    exact ⟨rfl, rfl⟩
  · right
    have hw : 5 ≤ width := by omega
    have hh : 5 ≤ height := by omega
    obtain ⟨u1, u2, hc1, hc2, hsame0, hrc0, hcc0⟩ :=
      createWorld_agree s1 s2 mem1 mem2 seed width height hw hh
    have hP1 := generateRooms_spec seed u1 hrc0
    have hP2 := generateRooms_spec seed u2 (by rw [← hsame0.roomCount_eq]; exact hrc0)
    obtain ⟨hg, hgs⟩ := generateRoomsLoop_agree 3 6 25 (((25 : Int) * 5).toNat) u1 u2 seed
      hsame0 (by rw [hrc0])
    have hg' : SameState 0 (generateRooms seed u1 3 6 25).1 (generateRooms seed u2 3 6 25).1 :=
      hg
    have hgs' : (generateRooms seed u1 3 6 25).2 = (generateRooms seed u2 3 6 25).2 := hgs
    rw [generateWorldFromSeed_eq _ _ _ _ _ _ _ hc1, generateWorldFromSeed_eq _ _ _ _ _ _ _ hc2,
      ensureAtLeastOneRoom_of_pos _ hP1.count_pos, ensureAtLeastOneRoom_of_pos _ hP2.count_pos,
      ← hgs']
    have hcc : (generateRooms seed u1 3 6 25).1.corridorCount = 0 := by
      rw [hP1.corridorCount_eq]; exact hcc0
    have hrel := connectRoomsWithMST_agree _ _ (by rw [hcc]; exact hg')
    obtain ⟨W, T, hgen, _⟩ := generateWorldFromSeed_spec s1 mem1 seed width height hw hh
    rw [generateWorldFromSeed_eq _ _ _ _ _ _ _ hc1,
      ensureAtLeastOneRoom_of_pos _ hP1.count_pos] at hgen
    revert hrel hgen
    generalize connectRoomsWithMST (generateRooms seed u1 3 6 25).1 = a
    generalize connectRoomsWithMST (generateRooms seed u2 3 6 25).1 = b
    intro hrel hgen
    cases hrel with
    | none => simp at hgen
    | some hab =>
      rename_i p q
      obtain ⟨v1, r1⟩ := p
      obtain ⟨v2, r2⟩ := q
      obtain ⟨_, hs⟩ := hab
      simp only at hs
      exact ⟨{ v1 with initialized := true }, { v2 with initialized := true }, _, rfl, rfl,
        hs.width_eq, hs.height_eq, hs.seed_eq, hs.roomCount_eq, hs.corridorCount_eq,
        hs.tiles_eq, hs.rooms_eq, hs.corridors_eq⟩

theorem getD_of_head? (l : List Int) (a dflt : Int) (h : l.head? = some a) :
    l.getD 0 dflt = a := by
  cases l with
  | nil => simp at h
  | cons x t =>
    simp only [List.head?_cons, Option.some.injEq] at h
    simp [h]

theorem getD_of_getLast? (l : List Int) (b dflt : Int) (h : l.getLast? = some b) :
    l.getD (l.length - 1) dflt = b := by
  rw [List.getLast?_eq_getElem?] at h
  rw [List.getD_eq_getElem?_getD, h]
  rfl

theorem writtenPath_apply (path : Int → Int) (walk : List Int) (k : Nat)
    (hk : k < walk.length) : writtenPath path walk (k : Int) = walk.getD k 0 := by
  unfold writtenPath
  have : (0 : Int) ≤ (k : Int) ∧ (k : Int) < (walk.length : Int) := by omega
  rw [if_pos this]
  simp

/-- C7: for two distinct existing rooms of a world whose adjacency lists hold slot
indices only, and a buffer of at least `MAX_ROOMS` entries, `findShortestPath` returns;
when the result `L` is at least 1 the buffer starts with `start`, has `end` at
`L - 1`, and no walk from `start` to `end` visits fewer than `L` rooms. -/
theorem findShortestPath_shortest (world : World) (s e : Int) (path : Int → Int)
    (maxLen : Int) (hok : AdjOK world) (hs : InRange s) (he : InRange e)
    (hexs : (world.rooms s).exists_ = true) (hexe : (world.rooms e).exists_ = true)
    (hse : s ≠ e) (hmax : MAX_ROOMS ≤ maxLen) :
    ∃ L path2, findShortestPath world s e path maxLen = some (L, path2) ∧
      (1 ≤ L → path2 0 = s ∧ path2 (L - 1) = e ∧
        ∀ p, IsWalk world p s e → L ≤ (p.length : Int)) := by
  have hmax0 : 0 < maxLen := by simp only [MAX_ROOMS] at hmax; omega
  rcases findShortestPath_spec world s e path maxLen hok hmax0 hs he hexs hexe hse with
    ⟨hf, _⟩ | ⟨walk, dist, hf, hp⟩
  · exact ⟨-1, path, hf, fun h => absurd h (by decide)⟩
  · refine ⟨_, _, hf, fun _ => ?_⟩
    have hlen := hp.length_eq
    have hd := hp.dist_lt
    have hfit : dist + 1 ≤ maxLen.toNat := by simp only [MAX_ROOMS] at hmax; omega
    have hlen2 : walk.length = dist + 1 := by omega
    refine ⟨?_, ?_, ?_⟩
    · have := writtenPath_apply path walk 0 (by omega)
      simp only [Nat.cast_zero] at this
      rw [this]
      exact getD_of_head? walk s 0 (hp.head_eq hfit)
    · have := writtenPath_apply path walk (walk.length - 1) (by omega)
      have hcast : ((walk.length - 1 : Nat) : Int) = (walk.length : Int) - 1 := by omega
      rw [hcast] at this
      rw [this]
      exact getD_of_getLast? walk e 0 hp.last_eq
    · intro p hpw
      have := hp.shortest p hpw
      omega

theorem findShortestPath_shortest_witness :
    AdjOK chainWorld ∧ InRange 0 ∧ InRange 2 ∧ (chainWorld.rooms 0).exists_ = true ∧
    (chainWorld.rooms 2).exists_ = true ∧ (0 : Int) ≠ 2 ∧ MAX_ROOMS ≤ 50 ∧
    ∃ L path2, findShortestPath chainWorld 0 2 (fun _ => 0) 50 = some (L, path2) ∧
      (1 ≤ L → path2 0 = 0 ∧ path2 (L - 1) = 2 ∧
        ∀ p, IsWalk chainWorld p 0 2 → L ≤ (p.length : Int)) :=
  ⟨chainWorld_adjOK, by decide, by decide, by decide, by decide, by decide, by decide,
    findShortestPath_shortest chainWorld 0 2 (fun _ => 0) 50 chainWorld_adjOK (by decide)
      (by decide) (by decide) (by decide) (by decide) (by decide)⟩

/-- C8: under the same conditions `findShortestPath` returns, and the result is -1
exactly when `end` cannot be reached from `start` in the room graph. -/
theorem findShortestPath_fails_iff_unreachable (world : World) (s e : Int)
    (path : Int → Int) (maxLen : Int) (hok : AdjOK world) (hs : InRange s) (he : InRange e)
    (hexs : (world.rooms s).exists_ = true) (hexe : (world.rooms e).exists_ = true)
    (hse : s ≠ e) (hmax : MAX_ROOMS ≤ maxLen) :
    ∃ L path2, findShortestPath world s e path maxLen = some (L, path2) ∧
      (L = -1 ↔ ¬ Reach world s e) := by
  have hmax0 : 0 < maxLen := by simp only [MAX_ROOMS] at hmax; omega
  rcases findShortestPath_spec world s e path maxLen hok hmax0 hs he hexs hexe hse with
    ⟨hf, hnr⟩ | ⟨walk, dist, hf, hp⟩
  · exact ⟨-1, path, hf, fun _ => hnr, fun _ => rfl⟩
  · refine ⟨_, _, hf, ?_, fun hnr => absurd hp.reach hnr⟩
    intro hneg
    omega

theorem findShortestPath_fails_iff_unreachable_witness :
    AdjOK chainWorld ∧ InRange 0 ∧ InRange 2 ∧ (chainWorld.rooms 0).exists_ = true ∧
    (chainWorld.rooms 2).exists_ = true ∧ (0 : Int) ≠ 2 ∧ MAX_ROOMS ≤ 50 ∧
    ∃ L path2, findShortestPath chainWorld 0 2 (fun _ => 0) 50 = some (L, path2) ∧
      (L = -1 ↔ ¬ Reach chainWorld 0 2) :=
  ⟨chainWorld_adjOK, by decide, by decide, by decide, by decide, by decide, by decide,
    findShortestPath_fails_iff_unreachable chainWorld 0 2 (fun _ => 0) 50 chainWorld_adjOK
      (by decide) (by decide) (by decide) (by decide) (by decide) (by decide)⟩

theorem reach_of_walkN (world : World) (n : Nat) (a b : Int) (h : WalkN world n a b) :
    Reach world a b := by
  induction n generalizing a with
  | zero =>
    have : a = b := h
    rw [this]; exact Relation.ReflTransGen.refl
  | succ n ih =>
    obtain ⟨c, hac, hcb⟩ := h
    exact Relation.ReflTransGen.head hac (ih c hcb)

theorem chainWorld_walk_long : ∀ p, IsWalk chainWorld p 0 2 → 2 < p.length := by
  intro p hp
  obtain ⟨h1, h2, h3⟩ := hp
  match p, h1, h2, h3 with
  | [], h1, _, _ => simp at h1
  | [a], h1, h2, _ =>
    simp only [List.head?_cons, Option.some.injEq] at h1
    simp only [List.getLast?_singleton, Option.some.injEq] at h2
    omega
  | [a, b], h1, h2, h3 =>
    simp only [List.head?_cons, Option.some.injEq] at h1
    simp only [List.getLast?_cons_cons, List.getLast?_singleton, Option.some.injEq] at h2
    subst h1 h2
    rw [List.chain'_cons] at h3
    exact absurd h3.1 (by decide)
  | _ :: _ :: _ :: _, _, _, _ => simp

theorem chainWorld_walk : IsWalk chainWorld [0, 1, 2] 0 2 :=
  ⟨rfl, rfl, List.chain'_cons.mpr ⟨by decide,
    List.chain'_cons.mpr ⟨by decide, List.chain'_singleton _⟩⟩⟩

/-- C9: the code at the failing input.  Rooms 0 and 2 of `chainWorld` are distinct and
exist, every walk from 0 to 2 visits more than 2 rooms, and `findShortestPath` with
`maxPathLength = 2` returns 2, not -1, and leaves the rooms 1, 2 in the buffer: the end
of the path, which does not start at room 0. -/
theorem findShortestPath_long_path_counterexample :
    (chainWorld.rooms 0).exists_ = true ∧ (chainWorld.rooms 2).exists_ = true ∧
    (∀ p, IsWalk chainWorld p 0 2 → 2 < p.length) ∧
    (findShortestPath chainWorld 0 2 (fun _ => 0) 2).map Prod.fst = some 2 ∧
    (findShortestPath chainWorld 0 2 (fun _ => 0) 2).map (fun r => (r.2 0, r.2 1))
      = some (1, 2) :=
  ⟨by decide, by decide, chainWorld_walk_long, by decide, by decide⟩

/-- What the back-tracking loop does when the buffer is too short: when `end` is
reachable from `start` and every walk between them visits more than `maxPathLength`
rooms, `findShortestPath` returns `maxPathLength` and the buffer receives the last
`maxPathLength` rooms of a shortest walk. -/
theorem findShortestPath_long_path_truncated (world : World) (s e : Int)
    (path : Int → Int) (maxLen : Int) (hok : AdjOK world) (hs : InRange s) (he : InRange e)
    (hexs : (world.rooms s).exists_ = true) (hexe : (world.rooms e).exists_ = true)
    (hse : s ≠ e) (hmax : 1 ≤ maxLen) (hreach : ∃ p, IsWalk world p s e)
    (hlong : ∀ p, IsWalk world p s e → maxLen < (p.length : Int)) :
    ∃ p, IsWalk world p s e ∧ (∀ q, IsWalk world q s e → p.length ≤ q.length) ∧
      ((p.drop (p.length - maxLen.toNat)).length : Int) = maxLen ∧
      findShortestPath world s e path maxLen =
        some (maxLen, writtenPath path (p.drop (p.length - maxLen.toNat))) := by
  rcases findShortestPath_spec world s e path maxLen hok (by omega) hs he hexs hexe hse with
    ⟨_, hnr⟩ | ⟨walk, dist, hf, hp⟩
  · obtain ⟨p, hpw⟩ := hreach
    exact absurd (reach_of_walkN world _ s e (walkN_of_isWalk world p s e hpw)) hnr
  · obtain ⟨p, hpw, hplen, hwalk⟩ := hp.suffix_of
    have hl := hlong p hpw
    have hlen := hp.length_eq
    have hwl : (walk.length : Int) = maxLen := by omega
    refine ⟨p, hpw, ?_, ?_, ?_⟩
    · intro q hq
      have := hp.shortest q hq
      omega
    · rw [← hwalk]; exact hwl
    · rw [← hwalk, hf, hwl]

theorem findShortestPath_long_path_truncated_witness :
    AdjOK chainWorld ∧ InRange 0 ∧ InRange 2 ∧ (chainWorld.rooms 0).exists_ = true ∧
    (chainWorld.rooms 2).exists_ = true ∧ (0 : Int) ≠ 2 ∧ (1 : Int) ≤ 2 ∧
    (∃ p, IsWalk chainWorld p 0 2) ∧
    (∀ p, IsWalk chainWorld p 0 2 → (2 : Int) < (p.length : Int)) ∧
    ∃ p, IsWalk chainWorld p 0 2 ∧ (∀ q, IsWalk chainWorld q 0 2 → p.length ≤ q.length) ∧
      ((p.drop (p.length - (2 : Int).toNat)).length : Int) = 2 ∧
      findShortestPath chainWorld 0 2 (fun _ => 0) 2 =
        some (2, writtenPath (fun _ => 0) (p.drop (p.length - (2 : Int).toNat))) :=
  ⟨chainWorld_adjOK, by decide, by decide, by decide, by decide, by decide, by decide,
    ⟨_, chainWorld_walk⟩, fun p hp => by have := chainWorld_walk_long p hp; omega,
    findShortestPath_long_path_truncated chainWorld 0 2 (fun _ => 0) 2 chainWorld_adjOK
      (by decide) (by decide) (by decide) (by decide) (by decide) (by decide)
      ⟨_, chainWorld_walk⟩ (fun p hp => by have := chainWorld_walk_long p hp; omega)⟩

/-- C10: whenever `findShortestPath` returns a length `L` of at least 2 on a world whose
adjacency lists hold slot indices only, each room in the buffer is followed by a room
from its own adjacency list. -/
theorem findShortestPath_consecutive_adjacent (world : World) (s e : Int)
    (path : Int → Int) (maxLen L : Int) (path2 : Int → Int) (hok : AdjOK world)
    (hf : findShortestPath world s e path maxLen = some (L, path2)) (hL : 2 ≤ L) :
    ∀ k, 0 ≤ k → k < L - 1 → path2 (k + 1) ∈ world.connections (path2 k) := by
  have hcheck : 0 < maxLen ∧ InRange s ∧ InRange e ∧ (world.rooms s).exists_ = true ∧
      (world.rooms e).exists_ = true ∧ s ≠ e := by
    by_contra hcon
    unfold findShortestPath at hf
    split_ifs at hf with c1 c2 c3 c4 c5 <;>
      first
      | (simp only [Option.some.injEq, Prod.mk.injEq] at hf; omega)
      | skip
    apply hcon
    simp only [Bool.not_eq_true', not_or, Bool.not_eq_false] at c4
    unfold InRange
    exact ⟨by omega, by omega, by omega, c4.1, c4.2, c5⟩
  obtain ⟨hmax, hs, he, hexs, hexe, hse⟩ := hcheck
  rcases findShortestPath_spec world s e path maxLen hok hmax hs he hexs hexe hse with
    ⟨hf2, _⟩ | ⟨walk, dist, hf2, hp⟩
  · rw [hf2] at hf
    simp only [Option.some.injEq, Prod.mk.injEq] at hf
    omega
  · rw [hf2] at hf
    simp only [Option.some.injEq, Prod.mk.injEq] at hf
    obtain ⟨hL2, hpath⟩ := hf
    intro k hk0 hk1
    have hk2 : k.toNat + 1 < walk.length := by omega
    have e1 := writtenPath_apply path walk k.toNat (by omega)
    have e2 := writtenPath_apply path walk (k.toNat + 1) hk2
    have c1 : ((k.toNat : Nat) : Int) = k := by omega
    have c2 : ((k.toNat + 1 : Nat) : Int) = k + 1 := by omega
    rw [c1] at e1
    rw [c2] at e2
    rw [← hpath, e1, e2, List.getD_eq_getElem _ _ hk2,
      List.getD_eq_getElem _ _ (by omega : k.toNat < walk.length)]
    have hchain := List.chain'_iff_get.mp hp.chain k.toNat (by omega)
    exact hchain

theorem findShortestPath_consecutive_adjacent_witness :
    AdjOK chainWorld ∧
    findShortestPath chainWorld 0 2 (fun _ => 0) 50
      = some (3, writtenPath (fun _ => 0) [0, 1, 2]) ∧ (2 : Int) ≤ 3 ∧
    ∀ k, 0 ≤ k → k < (3 : Int) - 1 →
      writtenPath (fun _ => 0) [0, 1, 2] (k + 1) ∈
        chainWorld.connections (writtenPath (fun _ => 0) [0, 1, 2] k) :=
  have h : findShortestPath chainWorld 0 2 (fun _ => 0) 50
      = some (3, writtenPath (fun _ => 0) [0, 1, 2]) := by
    rw [findShortestPath_search chainWorld 0 2 (fun _ => 0) 50 (by decide) (by decide)
      (by decide) (by decide) (by decide) (by decide)]
    rfl
  ⟨chainWorld_adjOK, h, by decide,
    findShortestPath_consecutive_adjacent chainWorld 0 2 (fun _ => 0) 50 3 _
      chainWorld_adjOK h (by decide)⟩

/-- C5 fails on the code: for seed 0 on a 5x5 grid the generator places room 0 at
`(1, 1)` with width 4 and height 5, so `x + width = 5` exceeds `world.width - 1 = 4`
and `y + height = 6` exceeds even `world.height = 5`. -/
theorem generated_room_breaks_margin :
    ∃ world s, generateWorldFromSeed 0 staleMemory 0 5 5 = some (some world, s) ∧
      world.width = 5 ∧ world.height = 5 ∧ 0 < world.roomCount ∧
      world.rooms 0 = { id := 0, x := 1, y := 1, width := 4, height := 5, exists_ := true } ∧
      ¬ ((world.rooms 0).x + (world.rooms 0).width ≤ world.width - 1) ∧
      ¬ ((world.rooms 0).y + (world.rooms 0).height ≤ world.height) := by
  obtain ⟨world, s, hgen, hpost⟩ :=
    generateWorldFromSeed_spec 0 staleMemory 0 5 5 (by decide) (by decide)
  have hroom := hpost.first_room
    { staleMemory with width := 5, height := 5, roomCount := 0 } (by decide) (by decide) rfl
  have hval : (candidateRoom 3 6
      ({ staleMemory with width := 5, height := 5, roomCount := 0 }, 0)).1
      = { id := 0, x := 1, y := 1, width := 4, height := 5, exists_ := true } := by
    decide
  rw [hval] at hroom
  have hwidth : world.width = 5 := by
    rw [hpost.width_eq]; decide
  have hheight : world.height = 5 := by
    rw [hpost.height_eq]; decide
  refine ⟨world, s, hgen, hwidth, hheight, by have := hpost.count_pos; omega, hroom, ?_, ?_⟩
  · rw [hroom, hwidth]; decide
  · rw [hroom, hheight]; decide

/-- C11: for every world, every existing room `r` with `0 ≤ r < MAX_ROOMS` and every
`maxPathLength ≥ 1`, `findShortestPath(world, r, r, path, maxPathLength)` returns 1 and
stores `r` in `path[0]`, leaving the rest of the buffer alone; nothing is assumed about
the adjacency lists. -/
theorem findShortestPath_reflexive (world : World) (r : Int) (path : Int → Int)
    (maxLen : Int) (hr0 : 0 ≤ r) (hr1 : r < MAX_ROOMS)
    (hex : (world.rooms r).exists_ = true) (hmax : 1 ≤ maxLen) :
    ∃ path2, findShortestPath world r r path maxLen = some (1, path2) ∧ path2 0 = r ∧
      ∀ j, j ≠ 0 → path2 j = path j := by
  refine ⟨Function.update path 0 r,
    findShortestPath_same world r path maxLen (by omega) ⟨hr0, hr1⟩ hex, ?_, ?_⟩
  · rw [Function.update_same]
  · intro j hj
    rw [Function.update_noteq hj]

theorem findShortestPath_reflexive_witness :
    (0 : Int) ≤ 0 ∧ (0 : Int) < MAX_ROOMS ∧ (chainWorld.rooms 0).exists_ = true ∧
    (1 : Int) ≤ 10 ∧
    ∃ path2, findShortestPath chainWorld 0 0 (fun _ => 7) 10 = some (1, path2) ∧ path2 0 = 0 ∧
      ∀ j, j ≠ 0 → path2 j = (fun _ => 7) j :=
  ⟨by decide, by decide, by decide, by decide,
    findShortestPath_reflexive chainWorld 0 (fun _ => 7) 10 (by decide) (by decide) (by decide)
      (by decide)⟩

/-- C12: in every world returned by `generateWorldFromSeed`, a query in which `start` or
`end` is negative or at least `roomCount` makes `findShortestPath` return -1 with the
path buffer unchanged, whatever `maxPathLength` is. -/
theorem generated_world_rejects_bad_ids (currentSeed : Int) (mem : World)
    (seed width height : Int) (hw : 5 ≤ width) (hh : 5 ≤ height) :
    ∃ world s, generateWorldFromSeed currentSeed mem seed width height = some (some world, s) ∧
      ∀ start end_ path maxLen,
        (start < 0 ∨ world.roomCount ≤ start ∨ end_ < 0 ∨ world.roomCount ≤ end_) →
        findShortestPath world start end_ path maxLen = some (-1, path) := by
  obtain ⟨world, s, hgen, _, habs⟩ :=
    generateWorldFromSeed_absent currentSeed mem seed width height hw hh
  refine ⟨world, s, hgen, ?_⟩
  intro start end_ path maxLen hbad
  apply findShortestPath_invalid
  by_cases hs : InRange start
  · by_cases he : InRange end_
    · right; right
      unfold InRange at hs he
      rcases hbad with h | h | h | h
      · omega
      · exact Or.inl (habs start hs h)
      · omega
      · exact Or.inr (habs end_ he h)
    · exact Or.inr (Or.inl he)
  · exact Or.inl hs

theorem generated_world_rejects_bad_ids_witness :
    (5 : Int) ≤ 40 ∧ (5 : Int) ≤ 30 ∧
    ∃ world s, generateWorldFromSeed 0 staleMemory 42 40 30 = some (some world, s) ∧
      ∀ start end_ path maxLen,
        (start < 0 ∨ world.roomCount ≤ start ∨ end_ < 0 ∨ world.roomCount ≤ end_) →
        findShortestPath world start end_ path maxLen = some (-1, path) :=
  ⟨by decide, by decide,
    generated_world_rejects_bad_ids 0 staleMemory 42 40 30 (by decide) (by decide)⟩

/-- C13: on every world with between 2 and `MAX_ROOMS` rooms, all existing,
`connectRoomsWithMST` returns 0 and the room pairs it joins (the list `chosen`, which is
exactly what the adjacency lists record) form a minimum-weight spanning tree of the
complete graph on the rooms weighted by `roomDistance`, the value the code computes in
`int` arithmetic: they are `roomCount - 1` edges without a cycle that join every two
rooms, and the sum of `roomDistance` over the pairs joined in the adjacency lists is at
most the sum over the edges of any other spanning tree `T`, that is any list of
`roomCount - 1` room pairs that joins every two rooms. -/
theorem connectRoomsWithMST_minimum (world : World) (h2 : 2 ≤ world.roomCount)
    (h50 : world.roomCount ≤ MAX_ROOMS)
    (hex : ∀ i, 0 ≤ i → i < world.roomCount → (world.rooms i).exists_ = true) :
    ∃ w2 chosen, connectRoomsWithMST world = some (w2, 0) ∧
      (∀ i, 0 ≤ i → i < MAX_ROOMS → w2.connections i = neighbours chosen i) ∧
      (∀ e ∈ chosen, 0 ≤ e.room1 ∧ e.room1 < e.room2 ∧ e.room2 < world.roomCount ∧
        e.distance = roomDistance (world.rooms e.room1) (world.rooms e.room2)) ∧
      (chosen.length : Int) = world.roomCount - 1 ∧ Forest chosen ∧
      (∀ i j, 0 ≤ i → i < world.roomCount → 0 ≤ j → j < world.roomCount →
        Linked chosen i j) ∧
      joinedDistance w2 = totalDistance chosen ∧
      ∀ T : List (Int × Int),
        (∀ p ∈ T, 0 ≤ p.1 ∧ p.1 < world.roomCount ∧ 0 ≤ p.2 ∧ p.2 < world.roomCount) →
        (∀ i j, 0 ≤ i → i < world.roomCount → 0 ≤ j → j < world.roomCount →
          Relation.EqvGen (fun a b => (a, b) ∈ T) i j) →
        (T.length : Int) = world.roomCount - 1 →
        joinedDistance w2 ≤
          (T.map (fun p => roomDistance (world.rooms p.1) (world.rooms p.2))).sum := by
  obtain ⟨w1, ci, F1, _, hconn, hinv, htr, hg, hci⟩ :=
    connectRoomsWithMST_trace world h2 h50 hex
  have hrooms : w1.rooms = world.rooms := hinv.rooms_eq
  have hcount : w1.roomCount = world.roomCount := hinv.roomCount_eq
  have hjoined : joinedDistance { w1 with corridorCount := ci } = totalDistance F1 := by
    apply joinedDistance_of_trace _ F1
    · show w1.roomCount ≤ 50
      rw [hcount]; exact h50
    · exact htr.conn
    · show ∀ e ∈ F1, 0 ≤ e.room1 ∧ e.room1 < e.room2 ∧ e.room2 < w1.roomCount ∧
        e.distance = roomDistance (w1.rooms e.room1) (w1.rooms e.room2)
      rw [hrooms, hcount]
      exact htr.valid
  have hedge : ∀ i j, 0 ≤ i → i < j → j < world.roomCount →
      ({ room1 := i, room2 := j, distance := roomDistance (world.rooms i) (world.rooms j) }
        : Edge) ∈ bubbleSort (buildEdges (mstStart world)) := by
    intro i j hi hij hj
    rw [mem_mstEdges]
    exact ⟨i, j, hi, hij, hj, hex i hi (by omega), hex j (by omega) hj, rfl⟩
  have hlen : (F1.length : Int) = world.roomCount - 1 := by
    rw [← htr.index_eq]
    exact hci
  refine ⟨{ w1 with corridorCount := ci }, F1, hconn, fun i h0 h1 => htr.conn i ⟨h0, h1⟩,
    htr.valid, hlen, hg.forest trivial, ?_, hjoined, ?_⟩
  · intro i j hi hi2 hj hj2
    rcases lt_trichotomy i j with hlt | heq | hgt
    · exact hg.spans.2 _ (hedge i j hi hlt hj2)
    · rw [heq]; exact Linked.refl F1 j
    · exact (hg.spans.2 _ (hedge j i hj hgt hi2)).symm
  · intro T hT hspan hTlen
    have hmin := hg.minimal 2147483648 (bubbleSort_sorted _)
      (T.map (pairEdge world.rooms))
      (by
        intro t ht
        rw [List.mem_map] at ht
        obtain ⟨p, _, rfl⟩ := ht
        have hge := roomDistance_ge (world.rooms p.1) (world.rooms p.2)
        have hmin : INT_MIN = -2147483648 := rfl
        show 0 ≤ roomDistance (world.rooms p.1) (world.rooms p.2) + 2147483648
        omega)
      (by
        intro t ht
        rw [List.mem_map] at ht
        obtain ⟨p, hp, rfl⟩ := ht
        obtain ⟨a0, a1, b0, b1⟩ := hT p hp
        rcases lt_trichotomy p.1 p.2 with hlt | heq | hgt
        · right
          exact ⟨_, hedge p.1 p.2 a0 hlt b1, le_refl _, Or.inl ⟨rfl, rfl⟩⟩
        · left
          show Linked [] p.1 p.2
          rw [heq]
          exact Linked.refl [] p.2
        · right
          refine ⟨_, hedge p.2 p.1 b0 hgt a1, ?_, Or.inr ⟨rfl, rfl⟩⟩
          show roomDistance (world.rooms p.2) (world.rooms p.1)
            ≤ roomDistance (world.rooms p.1) (world.rooms p.2)
          rw [roomDistance_comm])
      (by
        intro e he
        rw [mem_mstEdges] at he
        obtain ⟨i, j, hi, hij, hj, _, _, rfl⟩ := he
        rw [List.append_nil]
        refine Relation.EqvGen.mono ?_ (hspan i j hi (by omega) (by omega) hj)
        intro a b hab
        exact ⟨_, List.mem_map_of_mem _ hab, rfl, rfl⟩)
    have hzero : shiftedDistance 2147483648 [] = 0 := rfl
    have hsum : totalDistance (T.map (pairEdge world.rooms))
        = (T.map (fun p => roomDistance (world.rooms p.1) (world.rooms p.2))).sum := by
      unfold totalDistance
      rw [List.map_map]
      rfl
    unfold shiftedDistance at hmin hzero
    rw [hsum, List.length_map, hlen, hTlen] at hmin
    rw [hjoined]
    omega

theorem connectRoomsWithMST_minimum_witness :
    2 ≤ threeRooms.roomCount ∧ threeRooms.roomCount ≤ MAX_ROOMS ∧
    ∃ w2 chosen, connectRoomsWithMST threeRooms = some (w2, 0) ∧
      (∀ i, 0 ≤ i → i < MAX_ROOMS → w2.connections i = neighbours chosen i) ∧
      (∀ e ∈ chosen, 0 ≤ e.room1 ∧ e.room1 < e.room2 ∧ e.room2 < threeRooms.roomCount ∧
        e.distance = roomDistance (threeRooms.rooms e.room1) (threeRooms.rooms e.room2)) ∧
      (chosen.length : Int) = threeRooms.roomCount - 1 ∧ Forest chosen ∧
      (∀ i j, 0 ≤ i → i < threeRooms.roomCount → 0 ≤ j → j < threeRooms.roomCount →
        Linked chosen i j) ∧
      joinedDistance w2 = totalDistance chosen ∧
      ∀ T : List (Int × Int),
        (∀ p ∈ T, 0 ≤ p.1 ∧ p.1 < threeRooms.roomCount ∧ 0 ≤ p.2 ∧
          p.2 < threeRooms.roomCount) →
        (∀ i j, 0 ≤ i → i < threeRooms.roomCount → 0 ≤ j → j < threeRooms.roomCount →
          Relation.EqvGen (fun a b => (a, b) ∈ T) i j) →
        (T.length : Int) = threeRooms.roomCount - 1 →
        joinedDistance w2 ≤
          (T.map (fun p => roomDistance (threeRooms.rooms p.1) (threeRooms.rooms p.2))).sum :=
  ⟨by decide, by decide,
    connectRoomsWithMST_minimum threeRooms (by decide) (by decide) threeRooms_exist⟩

/-- C14: `connectRoomsWithMST` is idempotent.  On every world with between 2 and
`MAX_ROOMS` rooms, all existing, a second run returns 0 again and leaves
`corridorCount`, the corridors below `corridorCount`, every cell of the tile grid, the
`MAX_ROOMS` slots and the counter of the disjoint set and every adjacency list as the
first run left them (the rooms and the dimensions are never written); and no adjacency
list contains a room twice. -/
theorem connectRoomsWithMST_idempotent (world : World) (h2 : 2 ≤ world.roomCount)
    (h50 : world.roomCount ≤ MAX_ROOMS)
    (hex : ∀ i, 0 ≤ i → i < world.roomCount → (world.rooms i).exists_ = true) :
    ∃ w2 w3, connectRoomsWithMST world = some (w2, 0) ∧
      connectRoomsWithMST w2 = some (w3, 0) ∧
      w3.corridorCount = w2.corridorCount ∧
      (∀ k, 0 ≤ k → k < w2.corridorCount → w3.corridors k = w2.corridors k) ∧
      (∀ x y, 0 ≤ x → x < w2.width → 0 ≤ y → y < w2.height → w3.tiles y x = w2.tiles y x) ∧
      (∀ i, 0 ≤ i → i < MAX_ROOMS →
        w3.disjointSet.parent i = w2.disjointSet.parent i ∧
        w3.disjointSet.rank i = w2.disjointSet.rank i) ∧
      w3.disjointSet.count = w2.disjointSet.count ∧
      (∀ i, 0 ≤ i → i < MAX_ROOMS →
        w3.connections i = w2.connections i ∧ (w2.connections i).Nodup) ∧
      w3.rooms = w2.rooms ∧ w3.roomCount = w2.roomCount ∧
      w3.width = w2.width ∧ w3.height = w2.height := by
  obtain ⟨w2, w3, F1, hc1, hc2, hsame, hforest, hconn⟩ :=
    connectRoomsWithMST_again world h2 h50 hex
  obtain ⟨hrooms, hcount⟩ := connectRoomsWithMST_rooms _ _ _ hc2
  refine ⟨w2, w3, hc1, hc2, hsame.corridorCount_eq.symm,
    fun k hk hk2 => (hsame.corridors_eq k hk hk2).symm,
    fun x y hx hx2 hy hy2 => (hsame.tiles_eq x y hx hx2 hy hy2).symm,
    fun i hi hi2 => ⟨(hsame.ds_eq.parent_eq i ⟨hi, hi2⟩).symm,
      (hsame.ds_eq.rank_eq i ⟨hi, hi2⟩).symm⟩,
    hsame.ds_eq.count_eq.symm, ?_, hrooms, hcount, hsame.width_eq.symm,
    hsame.height_eq.symm⟩
  intro i hi hi2
  refine ⟨(hsame.conn_eq i ⟨hi, hi2⟩).symm, ?_⟩
  rw [hconn i ⟨hi, hi2⟩]
  exact hforest.neighbours_nodup i

theorem connectRoomsWithMST_idempotent_witness :
    2 ≤ threeRooms.roomCount ∧ threeRooms.roomCount ≤ MAX_ROOMS ∧
    ∃ w2 w3, connectRoomsWithMST threeRooms = some (w2, 0) ∧
      connectRoomsWithMST w2 = some (w3, 0) ∧
      w3.corridorCount = w2.corridorCount ∧
      (∀ k, 0 ≤ k → k < w2.corridorCount → w3.corridors k = w2.corridors k) ∧
      (∀ x y, 0 ≤ x → x < w2.width → 0 ≤ y → y < w2.height → w3.tiles y x = w2.tiles y x) ∧
      (∀ i, 0 ≤ i → i < MAX_ROOMS →
        w3.disjointSet.parent i = w2.disjointSet.parent i ∧
        w3.disjointSet.rank i = w2.disjointSet.rank i) ∧
      w3.disjointSet.count = w2.disjointSet.count ∧
      (∀ i, 0 ≤ i → i < MAX_ROOMS →
        w3.connections i = w2.connections i ∧ (w2.connections i).Nodup) ∧
      w3.rooms = w2.rooms ∧ w3.roomCount = w2.roomCount ∧
      w3.width = w2.width ∧ w3.height = w2.height :=
  ⟨by decide, by decide,
    connectRoomsWithMST_idempotent threeRooms (by decide) (by decide) threeRooms_exist⟩

/-- C15: on every world with fewer than two rooms `connectRoomsWithMST` returns -1 and
hands the world back as it was: tiles, corridors, `corridorCount`, adjacency lists and
disjoint set are untouched. -/
theorem connectRoomsWithMST_too_few (world : World) (h : world.roomCount < 2) :
    connectRoomsWithMST world = some (world, -1) := by
  unfold connectRoomsWithMST
  rw [if_pos h]

theorem connectRoomsWithMST_too_few_witness :
    ({ chainWorld with roomCount := 1 } : World).roomCount < 2 ∧
    connectRoomsWithMST { chainWorld with roomCount := 1 }
      = some ({ chainWorld with roomCount := 1 }, -1) :=
  ⟨by decide, connectRoomsWithMST_too_few { chainWorld with roomCount := 1 } (by decide)⟩

/-- C16, as stated, fails: the request `createWorld(7, 200, 3)` is oversized (its width
is above 100) and returns `NULL`, and so does `generateWorldFromSeed(7, 200, 3)`. -/
theorem createWorld_oversized_counterexample :
    ((100 : Int) < 200 ∨ (100 : Int) < 3) ∧
    createWorld 0 staleMemory 7 200 3 = (none, 0) ∧
    generateWorldFromSeed 0 staleMemory 7 200 3 = some (none, 0) := by
  refine ⟨by decide, createWorld_null 0 staleMemory 7 200 3 (by decide), ?_⟩
  unfold generateWorldFromSeed
  rw [createWorld_null 0 staleMemory 7 200 3 (by decide)]

/-- C16 as amended: `createWorld`, and hence `generateWorldFromSeed`, returns `NULL`
exactly when `width < 5` or `height < 5`; in particular every oversized request whose
width and height are both at least 5 succeeds, with the dimensions clamped to 100. -/
theorem createWorld_null_iff (currentSeed : Int) (mem : World) (seed width height : Int) :
    ((createWorld currentSeed mem seed width height).1 = none ↔ width < 5 ∨ height < 5) ∧
    (∃ r, generateWorldFromSeed currentSeed mem seed width height = some r ∧
      (r.1 = none ↔ width < 5 ∨ height < 5)) ∧
    (5 ≤ width → 5 ≤ height → 100 < width ∨ 100 < height →
      ∃ world, createWorld currentSeed mem seed width height = (some world, seed) ∧
        world.width = min width 100 ∧ world.height = min height 100) := by
  refine ⟨?_, ?_, ?_⟩
  · constructor
    · intro hnone
      by_contra hsmall
      obtain ⟨world, hc, _⟩ :=
        createWorld_spec currentSeed mem seed width height (by omega) (by omega)
      rw [hc] at hnone
      exact absurd hnone (by simp)
    · intro hsmall
      rw [createWorld_null currentSeed mem seed width height hsmall]
  · by_cases hsmall : width < 5 ∨ height < 5
    · refine ⟨(none, currentSeed), ?_, fun _ => hsmall, fun _ => rfl⟩
      unfold generateWorldFromSeed
      rw [createWorld_null currentSeed mem seed width height hsmall]
    · obtain ⟨world, s, hgen, _⟩ :=
        generateWorldFromSeed_spec currentSeed mem seed width height (by omega) (by omega)
      refine ⟨(some world, s), hgen, fun h => absurd h (by simp), fun h => absurd h hsmall⟩
  · intro hw hh _
    obtain ⟨world, hc, hpost⟩ := createWorld_spec currentSeed mem seed width height hw hh
    exact ⟨world, hc, hpost.width_eq, hpost.height_eq⟩

theorem createWorld_null_iff_witness :
    (5 : Int) ≤ 200 ∧ (5 : Int) ≤ 30 ∧ ((100 : Int) < 200 ∨ (100 : Int) < 30) ∧
    ∃ world, createWorld 0 staleMemory 7 200 30 = (some world, 7) ∧
      world.width = min 200 100 ∧ world.height = min 30 100 :=
  ⟨by decide, by decide, by decide,
    (createWorld_null_iff 0 staleMemory 7 200 30).2.2 (by decide) (by decide) (by decide)⟩

/-- C17: for every seed and all dimensions of at least 5 the world returned by
`createWorld` has `width = min(width, 100)`, `height = min(height, 100)`, the given
seed, `roomCount = 0`, `corridorCount = 0`, no existing room, empty adjacency lists, and
`TILE_WALL` in every cell of its grid (so `getTile` returns `TILE_WALL` everywhere). -/
theorem createWorld_fresh (currentSeed : Int) (mem : World) (seed width height : Int)
    (hw : 5 ≤ width) (hh : 5 ≤ height) :
    ∃ world, createWorld currentSeed mem seed width height = (some world, seed) ∧
      world.width = min width 100 ∧ world.height = min height 100 ∧ world.seed = seed ∧
      world.roomCount = 0 ∧ world.corridorCount = 0 ∧
      (∀ i, 0 ≤ i → i < MAX_ROOMS →
        (world.rooms i).exists_ = false ∧ world.connections i = []) ∧
      (∀ x y, 0 ≤ x → x < world.width → 0 ≤ y → y < world.height →
        world.tiles y x = TILE_WALL) ∧
      ∀ x y, getTile world x y = TILE_WALL := by
  obtain ⟨world, hc, hpost, hwall⟩ := createWorld_walls currentSeed mem seed width height hw hh
  refine ⟨world, hc, hpost.width_eq, hpost.height_eq, hpost.seed_eq, hpost.roomCount_eq,
    hpost.corridorCount_eq, fun i h0 h1 => ⟨hpost.no_room i ⟨h0, h1⟩, hpost.no_conn i ⟨h0, h1⟩⟩,
    hwall, ?_⟩
  intro x y
  by_cases hin : 0 ≤ x ∧ x < world.width ∧ 0 ≤ y ∧ y < world.height
  · rw [getTile_inside world x y hin]
    exact hwall x y hin.1 hin.2.1 hin.2.2.1 hin.2.2.2
  · exact getTile_outside world x y hin

theorem createWorld_fresh_witness :
    (5 : Int) ≤ 200 ∧ (5 : Int) ≤ 30 ∧
    ∃ world, createWorld 0 staleMemory 42 200 30 = (some world, 42) ∧
      world.width = min 200 100 ∧ world.height = min 30 100 ∧ world.seed = 42 ∧
      world.roomCount = 0 ∧ world.corridorCount = 0 ∧
      (∀ i, 0 ≤ i → i < MAX_ROOMS →
        (world.rooms i).exists_ = false ∧ world.connections i = []) ∧
      (∀ x y, 0 ≤ x → x < world.width → 0 ≤ y → y < world.height →
        world.tiles y x = TILE_WALL) ∧
      ∀ x y, getTile world x y = TILE_WALL :=
  ⟨by decide, by decide, createWorld_fresh 0 staleMemory 42 200 30 (by decide) (by decide)⟩

/-- C18: the tile accessors are bounds-checked.  Outside `[0,width) × [0,height)`
`getTile` returns `TILE_WALL` and `setTile` returns the world unchanged; inside,
`setTile` changes the cell `(x, y)` and no other cell or field, and `getTile(x, y)`
then returns the value set. -/
theorem tile_accessors_bounds_checked (world : World) (x y v : Int) :
    (¬ (0 ≤ x ∧ x < world.width ∧ 0 ≤ y ∧ y < world.height) →
      getTile world x y = TILE_WALL ∧ setTile world x y v = world) ∧
    (0 ≤ x ∧ x < world.width ∧ 0 ≤ y ∧ y < world.height →
      getTile (setTile world x y v) x y = v ∧
      (∀ x2 y2, ¬ (x2 = x ∧ y2 = y) →
        (setTile world x y v).tiles y2 x2 = world.tiles y2 x2 ∧
        getTile (setTile world x y v) x2 y2 = getTile world x2 y2) ∧
      ∃ t, setTile world x y v = { world with tiles := t }) := by
  constructor
  · intro hout
    exact ⟨getTile_outside world x y hout, setTile_outside world x y v hout⟩
  · intro hin
    rw [setTile_inside world x y v hin]
    refine ⟨?_, ?_, storeTile_frame world x y v⟩
    · rw [getTile_inside (storeTile world x y v) x y hin, storeTile_tiles, if_pos ⟨rfl, rfl⟩]
    · intro x2 y2 hne
      have htile : (storeTile world x y v).tiles y2 x2 = world.tiles y2 x2 := by
        rw [storeTile_tiles, if_neg (fun h => hne ⟨h.2, h.1⟩)]
      refine ⟨htile, ?_⟩
      by_cases hin2 : 0 ≤ x2 ∧ x2 < world.width ∧ 0 ≤ y2 ∧ y2 < world.height
      · rw [getTile_inside (storeTile world x y v) x2 y2 hin2, getTile_inside world x2 y2 hin2,
          htile]
      · rw [getTile_outside (storeTile world x y v) x2 y2 hin2, getTile_outside world x2 y2 hin2]

theorem tile_accessors_bounds_checked_witness :
    ¬ (0 ≤ (20 : Int) ∧ (20 : Int) < chainWorld.width ∧ 0 ≤ (3 : Int) ∧
        (3 : Int) < chainWorld.height) ∧
    getTile chainWorld 20 3 = TILE_WALL ∧ setTile chainWorld 20 3 TILE_FLOOR = chainWorld ∧
    (0 ≤ (4 : Int) ∧ (4 : Int) < chainWorld.width ∧ 0 ≤ (3 : Int) ∧
        (3 : Int) < chainWorld.height) ∧
    getTile (setTile chainWorld 4 3 TILE_FLOOR) 4 3 = TILE_FLOOR :=
  ⟨by decide, ((tile_accessors_bounds_checked chainWorld 20 3 TILE_FLOOR).1 (by decide)).1,
    ((tile_accessors_bounds_checked chainWorld 20 3 TILE_FLOOR).1 (by decide)).2, by decide,
    ((tile_accessors_bounds_checked chainWorld 4 3 TILE_FLOOR).2 (by decide)).1⟩

/-- C19: from every state of the generator, negative ones included, `getRandom(min, max)`
with `min < max` returns a value between `min` and `max` inclusive, and with
`min ≥ max` it returns `min` (without advancing the generator). -/
theorem getRandom_range (currentSeed min max : Int) :
    (min < max → min ≤ (getRandom currentSeed min max).1 ∧
      (getRandom currentSeed min max).1 ≤ max) ∧
    (min ≥ max → getRandom currentSeed min max = (min, currentSeed)) := by
  constructor
  · intro hlt
    have hnot : ¬ min ≥ max := by omega
    unfold getRandom
    simp only [hnot, if_false]
    obtain ⟨h0, _⟩ := lcgNext_range currentSeed
    have hpos : 0 < max - min + 1 := by omega
    have hmod : Int.tmod (lcgNext currentSeed) (max - min + 1)
        = lcgNext currentSeed % (max - min + 1) :=
      Int.tmod_eq_emod h0 (by omega)
    rw [hmod]
    have h1 := Int.emod_nonneg (lcgNext currentSeed) (by omega : max - min + 1 ≠ 0)
    have h2 := Int.emod_lt_of_pos (lcgNext currentSeed) hpos
    constructor <;> omega
  · intro hge
    unfold getRandom
    rw [if_pos hge]

theorem getRandom_range_witness :
    (3 : Int) < 6 ∧ 3 ≤ (getRandom (-5) 3 6).1 ∧ (getRandom (-5) 3 6).1 ≤ 6 ∧
    (6 : Int) ≥ 3 ∧ getRandom (-5) 6 3 = (6, -5) :=
  ⟨by decide, ((getRandom_range (-5) 3 6).1 (by decide)).1,
    ((getRandom_range (-5) 3 6).1 (by decide)).2, by decide,
    (getRandom_range (-5) 6 3).2 (by decide)⟩

/-- C20: for every integer `count` and every prior content `initDisjointSet(ds, count)`
leaves `parent[i] = i` and `rank[i] = 0` in all `MAX_ROOMS` slots, `findSet` then
returns `i` for every slot `i` without changing anything, and `ds.count` is `count`
clamped into `[0, MAX_ROOMS]`. -/
theorem initDisjointSet_resets (ds : DisjointSet) (count : Int) :
    (∀ i, 0 ≤ i → i < MAX_ROOMS →
      (initDisjointSet ds count).parent i = i ∧ (initDisjointSet ds count).rank i = 0 ∧
      findSet (initDisjointSet ds count) i = some (initDisjointSet ds count, i)) ∧
    (initDisjointSet ds count).count = max 0 (min count MAX_ROOMS) := by
  constructor
  · intro i h0 h1
    have hi : InRange i := ⟨h0, h1⟩
    have hp : (initDisjointSet ds count).parent i = i := by
      rw [initDisjointSet_parent, if_pos hi]
    have hr : (initDisjointSet ds count).rank i = 0 := by
      rw [initDisjointSet_rank, if_pos hi]
    refine ⟨hp, hr, ?_⟩
    have hnot : ¬ (i < 0 ∨ i ≥ MAX_ROOMS) := by omega
    have hstep : findSetFuel (50 + 1) (initDisjointSet ds count) i
        = some (initDisjointSet ds count, i) := by
      rw [findSetFuel]
      simp only [hnot, if_false, hp, ne_eq, not_true_eq_false]
    rw [findSet_eq]
    exact hstep
  · rw [initDisjointSet_count]
    simp only [MAX_ROOMS]
    split_ifs <;> omega

/-- C21: in every reachable disjoint-set state and for every `x`, `y` in
`[0, MAX_ROOMS)`, `unionSets(ds, x, y)` returns and afterwards `isConnected` (which
returns for all arguments) is the old relation with the classes of `x` and `y` merged: `isConnected(a, b)` returns true
afterwards exactly when it did before, or `a` was connected to one of `x`, `y` and `b`
to the other; in particular `isConnected(x, y)` returns true. -/
theorem unionSets_merges_classes (ds : DisjointSet) (h : DSReachable ds) (x y : Int)
    (hx : InRange x) (hy : InRange y) :
    ∃ ds2, unionSets ds x y = some ds2 ∧
      (∀ a b, ∃ ds3 v, isConnected ds2 a b = some (ds3, v)) ∧
      (∀ a b, Connected ds2 a b ↔
        (Connected ds a b ∨ (Connected ds a x ∧ Connected ds b y) ∨
          (Connected ds a y ∧ Connected ds b x))) ∧
      Connected ds2 x y := by
  have hinv := h.inv
  obtain ⟨ds2, hu, hinv2, hcase⟩ := unionSets_spec ds hinv x y hx hy
  have key : ∀ a b, InRange a → InRange b →
      (rootOf ds2 a = rootOf ds2 b ↔
        (rootOf ds a = rootOf ds b ∨ (rootOf ds a = rootOf ds x ∧ rootOf ds b = rootOf ds y) ∨
          (rootOf ds a = rootOf ds y ∧ rootOf ds b = rootOf ds x))) := by
    intro a b ha hb
    rcases hcase with ⟨heq, _, hroot⟩ | ⟨hne, _, p, q, hpq, hroot⟩
    · rw [hroot a ha, hroot b hb]
      constructor
      · exact fun h1 => Or.inl h1
      · rintro (h1 | ⟨h1, h2⟩ | ⟨h1, h2⟩)
        · exact h1
        · rw [h1, h2, heq]
        · rw [h1, h2, heq]
    · rw [hroot a ha, hroot b hb]
      rcases hpq with ⟨hp, hq⟩ | ⟨hp, hq⟩ <;> subst hp <;> subst hq <;>
        split_ifs with h1 h2 h2 <;> constructor <;> intro h3
      all_goals omega
  refine ⟨ds2, hu, ?_, ?_, ?_⟩
  · intro a b
    obtain ⟨ds3, h3, _⟩ := isConnected_total ds2 hinv2 a b
    exact ⟨ds3, _, h3⟩
  · intro a b
    rw [connected_iff ds2 hinv2, connected_iff ds hinv, connected_iff ds hinv,
      connected_iff ds hinv, connected_iff ds hinv, connected_iff ds hinv]
    by_cases ha : InRange a
    · by_cases hb : InRange b
      · simp only [ha, hb, hx, hy, true_and]
        exact key a b ha hb
      · simp [hb]
    · simp [ha]
  · rw [connected_iff ds2 hinv2]
    exact ⟨hx, hy, (key x y hx hy).mpr (Or.inr (Or.inl ⟨rfl, rfl⟩))⟩

theorem unionSets_merges_classes_witness :
    InRange 1 ∧ InRange 2 ∧
    ∃ ds2, unionSets twoTrees 1 2 = some ds2 ∧
      (∀ a b, ∃ ds3 v, isConnected ds2 a b = some (ds3, v)) ∧
      (∀ a b, Connected ds2 a b ↔
        (Connected twoTrees a b ∨ (Connected twoTrees a 1 ∧ Connected twoTrees b 2) ∨
          (Connected twoTrees a 2 ∧ Connected twoTrees b 1))) ∧
      Connected ds2 1 2 :=
  ⟨by decide, by decide,
    unionSets_merges_classes twoTrees twoTrees_reachable 1 2 (by decide) (by decide)⟩

/-- C22: for every world and every `start`, `end`, `drawCorridor` changes only cells
that held `TILE_WALL`, and every cell it changes becomes `TILE_CORRIDOR`: a cell that
held `TILE_ROOM`, or any other code than `TILE_WALL`, holds the same code afterwards.
Nothing but the tile grid is written. -/
theorem drawCorridor_only_carves_walls (world : World) (start end_ : Point) :
    (∀ x y, (drawCorridor world start end_).tiles y x = world.tiles y x ∨
      (world.tiles y x = TILE_WALL ∧
        (drawCorridor world start end_).tiles y x = TILE_CORRIDOR)) ∧
    (∀ x y, world.tiles y x ≠ TILE_WALL →
      (drawCorridor world start end_).tiles y x = world.tiles y x) ∧
    (∀ x y, world.tiles y x = TILE_ROOM →
      (drawCorridor world start end_).tiles y x = TILE_ROOM) ∧
    drawCorridor world start end_ = { world with tiles := (drawCorridor world start end_).tiles }
    := by
  obtain ⟨C, hC⟩ := drawCorridor_carve world.width world.height start end_
  have ht := drawCorridor_tiles_of_carve hC world rfl rfl
  have hw := hC world rfl rfl
  have key : ∀ x y, (drawCorridor world start end_).tiles y x = world.tiles y x ∨
      (world.tiles y x = TILE_WALL ∧
        (drawCorridor world start end_).tiles y x = TILE_CORRIDOR) := by
    intro x y
    rw [ht]
    unfold carve
    split_ifs with h
    · exact Or.inr ⟨h.2.2, rfl⟩
    · exact Or.inl rfl
  refine ⟨key, ?_, ?_, ?_⟩
  · intro x y hne
    rcases key x y with h | h
    · exact h
    · exact absurd h.1 hne
  · intro x y hroom
    rcases key x y with h | h
    · rw [h, hroom]
    · rw [hroom] at h
      exact absurd h.1 (by decide)
  · rw [ht]
    exact hw

/-- C25: for every seed (and every state of the generator and of the memory the world
is allocated in), `generateWorldFromSeed(seed, 5, 5)` returns a world with
`roomCount == 1` and `corridorCount == 0`. -/
theorem generateWorldFromSeed_five (currentSeed : Int) (mem : World) (seed : Int) :
    ∃ world s, generateWorldFromSeed currentSeed mem seed 5 5 = some (some world, s) ∧
      world.roomCount = 1 ∧ world.corridorCount = 0 := by
  obtain ⟨world, s, hgen, hpost, _, hshape⟩ :=
    generateWorldFromSeed_shape currentSeed mem seed 5 5 (by decide) (by decide)
  have hw : world.width = 5 := hpost.width_eq
  have hh : world.height = 5 := hpost.height_eq
  have hone : world.roomCount = 1 := by
    by_contra hne
    have h2 : 2 ≤ world.roomCount := by have := hpost.count_pos; omega
    obtain ⟨s0, _⟩ := hshape 0 (le_refl _) (by omega)
    obtain ⟨s1, _⟩ := hshape 1 (by decide) (by omega)
    have hno := hpost.rooms_inv.no_overlap 0 1 (le_refl _) (by omega) (by decide) (by omega)
      (by decide)
    have a1 := s0.x_ge; have a2 := s0.x_le; have a3 := s0.width_ge
    have a4 := s0.y_ge; have a5 := s0.y_le; have a6 := s0.height_ge
    have b1 := s1.x_ge; have b2 := s1.x_le; have b3 := s1.width_ge
    have b4 := s1.y_ge; have b5 := s1.y_le; have b6 := s1.height_ge
    rw [hw] at a2 b2
    rw [hh] at a5 b5
    unfold roomsOverlap at hno
    simp only [Bool.not_eq_false', Bool.or_eq_true, decide_eq_true_eq] at hno
    omega
  refine ⟨world, s, hgen, hone, ?_⟩
  rw [hpost.corridorCount_eq, hone]
  rfl

/-- C26: for every seed and every `width`, `height` of at least 5, the world returned by
`generateWorldFromSeed` has `1 <= roomCount <= 25`, and every existing room has width
and height in `[3, 6]`. -/
theorem generated_room_sizes (currentSeed : Int) (mem : World) (seed width height : Int)
    (hw : 5 ≤ width) (hh : 5 ≤ height) :
    ∃ world s, generateWorldFromSeed currentSeed mem seed width height = some (some world, s) ∧
      1 ≤ world.roomCount ∧ world.roomCount ≤ 25 ∧
      ∀ i, InRange i → (world.rooms i).exists_ = true →
        (3 ≤ (world.rooms i).width ∧ (world.rooms i).width ≤ 6) ∧
        (3 ≤ (world.rooms i).height ∧ (world.rooms i).height ≤ 6) := by
  obtain ⟨world, s, hgen, hpost, habs, hshape⟩ :=
    generateWorldFromSeed_shape currentSeed mem seed width height hw hh
  refine ⟨world, s, hgen, hpost.count_pos, hpost.count_le, ?_⟩
  intro i hi hex
  have hlt : i < world.roomCount := by
    by_contra hge
    have := habs i hi (by omega)
    rw [this] at hex
    exact absurd hex (by decide)
  obtain ⟨sh, _⟩ := hshape i hi.1 hlt
  exact ⟨⟨sh.width_ge, sh.width_le⟩, sh.height_ge, sh.height_le⟩

theorem generated_room_sizes_witness :
    (5 : Int) ≤ 40 ∧ (5 : Int) ≤ 30 ∧
    ∃ world s, generateWorldFromSeed 0 staleMemory 42 40 30 = some (some world, s) ∧
      1 ≤ world.roomCount ∧ world.roomCount ≤ 25 ∧
      ∀ i, InRange i → (world.rooms i).exists_ = true →
        (3 ≤ (world.rooms i).width ∧ (world.rooms i).width ≤ 6) ∧
        (3 ≤ (world.rooms i).height ∧ (world.rooms i).height ≤ 6) :=
  ⟨by decide, by decide,
    generated_room_sizes 0 staleMemory 42 40 30 (by decide) (by decide)⟩

/-- C27: whenever `getWorldJSON` returns 0, the buffer holds exactly the object
`worldEncoding world`: the members `seed`, `width`, `height`, `roomCount`,
`corridorCount`, `rooms`, `corridors`, `map` in that order, where `rooms` lists the
existing rooms among the slots `0 .. roomCount-1` in index order as
`{id, x, y, width, height}`, `corridors` lists the corridors `0 .. corridorCount-1` as
`{id, start:{x, y}, end:{x, y}, isTurning}` with `isTurning` printed as `true` or
`false`, and `map` is the array of the `height` rows, row `y` being the array of the
`width` decimal tile codes `tiles[y][0 .. width-1]`. -/
theorem getWorldJSON_exact (world : World) (buffer : List Char) (bufferSize : Int)
    (roomsBuffer corridorsBuffer mapBuffer : List Char)
    (h : (getWorldJSON world buffer bufferSize roomsBuffer corridorsBuffer mapBuffer).2 = 0) :
    (getWorldJSON world buffer bufferSize roomsBuffer corridorsBuffer mapBuffer).1
      = worldEncoding world := by
  by_cases hsize : 1 ≤ bufferSize
  · exact (getWorldJSON_spec world buffer bufferSize roomsBuffer corridorsBuffer mapBuffer
      hsize).2.1 h
  · rw [getWorldJSON_small world buffer bufferSize roomsBuffer corridorsBuffer mapBuffer
      (by omega)] at h
    exact absurd h (by decide)

theorem getWorldJSON_exact_witness :
    (getWorldJSON smallWorld ['a', 'b'] 1024 ['c'] [] ['d']).2 = 0 ∧
    (getWorldJSON smallWorld ['a', 'b'] 1024 ['c'] [] ['d']).1 = worldEncoding smallWorld :=
  ⟨by decide, getWorldJSON_exact smallWorld ['a', 'b'] 1024 ['c'] [] ['d'] (by decide)⟩

/-- C28: truncation is always reported.  For every world, every prior contents of the
buffer and every `bufferSize >= 1`, each of `getRoomsJSON`, `getCorridorsJSON` and
`getWorldMapJSON` returns 0 exactly when its complete encoding is strictly shorter than
`bufferSize`, and then the buffer holds the complete encoding; otherwise it returns -1
(and the buffer holds the first `bufferSize - 1` characters of the encoding).  So none
of them returns 0 after writing a truncated encoding. -/
theorem encoders_report_truncation (world : World) (buffer : List Char) (bufferSize : Int)
    (hsize : 1 ≤ bufferSize) :
    ReportsTruncation (getRoomsJSON world buffer bufferSize) (roomsEncoding world) bufferSize ∧
    ReportsTruncation (getCorridorsJSON world buffer bufferSize) (corridorsEncoding world)
      bufferSize ∧
    ReportsTruncation (getWorldMapJSON world buffer bufferSize) (mapEncoding world)
      bufferSize :=
  ⟨reportsTruncation_of_eq _ _ _ (getRoomsJSON_spec world buffer bufferSize hsize),
    reportsTruncation_of_eq _ _ _ (getCorridorsJSON_spec world buffer bufferSize hsize),
    reportsTruncation_of_eq _ _ _ (getWorldMapJSON_spec world buffer bufferSize hsize)⟩

theorem encoders_report_truncation_witness :
    (1 : Int) ≤ 30 ∧
    ReportsTruncation (getRoomsJSON smallWorld ['a', 'b'] 30) (roomsEncoding smallWorld) 30 ∧
    ReportsTruncation (getCorridorsJSON smallWorld ['a', 'b'] 30)
      (corridorsEncoding smallWorld) 30 ∧
    ReportsTruncation (getWorldMapJSON smallWorld ['a', 'b'] 30) (mapEncoding smallWorld) 30 :=
  ⟨by decide, encoders_report_truncation smallWorld ['a', 'b'] 30 (by decide)⟩

/-- C29: in every reachable disjoint-set state `unionSets(ds, x, y)` returns.  For `x`,
`y` in `[0, MAX_ROOMS)` with roots `rx = findSet(x)`, `ry = findSet(y)` that differ, it
takes the forest `dsf` left by its two `findSet` calls and stores `parent[rx] = ry` when
`rank[rx] < rank[ry]`, stores `parent[ry] = rx` when `rank[rx] > rank[ry]`, and on a tie
stores `parent[ry] = rx` and adds one to `rank[rx]`; nothing else is written except
`count`, which drops by exactly one.  If `rx = ry`, or `x` or `y` is out of range, then
`count`, all ranks and the representative of every slot are unchanged. -/
theorem unionSets_by_rank (ds : DisjointSet) (h : DSReachable ds) (x y : Int) :
    ∃ ds2, unionSets ds x y = some ds2 ∧
      (InRange x → InRange y → rootOf ds x ≠ rootOf ds y →
        ∃ ds1 dsf dsy, findSet ds x = some (ds1, rootOf ds x) ∧
          findSet ds y = some (dsy, rootOf ds y) ∧
          findSet ds1 y = some (dsf, rootOf ds y) ∧
          ds2.count = ds.count - 1 ∧
          (ds.rank (rootOf ds x) < ds.rank (rootOf ds y) →
            ds2.parent = Function.update dsf.parent (rootOf ds x) (rootOf ds y) ∧
            ds2.rank = ds.rank) ∧
          (ds.rank (rootOf ds x) > ds.rank (rootOf ds y) →
            ds2.parent = Function.update dsf.parent (rootOf ds y) (rootOf ds x) ∧
            ds2.rank = ds.rank) ∧
          (ds.rank (rootOf ds x) = ds.rank (rootOf ds y) →
            ds2.parent = Function.update dsf.parent (rootOf ds y) (rootOf ds x) ∧
            ds2.rank
              = Function.update ds.rank (rootOf ds x) (ds.rank (rootOf ds x) + 1))) ∧
      (¬ InRange x ∨ ¬ InRange y ∨ rootOf ds x = rootOf ds y →
        ds2.count = ds.count ∧ ds2.rank = ds.rank ∧
        ∀ z, InRange z → rootOf ds2 z = rootOf ds z) := by
  have hinv := h.inv
  by_cases hxy : InRange x ∧ InRange y
  · obtain ⟨hx, hy⟩ := hxy
    obtain ⟨ds1, dsf, hf1, hf2, hinvf, hr, hc, hroot, _, _, hu⟩ :=
      unionSets_detail ds hinv x y hx hy
    obtain ⟨dsy, hfy, _⟩ := findSet_spec ds hinv y hy
    refine ⟨_, hu, ?_, ?_⟩
    · intro _ _ hne
      refine ⟨ds1, dsf, dsy, hf1, hfy, hf2, ?_, ?_, ?_, ?_⟩
      · rw [if_neg hne]; split_ifs <;> rfl
      · intro hlt
        rw [if_neg hne, if_pos hlt]
        exact ⟨rfl, rfl⟩
      · intro hgt
        have hlt : ¬ ds.rank (rootOf ds x) < ds.rank (rootOf ds y) := by omega
        rw [if_neg hne, if_neg hlt, if_pos hgt]
        exact ⟨rfl, rfl⟩
      · intro htie
        have hlt : ¬ ds.rank (rootOf ds x) < ds.rank (rootOf ds y) := by omega
        have hgt : ¬ ds.rank (rootOf ds x) > ds.rank (rootOf ds y) := by omega
        rw [if_neg hne, if_neg hlt, if_neg hgt]
        exact ⟨rfl, rfl⟩
    · intro hcase
      have heq : rootOf ds x = rootOf ds y := by
        rcases hcase with h1 | h1 | h1
        · exact absurd hx h1
        · exact absurd hy h1
        · exact h1
      rw [if_pos heq]
      exact ⟨hc, hr, hroot⟩
  · have hxy2 : ¬ InRange x ∨ ¬ InRange y := by
      by_cases hx : InRange x
      · exact Or.inr (fun hy => hxy ⟨hx, hy⟩)
      · exact Or.inl hx
    obtain ⟨ds2, hu, _, hr, hc, hroot⟩ := unionSets_out ds hinv x y hxy2
    exact ⟨ds2, hu, fun hx hy _ => absurd ⟨hx, hy⟩ hxy, fun _ => ⟨hc, hr, hroot⟩⟩

theorem unionSets_by_rank_witness :
    ∃ ds2, unionSets twoTrees 1 2 = some ds2 ∧
      (InRange 1 → InRange 2 → rootOf twoTrees 1 ≠ rootOf twoTrees 2 →
        ∃ ds1 dsf dsy, findSet twoTrees 1 = some (ds1, rootOf twoTrees 1) ∧
          findSet twoTrees 2 = some (dsy, rootOf twoTrees 2) ∧
          findSet ds1 2 = some (dsf, rootOf twoTrees 2) ∧
          ds2.count = twoTrees.count - 1 ∧
          (twoTrees.rank (rootOf twoTrees 1) < twoTrees.rank (rootOf twoTrees 2) →
            ds2.parent = Function.update dsf.parent (rootOf twoTrees 1) (rootOf twoTrees 2) ∧
            ds2.rank = twoTrees.rank) ∧
          (twoTrees.rank (rootOf twoTrees 1) > twoTrees.rank (rootOf twoTrees 2) →
            ds2.parent = Function.update dsf.parent (rootOf twoTrees 2) (rootOf twoTrees 1) ∧
            ds2.rank = twoTrees.rank) ∧
          (twoTrees.rank (rootOf twoTrees 1) = twoTrees.rank (rootOf twoTrees 2) →
            ds2.parent = Function.update dsf.parent (rootOf twoTrees 2) (rootOf twoTrees 1) ∧
            ds2.rank = Function.update twoTrees.rank (rootOf twoTrees 1)
              (twoTrees.rank (rootOf twoTrees 1) + 1))) ∧
      (¬ InRange 1 ∨ ¬ InRange 2 ∨ rootOf twoTrees 1 = rootOf twoTrees 2 →
        ds2.count = twoTrees.count ∧ ds2.rank = twoTrees.rank ∧
        ∀ z, InRange z → rootOf ds2 z = rootOf twoTrees z) :=
  unionSets_by_rank twoTrees twoTrees_reachable 1 2

/-- C30: path compression preserves the sets.  In every reachable disjoint-set state
and for every `x` in `[0, MAX_ROOMS)`, `findSet(ds, x)` returns the root `r` of the tree
of `x` (the slot reached from `x` along the parent pointers whose parent is itself),
leaves `parent[x] = r` and `parent[r] = r`, and leaves the representative of every slot,
the ranks and the counter unchanged; for `x < 0` or `x >= MAX_ROOMS` it returns -1 and
changes nothing. -/
theorem findSet_compression (ds : DisjointSet) (h : DSReachable ds) (x : Int) :
    (InRange x → ∃ ds2 r, findSet ds x = some (ds2, r) ∧ r = rootOf ds x ∧ InRange r ∧
      (∃ n, ds.parent^[n] x = r) ∧ ds.parent r = r ∧
      ds2.parent r = r ∧ ds2.parent x = r ∧
      (∀ z, InRange z → rootOf ds2 z = rootOf ds z) ∧
      (∀ z, InRange z → ds2.parent (rootOf ds2 z) = rootOf ds2 z) ∧
      ds2.rank = ds.rank ∧ ds2.count = ds.count) ∧
    (¬ InRange x → findSet ds x = some (ds, -1)) := by
  have hinv := h.inv
  refine ⟨fun hx => ?_, fun hx => findSet_out ds x hx⟩
  obtain ⟨ds2, hf, hinv2, hr, hc, hroot, _⟩ := findSet_spec ds hinv x hx
  have hRx := hinv.rootOf_range x hx
  refine ⟨ds2, rootOf ds x, hf, rfl, hRx, ⟨MAX_ROOMS.toNat, rfl⟩, hinv.rootOf_fixed x hx,
    ?_, ?_, hroot, fun z hz => hinv2.rootOf_fixed z hz, hr, hc⟩
  · rw [hinv2.fixed_iff_rootOf _ hRx, hroot _ hRx]
    exact hinv.rootOf_idem x hx
  · rw [findSet_eq] at hf
    exact findSetFuel_parent _ _ _ _ _ hx hf

theorem findSet_compression_witness :
    (InRange 1 → ∃ ds2 r, findSet twoTrees 1 = some (ds2, r) ∧ r = rootOf twoTrees 1 ∧
      InRange r ∧
      (∃ n, twoTrees.parent^[n] 1 = r) ∧ twoTrees.parent r = r ∧
      ds2.parent r = r ∧ ds2.parent 1 = r ∧
      (∀ z, InRange z → rootOf ds2 z = rootOf twoTrees z) ∧
      (∀ z, InRange z → ds2.parent (rootOf ds2 z) = rootOf ds2 z) ∧
      ds2.rank = twoTrees.rank ∧ ds2.count = twoTrees.count) ∧
    (¬ InRange 1 → findSet twoTrees 1 = some (twoTrees, -1)) :=
  findSet_compression twoTrees twoTrees_reachable 1

/-- C31: for every world and every `start` and `end` inside the grid, every cell of the
L-shaped path (the cells `(x, start.y)` for `x` between `start.x` and `end.x`, then the
cells `(end.x, y)` for `y` between `start.y` and `end.y`, both ends included) lies
inside the grid and is not `TILE_WALL` after `drawCorridor(world, start, end)`: it holds
`TILE_CORRIDOR` if it held `TILE_WALL`, and its old code otherwise.  Every cell that is
not on the path is unchanged. -/
theorem drawCorridor_path_cells (world : World) (start end_ : Point)
    (hs : 0 ≤ start.x ∧ start.x < world.width ∧ 0 ≤ start.y ∧ start.y < world.height)
    (he : 0 ≤ end_.x ∧ end_.x < world.width ∧ 0 ≤ end_.y ∧ end_.y < world.height) :
    (∀ x y, lPath start end_ x y = true →
      (0 ≤ x ∧ x < world.width ∧ 0 ≤ y ∧ y < world.height) ∧
      (drawCorridor world start end_).tiles y x ≠ TILE_WALL ∧
      (drawCorridor world start end_).tiles y x =
        if world.tiles y x = TILE_WALL then TILE_CORRIDOR else world.tiles y x) ∧
    (∀ x y, lPath start end_ x y = false →
      (drawCorridor world start end_).tiles y x = world.tiles y x) ∧
    lPath start end_ start.x start.y = true ∧ lPath start end_ end_.x end_.y = true := by
  have ht : (drawCorridor world start end_).tiles
      = carve world.width world.height (lPath start end_) world.tiles := by
    rw [drawCorridor_lPath]
  refine ⟨fun x y hp => ?_, fun x y hp => ?_, ?_, ?_⟩
  · have hin := lPath_inside world.width world.height start end_ hs he x y hp
    have hval : (drawCorridor world start end_).tiles y x =
        if world.tiles y x = TILE_WALL then TILE_CORRIDOR else world.tiles y x := by
      rw [ht]
      unfold carve
      by_cases hwall : world.tiles y x = TILE_WALL
      · rw [if_pos ⟨hp, hin, hwall⟩, if_pos hwall]
      · rw [if_neg (fun h => hwall h.2.2), if_neg hwall]
    refine ⟨hin, ?_, hval⟩
    rw [hval]
    split_ifs with hwall
    · decide
    · exact hwall
  · rw [ht]
    unfold carve
    rw [if_neg]
    intro h
    rw [hp] at h
    exact absurd h.1 (by decide)
  · unfold lPath
    rw [decide_eq_true_eq]
    exact Or.inl ⟨rfl, min_le_left _ _, le_max_left _ _⟩
  · unfold lPath
    rw [decide_eq_true_eq]
    exact Or.inr ⟨rfl, min_le_right _ _, le_max_right _ _⟩

theorem drawCorridor_path_cells_witness :
    ((0 : Int) ≤ 2 ∧ (2 : Int) < threeRooms.width ∧ (0 : Int) ≤ 2 ∧
      (2 : Int) < threeRooms.height) ∧
    ((0 : Int) ≤ 8 ∧ (8 : Int) < threeRooms.width ∧ (0 : Int) ≤ 5 ∧
      (5 : Int) < threeRooms.height) ∧
    (∀ x y, lPath { x := 2, y := 2 } { x := 8, y := 5 } x y = true →
      (0 ≤ x ∧ x < threeRooms.width ∧ 0 ≤ y ∧ y < threeRooms.height) ∧
      (drawCorridor threeRooms { x := 2, y := 2 } { x := 8, y := 5 }).tiles y x ≠ TILE_WALL ∧
      (drawCorridor threeRooms { x := 2, y := 2 } { x := 8, y := 5 }).tiles y x =
        if threeRooms.tiles y x = TILE_WALL then TILE_CORRIDOR else threeRooms.tiles y x) ∧
    (∀ x y, lPath { x := 2, y := 2 } { x := 8, y := 5 } x y = false →
      (drawCorridor threeRooms { x := 2, y := 2 } { x := 8, y := 5 }).tiles y x
        = threeRooms.tiles y x) ∧
    lPath { x := 2, y := 2 } { x := 8, y := 5 } 2 2 = true ∧
    lPath { x := 2, y := 2 } { x := 8, y := 5 } 8 5 = true :=
  ⟨by decide, by decide,
    drawCorridor_path_cells threeRooms { x := 2, y := 2 } { x := 8, y := 5 } (by decide)
      (by decide)⟩

/-- C32: on every world with between 2 and `MAX_ROOMS` rooms, all existing,
`connectRoomsWithMST` returns 0 and every corridor `k < corridorCount` has `id = k`, its
start and its end are the centres `(x + width/2, y + height/2)` of two distinct rooms
`i < j`, and `isTurning` is true exactly when `start.x != end.x` and
`start.y != end.y`. -/
theorem corridor_records (world : World) (h2 : 2 ≤ world.roomCount)
    (h50 : world.roomCount ≤ MAX_ROOMS)
    (hex : ∀ i, 0 ≤ i → i < world.roomCount → (world.rooms i).exists_ = true) :
    ∃ w2, connectRoomsWithMST world = some (w2, 0) ∧
      ∀ k, 0 ≤ k → k < w2.corridorCount →
        (w2.corridors k).id = k ∧
        (∃ i j, 0 ≤ i ∧ i < j ∧ j < w2.roomCount ∧
          (w2.corridors k).start = roomCentre (w2.rooms i) ∧
          (w2.corridors k).end_ = roomCentre (w2.rooms j)) ∧
        ((w2.corridors k).isTurning = true ↔
          (w2.corridors k).start.x ≠ (w2.corridors k).end_.x ∧
          (w2.corridors k).start.y ≠ (w2.corridors k).end_.y) := by
  obtain ⟨w2, F, hconn, hrooms, hcount, _, _, _, _, _, hvalid, _, _, hof, _⟩ :=
    connectRoomsWithMST_corr world h2 h50 hex
  refine ⟨w2, hconn, fun k hk hk2 => ?_⟩
  obtain ⟨e, he, hrec⟩ := hof k hk hk2
  obtain ⟨v0, v1, v2⟩ := hvalid e he
  rw [hrec, hrooms, hcount]
  exact ⟨rfl, ⟨e.room1, e.room2, v0, v1, v2, rfl, rfl⟩, edgeCorridor_turning _ _ _⟩

theorem corridor_records_witness :
    2 ≤ threeRooms.roomCount ∧ threeRooms.roomCount ≤ MAX_ROOMS ∧
    ∃ w2, connectRoomsWithMST threeRooms = some (w2, 0) ∧
      ∀ k, 0 ≤ k → k < w2.corridorCount →
        (w2.corridors k).id = k ∧
        (∃ i j, 0 ≤ i ∧ i < j ∧ j < w2.roomCount ∧
          (w2.corridors k).start = roomCentre (w2.rooms i) ∧
          (w2.corridors k).end_ = roomCentre (w2.rooms j)) ∧
        ((w2.corridors k).isTurning = true ↔
          (w2.corridors k).start.x ≠ (w2.corridors k).end_.x ∧
          (w2.corridors k).start.y ≠ (w2.corridors k).end_.y) :=
  ⟨by decide, by decide, corridor_records threeRooms (by decide) (by decide) threeRooms_exist⟩

/-- C34: room ids are dense.  For every world `createWorld` returns, after
`generateRooms` with any size range, any `maxRooms <= MAX_ROOMS` and any state of the
generator, followed by the fallback `ensureAtLeastOneRoom`, `roomCount` is between 0 and
`MAX_ROOMS`, `rooms[i].exists` holds exactly for the slots `0 <= i < roomCount`, and
`rooms[i].id = i` for each of them. -/
theorem room_ids_dense (currentSeed : Int) (mem : World) (seed width height : Int)
    (hw : 5 ≤ width) (hh : 5 ≤ height) (s minSize maxSize maxRooms : Int)
    (hmax : maxRooms ≤ MAX_ROOMS) :
    ∃ world0 world, createWorld currentSeed mem seed width height = (some world0, seed) ∧
      world = ensureAtLeastOneRoom (generateRooms s world0 minSize maxSize maxRooms).1 ∧
      0 ≤ world.roomCount ∧ world.roomCount ≤ MAX_ROOMS ∧
      ∀ i, InRange i →
        ((world.rooms i).exists_ = true ↔ i < world.roomCount) ∧
        (i < world.roomCount → (world.rooms i).id = i) := by
  obtain ⟨world0, hc, hpost⟩ := createWorld_spec currentSeed mem seed width height hw hh
  have h5w : 5 ≤ world0.width := by
    rw [hpost.width_eq]; exact le_min hw (by decide)
  have h5h : 5 ≤ world0.height := by
    rw [hpost.height_eq]; exact le_min hh (by decide)
  exact ⟨world0, _, hc, rfl,
    ensureAtLeastOneRoom_dense s world0 minSize maxSize maxRooms hmax hpost.roomCount_eq h5w h5h
      hpost.no_room⟩

theorem room_ids_dense_witness :
    (5 : Int) ≤ 40 ∧ (5 : Int) ≤ 30 ∧ (25 : Int) ≤ MAX_ROOMS ∧
    ∃ world0 world, createWorld 0 staleMemory 42 40 30 = (some world0, 42) ∧
      world = ensureAtLeastOneRoom (generateRooms 42 world0 3 6 25).1 ∧
      0 ≤ world.roomCount ∧ world.roomCount ≤ MAX_ROOMS ∧
      ∀ i, InRange i →
        ((world.rooms i).exists_ = true ↔ i < world.roomCount) ∧
        (i < world.roomCount → (world.rooms i).id = i) :=
  ⟨by decide, by decide, by decide,
    room_ids_dense 0 staleMemory 42 40 30 (by decide) (by decide) 42 3 6 25 (by decide)⟩

/-- C35: the generated dungeon is walkable at tile level.  In every world returned by
`generateWorldFromSeed` the centre `(x + width/2, y + height/2)` of every existing room
is a cell of the grid that holds `TILE_ROOM`, and for every two existing rooms there is
a path of 4-adjacent cells of the grid, none holding `TILE_WALL`, from the centre of one
to the centre of the other. -/
theorem generated_world_walkable (currentSeed : Int) (mem : World) (seed width height : Int)
    (hw : 5 ≤ width) (hh : 5 ≤ height) :
    ∃ world s, generateWorldFromSeed currentSeed mem seed width height = some (some world, s) ∧
      (∀ i, InRange i → (world.rooms i).exists_ = true →
        (0 ≤ (roomCentre (world.rooms i)).x ∧ (roomCentre (world.rooms i)).x < world.width ∧
          0 ≤ (roomCentre (world.rooms i)).y ∧
          (roomCentre (world.rooms i)).y < world.height) ∧
        world.tiles (roomCentre (world.rooms i)).y (roomCentre (world.rooms i)).x
          = TILE_ROOM) ∧
      ∀ i j, InRange i → (world.rooms i).exists_ = true → InRange j →
        (world.rooms j).exists_ = true →
        TilePath world ((roomCentre (world.rooms i)).x, (roomCentre (world.rooms i)).y)
          ((roomCentre (world.rooms j)).x, (roomCentre (world.rooms j)).y) := by
  obtain ⟨world, s, hgen, hpost, habs, hshape, htiles, _, hpaths⟩ :=
    generateWorldFromSeed_layout currentSeed mem seed width height hw hh
  have hlt : ∀ i, InRange i → (world.rooms i).exists_ = true → i < world.roomCount := by
    intro i hi hex
    by_contra hge
    rw [habs i hi (by omega)] at hex
    exact absurd hex (by decide)
  have h5w : 5 ≤ world.width := by rw [hpost.width_eq]; exact le_min hw (by decide)
  have h5h : 5 ≤ world.height := by rw [hpost.height_eq]; exact le_min hh (by decide)
  refine ⟨world, s, hgen, ?_, ?_⟩
  · intro i hi hex
    obtain ⟨hin, hroom⟩ := (hshape i hi.1 (hlt i hi hex)).1.centre h5w h5h
    refine ⟨hin, ?_⟩
    rcases htiles _ _ hin.1 hin.2.1 hin.2.2.1 hin.2.2.2 with ⟨ht, _⟩ | ⟨_, hnot⟩
    · exact ht
    · exact absurd ⟨i, hi.1, hlt i hi hex, hroom⟩ hnot
  · intro i j hi hexi hj hexj
    exact hpaths i j hi.1 (hlt i hi hexi) hj.1 (hlt j hj hexj)

theorem generated_world_walkable_witness :
    (5 : Int) ≤ 40 ∧ (5 : Int) ≤ 30 ∧
    ∃ world s, generateWorldFromSeed 0 staleMemory 42 40 30 = some (some world, s) ∧
      (∀ i, InRange i → (world.rooms i).exists_ = true →
        (0 ≤ (roomCentre (world.rooms i)).x ∧ (roomCentre (world.rooms i)).x < world.width ∧
          0 ≤ (roomCentre (world.rooms i)).y ∧
          (roomCentre (world.rooms i)).y < world.height) ∧
        world.tiles (roomCentre (world.rooms i)).y (roomCentre (world.rooms i)).x
          = TILE_ROOM) ∧
      ∀ i j, InRange i → (world.rooms i).exists_ = true → InRange j →
        (world.rooms j).exists_ = true →
        TilePath world ((roomCentre (world.rooms i)).x, (roomCentre (world.rooms i)).y)
          ((roomCentre (world.rooms j)).x, (roomCentre (world.rooms j)).y) :=
  ⟨by decide, by decide,
    generated_world_walkable 0 staleMemory 42 40 30 (by decide) (by decide)⟩

/-- C36: in every reachable disjoint-set state each slot that is not a root has a rank
strictly below the rank of its parent, and parents stay among the `MAX_ROOMS` slots; so
the parent chains are acyclic (following the pointers from `x` one or more times leads
back to `x` only when `x` is a root), a root is reached from every `x` in
`[0, MAX_ROOMS)` after at most `MAX_ROOMS - 1` pointers, and the recursion of `findSet`
returns within `MAX_ROOMS` nested calls. -/
theorem findSet_terminates (ds : DisjointSet) (h : DSReachable ds) :
    (∀ x, InRange x → ds.parent x ≠ x →
      InRange (ds.parent x) ∧ ds.rank x < ds.rank (ds.parent x)) ∧
    (∀ x, InRange x → ∀ n, 0 < n → ds.parent^[n] x = x → ds.parent x = x) ∧
    (∀ x, InRange x →
      (∃ n, n + 1 ≤ MAX_ROOMS.toNat ∧ ds.parent (ds.parent^[n] x) = ds.parent^[n] x) ∧
      ∃ ds2 r, findSetFuel MAX_ROOMS.toNat ds x = some (ds2, r) ∧ ds.parent r = r) := by
  have hinv := h.inv
  refine ⟨fun x hx hne => ⟨hinv.parent_range x hx, hinv.rank_lt x hx hne⟩,
    fun x hx n hn hback => hinv.no_cycle x hx n hn hback, fun x hx => ⟨?_, ?_⟩⟩
  · exact ⟨49, by decide, hinv.root_at x hx⟩
  · obtain ⟨ds2, hf⟩ := findSetFuel_fifty ds hinv x hx
    exact ⟨ds2, rootOf ds x, hf, hinv.rootOf_fixed x hx⟩

theorem findSet_terminates_witness :
    (∀ x, InRange x → twoTrees.parent x ≠ x →
      InRange (twoTrees.parent x) ∧ twoTrees.rank x < twoTrees.rank (twoTrees.parent x)) ∧
    (∀ x, InRange x → ∀ n, 0 < n → twoTrees.parent^[n] x = x → twoTrees.parent x = x) ∧
    (∀ x, InRange x →
      (∃ n, n + 1 ≤ MAX_ROOMS.toNat ∧
        twoTrees.parent (twoTrees.parent^[n] x) = twoTrees.parent^[n] x) ∧
      ∃ ds2 r, findSetFuel MAX_ROOMS.toNat twoTrees x = some (ds2, r) ∧
        twoTrees.parent r = r) :=
  findSet_terminates twoTrees twoTrees_reachable

/-- C37: for every world whose adjacency lists hold only ids in `[0, MAX_ROOMS)` and
every `maxPathLength >= 1`, `findShortestPath` returns a status of at most
`min(maxPathLength, MAX_ROOMS)`.  When the search reaches the end room, the parent chain
from the end room visits pairwise distinct rooms in `[0, MAX_ROOMS)`: however many
steps `k` the back-tracking loop is allowed, it writes pairwise distinct rooms, at most
`MAX_ROOMS` of them, and the status is the number written with
`k = maxPathLength`. -/
theorem findShortestPath_chain_distinct (world : World) (s e : Int) (path : Int → Int)
    (maxLen : Int) (hok : AdjOK world) (hmax : 1 ≤ maxLen) :
    ∃ r path2, findShortestPath world s e path maxLen = some (r, path2) ∧
      r ≤ min maxLen MAX_ROOMS ∧
      (r = -1 ∨ (s = e ∧ r = 1) ∨
        ∃ parent,
          bfsLoop world e (MAX_ROOMS + 1).toNat
            { queue := [s], visited := Function.update (fun _ => false) s true,
              parent := fun _ => -1 } = some (some parent) ∧
          r = ((backtrack parent maxLen.toNat e).length : Int) ∧
          ∀ k, (backtrack parent k e).Nodup ∧
            ((backtrack parent k e).length : Int) ≤ MAX_ROOMS ∧
            ∀ x ∈ backtrack parent k e, InRange x) := by
  have hmin : (-1 : Int) ≤ min maxLen MAX_ROOMS := le_min (by omega) (by decide)
  by_cases hvalid : InRange s ∧ InRange e ∧ (world.rooms s).exists_ = true ∧
      (world.rooms e).exists_ = true
  · obtain ⟨hs, he, hexs, hexe⟩ := hvalid
    by_cases hse : s = e
    · subst hse
      refine ⟨1, _, findShortestPath_same world s path maxLen (by omega) hs hexs, ?_,
        Or.inr (Or.inl ⟨rfl, rfl⟩)⟩
      exact le_min hmax (by decide)
    · rw [findShortestPath_search world s e path maxLen (by omega) hs he hexs hexe hse]
      rcases bfs_from_start world s e hok hs hse with ⟨hb, _⟩ | ⟨par, hb, hfound⟩
      · rw [hb]
        exact ⟨-1, path, rfl, hmin, Or.inl rfl⟩
      · rw [hb]
        obtain ⟨_, h50, hk, _⟩ := hfound.chain_nodup maxLen.toNat
        refine ⟨_, _, rfl, ?_, Or.inr (Or.inr ⟨par, rfl, ?_, ?_⟩)⟩
        · rw [List.length_reverse]
          refine le_min ?_ ?_
          · have : ((backtrack par maxLen.toNat e).length : Int) ≤ (maxLen.toNat : Int) :=
              Int.ofNat_le.mpr hk
            omega
          · have : ((backtrack par maxLen.toNat e).length : Int) ≤ ((50 : Nat) : Int) :=
              Int.ofNat_le.mpr h50
            exact this
        · rw [List.length_reverse]
        · intro k
          obtain ⟨a1, a2, _, a4⟩ := hfound.chain_nodup k
          exact ⟨a1, Int.ofNat_le.mpr a2, a4⟩
  · have hbad : ¬ InRange s ∨ ¬ InRange e ∨ (world.rooms s).exists_ = false ∨
        (world.rooms e).exists_ = false := by
      by_cases h1 : InRange s
      · by_cases h2 : InRange e
        · by_cases h3 : (world.rooms s).exists_ = true
          · right; right; right
            cases h4 : (world.rooms e).exists_
            · rfl
            · exact absurd ⟨h1, h2, h3, h4⟩ hvalid
          · right; right; left
            cases h4 : (world.rooms s).exists_
            · rfl
            · exact absurd h4 h3
        · exact Or.inr (Or.inl h2)
      · exact Or.inl h1
    exact ⟨-1, path, findShortestPath_invalid world s e path maxLen hbad, hmin, Or.inl rfl⟩

theorem findShortestPath_chain_distinct_witness :
    AdjOK chainWorld ∧ (1 : Int) ≤ 100 ∧
    ∃ r path2, findShortestPath chainWorld 0 2 (fun _ => 0) 100 = some (r, path2) ∧
      r ≤ min 100 MAX_ROOMS ∧
      (r = -1 ∨ ((0 : Int) = 2 ∧ r = 1) ∨
        ∃ parent,
          bfsLoop chainWorld 2 (MAX_ROOMS + 1).toNat
            { queue := [0], visited := Function.update (fun _ => false) 0 true,
              parent := fun _ => -1 } = some (some parent) ∧
          r = ((backtrack parent (100 : Int).toNat 2).length : Int) ∧
          ∀ k, (backtrack parent k 2).Nodup ∧
            ((backtrack parent k 2).length : Int) ≤ MAX_ROOMS ∧
            ∀ x ∈ backtrack parent k 2, InRange x) :=
  ⟨chainWorld_adjOK, by decide,
    findShortestPath_chain_distinct chainWorld 0 2 (fun _ => 0) 100 chainWorld_adjOK
      (by decide)⟩

/-- C38: for every seed and every `width`, `height` of at least 5, the first placement
attempt of `generateRooms(world, 3, 6, 25)` on the freshly created world finds no
overlap and stores its candidate as room 0; so `roomCount >= 1` when `generateRooms`
returns, `ensureAtLeastOneRoom` changes nothing, and room 0 of the generated world is
that first candidate. -/
theorem first_attempt_accepted (currentSeed : Int) (mem : World) (seed width height : Int)
    (hw : 5 ≤ width) (hh : 5 ≤ height) :
    ∃ world0, createWorld currentSeed mem seed width height = (some world0, seed) ∧
      candidateOverlaps world0 (candidateRoom 3 6 (world0, seed)).1 = false ∧
      generateRoomsAttempt 3 6 (world0, seed) =
        (placeRoom world0 (candidateRoom 3 6 (world0, seed)).1,
          (candidateRoom 3 6 (world0, seed)).2) ∧
      (generateRoomsAttempt 3 6 (world0, seed)).1.roomCount = 1 ∧
      1 ≤ (generateRooms seed world0 3 6 25).1.roomCount ∧
      (generateRooms seed world0 3 6 25).1.rooms 0 = (candidateRoom 3 6 (world0, seed)).1 ∧
      ensureAtLeastOneRoom (generateRooms seed world0 3 6 25).1
        = (generateRooms seed world0 3 6 25).1 ∧
      ∃ world s, generateWorldFromSeed currentSeed mem seed width height
          = some (some world, s) ∧
        world.rooms 0 = (candidateRoom 3 6 (world0, seed)).1 := by
  obtain ⟨world, s, world0, hc, hpost0, hgen, hpost, _, hrooms, _⟩ :=
    generateWorldFromSeed_rooms currentSeed mem seed width height hw hh
  have h0 := hpost0.roomCount_eq
  have hno : candidateOverlaps world0 (candidateRoom 3 6 (world0, seed)).1 = false := by
    rw [candidateOverlaps_false]
    intro i hi hi2
    omega
  have hatt : generateRoomsAttempt 3 6 (world0, seed) =
      (placeRoom world0 (candidateRoom 3 6 (world0, seed)).1,
        (candidateRoom 3 6 (world0, seed)).2) := by
    rw [generateRoomsAttempt_eq]
    show (if candidateOverlaps world0 (candidateRoom 3 6 (world0, seed)).1 = true then _
      else _) = _
    rw [hno]
    rfl
  have hP := generateRooms_spec seed world0 h0
  have hfr := generateRooms_first_room seed world0 h0
  refine ⟨world0, hc, hno, hatt, ?_, hP.count_pos, hfr,
    ensureAtLeastOneRoom_of_pos _ hP.count_pos, world, s, hgen, ?_⟩
  · rw [hatt]
    show (placeRoom world0 (candidateRoom 3 6 (world0, seed)).1).roomCount = 1
    rw [placeRoom_roomCount, h0]
    rfl
  · rw [hrooms]
    exact hfr

theorem first_attempt_accepted_witness :
    (5 : Int) ≤ 40 ∧ (5 : Int) ≤ 30 ∧
    ∃ world0, createWorld 0 staleMemory 42 40 30 = (some world0, 42) ∧
      candidateOverlaps world0 (candidateRoom 3 6 (world0, 42)).1 = false ∧
      generateRoomsAttempt 3 6 (world0, 42) =
        (placeRoom world0 (candidateRoom 3 6 (world0, 42)).1,
          (candidateRoom 3 6 (world0, 42)).2) ∧
      (generateRoomsAttempt 3 6 (world0, 42)).1.roomCount = 1 ∧
      1 ≤ (generateRooms 42 world0 3 6 25).1.roomCount ∧
      (generateRooms 42 world0 3 6 25).1.rooms 0 = (candidateRoom 3 6 (world0, 42)).1 ∧
      ensureAtLeastOneRoom (generateRooms 42 world0 3 6 25).1
        = (generateRooms 42 world0 3 6 25).1 ∧
      ∃ world s, generateWorldFromSeed 0 staleMemory 42 40 30 = some (some world, s) ∧
        world.rooms 0 = (candidateRoom 3 6 (world0, 42)).1 :=
  ⟨by decide, by decide, first_attempt_accepted 0 staleMemory 42 40 30 (by decide) (by decide)⟩

/-- C39: in every world returned by `generateWorldFromSeed` every cell of the grid holds
`TILE_WALL`, `TILE_ROOM` or `TILE_CORRIDOR`, never `TILE_FLOOR`, and a cell of the grid
holds `TILE_ROOM` exactly when it lies inside the rectangle
`[x, x + width) × [y, y + height)` of some existing room. -/
theorem generated_tile_codes (currentSeed : Int) (mem : World) (seed width height : Int)
    (hw : 5 ≤ width) (hh : 5 ≤ height) :
    ∃ world s, generateWorldFromSeed currentSeed mem seed width height = some (some world, s) ∧
      ∀ x y, 0 ≤ x → x < world.width → 0 ≤ y → y < world.height →
        (world.tiles y x = TILE_WALL ∨ world.tiles y x = TILE_ROOM ∨
          world.tiles y x = TILE_CORRIDOR) ∧
        world.tiles y x ≠ TILE_FLOOR ∧
        (world.tiles y x = TILE_ROOM ↔
          ∃ i, InRange i ∧ (world.rooms i).exists_ = true ∧ InRoom (world.rooms i) x y) := by
  obtain ⟨world, s, hgen, hpost, habs, _, htiles, _, _⟩ :=
    generateWorldFromSeed_layout currentSeed mem seed width height hw hh
  have hcell : ∀ x y, RoomCell world x y ↔
      ∃ i, InRange i ∧ (world.rooms i).exists_ = true ∧ InRoom (world.rooms i) x y := by
    intro x y
    constructor
    · rintro ⟨i, hi, hi2, hin⟩
      have hle := hpost.count_le
      exact ⟨i, inRange_of_lt (by omega) hi hi2, hpost.rooms_inv.all_exist i hi hi2, hin⟩
    · rintro ⟨i, hi, hex, hin⟩
      refine ⟨i, hi.1, ?_, hin⟩
      by_contra hge
      rw [habs i hi (by omega)] at hex
      exact absurd hex (by decide)
  refine ⟨world, s, hgen, fun x y hx hx2 hy hy2 => ?_⟩
  rw [← hcell]
  rcases htiles x y hx hx2 hy hy2 with ⟨ht, hr⟩ | ⟨ht, hr⟩
  · refine ⟨Or.inr (Or.inl ht), ?_, ⟨fun _ => hr, fun _ => ht⟩⟩
    rw [ht]; decide
  · refine ⟨?_, ?_, ⟨fun h => ?_, fun h => absurd h hr⟩⟩
    · rcases ht with h | h
      · exact Or.inl h
      · exact Or.inr (Or.inr h)
    · rcases ht with h | h <;> rw [h] <;> decide
    · rcases ht with h2 | h2 <;> rw [h2] at h <;> exact absurd h (by decide)

theorem generated_tile_codes_witness :
    (5 : Int) ≤ 40 ∧ (5 : Int) ≤ 30 ∧
    ∃ world s, generateWorldFromSeed 0 staleMemory 42 40 30 = some (some world, s) ∧
      ∀ x y, 0 ≤ x → x < world.width → 0 ≤ y → y < world.height →
        (world.tiles y x = TILE_WALL ∨ world.tiles y x = TILE_ROOM ∨
          world.tiles y x = TILE_CORRIDOR) ∧
        world.tiles y x ≠ TILE_FLOOR ∧
        (world.tiles y x = TILE_ROOM ↔
          ∃ i, InRange i ∧ (world.rooms i).exists_ = true ∧ InRoom (world.rooms i) x y) :=
  ⟨by decide, by decide, generated_tile_codes 0 staleMemory 42 40 30 (by decide) (by decide)⟩

/-- C40: for every world returned by `generateWorldFromSeed` (any 64-bit seed, legal
dimensions, which the generator clamps to 100 x 100), `getWorldJSON` with a buffer of
131072 characters returns 0 and the buffer holds the whole snapshot: the rooms,
corridors and map encodings are shorter than the staging arrays of 4096, 16384 and 65536
characters and the whole snapshot is shorter than 131072 characters, whatever the
buffers held before. -/
theorem getWorldJSON_fits (currentSeed : Int) (mem : World) (seed width height : Int)
    (buffer roomsBuffer corridorsBuffer mapBuffer : List Char)
    (hw : 5 ≤ width) (hh : 5 ≤ height) (hseed : -(2 ^ 63) ≤ seed ∧ seed < 2 ^ 63) :
    ∃ world s, generateWorldFromSeed currentSeed mem seed width height = some (some world, s) ∧
      getWorldJSON world buffer 131072 roomsBuffer corridorsBuffer mapBuffer =
        (worldEncoding world, 0) ∧
      ((roomsEncoding world).length : Int) < 4096 ∧
      ((corridorsEncoding world).length : Int) < 16384 ∧
      ((mapEncoding world).length : Int) < 65536 ∧
      ((worldEncoding world).length : Int) < 131072 := by
  obtain ⟨world, s, hgen, hr, hc, hm, hall⟩ :=
    generateWorldFromSeed_sizes currentSeed mem seed width height hw hh hseed
  have h1 : ((roomsEncoding world).length : Int) < 4096 := by omega
  have h2 : ((corridorsEncoding world).length : Int) < 16384 := by omega
  have h3 : ((mapEncoding world).length : Int) < 65536 := by omega
  have h4 : ((worldEncoding world).length : Int) < 131072 := by omega
  obtain ⟨hiff, hbuf, _⟩ := getWorldJSON_spec world buffer 131072 roomsBuffer corridorsBuffer
    mapBuffer (by decide)
  have hz := hiff.mpr ⟨h1, h2, h3, h4⟩
  exact ⟨world, s, hgen, Prod.ext (hbuf hz) hz, h1, h2, h3, h4⟩

theorem getWorldJSON_fits_witness :
    (5 : Int) ≤ 40 ∧ (5 : Int) ≤ 30 ∧ (-(2 ^ 63) ≤ (42 : Int) ∧ (42 : Int) < 2 ^ 63) ∧
    ∃ world s, generateWorldFromSeed 0 staleMemory 42 40 30 = some (some world, s) ∧
      getWorldJSON world [] 131072 [] [] [] = (worldEncoding world, 0) ∧
      ((roomsEncoding world).length : Int) < 4096 ∧
      ((corridorsEncoding world).length : Int) < 16384 ∧
      ((mapEncoding world).length : Int) < 65536 ∧
      ((worldEncoding world).length : Int) < 131072 :=
  ⟨by decide, by decide, ⟨by decide, by decide⟩,
    getWorldJSON_fits 0 staleMemory 42 40 30 [] [] [] [] (by decide) (by decide)
      ⟨by decide, by decide⟩⟩

end Byow
